import Mathlib

/-!
# Persistent structures: array, map and list with undo/redo

A shallow embedding of `persistent_array.h`, `persistent_map.h` and
`persistent_list.h`.  Immutable, reference-counted trees become inductive
values (`null` is the null pointer); the interior-mutable list nodes live in
an explicit heap addressed by natural numbers.  Calls that can abort, throw or
run into undefined behaviour return `Except Fault _`.

The version counters are `int`s.  Where a call computes with an argument of
the caller (`undo`, `redo`) the result is taken modulo `2^32`, as the machine
computes it; the increments of a mutation are exact, and the reachable states
are those whose counters fit in an `int` (chains of fewer than `2^31`
versions).
-/

namespace PS

/-- Ways in which a call fails to return normally. -/
inductive Fault where
  /-- an `assert` fired (only in builds without `NDEBUG`) -/
  | assertion
  /-- a C++ exception was thrown -/
  | exception
  /-- undefined behaviour: a null pointer dereference or an out-of-range `operator[]` -/
  | undefined
  /-- the loop never terminates -/
  | diverge
  deriving DecidableEq, Repr

/-- The result of an `int` addition or subtraction whose exact value is `x`:
`x` itself when it fits in 32 bits, and otherwise `x` modulo `2^32` in
`[-2^31, 2^31)`, the wrapped value the machine leaves (the C++ standard leaves
signed overflow undefined; two's-complement targets wrap). -/
def wrapInt (x : Int) : Int := (x + 2147483648) % 4294967296 - 2147483648

/-! ## persistent_array.h -/

/-- `Node<T>` of `persistent_array.h`, seen through a `std::shared_ptr`:
`null` is `nullptr`. -/
inductive Node (T : Type) where
  | null : Node T
  | mk (m_index : Int) (m_value : T) (m_pLeft m_pRight : Node T) : Node T
  deriving DecidableEq, Repr

namespace Node

variable {T : Type}

/-- `pRoot == nullptr`. -/
def isNull : Node T → Bool
  | null => true
  | mk _ _ _ _ => false

/-- `PersistentArrayVersion::create(pRoot, index)`: the reference `pRoot` is
overwritten, so the updated subtree is the result.  `T{}` is `default`. -/
def create [Inhabited T] : Node T → Int → Node T
  | null, index => mk index default null null
  | mk i x l r, index =>
    if index < i then mk i x (create l index) r
    else mk i x l (create r index)

/-- `PersistentArrayVersion::setValue(pRoot, index, value)`. -/
def setValue : Node T → Int → T → Node T
  | null, _, _ => null
  | mk i x l r, index, value =>
    if index = i then mk index value l r
    else if index < i then
      let pLeft := setValue l index value
      if pLeft.isNull then null else mk i x pLeft r
    else
      let pRight := setValue r index value
      if pRight.isNull then null else mk i x l pRight

/-- `PersistentArrayVersion::getValue(pRoot, index)`; `return 0` on a null
pointer is the literal `0` converted to `T`. -/
def getValue [Zero T] : Node T → Int → T
  | null, _ => 0
  | mk i x l r, index =>
    if index = i then x
    else if index < i then getValue l index
    else getValue r index

/-- Whether the search of `getValue` for `index` ends on a node (and not on a
null pointer). -/
def reaches : Node T → Int → Bool
  | null, _ => false
  | mk i _ l r, index =>
    if index = i then true
    else if index < i then reaches l index
    else reaches r index

/-- Indices of the tree, in order (left, node, right). -/
def keys : Node T → List Int
  | null => []
  | mk i _ l r => keys l ++ i :: keys r

/-- Values of the tree, in order. -/
def values : Node T → List T
  | null => []
  | mk _ x l r => values l ++ x :: values r

/-- Binary search tree order: smaller indices to the left, larger to the right. -/
def BST : Node T → Prop
  | null => True
  | mk i _ l r => (∀ k ∈ keys l, k < i) ∧ (∀ k ∈ keys r, i < k) ∧ BST l ∧ BST r

end Node

/-- `PersistentArrayVersion<T>`. -/
structure PersistentArrayVersion (T : Type) where
  m_size : Int
  m_pRoot : Node T
  deriving DecidableEq, Repr

namespace PersistentArrayVersion

variable {T : Type}

/-- The vector `1, 2, ..., size - 1` that `std::iota` writes. -/
def iota (size : Int) : List Int :=
  (List.range (size - 1).toNat).map (fun j : Nat => (j : Int) + 1)

/-- `PersistentArrayVersion(int size)`.  `aIndexes` is the vector after
`random_shuffle`.  A size below `1` asks `std::vector` for a negative number of
elements, which throws. -/
def new [Inhabited T] (size : Int) (aIndexes : List Int) :
    Except Fault (PersistentArrayVersion T) :=
  if size < 1 then .error .exception
  else .ok ⟨size, aIndexes.foldl Node.create (Node.mk 0 default .null .null)⟩

/-- `PersistentArrayVersion::setValue(index, value)`. -/
def setValue (ver : PersistentArrayVersion T) (index : Int) (value : T) :
    PersistentArrayVersion T :=
  { ver with m_pRoot := ver.m_pRoot.setValue index value }

/-- `PersistentArrayVersion::getValue(index)`. -/
def getValue [Zero T] (ver : PersistentArrayVersion T) (index : Int) : T :=
  ver.m_pRoot.getValue index

end PersistentArrayVersion

/-- `m_versions[i]` on a `std::vector`: out of range is undefined behaviour. -/
def vecAt {α : Type} (v : List α) (i : Int) : Except Fault α :=
  if i < 0 then .error .undefined
  else match v[i.toNat]? with
    | some a => .ok a
    | none => .error .undefined

/-- The loop `while (m_lastVersion > m_curVersion) { m_versions.pop_back();
m_lastVersion--; }`: it runs `m_lastVersion - m_curVersion` times, and
`pop_back` on an empty vector is undefined behaviour. -/
def popVersions {α : Type} : Nat → List α → Except Fault (List α)
  | 0, v => .ok v
  | n + 1, v => if v.isEmpty then .error .undefined else popVersions n v.dropLast

/-- `PersistentArray<T>`. -/
structure PersistentArray (T : Type) where
  m_size : Int
  m_lastVersion : Int
  m_curVersion : Int
  m_versions : List (PersistentArrayVersion T)
  deriving DecidableEq, Repr

namespace PersistentArray

variable {T : Type}

/-- `PersistentArray(int size)`. -/
def new [Inhabited T] (size : Int) (aIndexes : List Int) :
    Except Fault (PersistentArray T) :=
  match PersistentArrayVersion.new size aIndexes with
  | .error e => .error e
  | .ok initVer => .ok ⟨size, 0, 0, [initVer]⟩

/-- `PersistentArray::setValue(index, value)`.  `ndebug` says whether the
build defines `NDEBUG`: without it the `assert` aborts, with it the call
returns having done nothing. -/
def setValue (ndebug : Bool) (a : PersistentArray T) (index : Int) (value : T) :
    Except Fault (PersistentArray T) :=
  if index < 0 ∨ index ≥ a.m_size then
    if ndebug then .ok a else .error .assertion
  else
    match vecAt a.m_versions a.m_curVersion with
    | .error e => .error e
    | .ok ver =>
      let newVer := ver.setValue index value
      match popVersions (a.m_lastVersion - a.m_curVersion).toNat a.m_versions with
      | .error e => .error e
      | .ok vs =>
        .ok { a with m_versions := vs ++ [newVer]
                     m_curVersion := a.m_curVersion + 1
                     m_lastVersion := a.m_curVersion + 1 }

/-- `PersistentArray::getValue(index)`. -/
def getValue [Zero T] (ndebug : Bool) (a : PersistentArray T) (index : Int) :
    Except Fault T :=
  if index < 0 ∨ index ≥ a.m_size then
    if ndebug then .error .exception else .error .assertion
  else
    match vecAt a.m_versions a.m_curVersion with
    | .error e => .error e
    | .ok ver => .ok (ver.getValue index)

/-- `PersistentArray::undo(numIter, clearHistory)`. -/
def undo (a : PersistentArray T) (numIter : Int) (clearHistory : Bool) :
    Except Fault (PersistentArray T) :=
  let cur := max 0 (wrapInt (a.m_curVersion - numIter))
  if clearHistory then
    match popVersions (a.m_lastVersion - cur).toNat a.m_versions with
    | .error e => .error e
    | .ok vs =>
      .ok { a with m_curVersion := cur
                   m_versions := vs
                   m_lastVersion := min a.m_lastVersion cur }
  else .ok { a with m_curVersion := cur }

/-- `PersistentArray::redo(numIter)`. -/
def redo (a : PersistentArray T) (numIter : Int) : PersistentArray T :=
  { a with m_curVersion := min a.m_lastVersion (wrapInt (a.m_curVersion + numIter)) }

/-- `PersistentArray::lastVersion()`. -/
def lastVersion (a : PersistentArray T) : Int := a.m_lastVersion + 1

/-- States of an array of size at least `1` that the public interface
produces: the constructor (for any outcome of the shuffle), then `setValue`,
as long as the counters fit in an `int`, and `undo` and `redo`, the last two
with a non-negative `int` as number of steps and, for `redo`, a sum
`m_curVersion + numIter` that fits in an `int`. -/
inductive Reachable [Inhabited T] : PersistentArray T → Prop
  | new (size : Int) (aIndexes : List Int) (a : PersistentArray T)
      (hperm : aIndexes.Perm (PersistentArrayVersion.iota size))
      (h : PersistentArray.new size aIndexes = .ok a) : Reachable a
  | setValue (ndebug : Bool) (a b : PersistentArray T) (index : Int) (value : T)
      (ha : Reachable a) (h : a.setValue ndebug index value = .ok b)
      (hfit : b.m_lastVersion < 2147483648) : Reachable b
  | undo (a b : PersistentArray T) (numIter : Int) (clearHistory : Bool)
      (ha : Reachable a) (hn : 0 ≤ numIter) (hi : numIter < 2147483648)
      (h : a.undo numIter clearHistory = .ok b) : Reachable b
  | redo (a : PersistentArray T) (numIter : Int)
      (ha : Reachable a) (hn : 0 ≤ numIter)
      (hfit : a.m_curVersion + numIter < 2147483648) : Reachable (a.redo numIter)

end PersistentArray

namespace PersistentArray

variable {T : Type}

/-- Representation invariant of an array: the cursor lies inside the stored
chain and every stored tree holds every index of the array on its search path. -/
structure WF (a : PersistentArray T) : Prop where
  cur_nonneg : 0 ≤ a.m_curVersion
  cur_le : a.m_curVersion ≤ a.m_lastVersion
  length_eq : (a.m_versions.length : Int) = a.m_lastVersion + 1
  covers : ∀ ver ∈ a.m_versions, ∀ i, 0 ≤ i → i < a.m_size → ver.m_pRoot.reaches i = true

end PersistentArray

/-! ## persistent_map.h -/

/-- `TreapNode<KeyType, ValueType>` seen through its `TreapNodePtr`: `null` is
`nullptr`. -/
inductive TreapNode (K V : Type) where
  | null : TreapNode K V
  | mk (m_key : K) (m_value : V) (m_priority : Int)
      (m_pLeft m_pRight : TreapNode K V) : TreapNode K V
  deriving DecidableEq, Repr

namespace TreapNode

variable {K V : Type}

/-- `p == nullptr`. -/
def isNull : TreapNode K V → Bool
  | null => true
  | mk _ _ _ _ _ => false

/-- Number of nodes. -/
def size : TreapNode K V → Nat
  | null => 0
  | mk _ _ _ l r => size l + size r + 1

/-- `TreapNode::find(key)`.  The method runs on a node; the `null` case is the
test `m_pRight == nullptr` (`m_pLeft == nullptr`) made before each recursive
call. -/
def find [LinearOrder K] : TreapNode K V → K → TreapNode K V
  | null, _ => null
  | mk k v p l r, key =>
    if k = key then mk k v p l r
    else if k < key then find r key
    else find l key

/-- `TreapNode::merge(pLeft, pRight)`. -/
def merge : TreapNode K V → TreapNode K V → TreapNode K V
  | null, null => null
  | null, mk k v p l r => mk k v p l r
  | mk k v p l r, null => mk k v p l r
  | mk k₁ v₁ p₁ l₁ r₁, mk k₂ v₂ p₂ l₂ r₂ =>
    if p₁ ≤ p₂ then mk k₂ v₂ p₂ (merge (mk k₁ v₁ p₁ l₁ r₁) l₂) r₂
    else mk k₁ v₁ p₁ l₁ (merge r₁ (mk k₂ v₂ p₂ l₂ r₂))
termination_by a b => a.size + b.size
decreasing_by all_goals (simp only [size]; omega)

/-- `TreapNode::split(key, pLeft, pRight)`: the pair is what the call leaves in
the two reference parameters.  The `null` case is the branch
`pRight = nullptr` (`pLeft = nullptr`) taken instead of a recursive call. -/
def split [LinearOrder K] : TreapNode K V → K → TreapNode K V × TreapNode K V
  | null, _ => (null, null)
  | mk k v p l r, key =>
    if k ≤ key then
      let lr := split r key
      (mk k v p l lr.1, lr.2)
    else
      let lr := split l key
      (lr.1, mk k v p lr.2 r)

/-- `TreapNode::insert(key, value)`; `priority` is what `rand()` returns for
the new node. -/
def insert [LinearOrder K] (t : TreapNode K V) (key : K) (value : V)
    (priority : Int) : TreapNode K V :=
  let pNode := mk key value priority null null
  let lr := split t key
  let pLeft := merge lr.1 pNode
  merge pLeft lr.2

/-- `TreapNode::erase(key)`.  The recursive call is made without a null test:
on a null child it dereferences a null pointer. -/
def erase [LinearOrder K] : TreapNode K V → K → Except Fault (TreapNode K V)
  | null, _ => .error .undefined
  | mk k v p l r, key =>
    if key = k then .ok (merge l r)
    else if key < k then
      match erase l key with
      | .ok l' => .ok (mk k v p l' r)
      | .error e => .error e
    else
      match erase r key with
      | .ok r' => .ok (mk k v p l r')
      | .error e => .error e

/-- `TreapNode::setValue(key, value)`.  Every copied ancestor is built with the
two-argument constructor and so draws a new priority: `rnd i` is the result of
the `i`-th call of `rand()` during the operation, `c` counts the calls made so
far, and the result carries the new count.  The `null` case is the test
`m_pLeft == nullptr ? m_pLeft : ...`. -/
def setValue [LinearOrder K] (rnd : Nat → Int) :
    TreapNode K V → K → V → Nat → TreapNode K V × Nat
  | null, _, _, c => (null, c)
  | mk k x p l r, key, value, c =>
    if key = k then (mk key value p l r, c)
    else if key < k then
      let res := setValue rnd l key value c
      if res.1.isNull then (null, res.2) else (mk k x (rnd res.2) res.1 r, res.2 + 1)
    else
      let res := setValue rnd r key value c
      if res.1.isNull then (null, res.2) else (mk k x (rnd res.2) l res.1, res.2 + 1)

/-- Keys in order (left, node, right). -/
def keys : TreapNode K V → List K
  | null => []
  | mk k _ _ l r => keys l ++ k :: keys r

/-- Key-value pairs in order. -/
def toList : TreapNode K V → List (K × V)
  | null => []
  | mk k v _ l r => toList l ++ (k, v) :: toList r

/-- Strict binary-search-tree order on keys. -/
def BST [LinearOrder K] : TreapNode K V → Prop
  | null => True
  | mk k _ _ l r => (∀ j ∈ keys l, j < k) ∧ (∀ j ∈ keys r, k < j) ∧ BST l ∧ BST r

/-- Max-heap order on priorities: no child has a larger priority than its parent. -/
def Heap : TreapNode K V → Prop
  | null => True
  | mk _ _ p l r =>
    (∀ k v q a b, l = mk k v q a b → q ≤ p) ∧ (∀ k v q a b, r = mk k v q a b → q ≤ p) ∧
    Heap l ∧ Heap r

/-- The value a search for `key` ends on, if any. -/
def lookup [LinearOrder K] (t : TreapNode K V) (key : K) : Option V :=
  match find t key with
  | null => none
  | mk _ v _ _ _ => some v

end TreapNode

/-- `TreapVersion<KeyType, ValueType>`. -/
structure TreapVersion (K V : Type) where
  m_pRoot : TreapNode K V
  deriving DecidableEq, Repr

namespace TreapVersion

variable {K V : Type}

/-- `TreapVersion::find(key, value)`: `some v` is the result `true` with
`value = v`, `none` is the result `false` (`value` untouched).  The statement
`if (m_pRoot == nullptr) false;` returns nothing, so on a null root the call
`m_pRoot->find(key)` dereferences a null pointer. -/
def find [LinearOrder K] (ver : TreapVersion K V) (key : K) : Except Fault (Option V) :=
  match ver.m_pRoot with
  | .null => .error .undefined
  | root =>
    match root.find key with
    | .null => .ok none
    | .mk _ v _ _ _ => .ok (some v)

/-- `TreapVersion::erase(key, isSuccess)`: the returned root and `isSuccess`. -/
def erase [LinearOrder K] (ndebug : Bool) (ver : TreapVersion K V) (key : K) :
    Except Fault (TreapNode K V × Bool) :=
  match ver.m_pRoot with
  | .null => if ndebug then .error .exception else .error .assertion
  | root =>
    if (root.find key).isNull then .ok (.null, false)
    else
      match root.erase key with
      | .ok t => .ok (t, true)
      | .error e => .error e

/-- `TreapVersion::insert(key, value)`. -/
def insert [LinearOrder K] (rnd : Nat → Int) (ver : TreapVersion K V) (key : K)
    (value : V) : TreapNode K V :=
  let res := if ver.m_pRoot.isNull then (TreapNode.null, 0)
             else ver.m_pRoot.setValue rnd key value 0
  if !res.1.isNull then res.1
  else if ver.m_pRoot.isNull then .mk key value (rnd res.2) .null .null
  else ver.m_pRoot.insert key value (rnd res.2)

/-- `TreapVersion::setValue(key, value)`. -/
def setValue [LinearOrder K] (rnd : Nat → Int) (ver : TreapVersion K V) (key : K)
    (value : V) : TreapNode K V :=
  if ver.m_pRoot.isNull then .mk key value (rnd 0) .null .null
  else
    let res := ver.m_pRoot.setValue rnd key value 0
    if res.1.isNull then ver.m_pRoot.insert key value (rnd res.2)
    else res.1

end TreapVersion

/-- `m_versions.back()`: undefined behaviour on an empty vector. -/
def vecBack {α : Type} (v : List α) : Except Fault α :=
  match v.getLast? with
  | some a => .ok a
  | none => .error .undefined

/-- `PersistentMap<KeyType, ValueType>`. -/
structure PersistentMap (K V : Type) where
  m_versions : List (TreapVersion K V)
  m_lastVersion : Int
  m_curVersion : Int
  deriving DecidableEq, Repr

namespace PersistentMap

variable {K V : Type}

/-- `PersistentMap()`. -/
def new : PersistentMap K V := ⟨[⟨.null⟩], 0, 0⟩

/-- `PersistentMap::invalidate()`. -/
def invalidate (m : PersistentMap K V) : Except Fault (PersistentMap K V) :=
  match popVersions (m.m_lastVersion - m.m_curVersion).toNat m.m_versions with
  | .error e => .error e
  | .ok vs => .ok { m with m_versions := vs
                           m_lastVersion := min m.m_lastVersion m.m_curVersion }

/-- `PersistentMap::setValue(key, value)`; `rnd i` is the `i`-th result of
`rand()` during the call. -/
def setValue [LinearOrder K] (rnd : Nat → Int) (m : PersistentMap K V) (key : K)
    (value : V) : Except Fault (PersistentMap K V) :=
  match m.invalidate with
  | .error e => .error e
  | .ok m₁ =>
    match vecBack m₁.m_versions with
    | .error e => .error e
    | .ok ver =>
      .ok { m₁ with m_versions := m₁.m_versions ++ [⟨ver.setValue rnd key value⟩]
                    m_curVersion := m₁.m_curVersion + 1
                    m_lastVersion := m₁.m_curVersion + 1 }

/-- `PersistentMap::find(key, value)`. -/
def find [LinearOrder K] (m : PersistentMap K V) (key : K) : Except Fault (Option V) :=
  match vecAt m.m_versions m.m_curVersion with
  | .error e => .error e
  | .ok ver => ver.find key

/-- `PersistentMap::insert(key, value)`. -/
def insert [LinearOrder K] (rnd : Nat → Int) (m : PersistentMap K V) (key : K)
    (value : V) : Except Fault (PersistentMap K V) :=
  match m.invalidate with
  | .error e => .error e
  | .ok m₁ =>
    match vecBack m₁.m_versions with
    | .error e => .error e
    | .ok ver =>
      .ok { m₁ with m_versions := m₁.m_versions ++ [⟨ver.insert rnd key value⟩]
                    m_curVersion := m₁.m_curVersion + 1
                    m_lastVersion := m₁.m_curVersion + 1 }

/-- `PersistentMap::erase(key)`: the map after the call, and what the call
returned or how it failed.  An exception leaves the map as `invalidate()` made
it. -/
def erase [LinearOrder K] (ndebug : Bool) (m : PersistentMap K V) (key : K) :
    PersistentMap K V × Except Fault Bool :=
  match m.invalidate with
  | .error e => (m, .error e)
  | .ok m₁ =>
    match vecBack m₁.m_versions with
    | .error e => (m₁, .error e)
    | .ok ver =>
      match ver.erase ndebug key with
      | .error e => (m₁, .error e)
      | .ok (_, false) => (m₁, .ok false)
      | .ok (pNewRoot, true) =>
        ({ m₁ with m_versions := m₁.m_versions ++ [⟨pNewRoot⟩]
                   m_curVersion := m₁.m_curVersion + 1
                   m_lastVersion := m₁.m_curVersion + 1 }, .ok true)

/-- `PersistentMap::undo(numIter, clearHistory)`. -/
def undo (m : PersistentMap K V) (numIter : Int) (clearHistory : Bool) :
    Except Fault (PersistentMap K V) :=
  let cur := max 0 (wrapInt (m.m_curVersion - numIter))
  if clearHistory then
    match popVersions (m.m_lastVersion - cur).toNat m.m_versions with
    | .error e => .error e
    | .ok vs =>
      .ok { m with m_curVersion := cur
                   m_versions := vs
                   m_lastVersion := min m.m_lastVersion cur }
  else .ok { m with m_curVersion := cur }

/-- `PersistentMap::redo(numIter)`. -/
def redo (m : PersistentMap K V) (numIter : Int) : PersistentMap K V :=
  { m with m_curVersion := min m.m_lastVersion (wrapInt (m.m_curVersion + numIter)) }

/-- `PersistentMap::lastVersion()`. -/
def lastVersion (m : PersistentMap K V) : Int := m.m_lastVersion + 1

/-- States of a map that the public interface produces: the constructor, then
`insert`, `setValue` (for any outcome of `rand()`), `erase` (also when it
throws, since the caller can catch the exception and go on), as long as the
counters fit in an `int`, and `undo` and `redo`, the last two with a
non-negative `int` as number of steps and, for `redo`, a sum
`m_curVersion + numIter` that fits in an `int`. -/
inductive Reachable [LinearOrder K] : PersistentMap K V → Prop
  | new : Reachable PersistentMap.new
  | insert (rnd : Nat → Int) (a b : PersistentMap K V) (key : K) (value : V)
      (ha : Reachable a) (h : a.insert rnd key value = .ok b)
      (hfit : b.m_lastVersion < 2147483648) : Reachable b
  | setValue (rnd : Nat → Int) (a b : PersistentMap K V) (key : K) (value : V)
      (ha : Reachable a) (h : a.setValue rnd key value = .ok b)
      (hfit : b.m_lastVersion < 2147483648) : Reachable b
  | erase (a : PersistentMap K V) (key : K) (r : Bool)
      (ha : Reachable a) (h : (a.erase true key).2 = .ok r)
      (hfit : (a.erase true key).1.m_lastVersion < 2147483648) :
      Reachable (a.erase true key).1
  | eraseThrow (a : PersistentMap K V) (key : K)
      (ha : Reachable a) (h : (a.erase true key).2 = .error .exception) :
      Reachable (a.erase true key).1
  | undo (a b : PersistentMap K V) (numIter : Int) (clearHistory : Bool)
      (ha : Reachable a) (hn : 0 ≤ numIter) (hi : numIter < 2147483648)
      (h : a.undo numIter clearHistory = .ok b) : Reachable b
  | redo (a : PersistentMap K V) (numIter : Int)
      (ha : Reachable a) (hn : 0 ≤ numIter)
      (hfit : a.m_curVersion + numIter < 2147483648) : Reachable (a.redo numIter)

/-- The chain a successful mutation leaves when the stored chain is intact:
the versions up to the cursor followed by the new root, the cursor on it. -/
def push (m : PersistentMap K V) (t : TreapNode K V) : PersistentMap K V :=
  ⟨m.m_versions.take (m.m_curVersion.toNat + 1) ++ [⟨t⟩], m.m_curVersion + 1,
    m.m_curVersion + 1⟩

/-- The chain `invalidate()` leaves when the stored chain is intact. -/
def truncated (m : PersistentMap K V) : PersistentMap K V :=
  ⟨m.m_versions.take (m.m_curVersion.toNat + 1), m.m_curVersion, m.m_curVersion⟩

/-- Representation invariant of a map: the cursor lies inside the stored chain
and every stored treap is in search-tree order. -/
structure WF [LinearOrder K] (m : PersistentMap K V) : Prop where
  cur_nonneg : 0 ≤ m.m_curVersion
  cur_le : m.m_curVersion ≤ m.m_lastVersion
  length_eq : (m.m_versions.length : Int) = m.m_lastVersion + 1
  bst : ∀ ver ∈ m.m_versions, ver.m_pRoot.BST

end PersistentMap

/-! ## The treap as objects in memory

The functions of `TreapNode` above take and return trees as values.  Here the
nodes are objects in a store, addressed by their position in it, and a
`TreapNodePtr` is an address or null: this is the level at which a call can
change an object that existed before it. -/

/-- A `TreapNode` object: the members in the order of their declaration, the
two `TreapNodePtr` as addresses. -/
structure TreapCell (K V : Type) where
  m_key : K
  m_priority : Int
  m_pLeft : Option Nat
  m_pRight : Option Nat
  m_value : V
  deriving DecidableEq, Repr

namespace TreapNode

variable {K V : Type}

/-- The key, value and priority of every node, in order (left, node, right). -/
def entries : TreapNode K V → List (K × V × Int)
  | null => []
  | mk k v p l r => entries l ++ (k, v, p) :: entries r

end TreapNode

namespace TreapCell

variable {K V : Type}

/-- An assignment `p->member = ...` to the object at address `p`. -/
def assign (mem : List (TreapCell K V)) (p : Nat) (f : TreapCell K V → TreapCell K V) :
    List (TreapCell K V) :=
  match mem[p]? with
  | some c => mem.set p (f c)
  | none => mem

/-- `TreapNode::split(key, pLeft, pRight)` called on the object at address
`this`: the store after the call and the values the call leaves in the
reference parameters `pLeft` and `pRight`.  `std::make_shared` places the new
object at the end of the store.  In the recursive calls one of the two
references is a member of `pNewRoot`; the callee only writes to it, so the
assignment is made here when the callee has returned.  `fuel` bounds the depth
of the recursion. -/
def split [LinearOrder K] :
    Nat → List (TreapCell K V) → Nat → K →
      Except Fault (List (TreapCell K V) × Option Nat × Option Nat)
  | 0, _, _, _ => .error .diverge
  | fuel + 1, mem, this, key =>
    match mem[this]? with
    | none => .error .undefined
    | some c =>
      let pNewRoot := mem.length
      let mem := mem ++ [⟨c.m_key, c.m_priority, c.m_pLeft, c.m_pRight, c.m_value⟩]
      if c.m_key ≤ key then
        match c.m_pRight with
        | some r =>
          match split fuel mem r key with
          | .error e => .error e
          | .ok (mem, pl, pRight) =>
            .ok (assign mem pNewRoot (fun n => { n with m_pRight := pl }), some pNewRoot, pRight)
        | none => .ok (mem, some pNewRoot, none)
      else
        match c.m_pLeft with
        | some l =>
          match split fuel mem l key with
          | .error e => .error e
          | .ok (mem, pLeft, pr) =>
            .ok (assign mem pNewRoot (fun n => { n with m_pLeft := pr }), pLeft, some pNewRoot)
        | none => .ok (mem, none, some pNewRoot)

/-- The pointer `p` leads, in the store `mem`, to the tree `t`, through objects
whose addresses lie in `S`. -/
def Holds (mem : List (TreapCell K V)) (S : Set Nat) : TreapNode K V → Option Nat → Prop
  | .null, p => p = none
  | .mk k v q l r, p =>
    ∃ a c, p = some a ∧ a ∈ S ∧ mem[a]? = some c ∧ c.m_key = k ∧ c.m_value = v ∧
      c.m_priority = q ∧ Holds mem S l c.m_pLeft ∧ Holds mem S r c.m_pRight

end TreapCell

/-! ## persistent_list.h

`ListNode` objects are mutated in place and shared between versions, so they
live in a heap: a `std::shared_ptr<ListNode<T>>` is `Option Nat`, `none` being
`nullptr` and `some p` the address `p`.  A `shared_ptr` never dangles, and the
heap is total so that reading an address needs no side condition. -/

/-- `NodeVersion<T>`. -/
structure NodeVersion (T : Type) where
  m_version : Int
  m_value : T
  m_pLeft : Option Nat
  m_pRight : Option Nat
  deriving DecidableEq, Repr

/-- `ListNode<T>`. -/
structure ListNode (T : Type) where
  m_isFull : Bool
  m_first : NodeVersion T
  m_second : NodeVersion T
  deriving DecidableEq, Repr

/-- `assert(cond)`: aborts when the condition is false, unless the build defines
`NDEBUG`. -/
def check (ndebug : Bool) (cond : Bool) : Except Fault Unit :=
  if cond || ndebug then .ok () else .error .assertion

/-- `p->` on a `shared_ptr`: a null pointer cannot be dereferenced. -/
def deref (p : Option Nat) : Except Fault Nat :=
  match p with
  | some a => .ok a
  | none => .error .undefined

namespace NodeVersion

variable {T : Type}

/-- `NodeVersion()`. -/
def new [Inhabited T] : NodeVersion T := ⟨-1, default, none, none⟩

/-- `NodeVersion(value, version)`. -/
def mk2 (value : T) (version : Int) : NodeVersion T := ⟨version, value, none, none⟩

end NodeVersion

namespace ListNode

variable {T : Type}

/-- `ListNode()`. -/
def new [Inhabited T] : ListNode T := ⟨false, NodeVersion.new, NodeVersion.new⟩

/-- `ListNode(value, version)`. -/
def mk2 [Inhabited T] (value : T) (version : Int) : ListNode T :=
  ⟨false, NodeVersion.mk2 value version, NodeVersion.new⟩

/-- `ListNode::isFull()`. -/
def isFull (n : ListNode T) : Bool := n.m_isFull

/-- `ListNode::initSecond(value, version)`. -/
def initSecond (n : ListNode T) (value : T) (version : Int) : ListNode T :=
  { n with m_second := { n.m_first with m_version := version, m_value := value }
           m_isFull := true }

/-- `ListNode::getLeft(version)`. -/
def getLeft (ndebug : Bool) (n : ListNode T) (version : Int) : Except Fault (Option Nat) := do
  check ndebug (decide (version ≥ n.m_first.m_version))
  if version < n.m_first.m_version then
    return none
  if n.m_isFull && decide (n.m_second.m_version ≤ version) then
    return n.m_second.m_pLeft
  else
    return n.m_first.m_pLeft

/-- `ListNode::getRight(version)`. -/
def getRight (ndebug : Bool) (n : ListNode T) (version : Int) : Except Fault (Option Nat) := do
  check ndebug (decide (version ≥ n.m_first.m_version))
  if version < n.m_first.m_version then
    return none
  if n.m_isFull && decide (n.m_second.m_version ≤ version) then
    return n.m_second.m_pRight
  else
    return n.m_first.m_pRight

/-- `ListNode::setLeft(pLeft, isFirst)`. -/
def setLeft (n : ListNode T) (pLeft : Option Nat) (isFirst : Bool) : ListNode T :=
  if isFirst then { n with m_first := { n.m_first with m_pLeft := pLeft } }
  else { n with m_second := { n.m_second with m_pLeft := pLeft } }

/-- `ListNode::setRight(pRight, isFirst)`. -/
def setRight (n : ListNode T) (pRight : Option Nat) (isFirst : Bool) : ListNode T :=
  if isFirst then { n with m_first := { n.m_first with m_pRight := pRight } }
  else { n with m_second := { n.m_second with m_pRight := pRight } }

/-- `ListNode::setVal(value, version)`. -/
def setVal (ndebug : Bool) (n : ListNode T) (value : T) (version : Int) :
    Except Fault (ListNode T) := do
  check ndebug (decide (version ≥ n.m_first.m_version))
  if version < n.m_first.m_version then
    return n
  if n.m_isFull && decide (n.m_second.m_version ≤ version) then
    return { n with m_second := { n.m_second with m_value := value } }
  else
    return { n with m_first := { n.m_first with m_value := value } }

/-- `ListNode::getVal(version)`. -/
def getVal (ndebug : Bool) (n : ListNode T) (version : Int) : Except Fault T := do
  check ndebug (decide (version ≥ n.m_first.m_version))
  if version < n.m_first.m_version then
    throw Fault.exception
  if n.m_isFull && decide (n.m_second.m_version ≤ version) then
    return n.m_second.m_value
  else
    return n.m_first.m_value

/-- `ListNode::clear(version)`: the node after the call and the result. -/
def clear (n : ListNode T) (version : Int) : ListNode T × Bool :=
  if n.m_isFull then
    if version ≥ n.m_second.m_version then (n, false)
    else ({ n with m_second := { n.m_second with m_pLeft := none, m_pRight := none } }, true)
  else
    if version ≥ n.m_first.m_version then (n, false)
    else ({ n with m_first := { n.m_first with m_pLeft := none, m_pRight := none } }, true)

/-- `ListNode::versions()`. -/
def versions (n : ListNode T) : Int × Int := (n.m_first.m_version, n.m_second.m_version)

end ListNode

/-- `PersistentList<T>` with the `PersistentListInvalidator<T>` it owns and the
nodes both point to.  `heap` holds the `ListNode` objects and `next` is the
number of nodes created so far (`std::make_shared` returns address `next`);
`m_apNodes` is the invalidator's journal, whose `m_apHeads` and `m_apTails`
are references to the list's vectors. -/
structure PersistentList (T : Type) where
  heap : Nat → ListNode T
  next : Nat
  m_version : Int
  m_lastVersion : Int
  m_apHeads : List Nat
  m_apTails : List Nat
  m_apNodes : List Nat

/-- `PersistentListIterator<T>`: the node it stands on.  Its `m_version` and
`m_lastVersion` are references to the list's counters and `m_pInvalidator`
points to the list's invalidator, so they are read from the list state. -/
structure PersistentListIterator where
  m_pItem : Option Nat
  deriving DecidableEq, Repr

namespace PersistentList

variable {T : Type}

/-- `std::make_shared<ListNode<T>>(...)`: the new node is placed at address
`s.next`. -/
def alloc (s : PersistentList T) (n : ListNode T) : PersistentList T :=
  { s with heap := Function.update s.heap s.next n, next := s.next + 1 }

/-- A member call `p->f(...)` that changes the node at address `p`. -/
def modify (s : PersistentList T) (p : Nat) (f : ListNode T → ListNode T) :
    PersistentList T :=
  { s with heap := Function.update s.heap p (f (s.heap p)) }

/-- `PersistentListInvalidator::add(pNode)`. -/
def add (s : PersistentList T) (p : Nat) : PersistentList T :=
  { s with m_apNodes := s.m_apNodes ++ [p] }

/-- `PersistentListInvalidator::addHead(pNode)`. -/
def addHead (s : PersistentList T) (p : Nat) : PersistentList T :=
  { s with m_apHeads := s.m_apHeads ++ [p] }

/-- `PersistentListInvalidator::addTail(pNode)`. -/
def addTail (s : PersistentList T) (p : Nat) : PersistentList T :=
  { s with m_apTails := s.m_apTails ++ [p] }

/-- `PersistentListInvalidator::updateLastHead(version)`. -/
def updateLastHead (ndebug : Bool) (s : PersistentList T) (version : Int) :
    Except Fault (PersistentList T) := do
  let back ← vecBack s.m_apHeads
  let l ← (s.heap back).getLeft ndebug version
  match l with
  | none => return s
  | some p => return { s with m_apHeads := s.m_apHeads.dropLast ++ [p] }

/-- First loop of `PersistentListInvalidator::invalidate`, on the journal in
reverse order (its head is `m_apNodes.back()`): the heap after the calls of
`clear` and what is left of the journal.  A call of `clear` that returns
`false` has not changed the node. -/
def clearNodes (version : Int) :
    List Nat → (Nat → ListNode T) → (Nat → ListNode T) × List Nat
  | [], heap => (heap, [])
  | p :: rest, heap =>
    let r := (heap p).clear version
    if r.2 then clearNodes version rest (Function.update heap p r.1)
    else (heap, p :: rest)

/-- Second loop of `PersistentListInvalidator::invalidate`, on the heads in
reverse order. -/
def dropHeads (heap : Nat → ListNode T) (version : Int) : List Nat → List Nat
  | [] => []
  | p :: rest =>
    if (heap p).versions.1 > version then dropHeads heap version rest
    else p :: rest

/-- `PersistentListInvalidator::invalidate(version)`. -/
def invalidate (s : PersistentList T) (version : Int) : PersistentList T :=
  let r := clearNodes version s.m_apNodes.reverse s.heap
  { s with heap := r.1
           m_apNodes := r.2.reverse
           m_apHeads := (dropHeads r.1 version s.m_apHeads.reverse).reverse }

/-- `PersistentList()`. -/
def new [Inhabited T] : PersistentList T :=
  { heap := fun _ => ListNode.new
    next := 1
    m_version := 0
    m_lastVersion := 0
    m_apHeads := [0]
    m_apTails := [0]
    m_apNodes := [] }

/-- The loop of `begin()` and `end()`: `i` entries are still to be looked at;
the result is `ind`. -/
def scan (heap : Nat → ListNode T) (version : Int) (v : List Nat) : Nat → Nat
  | 0 => 0
  | i + 1 =>
    if (heap (v.getD i 0)).versions.1 ≤ version then i
    else scan heap version v i

/-- `PersistentList::begin()`. -/
def begin (s : PersistentList T) : Except Fault PersistentListIterator := do
  let ind := scan s.heap s.m_version s.m_apHeads s.m_apHeads.length
  let p ← vecAt s.m_apHeads ind
  return ⟨some p⟩

/-- `PersistentList::end()`. -/
def «end» (s : PersistentList T) : Except Fault PersistentListIterator := do
  let ind := scan s.heap s.m_version s.m_apTails s.m_apTails.length
  let p ← vecAt s.m_apTails ind
  return ⟨some p⟩

/-- The loop shared by `PersistentList::copyLeft(pFirst, pPrev)` and
`PersistentListIterator::copyLeft(pFirst, val, pPrev)`, which differ in one
expression: the value given to `initSecond` is `pLeft->getVal(m_version)` in
the list (`val = none`) and the argument `val` in the iterator.  The result
is the final `pPrev` and the state.  `fuel` bounds the number of rounds. -/
def copyLeftLoop (ndebug : Bool) (val : Option T) [Inhabited T] :
    Nat → Option Nat → Nat → PersistentList T → Except Fault (Nat × PersistentList T)
  | _, none, pPrev, s => .ok (pPrev, s)
  | 0, some _, _, _ => .error .diverge
  | fuel + 1, some pLeft, pPrev, s =>
    if (s.heap pLeft).isFull then do
      let x ← (s.heap pLeft).getVal ndebug s.m_version
      let pCopy := s.next
      let s := s.alloc (ListNode.mk2 x (s.m_version + 1))
      let s := s.modify pPrev (fun n => n.setLeft (some pCopy) true)
      let s := s.modify pCopy (fun n => n.setRight (some pPrev) true)
      let s := s.add pCopy
      let l ← (s.heap pLeft).getLeft ndebug s.m_version
      let s := if l = none then s.addHead pCopy else s
      let nxt ← (s.heap pLeft).getLeft ndebug s.m_version
      copyLeftLoop ndebug val fuel nxt pCopy s
    else do
      let x ← match val with
        | some x => pure x
        | none => (s.heap pLeft).getVal ndebug s.m_version
      let s := s.modify pLeft (fun n => n.initSecond x (s.m_version + 1))
      let s := s.modify pLeft (fun n => n.setRight (some pPrev) false)
      let s := s.modify pPrev (fun n => n.setLeft (some pLeft) true)
      let s := s.add pLeft
      return (pPrev, s)

/-- The loop shared by `PersistentList::copyRight` and
`PersistentListIterator::copyRight`; see `copyLeftLoop`. -/
def copyRightLoop (ndebug : Bool) (val : Option T) [Inhabited T] :
    Nat → Option Nat → Nat → PersistentList T → Except Fault (Nat × PersistentList T)
  | _, none, pPrev, s => .ok (pPrev, s)
  | 0, some _, _, _ => .error .diverge
  | fuel + 1, some pRight, pPrev, s =>
    if (s.heap pRight).isFull then do
      let x ← (s.heap pRight).getVal ndebug s.m_version
      let pCopy := s.next
      let s := s.alloc (ListNode.mk2 x (s.m_version + 1))
      let s := s.modify pPrev (fun n => n.setRight (some pCopy) true)
      let s := s.modify pCopy (fun n => n.setLeft (some pPrev) true)
      let s := s.add pCopy
      let r ← (s.heap pRight).getRight ndebug s.m_version
      let s := if r = none then s.addTail pCopy else s
      let nxt ← (s.heap pRight).getRight ndebug s.m_version
      copyRightLoop ndebug val fuel nxt pCopy s
    else do
      let x ← match val with
        | some x => pure x
        | none => (s.heap pRight).getVal ndebug s.m_version
      let s := s.modify pRight (fun n => n.initSecond x (s.m_version + 1))
      let s := s.modify pRight (fun n => n.setLeft (some pPrev) false)
      let s := s.modify pPrev (fun n => n.setRight (some pRight) true)
      let s := s.add pRight
      return (pPrev, s)

/-- `PersistentList::copyLeft(pFirst, pPrev)`.  A walk over more nodes than
exist has met a node twice and never ends. -/
def copyLeft [Inhabited T] (ndebug : Bool) (s : PersistentList T) (pFirst : Option Nat)
    (pPrev : Nat) : Except Fault (Nat × PersistentList T) :=
  copyLeftLoop ndebug none s.next pFirst pPrev s

/-- `PersistentList::copyRight(pFirst, pPrev)`. -/
def copyRight [Inhabited T] (ndebug : Bool) (s : PersistentList T) (pFirst : Option Nat)
    (pPrev : Nat) : Except Fault (Nat × PersistentList T) :=
  copyRightLoop ndebug none s.next pFirst pPrev s

/-- `PersistentList::insert(pIter, val)`: the returned iterator, the caller's
`pIter` after the call, and the list. -/
def insert [Inhabited T] (ndebug : Bool) (s : PersistentList T)
    (pIter : Option PersistentListIterator) (val : T) :
    Except Fault (PersistentListIterator × PersistentListIterator × PersistentList T) := do
  check ndebug pIter.isSome
  let it ← match pIter with
    | none => throw Fault.exception
    | some it => pure it
  let s := s.invalidate s.m_version
  let pNode := s.next
  let s := s.alloc (ListNode.mk2 val (s.m_version + 1))
  let s := s.add pNode
  let item ← deref it.m_pItem
  let l ← (s.heap item).getLeft ndebug s.m_version
  let s := if l = none then s.addHead pNode else s
  let l ← (s.heap item).getLeft ndebug s.m_version
  let (_, s) ← s.copyLeft ndebug l pNode
  let (_, s) ← s.copyRight ndebug (some item) pNode
  let s ← s.updateLastHead ndebug (s.m_version + 1)
  let s := { s with m_version := s.m_version + 1, m_lastVersion := s.m_version + 1 }
  let r ← (s.heap pNode).getRight ndebug s.m_version
  return (⟨some pNode⟩, ⟨r⟩, s)

/-- The block `if (pLeftNode != nullptr) { ... }` of `PersistentList::erase`
that fills or clones the left neighbour: `pLeftClonedNode` and the list after
the block. -/
def eraseLeft [Inhabited T] (ndebug : Bool) (s : PersistentList T) (pLeftNode : Option Nat) :
    Except Fault (Option Nat × PersistentList T) :=
  match pLeftNode with
  | none => pure (none, s)
  | some pl =>
    if !(s.heap pl).isFull then do
      let x ← (s.heap pl).getVal ndebug s.m_version
      let s := s.modify pl (fun n => n.initSecond x (s.m_version + 1))
      let s := s.add pl
      pure (none, s)
    else do
      let x ← (s.heap pl).getVal ndebug s.m_version
      let c := s.next
      let s := s.alloc (ListNode.mk2 x (s.m_version + 1))
      let s := s.add c
      let l ← (s.heap pl).getLeft ndebug s.m_version
      let s := if l = none then s.addHead c else s
      let l ← (s.heap pl).getLeft ndebug s.m_version
      let (_, s) ← s.copyLeft ndebug l c
      pure (some c, s)

/-- The block `if (!pRightNode->isFull()) { ... } else { ... }` of
`PersistentList::erase` that fills or clones the right neighbour `pr`:
`pRightClonedNode` and the list after the block. -/
def eraseRight [Inhabited T] (ndebug : Bool) (s : PersistentList T) (pLeftNode : Option Nat)
    (pr : Nat) : Except Fault (Option Nat × PersistentList T) :=
  if !(s.heap pr).isFull then do
    let x ← (s.heap pr).getVal ndebug s.m_version
    let s := s.modify pr (fun n => n.initSecond x (s.m_version + 1))
    let s := s.add pr
    let s := if pLeftNode = none then
        (s.modify pr (fun n => n.setLeft none false)).addHead pr
      else s
    pure (none, s)
  else do
    let x ← (s.heap pr).getVal ndebug s.m_version
    let c := s.next
    let s := s.alloc (ListNode.mk2 x (s.m_version + 1))
    let s := s.add c
    let s := if pLeftNode = none then s.addHead c else s
    let r ← (s.heap pr).getRight ndebug s.m_version
    let (_, s) ← s.copyRight ndebug r c
    pure (some c, s)

/-- The block `if (pLeftNode != nullptr) { ... }` of `PersistentList::erase`
that links the two neighbours (or their clones) to each other. -/
def eraseLink (s : PersistentList T) (pLeftNode pLeftClonedNode pRightClonedNode : Option Nat)
    (pr : Nat) : PersistentList T :=
  match pLeftNode with
  | none => s
  | some pl =>
    match pLeftClonedNode, pRightClonedNode with
    | none, none =>
      (s.modify pl (fun n => n.setRight (some pr) false)).modify pr
        (fun n => n.setLeft (some pl) false)
    | none, some rc =>
      (s.modify pl (fun n => n.setRight (some rc) false)).modify rc
        (fun n => n.setLeft (some pl) true)
    | some lc, none =>
      (s.modify lc (fun n => n.setRight (some pr) true)).modify pr
        (fun n => n.setLeft (some lc) false)
    | some lc, some rc =>
      (s.modify lc (fun n => n.setRight (some rc) true)).modify rc
        (fun n => n.setLeft (some lc) true)

/-- `PersistentList::erase(pIter)`: the returned iterator and the list; the
caller's `pIter` is reset to null.  The three blocks of the body are
`eraseLeft`, `eraseRight` and `eraseLink`. -/
def erase [Inhabited T] (ndebug : Bool) (s : PersistentList T)
    (pIter : Option PersistentListIterator) :
    Except Fault (PersistentListIterator × PersistentList T) := do
  if !ndebug then
    match pIter with
    | none => throw Fault.assertion
    | some it =>
      let item ← deref it.m_pItem
      let r ← (s.heap item).getRight ndebug s.m_version
      check ndebug r.isSome
  let it ← match pIter with
    | none => throw Fault.undefined
    | some it => pure it
  let s := s.invalidate s.m_version
  let item ← deref it.m_pItem
  let pLeftNode ← (s.heap item).getLeft ndebug s.m_version
  let pRightNode ← (s.heap item).getRight ndebug s.m_version
  let (pLeftClonedNode, s) ← s.eraseLeft ndebug pLeftNode
  let pr ← deref pRightNode
  let (pRightClonedNode, s) ← s.eraseRight ndebug pLeftNode pr
  let s := s.eraseLink pLeftNode pLeftClonedNode pRightClonedNode pr
  let s ← s.updateLastHead ndebug (s.m_version + 1)
  let s := { s with m_version := s.m_version + 1, m_lastVersion := s.m_version + 1 }
  let res : PersistentListIterator :=
    match pRightClonedNode with
    | some rc => ⟨some rc⟩
    | none => ⟨some pr⟩
  return (res, s)

/-- `PersistentList::undo(numIter, clearHistory)`. -/
def undo (s : PersistentList T) (numIter : Int) (clearHistory : Bool) : PersistentList T :=
  let s := { s with m_version := max 0 (wrapInt (s.m_version - numIter)) }
  if clearHistory then s.invalidate s.m_version else s

/-- `PersistentList::redo(numIter)`. -/
def redo (s : PersistentList T) (numIter : Int) : PersistentList T :=
  { s with m_version := min s.m_lastVersion (wrapInt (s.m_version + numIter)) }

/-- `PersistentList::lastVersion()`. -/
def lastVersion (s : PersistentList T) : Int := s.m_lastVersion + 1

end PersistentList

namespace PersistentListIterator

variable {T : Type}

/-- `PersistentListIterator::next()`. -/
def next (ndebug : Bool) (s : PersistentList T) (it : PersistentListIterator) :
    Except Fault PersistentListIterator := do
  check ndebug it.m_pItem.isSome
  match it.m_pItem with
  | none => throw Fault.exception
  | some p =>
    let r ← (s.heap p).getRight ndebug s.m_version
    return ⟨r⟩

/-- `PersistentListIterator::prev()`. -/
def prev (ndebug : Bool) (s : PersistentList T) (it : PersistentListIterator) :
    Except Fault PersistentListIterator := do
  check ndebug it.m_pItem.isSome
  match it.m_pItem with
  | none => throw Fault.exception
  | some p =>
    let l ← (s.heap p).getLeft ndebug s.m_version
    return ⟨l⟩

/-- `PersistentListIterator::done()`. -/
def done (ndebug : Bool) (s : PersistentList T) (it : PersistentListIterator) :
    Except Fault Bool := do
  check ndebug it.m_pItem.isSome
  match it.m_pItem with
  | none => throw Fault.exception
  | some p =>
    let r ← (s.heap p).getRight ndebug s.m_version
    return r.isNone

/-- `PersistentListIterator::getVal()`. -/
def getVal (ndebug : Bool) (s : PersistentList T) (it : PersistentListIterator) :
    Except Fault T := do
  if !ndebug then
    match it.m_pItem with
    | none => throw Fault.assertion
    | some p =>
      let r ← (s.heap p).getRight ndebug s.m_version
      check ndebug r.isSome
  match it.m_pItem with
  | none => throw Fault.exception
  | some p =>
    let r ← (s.heap p).getRight ndebug s.m_version
    if r.isNone then throw Fault.exception
    (s.heap p).getVal ndebug s.m_version

/-- `PersistentListIterator::copyLeft(pFirst, val, pPrev)`. -/
def copyLeft [Inhabited T] (ndebug : Bool) (s : PersistentList T) (pFirst : Option Nat)
    (val : T) (pPrev : Nat) : Except Fault (Nat × PersistentList T) :=
  PersistentList.copyLeftLoop ndebug (some val) s.next pFirst pPrev s

/-- `PersistentListIterator::copyRight(pFirst, val, pPrev)`. -/
def copyRight [Inhabited T] (ndebug : Bool) (s : PersistentList T) (pFirst : Option Nat)
    (val : T) (pPrev : Nat) : Except Fault (Nat × PersistentList T) :=
  PersistentList.copyRightLoop ndebug (some val) s.next pFirst pPrev s

/-- `PersistentListIterator::setVal(val)`: the list after the call (the
iterator keeps its node). -/
def setVal [Inhabited T] (ndebug : Bool) (s : PersistentList T)
    (it : PersistentListIterator) (val : T) : Except Fault (PersistentList T) := do
  check ndebug it.m_pItem.isSome
  let item ← match it.m_pItem with
    | none => throw Fault.exception
    | some p => pure p
  let s := s.invalidate s.m_version
  let s ←
    if !(s.heap item).isFull then
      let s := s.modify item (fun n => n.initSecond val (s.m_version + 1))
      pure (s.add item)
    else do
      let pNode := s.next
      let s := s.alloc (ListNode.mk2 val (s.m_version + 1))
      let l ← (s.heap item).getLeft ndebug s.m_version
      let s := if l = none then s.addHead pNode else s
      let l ← (s.heap item).getLeft ndebug s.m_version
      let (_, s) ← copyLeft ndebug s l val pNode
      let r ← (s.heap item).getRight ndebug s.m_version
      let (_, s) ← copyRight ndebug s r val pNode
      pure s
  let s ← s.updateLastHead ndebug (s.m_version + 1)
  return { s with m_version := s.m_version + 1, m_lastVersion := s.m_version + 1 }

end PersistentListIterator

namespace PersistentList

variable {T : Type}

/-- The loop of `print()`, `for (auto pIter = begin(); !pIter->done();
pIter->next())`, collecting `pIter->getVal()` where `print` writes it. -/
def walk (ndebug : Bool) (s : PersistentList T) :
    Nat → PersistentListIterator → Except Fault (List T)
  | 0, _ => .error .diverge
  | fuel + 1, it => do
    let d ← it.done ndebug s
    if d then return []
    let x ← it.getVal ndebug s
    let it ← it.next ndebug s
    let rest ← walk ndebug s fuel it
    return x :: rest

/-- The values a traversal from `begin()` reads until `done()`.  A walk over
more nodes than exist never ends. -/
def traversal (ndebug : Bool) (s : PersistentList T) : Except Fault (List T) := do
  let it ← s.begin
  walk ndebug s (s.next + 1) it

/-- The iterator `begin()` moved `p` times by `next()`. -/
def iterAt (ndebug : Bool) (s : PersistentList T) : Nat → Except Fault PersistentListIterator
  | 0 => s.begin
  | p + 1 => do
    let it ← iterAt ndebug s p
    it.next ndebug s

end PersistentList

namespace PersistentList

variable {T : Type}

/-- The call `insert(it, val)` with `it` the iterator `begin()` moved `p`
times: the list after the call. -/
def insertAt [Inhabited T] (ndebug : Bool) (s : PersistentList T) (p : Nat) (val : T) :
    Except Fault (PersistentList T) := do
  let it ← iterAt ndebug s p
  let r ← s.insert ndebug (some it) val
  return r.2.2

/-- The call `erase(it)` with `it` the iterator `begin()` moved `p` times: the
list after the call. -/
def eraseAt [Inhabited T] (ndebug : Bool) (s : PersistentList T) (p : Nat) :
    Except Fault (PersistentList T) := do
  let it ← iterAt ndebug s p
  let r ← s.erase ndebug (some it)
  return r.2

/-- The call `it->setVal(val)` with `it` the iterator `begin()` moved `p`
times: the list after the call. -/
def setValAt [Inhabited T] (ndebug : Bool) (s : PersistentList T) (p : Nat) (val : T) :
    Except Fault (PersistentList T) := do
  let it ← iterAt ndebug s p
  it.setVal ndebug s val

end PersistentList

/-! ## The list: reads, the chain of a version and the representation invariant -/

namespace ListNode

variable {T : Type}

/-- The snapshot that a read at `version` uses. -/
def snap (n : ListNode T) (version : Int) : NodeVersion T :=
  if n.m_isFull && decide (n.m_second.m_version ≤ version) then n.m_second else n.m_first

/-- The left neighbour read at `version`. -/
def rdLeft (version : Int) (n : ListNode T) : Option Nat := (n.snap version).m_pLeft

/-- The right neighbour read at `version`. -/
def rdRight (version : Int) (n : ListNode T) : Option Nat := (n.snap version).m_pRight

/-- The value read at `version`. -/
def rdVal (version : Int) (n : ListNode T) : T := (n.snap version).m_value

/-- No snapshot of the node is younger than `version`. -/
def Sane (n : ListNode T) (version : Int) : Prop :=
  n.m_first.m_version ≤ version ∧ (n.m_isFull = true → n.m_second.m_version ≤ version)

/-- A node created at `version` whose second snapshot is still empty. -/
def Fresh (n : ListNode T) (version : Int) : Prop :=
  n.m_isFull = false ∧ n.m_first.m_version = version

end ListNode

/-- The first element of `l`, or `d` when there is none. -/
def headOr (l : List Nat) (d : Option Nat) : Option Nat :=
  match l with
  | [] => d
  | a :: _ => some a

/-- The last element of `l`, or `d` when there is none. -/
def lastOr (l : List Nat) (d : Option Nat) : Option Nat := headOr l.reverse d

/-- A doubly linked segment: walking `fwd` from the first node of `ns` visits
`ns` in order and then reaches `nxt`; `bwd` leads back, from the first node to
`prev`. -/
def Linked {T : Type} (fwd bwd : ListNode T → Option Nat) (h : Nat → ListNode T) :
    Option Nat → List Nat → Option Nat → Prop
  | _, [], _ => True
  | prev, n :: rest, nxt =>
    bwd (h n) = prev ∧ fwd (h n) = headOr rest nxt ∧ Linked fwd bwd h (some n) rest nxt

namespace PersistentList

variable {T : Type}

/-- Representation invariant of a list whose cursor is on the last version:
`ns` is the chain of the current version, from the head to the sentinel. -/
structure Inv (s : PersistentList T) (ns : List Nat) : Prop where
  last_eq : s.m_lastVersion = s.m_version
  ne : ns ≠ []
  linked : Linked (ListNode.rdRight s.m_version) (ListNode.rdLeft s.m_version) s.heap none ns none
  nodup : ns.Nodup
  lt_next : ∀ n ∈ ns, n < s.next
  sane : ∀ a, a < s.next → (s.heap a).Sane s.m_version
  head : s.m_apHeads.getLast? = ns.head?
  heads_lt : ∀ a ∈ s.m_apHeads, a < s.next
  nodes_lt : ∀ a ∈ s.m_apNodes, a < s.next

/-- The values of the chain `ns` at the current version, the sentinel left out. -/
def vals (s : PersistentList T) (ns : List Nat) : List T :=
  ns.dropLast.map (fun n => (s.heap n).rdVal s.m_version)

/-- States built from the empty list by `insert`, `erase` and `setVal` (no
`undo`, no `redo`), each called with an iterator that stands on a position of
the current traversal: `begin()` moved `p` times, `p` at most the length of the
traversal for `insert` and `setVal` (the sentinel included) and below it for
`erase`. -/
inductive Built [Inhabited T] : PersistentList T → Prop
  | new : Built PersistentList.new
  | insert (ndebug : Bool) (s s' : PersistentList T) (p : Nat) (val : T) (l : List T)
      (hs : Built s) (hl : s.traversal ndebug = .ok l) (hp : p ≤ l.length)
      (h : s.insertAt ndebug p val = .ok s') : Built s'
  | erase (ndebug : Bool) (s s' : PersistentList T) (p : Nat) (l : List T)
      (hs : Built s) (hl : s.traversal ndebug = .ok l) (hp : p < l.length)
      (h : s.eraseAt ndebug p = .ok s') : Built s'
  | setVal (ndebug : Bool) (s s' : PersistentList T) (p : Nat) (val : T) (l : List T)
      (hs : Built s) (hl : s.traversal ndebug = .ok l) (hp : p ≤ l.length)
      (h : s.setValAt ndebug p val = .ok s') : Built s'

end PersistentList

namespace PersistentList

variable {T : Type}

/-- The state in which `copyRightLoop` goes on after it has copied the full
node `r`: the copy sits at address `s.next`. -/
def afterCopyRight [Inhabited T] (s : PersistentList T) (r pPrev : Nat) : PersistentList T :=
  let s4 := (((s.alloc (ListNode.mk2 ((s.heap r).rdVal s.m_version) (s.m_version + 1))).modify
    pPrev (fun n => n.setRight (some s.next) true)).modify
    s.next (fun n => n.setLeft (some pPrev) true)).add s.next
  if (s.heap r).rdRight s.m_version = none then s4.addTail s.next else s4

/-- The state `copyRightLoop` returns when it ends on the non-full node `r`. -/
def afterFillRight (s : PersistentList T) (r pPrev : Nat) (x : T) : PersistentList T :=
  (((s.modify r (fun n => n.initSecond x (s.m_version + 1))).modify
    r (fun n => n.setLeft (some pPrev) false)).modify
    pPrev (fun n => n.setRight (some r) true)).add r

end PersistentList

namespace PersistentList

variable {T : Type}

/-- What `copyRightLoop`, started on the segment `R` with the new node `pPrev`
to its left, leaves behind: the segment `R'` that replaces `R` in the next
version, linked to `pPrev`, made of copies followed by the nodes of `R` that
stay; everything else is as before. -/
structure CopyRightPost (val : Option T) (s s' : PersistentList T) (pPrev : Nat)
    (R R' : List Nat) : Prop where
  length_eq : R'.length = R.length
  linked : Linked (ListNode.rdRight (s.m_version + 1)) (ListNode.rdLeft (s.m_version + 1))
    s'.heap (some pPrev) R' none
  prev_nil : R' = [] → s'.heap pPrev = s.heap pPrev
  prev_cons : ∀ r t, R' = r :: t → s'.heap pPrev = (s.heap pPrev).setRight (some r) true
  nodup : R'.Nodup
  mem : ∀ n ∈ R', n ∈ R ∨ (s.next ≤ n ∧ n < s'.next)
  next_le : s.next ≤ s'.next
  frame : ∀ a, a < s.next → a ∉ R → a ≠ pPrev → s'.heap a = s.heap a
  sane : ∀ a, a < s'.next → (s'.heap a).Sane (s.m_version + 1)
  version_eq : s'.m_version = s.m_version
  last_eq : s'.m_lastVersion = s.m_lastVersion
  heads_eq : s'.m_apHeads = s.m_apHeads
  nodes_lt : ∀ a ∈ s'.m_apNodes, a < s'.next
  vals : val = none → R'.map (fun n => (s'.heap n).rdVal (s.m_version + 1)) =
    R.map (fun n => (s.heap n).rdVal s.m_version)

end PersistentList

namespace PersistentList

variable {T : Type}

/-- The state in which `copyLeftLoop` goes on after it has copied the full
node `r`: the copy sits at address `s.next`, and is a new head when `r` has no
left neighbour. -/
def afterCopyLeft [Inhabited T] (s : PersistentList T) (r pPrev : Nat) : PersistentList T :=
  let s4 := (((s.alloc (ListNode.mk2 ((s.heap r).rdVal s.m_version) (s.m_version + 1))).modify
    pPrev (fun n => n.setLeft (some s.next) true)).modify
    s.next (fun n => n.setRight (some pPrev) true)).add s.next
  if (s.heap r).rdLeft s.m_version = none then s4.addHead s.next else s4

/-- The state `copyLeftLoop` returns when it ends on the non-full node `r`. -/
def afterFillLeft (s : PersistentList T) (r pPrev : Nat) (x : T) : PersistentList T :=
  (((s.modify r (fun n => n.initSecond x (s.m_version + 1))).modify
    r (fun n => n.setRight (some pPrev) false)).modify
    pPrev (fun n => n.setLeft (some r) true)).add r

end PersistentList

namespace PersistentList

variable {T : Type}

/-- What `copyLeftLoop`, started on the segment `R` (listed from right to left)
with the new node `pPrev` to its right, leaves behind: the segment `R'` that
replaces `R` in the next version, linked to `pPrev`, made of copies followed by
the nodes of `R` that stay; a copy of the leftmost node is a new head;
everything else is as before. -/
structure CopyLeftPost (val : Option T) (s s' : PersistentList T) (pPrev : Nat)
    (R R' : List Nat) : Prop where
  length_eq : R'.length = R.length
  linked : Linked (ListNode.rdLeft (s.m_version + 1)) (ListNode.rdRight (s.m_version + 1))
    s'.heap (some pPrev) R' none
  prev_nil : R' = [] → s'.heap pPrev = s.heap pPrev
  prev_cons : ∀ r t, R' = r :: t → s'.heap pPrev = (s.heap pPrev).setLeft (some r) true
  nodup : R'.Nodup
  mem : ∀ n ∈ R', n ∈ R ∨ (s.next ≤ n ∧ n < s'.next)
  next_le : s.next ≤ s'.next
  frame : ∀ a, a < s.next → a ∉ R → a ≠ pPrev → s'.heap a = s.heap a
  sane : ∀ a, a < s'.next → (s'.heap a).Sane (s.m_version + 1)
  version_eq : s'.m_version = s.m_version
  last_eq : s'.m_lastVersion = s.m_lastVersion
  tails_eq : s'.m_apTails = s.m_apTails
  heads_last : ∀ hd, R.getLast? = some hd → s.m_apHeads.getLast? = some hd →
    s'.m_apHeads.getLast? = R'.getLast?
  heads_lt : (∀ a ∈ s.m_apHeads, a < s.next) → ∀ a ∈ s'.m_apHeads, a < s'.next
  heads_nil : R = [] → s'.m_apHeads = s.m_apHeads
  nodes_lt : ∀ a ∈ s'.m_apNodes, a < s'.next
  vals : val = none → R'.map (fun n => (s'.heap n).rdVal (s.m_version + 1)) =
    R.map (fun n => (s.heap n).rdVal s.m_version)

end PersistentList

namespace PersistentList

variable {T : Type}

/-- The state of `insert` when it starts the two walks: the new node is
allocated and journalled, and is a new head when the position has no left
neighbour. -/
def insertStart [Inhabited T] (s : PersistentList T) (item : Nat) (x : T) : PersistentList T :=
  let s2 := (s.alloc (ListNode.mk2 x (s.m_version + 1))).add s.next
  if (s.heap item).rdLeft s.m_version = none then s2.addHead s.next else s2

end PersistentList

namespace PersistentList

variable {T : Type}

/-- The state of `setVal` on a full node when it starts the two walks: the new
node is allocated, and is a new head when the position has no left
neighbour. -/
def setValStart [Inhabited T] (s : PersistentList T) (item : Nat) (x : T) : PersistentList T :=
  let s1 := s.alloc (ListNode.mk2 x (s.m_version + 1))
  if (s.heap item).rdLeft s.m_version = none then s1.addHead s.next else s1

end PersistentList

namespace ListNode

variable {T : Type}

/-- The snapshot of `n` that reads at version `w` use is the one that `setLeft`
and `setRight` write when called with `isFirst`: the first snapshot of a node
created at `w` that has no second one, or a second snapshot made at `w`. -/
def Open (n : ListNode T) (w : Int) (isFirst : Bool) : Prop :=
  if isFirst then n.Fresh w
  else n.m_isFull = true ∧ n.m_second.m_version = w ∧ n.m_first.m_version ≤ w

end ListNode

namespace PersistentList

variable {T : Type}

/-- What `eraseRight` leaves behind when the right neighbour `pr` heads the
segment `pr :: Rt`: the segment `e :: Rt'` of the next version, where `e` is
`pr` itself (filled, `rc = none`) or its clone (`rc = some e`), not yet linked
to the left unless there is no left neighbour. -/
structure EraseRightPost (s s' : PersistentList T) (pLeftNode : Option Nat) (pr : Nat)
    (Rt : List Nat) (e : Nat) (Rt' : List Nat) (rc : Option Nat) : Prop where
  length_eq : Rt'.length = Rt.length
  linked : Linked (ListNode.rdRight (s.m_version + 1)) (ListNode.rdLeft (s.m_version + 1))
    s'.heap (some e) Rt' none
  fwd : ListNode.rdRight (s.m_version + 1) (s'.heap e) = Rt'.head?
  opened : (s'.heap e).Open (s.m_version + 1) rc.isSome
  rc_eq : rc = some e ∨ (rc = none ∧ e = pr)
  nodup : (e :: Rt').Nodup
  mem : ∀ n ∈ e :: Rt', n ∈ pr :: Rt ∨ (s.next ≤ n ∧ n < s'.next)
  next_le : s.next ≤ s'.next
  frame : ∀ a, a < s.next → a ∉ pr :: Rt → s'.heap a = s.heap a
  sane : ∀ a, a < s'.next → (s'.heap a).Sane (s.m_version + 1)
  version_eq : s'.m_version = s.m_version
  last_eq : s'.m_lastVersion = s.m_lastVersion
  heads_eq : s'.m_apHeads = if pLeftNode = none then s.m_apHeads ++ [e] else s.m_apHeads
  bwd_none : pLeftNode = none → ListNode.rdLeft (s.m_version + 1) (s'.heap e) = none
  nodes_lt : ∀ a ∈ s'.m_apNodes, a < s'.next
  vals : (e :: Rt').map (fun n => (s'.heap n).rdVal (s.m_version + 1)) =
    (pr :: Rt).map (fun n => (s.heap n).rdVal s.m_version)

/-- What `eraseLeft` leaves behind when the left neighbour `pl` heads the
segment `pl :: Wt` (listed from right to left): the segment `e :: Wt'` of the
next version, where `e` is `pl` itself (filled, `lc = none`) or its clone
(`lc = some e`), not yet linked to the right. -/
structure EraseLeftPost (s s' : PersistentList T) (pl : Nat)
    (Wt : List Nat) (e : Nat) (Wt' : List Nat) (lc : Option Nat) : Prop where
  length_eq : Wt'.length = Wt.length
  linked : Linked (ListNode.rdLeft (s.m_version + 1)) (ListNode.rdRight (s.m_version + 1))
    s'.heap (some e) Wt' none
  fwd : ListNode.rdLeft (s.m_version + 1) (s'.heap e) = Wt'.head?
  opened : (s'.heap e).Open (s.m_version + 1) lc.isSome
  lc_eq : lc = some e ∨ (lc = none ∧ e = pl)
  nodup : (e :: Wt').Nodup
  mem : ∀ n ∈ e :: Wt', n ∈ pl :: Wt ∨ (s.next ≤ n ∧ n < s'.next)
  next_le : s.next ≤ s'.next
  frame : ∀ a, a < s.next → a ∉ pl :: Wt → s'.heap a = s.heap a
  sane : ∀ a, a < s'.next → (s'.heap a).Sane (s.m_version + 1)
  version_eq : s'.m_version = s.m_version
  last_eq : s'.m_lastVersion = s.m_lastVersion
  heads_last : ∀ hd, (pl :: Wt).getLast? = some hd → s.m_apHeads.getLast? = some hd →
    s'.m_apHeads.getLast? = (e :: Wt').getLast?
  heads_lt : (∀ a ∈ s.m_apHeads, a < s.next) → ∀ a ∈ s'.m_apHeads, a < s'.next
  nodes_lt : ∀ a ∈ s'.m_apNodes, a < s'.next
  vals : (e :: Wt').map (fun n => (s'.heap n).rdVal (s.m_version + 1)) =
    (pl :: Wt).map (fun n => (s.heap n).rdVal s.m_version)

end PersistentList

namespace PersistentList

variable {T : Type}

/-- The state `eraseRight` returns on a non-full right neighbour `pr`. -/
def filledRight (s : PersistentList T) (pLeftNode : Option Nat) (pr : Nat) : PersistentList T :=
  let s2 := (s.modify pr (fun n => n.initSecond ((s.heap pr).rdVal s.m_version)
    (s.m_version + 1))).add pr
  if pLeftNode = none then (s2.modify pr (fun n => n.setLeft none false)).addHead pr else s2

/-- The state of `eraseRight` on a full right neighbour `pr` when it starts
the walk to the right: the clone sits at address `s.next`. -/
def clonedRight [Inhabited T] (s : PersistentList T) (pLeftNode : Option Nat) (pr : Nat) :
    PersistentList T :=
  let s2 := (s.alloc (ListNode.mk2 ((s.heap pr).rdVal s.m_version) (s.m_version + 1))).add s.next
  if pLeftNode = none then s2.addHead s.next else s2

/-- The state `eraseLeft` returns on a non-full left neighbour `pl`. -/
def filledLeft (s : PersistentList T) (pl : Nat) : PersistentList T :=
  (s.modify pl (fun n => n.initSecond ((s.heap pl).rdVal s.m_version) (s.m_version + 1))).add pl

/-- The state of `eraseLeft` on a full left neighbour `pl` when it starts the
walk to the left: the clone sits at address `s.next`. -/
def clonedLeft [Inhabited T] (s : PersistentList T) (pl : Nat) : PersistentList T :=
  let s2 := (s.alloc (ListNode.mk2 ((s.heap pl).rdVal s.m_version) (s.m_version + 1))).add s.next
  if (s.heap pl).rdLeft s.m_version = none then s2.addHead s.next else s2

end PersistentList

/-! ## Successful mutations, reachable list states and the transaction -/

namespace PersistentArray

variable {T : Type}

/-- One successful mutation of an array: `setValue` at a valid index. -/
inductive Mutation (a b : PersistentArray T) : Prop
  | setValue (ndebug : Bool) (index : Int) (value : T) (h0 : 0 ≤ index)
      (hi : index < a.m_size) (h : a.setValue ndebug index value = .ok b)

/-- `Mutated k a b`: `b` comes from `a` by `k` successful mutations, with no
`undo` and no `redo` in between. -/
inductive Mutated : Nat → PersistentArray T → PersistentArray T → Prop
  | refl (a : PersistentArray T) : Mutated 0 a a
  | step (k : Nat) (a b c : PersistentArray T) (h : Mutated k a b) (hm : Mutation b c) :
      Mutated (k + 1) a c

end PersistentArray

namespace PersistentMap

variable {K V : Type}

/-- One successful mutation of a map: `insert`, `setValue`, or an `erase` that
returns `true`. -/
inductive Mutation [LinearOrder K] (a b : PersistentMap K V) : Prop
  | insert (rnd : Nat → Int) (key : K) (value : V) (h : a.insert rnd key value = .ok b)
  | setValue (rnd : Nat → Int) (key : K) (value : V) (h : a.setValue rnd key value = .ok b)
  | erase (ndebug : Bool) (key : K) (h : a.erase ndebug key = (b, .ok true))

/-- `Mutated k a b`: `b` comes from `a` by `k` successful mutations, with no
`undo` and no `redo` in between. -/
inductive Mutated [LinearOrder K] : Nat → PersistentMap K V → PersistentMap K V → Prop
  | refl (a : PersistentMap K V) : Mutated 0 a a
  | step (k : Nat) (a b c : PersistentMap K V) (h : Mutated k a b) (hm : Mutation b c) :
      Mutated (k + 1) a c

end PersistentMap

namespace PersistentList

variable {T : Type}

/-- One successful mutation of a list: a call of `insert`, `erase` or the
iterator's `setVal` that returns, with any iterator. -/
inductive Mutation [Inhabited T] (s s' : PersistentList T) : Prop
  | insert (ndebug : Bool) (pIter : Option PersistentListIterator) (val : T)
      (ret it' : PersistentListIterator) (h : s.insert ndebug pIter val = .ok (ret, it', s'))
  | erase (ndebug : Bool) (pIter : Option PersistentListIterator)
      (ret : PersistentListIterator) (h : s.erase ndebug pIter = .ok (ret, s'))
  | setVal (ndebug : Bool) (it : PersistentListIterator) (val : T)
      (h : it.setVal ndebug s val = .ok s')

/-- `Mutated k s s'`: `s'` comes from `s` by `k` successful mutations, with no
`undo` and no `redo` in between. -/
inductive Mutated [Inhabited T] : Nat → PersistentList T → PersistentList T → Prop
  | refl (s : PersistentList T) : Mutated 0 s s
  | step (k : Nat) (a b c : PersistentList T) (h : Mutated k a b) (hm : Mutation b c) :
      Mutated (k + 1) a c

/-- States of a list that the public interface produces: the constructor, then
successful mutations, as long as the counters fit in an `int`, and `undo` and
`redo`, the last two with a non-negative `int` as number of steps and, for
`redo`, a sum `m_version + numIter` that fits in an `int`. -/
inductive Reachable [Inhabited T] : PersistentList T → Prop
  | new : Reachable PersistentList.new
  | mutation (s s' : PersistentList T) (hs : Reachable s) (h : Mutation s s')
      (hfit : s'.m_lastVersion < 2147483648) : Reachable s'
  | undo (s : PersistentList T) (numIter : Int) (clearHistory : Bool)
      (hs : Reachable s) (hn : 0 ≤ numIter) (hi : numIter < 2147483648) :
      Reachable (s.undo numIter clearHistory)
  | redo (s : PersistentList T) (numIter : Int)
      (hs : Reachable s) (hn : 0 ≤ numIter)
      (hfit : s.m_version + numIter < 2147483648) : Reachable (s.redo numIter)

end PersistentList

/-! ## transaction.h -/

/-- An object behind a `PersistentBasePtr`: one of the three classes derived
from `PersistentBase`. -/
inductive Container (A K V L : Type) where
  | array (a : PersistentArray A)
  | map (m : PersistentMap K V)
  | list (s : PersistentList L)

namespace Container

variable {A K V L : Type}

/-- The virtual call `lastVersion()`. -/
def lastVersion : Container A K V L → Int
  | array a => a.lastVersion
  | map m => m.lastVersion
  | list s => s.lastVersion

/-- The virtual call `undo(numIter, clearHistory)`. -/
def undo (c : Container A K V L) (numIter : Int) (clearHistory : Bool) :
    Except Fault (Container A K V L) :=
  match c with
  | array a =>
    match a.undo numIter clearHistory with
    | .error e => .error e
    | .ok b => .ok (array b)
  | map m =>
    match m.undo numIter clearHistory with
    | .error e => .error e
    | .ok b => .ok (map b)
  | list s => .ok (list (s.undo numIter clearHistory))

end Container

/-- `Transaction`.  The containers are shared objects: they live in a store
addressed by natural numbers, a `PersistentBasePtr` is `Option Nat` (`none`
being `nullptr`) and `m_apContainers` holds addresses. -/
structure Transaction where
  m_apContainers : List Nat
  m_versions : List Int
  m_isSucceeded : Bool

namespace Transaction

variable {A K V L : Type}

/-- `Transaction::init(pContainer, pArgs...)`. -/
def init (store : Nat → Container A K V L) : List (Option Nat) → Transaction → Transaction
  | [], t => t
  | none :: pArgs, t => init store pArgs t
  | some p :: pArgs, t =>
    init store pArgs { t with m_apContainers := t.m_apContainers ++ [p]
                              m_versions := t.m_versions ++ [(store p).lastVersion] }

/-- `Transaction(pArgs...)`. -/
def new (store : Nat → Container A K V L) (pArgs : List (Option Nat)) : Transaction :=
  init store pArgs ⟨[], [], true⟩

/-- `Transaction::addContainer(pContainer)`. -/
def addContainer (t : Transaction) (store : Nat → Container A K V L)
    (pContainer : Option Nat) : Transaction :=
  match pContainer with
  | none => t
  | some p => { t with m_apContainers := t.m_apContainers ++ [p]
                       m_versions := t.m_versions ++ [(store p).lastVersion] }

/-- `Transaction::run(function, args...)`.  The call `function(args...)` is any
code: `function store` is the store it leaves and whether it raised.  The
result is the transaction, the store and the value returned. -/
def run (t : Transaction)
    (function : (Nat → Container A K V L) → (Nat → Container A K V L) × Bool)
    (store : Nat → Container A K V L) :
    Transaction × (Nat → Container A K V L) × Bool :=
  let r := function store
  if r.2 then ({ t with m_isSucceeded := false }, r.1, false) else (t, r.1, true)

/-- The loop of `~Transaction()`, over the entries still to visit:
`m_apContainers[i]->undo(m_apContainers[i]->lastVersion() - m_versions[i], true)`. -/
def rollback : List Nat → List Int → (Nat → Container A K V L) →
    Except Fault (Nat → Container A K V L)
  | _, [], store => .ok store
  | [], _ :: _, _ => .error .undefined
  | p :: ps, v :: vs, store =>
    match (store p).undo ((store p).lastVersion - v) true with
    | .error e => .error e
    | .ok c => rollback ps vs (Function.update store p c)

/-- `~Transaction()`: the store it leaves. -/
def destroy (t : Transaction) (store : Nat → Container A K V L) :
    Except Fault (Nat → Container A K V L) :=
  if !t.m_isSucceeded then rollback t.m_apContainers t.m_versions store else .ok store

end Transaction

namespace Container

variable {A K V L : Type}

/-- A registered array or map that was in a reachable state on its last
version when the transaction was built (`c`) and has since been changed by
successful mutations only (`c'`); a list is only asked to be a list still. -/
def Entered [Inhabited A] [LinearOrder K] (c c' : Container A K V L) : Prop :=
  match c with
  | array a => a.Reachable ∧ a.m_curVersion = a.m_lastVersion ∧
      ∃ a' k, c' = array a' ∧ a.Mutated k a'
  | map m => m.Reachable ∧ m.m_curVersion = m.m_lastVersion ∧
      ∃ m' k, c' = map m' ∧ m.Mutated k m'
  | list _ => ∃ s', c' = list s'

/-- An array or a map is back in its state `c`; of a list nothing is said but
that it is a list. -/
def Restored (c c'' : Container A K V L) : Prop :=
  match c with
  | array _ => c'' = c
  | map _ => c'' = c
  | list _ => ∃ s'', c'' = list s''

end Container

/-! ## Concrete states used as test inputs -/

namespace Example

/-- The array `PersistentArray<int>(3)` when the shuffle leaves `2, 1`. -/
def array3 : PersistentArray Int :=
  ⟨3, 0, 0, [⟨3, .mk 0 0 .null (.mk 2 0 (.mk 1 0 .null .null) .null)⟩]⟩

/-- A source of priorities: every call of `rand()` returns 0. -/
def rnd0 : Nat → Int := fun _ => 0

/-- The map `PersistentMap<int, int>` after `insert(10, 1)`. -/
def map1 : PersistentMap Int Int :=
  ⟨[⟨.null⟩, ⟨.mk 10 1 0 .null .null⟩], 1, 1⟩

/-- The map after `insert(1, 10); setValue(1, 20); undo(1)`: three stored
versions, the cursor on the second. -/
def map2 : PersistentMap Int Int :=
  ⟨[⟨.null⟩, ⟨.mk 1 10 0 .null .null⟩, ⟨.mk 1 20 0 .null .null⟩], 2, 1⟩

/-- The list `[1, 2, 3]` built by `insert(end, 1); insert(end, 3)` and then
`insert(it, 2)` with `it` on the element 3. -/
def list123 : Except Fault (PersistentList Int) := do
  let s ← PersistentList.new.insertAt true 0 1
  let s ← s.insertAt true 1 3
  s.insertAt true 1 2

/-- The list `[1, 2, 3]` built by appending 1, 2 and 3 in turn. -/
def list123b : Except Fault (PersistentList Int) := do
  let s ← PersistentList.new.insertAt true 0 1
  let s ← s.insertAt true 1 2
  s.insertAt true 2 3

/-- The list of a run that returned, the empty list otherwise. -/
def stateOf (r : Except Fault (PersistentList Int)) : PersistentList Int :=
  match r with
  | .ok s => s
  | .error _ => PersistentList.new

/-- The list `[1]`: `insert(begin(), 1)` on the empty list. -/
def list1 : PersistentList Int := stateOf (PersistentList.new.insertAt true 0 1)

/-- The list `[1, 2]`: `list1` after `insert(it, 2)` with `it` on the sentinel. -/
def list12 : PersistentList Int := stateOf (list1.insertAt true 1 2)

/-- The empty list after `it = end(); insert(it, 1); it = begin(); erase(it)`. -/
def erasedOnce (ndebug : Bool) : Except Fault (PersistentList Int) := do
  let s : PersistentList Int := PersistentList.new
  let e ← s.end
  let r ← s.insert ndebug (some e) 1
  let b ← r.2.2.begin
  let r ← r.2.2.erase ndebug (some b)
  return r.2

/-- The array of size 3 after `setValue(0, 5); setValue(1, 7); undo(1)`: three
stored versions, the cursor on the second. -/
def array3b : PersistentArray Int :=
  ⟨3, 2, 1, [⟨3, .mk 0 0 .null (.mk 2 0 (.mk 1 0 .null .null) .null)⟩,
    ⟨3, .mk 0 5 .null (.mk 2 0 (.mk 1 0 .null .null) .null)⟩,
    ⟨3, .mk 0 5 .null (.mk 2 0 (.mk 1 7 .null .null) .null)⟩]⟩

/-- The list after `it = begin(); insert(it, 1); insert(it, 2)`: the first
call leaves `it` on the sentinel, so the list is `[1, 2]`. -/
def twoItems (ndebug : Bool) : Except Fault (PersistentList Int) := do
  let s : PersistentList Int := PersistentList.new
  let it ← s.begin
  let r ← s.insert ndebug (some it) 1
  let r ← r.2.2.insert ndebug (some r.2.1) 2
  return r.2.2

/-- The list `twoItems` after `it = begin(); erase(it)`. -/
def headErased (ndebug : Bool) : Except Fault (PersistentList Int) := do
  let s ← twoItems ndebug
  let it ← s.begin
  let r ← s.erase ndebug (some it)
  return r.2

/-- Scenario S4: `it = begin(); insert(it, 3); insert(it, 2); insert(it, 1)`,
each call rebinding `it`. -/
def scenarioS4 (ndebug : Bool) : Except Fault (PersistentList Int) := do
  let s : PersistentList Int := PersistentList.new
  let it ← s.begin
  let r ← s.insert ndebug (some it) 3
  let r ← r.2.2.insert ndebug (some r.2.1) 2
  let r ← r.2.2.insert ndebug (some r.2.1) 1
  return r.2.2

/-- The list `twoItems` after `it = begin(); it->next(); erase(it); undo(1);
it = begin(); erase(it)`: the second element is erased, the erase is undone
and then the first element is erased. -/
def reErased (ndebug : Bool) : Except Fault (PersistentList Int) := do
  let s ← twoItems ndebug
  let it ← s.begin
  let it ← it.next ndebug s
  let r ← s.erase ndebug (some it)
  let s := r.2.undo 1 false
  let it ← s.begin
  let r ← s.erase ndebug (some it)
  return r.2

/-- On a list: `it = begin(); it->next(); new_it = insert(it, 77);
erase(new_it)`. -/
def insertErase (ndebug : Bool) (s : PersistentList Int) : Except Fault (PersistentList Int) := do
  let it ← s.begin
  let it ← it.next ndebug s
  let r ← s.insert ndebug (some it) 77
  let r ← r.2.2.erase ndebug (some r.1)
  return r.2

/-- An action of a transaction on the array at address 0: `setValue(2, 9)`,
then an exception. -/
def writeAndRaise (store : Nat → Container Int Int Int Int) :
    (Nat → Container Int Int Int Int) × Bool :=
  match store 0 with
  | .array a =>
    match a.setValue true 2 9 with
    | .ok b => (Function.update store 0 (.array b), true)
    | .error _ => (store, true)
  | _ => (store, true)

/-- The list `list1` after `undo(1)`: the cursor on version 0, the last
version 1. -/
def list1u : PersistentList Int := list1.undo 1 false

/-- The list `list1u` after `insert(begin(), 5)`. -/
def list1v : PersistentList Int := stateOf (list1u.insertAt true 0 5)

/-- The array `array3b` after `setValue(2, 9)`. -/
def array3c : PersistentArray Int :=
  ⟨3, 2, 2, [⟨3, .mk 0 0 .null (.mk 2 0 (.mk 1 0 .null .null) .null)⟩,
    ⟨3, .mk 0 5 .null (.mk 2 0 (.mk 1 0 .null .null) .null)⟩,
    ⟨3, .mk 0 5 .null (.mk 2 9 (.mk 1 0 .null .null) .null)⟩]⟩

/-- The map `map2` after `setValue(1, 30)`. -/
def map2b : PersistentMap Int Int :=
  ⟨[⟨.null⟩, ⟨.mk 1 10 0 .null .null⟩, ⟨.mk 1 30 0 .null .null⟩], 2, 2⟩

/-- The store of the counterexample: the array `array3b` at every address. -/
def storeB : Nat → Container Int Int Int Int := fun _ => .array array3b

/-- The store of the witness: the array `array3` at address 0, the map `map1`
at address 1, the list `list1` elsewhere. -/
def store3 : Nat → Container Int Int Int Int := fun p =>
  if p = 0 then .array array3 else if p = 1 then .map map1 else .list list1

/-- An action on a store: `setValue(0, 5)` on an array at address 0,
`setValue(10, 2)` on a map at address 1, `undo(1)` on a list at address 2, then
an exception. -/
def action3 (store : Nat → Container Int Int Int Int) :
    (Nat → Container Int Int Int Int) × Bool :=
  let c₀ : Container Int Int Int Int :=
    match store 0 with
    | .array a =>
      match a.setValue true 0 5 with
      | .ok b => .array b
      | .error _ => store 0
    | c => c
  let c₁ : Container Int Int Int Int :=
    match store 1 with
    | .map m =>
      match m.setValue rnd0 10 2 with
      | .ok b => .map b
      | .error _ => store 1
    | c => c
  let c₂ : Container Int Int Int Int :=
    match store 2 with
    | .list s => .list (s.undo 1 false)
    | c => c
  (fun p => if p = 0 then c₀ else if p = 1 then c₁ else if p = 2 then c₂ else store p, true)

/-- A store with the treap `treap2`: its root at address 1, the right child of
the root at address 0. -/
def treapMem : List (TreapCell Int Int) :=
  [⟨20, 3, none, none, 2⟩, ⟨10, 5, none, some 0, 1⟩]

/-- The treap with `(10, 1)`, priority 5, at the root and `(20, 2)`, priority
3, as its right child. -/
def treap2 : TreapNode Int Int := .mk 10 1 5 .null (.mk 20 2 3 .null .null)

/-- The map after `insert(1, 10)`, `rand()` giving 5, and `insert(2, 20)`,
`rand()` giving 3: the second key hangs to the right of the first. -/
def map12 : PersistentMap Int Int :=
  ⟨[⟨.null⟩, ⟨.mk 1 10 5 .null .null⟩, ⟨.mk 1 10 5 .null (.mk 2 20 3 .null .null)⟩], 2, 2⟩

/-- The map `map12` after `setValue(2, 21)`, `rand()` giving 1. -/
def map12b : PersistentMap Int Int :=
  ⟨[⟨.null⟩, ⟨.mk 1 10 5 .null .null⟩, ⟨.mk 1 10 5 .null (.mk 2 20 3 .null .null)⟩,
    ⟨.mk 1 10 1 .null (.mk 2 21 3 .null .null)⟩], 3, 3⟩

/-- The iterator `end()` moved `j` times by `prev()`. -/
def fromEnd (ndebug : Bool) (s : PersistentList Int) :
    Nat → Except Fault PersistentListIterator
  | 0 => s.end
  | j + 1 => do
    let it ← fromEnd ndebug s j
    it.prev ndebug s

/-- A list built by `insert` and `erase` with iterators taken from `end()`
and `begin()`: `insert(end(), 1); insert(end(), 2); insert(end(), 3)`, then
`insert(end() - 1, 7)`, `erase(end() - 1)`, `insert(begin() + 3, 9)`,
`erase(end() - 4)` and `insert(end() - 3, 11)`, where `end() - j` is `end()`
moved `j` times by `prev()` and `begin() + p` is `begin()` moved `p` times by
`next()`. -/
def builtFromEnd (ndebug : Bool) : Except Fault (PersistentList Int) := do
  let s : PersistentList Int := PersistentList.new
  let it ← fromEnd ndebug s 0
  let r ← s.insert ndebug (some it) 1
  let it ← fromEnd ndebug r.2.2 0
  let r ← r.2.2.insert ndebug (some it) 2
  let it ← fromEnd ndebug r.2.2 0
  let r ← r.2.2.insert ndebug (some it) 3
  let it ← fromEnd ndebug r.2.2 1
  let r ← r.2.2.insert ndebug (some it) 7
  let it ← fromEnd ndebug r.2.2 1
  let r ← r.2.2.erase ndebug (some it)
  let it ← r.2.iterAt ndebug 3
  let r ← r.2.insert ndebug (some it) 9
  let it ← fromEnd ndebug r.2.2 4
  let r ← r.2.2.erase ndebug (some it)
  let it ← fromEnd ndebug r.2 3
  let r ← r.2.insert ndebug (some it) 11
  return r.2.2

end Example

/-! ## Lemmas on the index tree -/

namespace Node

variable {T : Type}

theorem isNull_iff (t : Node T) : t.isNull = true ↔ t = null := by
  cases t <;> simp [isNull]

theorem keys_create_perm [Inhabited T] (t : Node T) (k : Int) :
    (keys (create t k)).Perm (k :: keys t) := by
  induction t with
  | null => simp [create, keys]
  | mk i x l r ihl ihr =>
    unfold create
    split
    · simp only [keys]
      exact List.Perm.append_right _ ihl
    · simp only [keys]
      exact ((List.Perm.append_left _ (List.Perm.cons _ ihr)).trans
        (List.Perm.append_left _ (List.Perm.swap _ _ _))).trans List.perm_middle

theorem mem_keys_create [Inhabited T] (t : Node T) (k j : Int) :
    j ∈ keys (create t k) ↔ j = k ∨ j ∈ keys t := by
  rw [(keys_create_perm t k).mem_iff]; simp

theorem BST_create [Inhabited T] (t : Node T) (k : Int) (h : BST t) (hk : k ∉ keys t) :
    BST (create t k) := by
  induction t with
  | null => simp [create, BST, keys]
  | mk i x l r ihl ihr =>
    obtain ⟨hl, hr, bl, br⟩ := h
    simp only [keys, List.mem_append, List.mem_cons, not_or] at hk
    obtain ⟨hkl, hki, hkr⟩ := hk
    unfold create
    split
    · rename_i hlt
      refine ⟨?_, hr, ihl bl hkl, br⟩
      intro j hj
      rcases (mem_keys_create l k j).1 hj with rfl | hj
      · exact hlt
      · exact hl j hj
    · rename_i hge
      refine ⟨hl, ?_, bl, ihr br hkr⟩
      intro j hj
      rcases (mem_keys_create r k j).1 hj with rfl | hj
      · omega
      · exact hr j hj

theorem values_create [Inhabited T] (t : Node T) (k : Int)
    (h : ∀ x ∈ values t, x = default) : ∀ x ∈ values (create t k), x = default := by
  induction t with
  | null => simp [create, values]
  | mk i x l r ihl ihr =>
    simp only [values, List.mem_append, List.mem_cons] at h
    unfold create
    split <;> simp only [values, List.mem_append, List.mem_cons]
    · intro y hy
      rcases hy with hy | rfl | hy
      · exact ihl (fun z hz => h z (Or.inl hz)) y hy
      · exact h _ (Or.inr (Or.inl rfl))
      · exact h y (Or.inr (Or.inr hy))
    · intro y hy
      rcases hy with hy | rfl | hy
      · exact h y (Or.inl hy)
      · exact h _ (Or.inr (Or.inl rfl))
      · exact ihr (fun z hz => h z (Or.inr (Or.inr hz))) y hy

theorem BST_keys_sorted (t : Node T) (h : BST t) : (keys t).Sorted (· < ·) := by
  induction t with
  | null => simp [keys]
  | mk i x l r ihl ihr =>
    obtain ⟨hl, hr, bl, br⟩ := h
    simp only [keys, List.Sorted]
    rw [List.pairwise_append]
    refine ⟨ihl bl, ?_, ?_⟩
    · rw [List.pairwise_cons]
      exact ⟨hr, ihr br⟩
    · intro a ha b hb
      rcases List.mem_cons.1 hb with rfl | hb
      · exact hl a ha
      · exact lt_trans (hl a ha) (hr b hb)

theorem reaches_of_mem (t : Node T) (h : BST t) (i : Int) (hi : i ∈ keys t) :
    reaches t i = true := by
  induction t with
  | null => simp [keys] at hi
  | mk k x l r ihl ihr =>
    obtain ⟨hl, hr, bl, br⟩ := h
    simp only [keys, List.mem_append, List.mem_cons] at hi
    unfold reaches
    split
    · rfl
    · rename_i hne
      split
      · rename_i hlt
        rcases hi with hi | hi | hi
        · exact ihl bl hi
        · exact absurd hi hne
        · have := hr i hi; omega
      · rename_i hge
        rcases hi with hi | hi | hi
        · have := hl i hi; omega
        · exact absurd hi hne
        · exact ihr br hi

theorem getValue_mem_values [Zero T] (t : Node T) (i : Int) (h : reaches t i = true) :
    getValue t i ∈ values t := by
  induction t with
  | null => simp [reaches] at h
  | mk k x l r ihl ihr =>
    unfold reaches at h
    unfold getValue
    simp only [values, List.mem_append, List.mem_cons]
    split
    · exact Or.inr (Or.inl rfl)
    · rename_i hne
      rw [if_neg hne] at h
      split
      · rename_i hlt
        rw [if_pos hlt] at h
        exact Or.inl (ihl h)
      · rename_i hge
        rw [if_neg hge] at h
        exact Or.inr (Or.inr (ihr h))

theorem setValue_spec [Zero T] (t : Node T) (i : Int) (v : T) (h : reaches t i = true) :
    (setValue t i v).isNull = false ∧ getValue (setValue t i v) i = v ∧
    (∀ j, j ≠ i → getValue (setValue t i v) j = getValue t j) ∧
    (∀ j, reaches (setValue t i v) j = reaches t j) ∧
    keys (setValue t i v) = keys t := by
  induction t with
  | null => simp [reaches] at h
  | mk k x l r ihl ihr =>
    unfold reaches at h
    unfold setValue
    by_cases hik : i = k
    · subst hik
      refine ⟨by simp [isNull], by simp [getValue], ?_, ?_, by simp [keys]⟩
      · intro j hj
        simp [getValue, hj]
      · intro j
        simp [reaches]
    · rw [if_neg hik] at h ⊢
      by_cases hlt : i < k
      · rw [if_pos hlt] at h ⊢
        obtain ⟨h1, h2, h3, h4, h5⟩ := ihl h
        simp only [h1, Bool.false_eq_true, if_false]
        refine ⟨rfl, ?_, ?_, ?_, ?_⟩
        · simp [getValue, hik, hlt, h2]
        · intro j hj
          simp only [getValue]
          split
          · rfl
          · split
            · exact h3 j hj
            · rfl
        · intro j
          simp only [reaches, h4]
        · simp [keys, h5]
      · rw [if_neg hlt] at h ⊢
        obtain ⟨h1, h2, h3, h4, h5⟩ := ihr h
        simp only [h1, Bool.false_eq_true, if_false]
        refine ⟨rfl, ?_, ?_, ?_, ?_⟩
        · simp [getValue, hik, hlt, h2]
        · intro j hj
          simp only [getValue]
          split
          · rfl
          · split
            · rfl
            · exact h3 j hj
        · intro j
          simp only [reaches, h4]
        · simp [keys, h5]

theorem foldl_create_spec [Inhabited T] (L : List Int) :
    ∀ t : Node T, BST t → L.Nodup → (∀ k ∈ L, k ∉ keys t) →
      (∀ x ∈ values t, x = default) →
      BST (L.foldl create t) ∧ (keys (L.foldl create t)).Perm (keys t ++ L) ∧
      ∀ x ∈ values (L.foldl create t), x = default := by
  induction L with
  | nil => intro t h _ _ hv; simpa using ⟨h, hv⟩
  | cons k L ih =>
    intro t h hnd hk hv
    rw [List.nodup_cons] at hnd
    have hkt : k ∉ keys t := hk k (List.mem_cons_self _ _)
    have hL : ∀ j ∈ L, j ∉ keys (create t k) := by
      intro j hj hmem
      rcases (mem_keys_create t k j).1 hmem with rfl | hmem
      · exact hnd.1 hj
      · exact hk j (List.mem_cons_of_mem _ hj) hmem
    obtain ⟨h1, h2, h3⟩ := ih (create t k) (BST_create t k h hkt) hnd.2 hL
      (values_create t k hv)
    refine ⟨h1, ?_, h3⟩
    simp only [List.foldl_cons]
    refine h2.trans ?_
    refine ((keys_create_perm t k).append_right L).trans ?_
    simpa using (@List.perm_middle _ k (keys t) L).symm

theorem setValue_spec_reaches (t : Node T) (i : Int) (v : T) (h : reaches t i = true) :
    (setValue t i v).isNull = false ∧ ∀ j, reaches (setValue t i v) j = reaches t j := by
  induction t with
  | null => simp [reaches] at h
  | mk k x l r ihl ihr =>
    unfold reaches at h
    unfold setValue
    by_cases hik : i = k
    · subst hik
      exact ⟨by simp [isNull], fun j => by simp [reaches]⟩
    · rw [if_neg hik] at h ⊢
      by_cases hlt : i < k
      · rw [if_pos hlt] at h ⊢
        obtain ⟨h1, h4⟩ := ihl h
        simp only [h1, Bool.false_eq_true, if_false]
        exact ⟨rfl, fun j => by simp only [reaches, h4]⟩
      · rw [if_neg hlt] at h ⊢
        obtain ⟨h1, h4⟩ := ihr h
        simp only [h1, Bool.false_eq_true, if_false]
        exact ⟨rfl, fun j => by simp only [reaches, h4]⟩

end Node

namespace PersistentArrayVersion

variable {T : Type}

theorem zero_cons_iota (n : Int) (hn : 1 ≤ n) :
    (0 : Int) :: iota n = (List.range n.toNat).map (fun j : Nat => (j : Int)) := by
  obtain ⟨m, rfl⟩ : ∃ m : Nat, n = (m : Int) + 1 := ⟨(n - 1).toNat, by omega⟩
  have h1 : ((m : Int) + 1 - 1).toNat = m := by omega
  have h2 : ((m : Int) + 1).toNat = m + 1 := by omega
  rw [iota, h1, h2, List.range_succ_eq_map]
  simp [List.map_map, Function.comp_def]

theorem sorted_range_cast (m : Nat) :
    ((List.range m).map (fun j : Nat => (j : Int))).Sorted (· < ·) := by
  rw [List.Sorted, List.pairwise_map]
  exact (List.pairwise_lt_range m).imp (fun h => by exact_mod_cast h)

theorem new_spec [Inhabited T] (n : Int) (aIndexes : List Int) (hn : 1 ≤ n)
    (hperm : aIndexes.Perm (iota n)) :
    ∃ ver : PersistentArrayVersion T, new n aIndexes = .ok ver ∧ ver.m_size = n ∧
      ver.m_pRoot.BST ∧
      ver.m_pRoot.keys = (List.range n.toNat).map (fun j : Nat => (j : Int)) ∧
      (∀ x ∈ ver.m_pRoot.values, x = default) := by
  have hnd : (iota n).Nodup := by
    have := (sorted_range_cast n.toNat).nodup
    rw [← zero_cons_iota n hn, List.nodup_cons] at this
    exact this.2
  have h0 : (0 : Int) ∉ iota n := by
    have := (sorted_range_cast n.toNat).nodup
    rw [← zero_cons_iota n hn, List.nodup_cons] at this
    exact this.1
  obtain ⟨h1, h2, h3⟩ := Node.foldl_create_spec aIndexes
    (Node.mk 0 (default : T) .null .null) (by simp [Node.BST, Node.keys])
    (hperm.nodup_iff.2 hnd)
    (by
      intro k hk
      simp only [Node.keys, List.nil_append, List.mem_singleton]
      rintro rfl
      exact h0 (hperm.mem_iff.1 hk))
    (by simp [Node.values])
  refine ⟨⟨n, aIndexes.foldl Node.create (Node.mk 0 default .null .null)⟩, ?_, rfl, h1, ?_, h3⟩
  · simp [new, not_lt.2 hn]
  · apply List.eq_of_perm_of_sorted _ (Node.BST_keys_sorted _ h1) (sorted_range_cast _)
    rw [← zero_cons_iota n hn]
    refine h2.trans ?_
    simpa [Node.keys] using hperm

end PersistentArrayVersion

theorem popVersions_eq {α : Type} (n : Nat) :
    ∀ v : List α, n ≤ v.length → popVersions n v = .ok (v.take (v.length - n)) := by
  induction n with
  | zero => intro v _; simp [popVersions]
  | succ n ih =>
    intro v h
    have hne : v.isEmpty = false := by
      cases v with
      | nil => simp at h
      | cons _ _ => rfl
    rw [popVersions, hne]
    simp only [Bool.false_eq_true, if_false]
    rw [ih v.dropLast (by simp; omega), List.dropLast_eq_take, List.take_take]
    congr 2
    simp
    omega

theorem vecAt_eq {α : Type} (v : List α) (i : Nat) (h : i < v.length) :
    vecAt v (i : Int) = .ok v[i] := by
  simp [vecAt, List.getElem?_eq_getElem h]

/-! ## Lemmas on the version vector -/

theorem wrapInt_eq (x : Int) (h1 : -2147483648 ≤ x) (h2 : x < 2147483648) : wrapInt x = x := by
  unfold wrapInt
  omega

theorem vecAt_eq_ok_iff {α : Type} (v : List α) (i : Int) (a : α) :
    vecAt v i = .ok a ↔ 0 ≤ i ∧ v[i.toNat]? = some a := by
  unfold vecAt
  by_cases h : i < 0
  · simp [h]
  · simp only [h, if_false]
    cases hv : v[i.toNat]? with
    | none => simp
    | some b =>
      simp only [Except.ok.injEq, Option.some.injEq]
      constructor
      · intro hb; exact ⟨by omega, hb⟩
      · intro hb; exact hb.2

theorem vecAt_of_lt {α : Type} (v : List α) (i : Int) (h0 : 0 ≤ i) (h : i < v.length) :
    ∃ a, v[i.toNat]? = some a ∧ vecAt v i = .ok a := by
  have hlt : i.toNat < v.length := by omega
  exact ⟨v[i.toNat], List.getElem?_eq_getElem hlt,
    (vecAt_eq_ok_iff v i _).2 ⟨h0, List.getElem?_eq_getElem hlt⟩⟩

theorem popVersions_chain {α : Type} (v : List α) (cur last : Int) (h0 : 0 ≤ cur)
    (hle : cur ≤ last) (hlen : (v.length : Int) = last + 1) :
    popVersions (last - cur).toNat v = .ok (v.take (cur.toNat + 1)) := by
  rw [popVersions_eq _ _ (by omega)]
  congr 2
  omega

theorem vecBack_take {α : Type} (v : List α) (c : Nat) (a : α) (h : v[c]? = some a) :
    vecBack (v.take (c + 1)) = .ok a := by
  have hlt : c < v.length := by
    by_contra hge
    rw [List.getElem?_eq_none (by omega)] at h
    exact absurd h (by simp)
  have h1 : (v.take (c + 1)).getLast? = some a := by
    rw [List.getLast?_eq_getElem?, List.length_take, List.getElem?_take]
    have : min (c + 1) v.length - 1 = c := by omega
    rw [this]
    simp [h]
  simp [vecBack, h1]

theorem vecAt_snoc {α : Type} (v : List α) (c : Int) (x : α) (h0 : 0 ≤ c)
    (hlt : c < v.length) : vecAt (v.take (c.toNat + 1) ++ [x]) (c + 1) = .ok x := by
  rw [vecAt_eq_ok_iff]
  refine ⟨by omega, ?_⟩
  have hl : (v.take (c.toNat + 1)).length = (c + 1).toNat := by
    rw [List.length_take]; omega
  rw [List.getElem?_append_right (by omega), hl]
  simp

theorem getElem?_snoc_of_le {α : Type} (v : List α) (c k : Nat) (x : α) (hk : k ≤ c)
    (hc : c < v.length) : (v.take (c + 1) ++ [x])[k]? = v[k]? := by
  rw [List.getElem?_append_left (by rw [List.length_take]; omega), List.getElem?_take]
  simp
  omega

theorem vecAt_congr {α : Type} (v w : List α) (i : Int) (h : v[i.toNat]? = w[i.toNat]?) :
    vecAt v i = vecAt w i := by
  unfold vecAt
  rw [h]

theorem getElem?_undo_chain {α : Type} (v : List α) (c k : Nat) (x : α) (clear : Bool)
    (hk : k ≤ c) (hc : c < v.length) :
    (if clear then (v.take (c + 1) ++ [x]).take (c + 1) else v.take (c + 1) ++ [x])[k]? =
      v[k]? := by
  cases clear
  · simp only [Bool.false_eq_true, if_false]
    exact getElem?_snoc_of_le v c k x hk hc
  · simp only [if_true]
    rw [List.getElem?_take, if_pos (by omega)]
    exact getElem?_snoc_of_le v c k x hk hc

/-! ## The array: invariant and reads after writes -/

namespace PersistentArray

variable {T : Type}

theorem setValue_eq (ndebug : Bool) (a : PersistentArray T) (hw : a.WF) (i : Int) (v : T)
    (h0 : 0 ≤ i) (hi : i < a.m_size) :
    ∃ ver, a.m_versions[a.m_curVersion.toNat]? = some ver ∧
      a.setValue ndebug i v = .ok
        { a with m_versions := a.m_versions.take (a.m_curVersion.toNat + 1) ++ [ver.setValue i v]
                 m_curVersion := a.m_curVersion + 1
                 m_lastVersion := a.m_curVersion + 1 } := by
  obtain ⟨ver, hv, hat⟩ := vecAt_of_lt a.m_versions a.m_curVersion hw.cur_nonneg
    (by have := hw.length_eq; have := hw.cur_le; omega)
  refine ⟨ver, hv, ?_⟩
  unfold setValue
  rw [if_neg (by omega), hat]
  simp only
  rw [popVersions_chain _ _ _ hw.cur_nonneg hw.cur_le hw.length_eq]

theorem getValue_eq [Zero T] (ndebug : Bool) (a : PersistentArray T) (hw : a.WF) (i : Int)
    (h0 : 0 ≤ i) (hi : i < a.m_size) :
    ∃ ver, a.m_versions[a.m_curVersion.toNat]? = some ver ∧
      a.getValue ndebug i = .ok (ver.m_pRoot.getValue i) := by
  obtain ⟨ver, hv, hat⟩ := vecAt_of_lt a.m_versions a.m_curVersion hw.cur_nonneg
    (by have := hw.length_eq; have := hw.cur_le; omega)
  refine ⟨ver, hv, ?_⟩
  unfold getValue
  rw [if_neg (by omega), hat]
  rfl

theorem WF_new [Inhabited T] (size : Int) (aIndexes : List Int) (a : PersistentArray T)
    (hperm : aIndexes.Perm (PersistentArrayVersion.iota size))
    (h : PersistentArray.new size aIndexes = .ok a) : a.WF ∧ 1 ≤ a.m_size := by
  unfold PersistentArray.new at h
  by_cases hs : size < 1
  · simp [PersistentArrayVersion.new, hs] at h
  · obtain ⟨ver, hnew, _, hbst, hkeys, _⟩ :=
      PersistentArrayVersion.new_spec (T := T) size aIndexes (by omega) hperm
    rw [hnew] at h
    simp only [Except.ok.injEq] at h
    subst h
    refine ⟨⟨le_refl _, le_refl _, by simp, ?_⟩, by simpa using hs⟩
    intro w hw i h0 hi
    simp only [List.mem_singleton] at hw
    subst hw
    have hi' : i < size := hi
    apply Node.reaches_of_mem _ hbst
    rw [hkeys, List.mem_map]
    exact ⟨i.toNat, List.mem_range.2 (by omega), by omega⟩

theorem WF_setValue (ndebug : Bool) (a b : PersistentArray T) (hw : a.WF) (i : Int) (v : T)
    (h : a.setValue ndebug i v = .ok b) : b.WF ∧ b.m_size = a.m_size := by
  by_cases hi : i < 0 ∨ i ≥ a.m_size
  · unfold setValue at h
    rw [if_pos hi] at h
    cases ndebug <;> simp at h
    subst h
    exact ⟨hw, rfl⟩
  · have h0 : 0 ≤ i := by omega
    have h1 : i < a.m_size := by omega
    obtain ⟨ver, hv, heq⟩ := setValue_eq ndebug a hw i v h0 h1
    rw [heq] at h
    simp only [Except.ok.injEq] at h
    subst h
    have hlen := hw.length_eq
    have hcl := hw.cur_le
    have hc0 := hw.cur_nonneg
    refine ⟨⟨?_, ?_, ?_, ?_⟩, rfl⟩
    · simp only; omega
    · simp only; omega
    · simp only [List.length_append, List.length_take, List.length_singleton]
      omega
    · intro w hwm j hj0 hj
      simp only [List.mem_append, List.mem_singleton] at hwm
      rcases hwm with hwm | rfl
      · exact hw.covers w (List.mem_of_mem_take hwm) j hj0 hj
      · have hmem : ver ∈ a.m_versions := List.getElem?_mem hv
        simp only [PersistentArrayVersion.setValue]
        have hr := Node.setValue_spec_reaches ver.m_pRoot i v (hw.covers ver hmem i h0 h1)
        rw [hr.2 j]
        exact hw.covers ver hmem j hj0 hj

theorem undo_eq (a : PersistentArray T) (hw : a.WF) (n : Int) (hn : 0 ≤ n)
    (hlo : -2147483648 ≤ a.m_curVersion - n) (hhi : a.m_curVersion - n < 2147483648)
    (c : Bool) :
    a.undo n c = .ok
      { a with m_curVersion := max 0 (a.m_curVersion - n)
               m_versions := if c then a.m_versions.take ((max 0 (a.m_curVersion - n)).toNat + 1)
                             else a.m_versions
               m_lastVersion := if c then max 0 (a.m_curVersion - n) else a.m_lastVersion } := by
  have hlen := hw.length_eq
  have hcl := hw.cur_le
  have hc0 := hw.cur_nonneg
  unfold undo
  rw [wrapInt_eq _ hlo hhi]
  cases c
  · simp
  · simp only [if_true]
    rw [popVersions_chain _ _ _ (le_max_left _ _) (by omega) hlen]
    simp only [Except.ok.injEq]
    congr 1
    omega

theorem WF_undo (a b : PersistentArray T) (hw : a.WF) (n : Int) (hn : 0 ≤ n)
    (hi : n < 2147483648) (hfit : a.m_lastVersion < 2147483648) (c : Bool)
    (h : a.undo n c = .ok b) :
    b.WF ∧ b.m_size = a.m_size ∧ b.m_lastVersion < 2147483648 := by
  rw [undo_eq a hw n hn (by have := hw.cur_nonneg; omega)
    (by have := hw.cur_le; omega) c] at h
  simp only [Except.ok.injEq] at h
  subst h
  have hlen := hw.length_eq
  have hcl := hw.cur_le
  have hc0 := hw.cur_nonneg
  refine ⟨⟨le_max_left _ _, ?_, ?_, ?_⟩, rfl, ?_⟩
  · cases c <;> simp only [if_true, Bool.false_eq_true, if_false]
    · omega
    · exact le_refl _
  · cases c <;> simp only [if_true, Bool.false_eq_true, if_false]
    · exact hlen
    · rw [List.length_take]; omega
  · intro w hwm
    cases c <;> simp only [if_true, Bool.false_eq_true, if_false] at hwm
    · exact hw.covers w hwm
    · exact hw.covers w (List.mem_of_mem_take hwm)
  · cases c <;> simp only [if_true, Bool.false_eq_true, if_false]
    · exact hfit
    · omega

theorem redo_eq (a : PersistentArray T) (n : Int) (h0 : -2147483648 ≤ a.m_curVersion + n)
    (hfit : a.m_curVersion + n < 2147483648) :
    a.redo n = { a with m_curVersion := min a.m_lastVersion (a.m_curVersion + n) } := by
  unfold redo
  rw [wrapInt_eq _ h0 hfit]

theorem WF_redo (a : PersistentArray T) (hw : a.WF) (n : Int) (hn : 0 ≤ n)
    (hfit : a.m_curVersion + n < 2147483648) :
    (a.redo n).WF ∧ (a.redo n).m_size = a.m_size ∧
      (a.redo n).m_lastVersion = a.m_lastVersion := by
  have hlen := hw.length_eq
  have hcl := hw.cur_le
  have hc0 := hw.cur_nonneg
  rw [redo_eq a n (by omega) hfit]
  refine ⟨⟨?_, ?_, hlen, hw.covers⟩, rfl, rfl⟩
  · simp only; omega
  · simp only; omega

theorem Reachable.wf_fits [Inhabited T] {a : PersistentArray T} (h : Reachable a) :
    (a.WF ∧ 1 ≤ a.m_size) ∧ a.m_lastVersion < 2147483648 := by
  induction h with
  | new size aIndexes a hperm h =>
    refine ⟨WF_new size aIndexes a hperm h, ?_⟩
    unfold PersistentArray.new at h
    split at h
    · simp at h
    · simp only [Except.ok.injEq] at h
      subst h
      show (0 : Int) < 2147483648
      decide
  | setValue ndebug a b index value _ h hfit ih =>
    have := WF_setValue ndebug a b ih.1.1 index value h
    exact ⟨⟨this.1, by rw [this.2]; exact ih.1.2⟩, hfit⟩
  | undo a b n c _ hn hi h ih =>
    have := WF_undo a b ih.1.1 n hn hi ih.2 c h
    exact ⟨⟨this.1, by rw [this.2.1]; exact ih.1.2⟩, this.2.2⟩
  | redo a n _ hn hfit ih =>
    have := WF_redo a ih.1.1 n hn hfit
    exact ⟨⟨this.1, by rw [this.2.1]; exact ih.1.2⟩, by rw [this.2.2]; exact ih.2⟩

theorem Reachable.wf [Inhabited T] {a : PersistentArray T} (h : Reachable a) :
    a.WF ∧ 1 ≤ a.m_size := h.wf_fits.1

/-- The counters of a reachable array fit in an `int`. -/
theorem Reachable.fits [Inhabited T] {a : PersistentArray T} (h : Reachable a) :
    a.m_lastVersion < 2147483648 := h.wf_fits.2

end PersistentArray

/-! ## Lemmas on the treap -/

namespace TreapNode

variable {K V : Type}

theorem isNull_eq_true_iff (t : TreapNode K V) : t.isNull = true ↔ t = null := by
  cases t <;> simp [isNull]

theorem isNull_null : (null : TreapNode K V).isNull = true := rfl

theorem isNull_mk (k : K) (v : V) (p : Int) (l r : TreapNode K V) :
    (mk k v p l r).isNull = false := rfl

theorem keys_eq_map_toList (t : TreapNode K V) : keys t = (toList t).map Prod.fst := by
  induction t with
  | null => rfl
  | mk k v p l r ihl ihr => simp [keys, toList, ihl, ihr]

theorem toList_merge (a b : TreapNode K V) : toList (merge a b) = toList a ++ toList b := by
  induction a, b using merge.induct with
  | case1 => simp [merge, toList]
  | case2 k v p l r => simp [merge, toList]
  | case3 k v p l r => simp [merge, toList]
  | case4 k₁ v₁ p₁ l₁ r₁ k₂ v₂ p₂ l₂ r₂ h ih =>
    rw [merge, if_pos h]
    simp only [toList] at ih ⊢
    rw [ih]
    simp
  | case5 k₁ v₁ p₁ l₁ r₁ k₂ v₂ p₂ l₂ r₂ h ih =>
    rw [merge, if_neg h]
    simp only [toList] at ih ⊢
    rw [ih]
    simp

theorem keys_merge (a b : TreapNode K V) : keys (merge a b) = keys a ++ keys b := by
  simp [keys_eq_map_toList, toList_merge]

theorem toList_split [LinearOrder K] (t : TreapNode K V) (key : K) :
    toList (split t key).1 ++ toList (split t key).2 = toList t := by
  induction t with
  | null => simp [split, toList]
  | mk k v p l r ihl ihr =>
    unfold split
    split
    · simp only [toList, List.append_assoc, List.cons_append]
      rw [ihr]
    · simp only [toList]
      rw [← List.append_assoc, ihl]

theorem keys_split [LinearOrder K] (t : TreapNode K V) (key : K) :
    keys (split t key).1 ++ keys (split t key).2 = keys t := by
  simp only [keys_eq_map_toList, ← List.map_append, toList_split]

theorem BST_iff_sorted [LinearOrder K] (t : TreapNode K V) :
    BST t ↔ (keys t).Sorted (· < ·) := by
  induction t with
  | null => simp [BST, keys]
  | mk k v p l r ihl ihr =>
    simp only [BST, keys, List.Sorted, ihl, ihr]
    rw [List.pairwise_append, List.pairwise_cons]
    constructor
    · rintro ⟨hl, hr, sl, sr⟩
      refine ⟨sl, ⟨hr, sr⟩, ?_⟩
      intro a ha b hb
      rcases List.mem_cons.1 hb with rfl | hb
      · exact hl a ha
      · exact lt_trans (hl a ha) (hr b hb)
    · rintro ⟨sl, ⟨hr, sr⟩, hlr⟩
      exact ⟨fun j hj => hlr j hj k (List.mem_cons_self _ _), hr, sl, sr⟩

theorem lookup_null [LinearOrder K] (j : K) : lookup (null : TreapNode K V) j = none := rfl

theorem lookup_mk [LinearOrder K] (k : K) (v : V) (p : Int) (l r : TreapNode K V) (j : K) :
    lookup (mk k v p l r) j =
      if k = j then some v else if k < j then lookup r j else lookup l j := by
  unfold lookup
  rw [find]
  split_ifs <;> rfl

theorem find_isNull_iff [LinearOrder K] (t : TreapNode K V) (j : K) :
    (find t j).isNull = true ↔ lookup t j = none := by
  unfold lookup
  cases find t j <;> simp [isNull]

theorem mem_keys_of_mem_toList {t : TreapNode K V} {j : K} {v : V}
    (h : (j, v) ∈ toList t) : j ∈ keys t := by
  rw [keys_eq_map_toList]
  exact List.mem_map.2 ⟨(j, v), h, rfl⟩

theorem lookup_eq_some_iff [LinearOrder K] (t : TreapNode K V) (h : BST t) (j : K) (v : V) :
    lookup t j = some v ↔ (j, v) ∈ toList t := by
  induction t with
  | null => simp [lookup_null, toList]
  | mk k x p l r ihl ihr =>
    obtain ⟨hl, hr, bl, br⟩ := h
    rw [lookup_mk]
    simp only [toList, List.mem_append, List.mem_cons, Prod.mk.injEq]
    by_cases hkj : k = j
    · subst hkj
      simp only [if_true, Option.some.injEq]
      constructor
      · intro hv; exact Or.inr (Or.inl (by simpa using hv.symm))
      · rintro (hm | hv | hm)
        · exact absurd (hl _ (mem_keys_of_mem_toList hm)) (lt_irrefl _)
        · exact hv.2.symm
        · exact absurd (hr _ (mem_keys_of_mem_toList hm)) (lt_irrefl _)
    · rw [if_neg hkj]
      by_cases hlt : k < j
      · rw [if_pos hlt, ihr br]
        constructor
        · intro hm; exact Or.inr (Or.inr hm)
        · rintro (hm | ⟨hjk, _⟩ | hm)
          · exact absurd (hl _ (mem_keys_of_mem_toList hm)) (not_lt.2 (le_of_lt hlt))
          · exact absurd hjk.symm hkj
          · exact hm
      · rw [if_neg hlt, ihl bl]
        constructor
        · intro hm; exact Or.inl hm
        · rintro (hm | ⟨hjk, _⟩ | hm)
          · exact hm
          · exact absurd hjk.symm hkj
          · exact absurd (hr _ (mem_keys_of_mem_toList hm)) hlt

theorem lookup_eq_none_iff [LinearOrder K] (t : TreapNode K V) (h : BST t) (j : K) :
    lookup t j = none ↔ j ∉ keys t := by
  rw [keys_eq_map_toList, List.mem_map]
  constructor
  · rintro hn ⟨⟨j', v⟩, hm, rfl⟩
    rw [(lookup_eq_some_iff t h _ v).2 hm] at hn
    exact absurd hn (by simp)
  · intro hn
    cases hl : lookup t j with
    | none => rfl
    | some v => exact absurd ⟨(j, v), (lookup_eq_some_iff t h j v).1 hl, rfl⟩ hn

/-- Two search trees with the same key-value pairs answer every search alike. -/
theorem lookup_congr [LinearOrder K] (a b : TreapNode K V) (ha : BST a) (hb : BST b) (j : K)
    (h : ∀ v, (j, v) ∈ toList a ↔ (j, v) ∈ toList b) : lookup a j = lookup b j := by
  apply Option.ext
  intro v
  simp only [Option.mem_def]
  rw [lookup_eq_some_iff a ha, lookup_eq_some_iff b hb, h]

end TreapNode

namespace TreapNode

variable {K V : Type}

theorem split_bounds [LinearOrder K] (t : TreapNode K V) (h : BST t) (key : K) :
    (∀ j ∈ keys (split t key).1, j ≤ key) ∧ (∀ j ∈ keys (split t key).2, key < j) := by
  induction t with
  | null => simp [split, keys]
  | mk k v p l r ihl ihr =>
    obtain ⟨hl, hr, bl, br⟩ := h
    unfold split
    split
    · rename_i hle
      simp only [keys, List.mem_append, List.mem_cons]
      refine ⟨?_, (ihr br).2⟩
      rintro j (hj | rfl | hj)
      · exact le_trans (le_of_lt (hl j hj)) hle
      · exact hle
      · exact (ihr br).1 j hj
    · rename_i hnle
      simp only [keys, List.mem_append, List.mem_cons]
      refine ⟨(ihl bl).1, ?_⟩
      rintro j (hj | rfl | hj)
      · exact (ihl bl).2 j hj
      · exact not_le.1 hnle
      · exact lt_trans (not_le.1 hnle) (hr j hj)

theorem toList_insert [LinearOrder K] (t : TreapNode K V) (key : K) (value : V) (p : Int) :
    toList (insert t key value p) =
      toList (split t key).1 ++ (key, value) :: toList (split t key).2 := by
  simp [insert, toList_merge, toList]

theorem sorted_split [LinearOrder K] (t : TreapNode K V) (h : BST t) (key : K) :
    (keys (split t key).1).Sorted (· < ·) ∧ (keys (split t key).2).Sorted (· < ·) := by
  have hs := (BST_iff_sorted t).1 h
  rw [← keys_split t key, List.Sorted, List.pairwise_append] at hs
  exact ⟨hs.1, hs.2.1⟩

theorem BST_insert [LinearOrder K] (t : TreapNode K V) (h : BST t) (key : K) (value : V)
    (p : Int) (hk : key ∉ keys t) : BST (insert t key value p) := by
  rw [BST_iff_sorted, keys_eq_map_toList, toList_insert]
  simp only [List.map_append, List.map_cons, ← keys_eq_map_toList]
  obtain ⟨b1, b2⟩ := split_bounds t h key
  obtain ⟨s1, s2⟩ := sorted_split t h key
  rw [List.Sorted, List.pairwise_append, List.pairwise_cons]
  have hlt : ∀ j ∈ keys (split t key).1, j < key := by
    intro j hj
    refine lt_of_le_of_ne (b1 j hj) ?_
    intro hjk
    apply hk
    have hm : j ∈ keys t := by
      rw [← keys_split t key]
      exact List.mem_append_left _ hj
    rw [← hjk]
    exact hm
  refine ⟨s1, ⟨b2, s2⟩, ?_⟩
  intro a ha b hb
  rcases List.mem_cons.1 hb with rfl | hb
  · exact hlt a ha
  · exact lt_trans (hlt a ha) (b2 b hb)

theorem mem_toList_insert [LinearOrder K] (t : TreapNode K V) (key : K) (value : V)
    (p : Int) (j : K) (w : V) :
    (j, w) ∈ toList (insert t key value p) ↔ (j, w) = (key, value) ∨ (j, w) ∈ toList t := by
  rw [toList_insert, ← toList_split t key]
  simp only [List.mem_append, List.mem_cons]
  tauto

theorem lookup_insert [LinearOrder K] (t : TreapNode K V) (h : BST t) (key : K) (value : V)
    (p : Int) (hk : lookup t key = none) (j : K) :
    lookup (insert t key value p) j = if j = key then some value else lookup t j := by
  have hk' : key ∉ keys t := (lookup_eq_none_iff t h key).1 hk
  have hb := BST_insert t h key value p hk'
  by_cases hj : j = key
  · rw [if_pos hj, hj, lookup_eq_some_iff _ hb, mem_toList_insert]
    exact Or.inl rfl
  · rw [if_neg hj]
    apply lookup_congr _ _ hb h
    intro v
    rw [mem_toList_insert]
    constructor
    · rintro (heq | hm)
      · exact absurd (Prod.mk.inj heq).1 hj
      · exact hm
    · exact Or.inr

theorem setValue_isNull [LinearOrder K] (rnd : Nat → Int) (t : TreapNode K V) (key : K)
    (value : V) (c : Nat) :
    (setValue rnd t key value c).1.isNull = true ↔ lookup t key = none := by
  induction t generalizing c with
  | null => simp [setValue, isNull, lookup_null]
  | mk k x p l r ihl ihr =>
    rw [lookup_mk]
    unfold setValue
    by_cases hk : key = k
    · subst hk
      simp [isNull]
    · rw [if_neg hk, if_neg (Ne.symm hk)]
      by_cases hlt : key < k
      · rw [if_pos hlt, if_neg (not_lt.2 (le_of_lt hlt)), ← ihl c]
        cases hn : (setValue rnd l key value c).1.isNull <;> simp only [hn] <;> simp [isNull]
      · have hgt : k < key := lt_of_le_of_ne (not_lt.1 hlt) (Ne.symm hk)
        rw [if_neg hlt, if_pos hgt, ← ihr c]
        cases hn : (setValue rnd r key value c).1.isNull <;> simp only [hn] <;> simp [isNull]

theorem treap_setValue_spec [LinearOrder K] (rnd : Nat → Int) (t : TreapNode K V) (key : K)
    (value : V) (c : Nat) (h : (setValue rnd t key value c).1.isNull = false) :
    keys (setValue rnd t key value c).1 = keys t ∧
    ∀ j, lookup (setValue rnd t key value c).1 j =
      if j = key then some value else lookup t j := by
  induction t generalizing c with
  | null => simp [setValue, isNull] at h
  | mk k x p l r ihl ihr =>
    unfold setValue at h ⊢
    by_cases hk : key = k
    · subst hk
      simp only [if_true, keys, true_and]
      intro j
      rw [lookup_mk, lookup_mk]
      by_cases hj : key = j
      · subst hj; simp
      · rw [if_neg hj, if_neg hj, if_neg (Ne.symm hj)]
    · rw [if_neg hk] at h ⊢
      by_cases hlt : key < k
      · rw [if_pos hlt] at h ⊢
        cases hn : (setValue rnd l key value c).1.isNull
        · simp only [hn, Bool.false_eq_true, if_false] at h ⊢
          obtain ⟨hkeys, hlook⟩ := ihl c hn
          refine ⟨by simp [keys, hkeys], ?_⟩
          intro j
          rw [lookup_mk, lookup_mk, hlook]
          by_cases hkj : k = j
          · subst hkj
            simp [Ne.symm hk]
          · rw [if_neg hkj, if_neg hkj]
            by_cases hkj2 : k < j
            · rw [if_pos hkj2, if_pos hkj2, if_neg]
              rintro rfl
              exact absurd (lt_trans hlt hkj2) (lt_irrefl _)
            · rw [if_neg hkj2, if_neg hkj2]
        · simp only [hn] at h
          simp [isNull] at h
      · rw [if_neg hlt] at h ⊢
        have hgt : k < key := lt_of_le_of_ne (not_lt.1 hlt) (Ne.symm hk)
        cases hn : (setValue rnd r key value c).1.isNull
        · simp only [hn, Bool.false_eq_true, if_false] at h ⊢
          obtain ⟨hkeys, hlook⟩ := ihr c hn
          refine ⟨by simp [keys, hkeys], ?_⟩
          intro j
          rw [lookup_mk, lookup_mk, hlook]
          by_cases hkj : k = j
          · subst hkj
            simp [Ne.symm hk]
          · rw [if_neg hkj, if_neg hkj]
            by_cases hkj2 : k < j
            · rw [if_pos hkj2, if_pos hkj2]
            · rw [if_neg hkj2, if_neg hkj2, if_neg]
              rintro rfl
              exact hkj2 hgt
        · simp only [hn] at h
          simp [isNull] at h

theorem BST_setValue [LinearOrder K] (rnd : Nat → Int) (t : TreapNode K V) (hb : BST t)
    (key : K) (value : V) (c : Nat) : BST (setValue rnd t key value c).1 := by
  cases hn : (setValue rnd t key value c).1.isNull
  · rw [BST_iff_sorted, (treap_setValue_spec rnd t key value c hn).1, ← BST_iff_sorted]
    exact hb
  · rw [(isNull_eq_true_iff _).1 hn]
    exact trivial

theorem erase_spec [LinearOrder K] (t : TreapNode K V) (hb : BST t) (key : K)
    (h : lookup t key ≠ none) :
    ∃ t', erase t key = .ok t' ∧ BST t' ∧ (keys t').Sublist (keys t) ∧
      ∀ j, lookup t' j = if j = key then none else lookup t j := by
  induction t with
  | null => simp [lookup_null] at h
  | mk k x p l r ihl ihr =>
    obtain ⟨hl, hr, bl, br⟩ := hb
    rw [lookup_mk] at h
    unfold erase
    by_cases hk : key = k
    · subst hk
      rw [if_pos rfl]
      have hbm : BST (merge l r) := by
        rw [BST_iff_sorted, keys_merge, List.Sorted, List.pairwise_append]
        exact ⟨(BST_iff_sorted l).1 bl, (BST_iff_sorted r).1 br,
          fun a ha b hb => lt_trans (hl a ha) (hr b hb)⟩
      refine ⟨_, rfl, hbm, ?_, ?_⟩
      · rw [keys_merge]
        exact List.Sublist.append (List.Sublist.refl _) (List.sublist_cons_self _ _)
      · intro j
        by_cases hj : j = key
        · rw [if_pos hj, hj, lookup_eq_none_iff _ hbm, keys_merge, List.mem_append]
          rintro (hm | hm)
          · exact lt_irrefl _ (hl _ hm)
          · exact lt_irrefl _ (hr _ hm)
        · rw [if_neg hj]
          apply lookup_congr (merge l r) (mk key x p l r) hbm ⟨hl, hr, bl, br⟩
          intro v
          simp only [toList_merge, toList, List.mem_append, List.mem_cons, Prod.mk.injEq]
          constructor
          · rintro (hm | hm)
            · exact Or.inl hm
            · exact Or.inr (Or.inr hm)
          · rintro (hm | ⟨hjk, _⟩ | hm)
            · exact Or.inl hm
            · exact absurd hjk hj
            · exact Or.inr hm
    · rw [if_neg hk]
      rw [if_neg (Ne.symm hk)] at h
      by_cases hlt : key < k
      · rw [if_pos hlt]
        rw [if_neg (not_lt.2 (le_of_lt hlt))] at h
        obtain ⟨l', he, bl', hsub, hlook⟩ := ihl bl h
        rw [he]
        refine ⟨_, rfl, ⟨fun j hj => hl j (hsub.subset hj), hr, bl', br⟩, ?_, ?_⟩
        · simp only [keys]
          exact List.Sublist.append hsub (List.Sublist.refl _)
        · intro j
          rw [lookup_mk, lookup_mk, hlook]
          by_cases hkj : k = j
          · subst hkj
            simp [Ne.symm hk]
          · rw [if_neg hkj, if_neg hkj]
            by_cases hkj2 : k < j
            · rw [if_pos hkj2, if_pos hkj2, if_neg]
              rintro rfl
              exact absurd (lt_trans hlt hkj2) (lt_irrefl _)
            · rw [if_neg hkj2, if_neg hkj2]
      · rw [if_neg hlt]
        have hgt : k < key := lt_of_le_of_ne (not_lt.1 hlt) (Ne.symm hk)
        rw [if_pos hgt] at h
        obtain ⟨r', he, br', hsub, hlook⟩ := ihr br h
        rw [he]
        refine ⟨_, rfl, ⟨hl, fun j hj => hr j (hsub.subset hj), bl, br'⟩, ?_, ?_⟩
        · simp only [keys]
          exact List.Sublist.append (List.Sublist.refl _) (List.Sublist.cons₂ _ hsub)
        · intro j
          rw [lookup_mk, lookup_mk, hlook]
          by_cases hkj : k = j
          · subst hkj
            simp [Ne.symm hk]
          · rw [if_neg hkj, if_neg hkj]
            by_cases hkj2 : k < j
            · rw [if_pos hkj2, if_pos hkj2]
            · rw [if_neg hkj2, if_neg hkj2, if_neg]
              rintro rfl
              exact hkj2 hgt

end TreapNode

/-! ## The map: invariant and the effect of each operation -/

namespace TreapVersion

variable {K V : Type}

theorem find_eq [LinearOrder K] (ver : TreapVersion K V) (j : K) :
    ver.find j = if ver.m_pRoot.isNull then .error .undefined
                 else .ok (ver.m_pRoot.lookup j) := by
  unfold find TreapNode.lookup
  cases hroot : ver.m_pRoot with
  | null => simp [TreapNode.isNull_null]
  | mk k v p l r =>
    simp only [TreapNode.isNull_mk, Bool.false_eq_true, if_false]
    cases TreapNode.find (TreapNode.mk k v p l r) j <;> rfl

theorem insert_spec [LinearOrder K] (rnd : Nat → Int) (ver : TreapVersion K V)
    (hb : ver.m_pRoot.BST) (key : K) (value : V) :
    (ver.insert rnd key value).BST ∧ (ver.insert rnd key value).isNull = false ∧
    ∀ j, (ver.insert rnd key value).lookup j =
      if j = key then some value else ver.m_pRoot.lookup j := by
  unfold insert
  cases hroot : ver.m_pRoot with
  | null =>
    simp only [TreapNode.isNull_null, if_true, Bool.not_true, Bool.false_eq_true, if_false]
    refine ⟨by simp [TreapNode.BST, TreapNode.keys], TreapNode.isNull_mk _ _ _ _ _, ?_⟩
    intro j
    rw [TreapNode.lookup_mk, TreapNode.lookup_null]
    by_cases hj : j = key
    · simp [hj]
    · simp [hj, Ne.symm hj]
  | mk k x p l r =>
    rw [hroot] at hb
    simp only [TreapNode.isNull_mk, Bool.false_eq_true, if_false]
    cases hn : (TreapNode.setValue rnd (TreapNode.mk k x p l r) key value 0).1.isNull
    · simp only [Bool.not_false, if_true]
      have hs := TreapNode.treap_setValue_spec rnd _ key value 0 hn
      exact ⟨TreapNode.BST_setValue rnd _ hb key value 0, hn, hs.2⟩
    · simp only [Bool.not_true, Bool.false_eq_true, if_false]
      have hk := (TreapNode.setValue_isNull rnd _ key value 0).1 hn
      have hk' := (TreapNode.lookup_eq_none_iff _ hb key).1 hk
      refine ⟨TreapNode.BST_insert _ hb key value _ hk', ?_,
        TreapNode.lookup_insert _ hb key value _ hk⟩
      cases hi : TreapNode.insert (TreapNode.mk k x p l r) key value
          (rnd (TreapNode.setValue rnd (TreapNode.mk k x p l r) key value 0).2) with
      | null =>
        have := TreapNode.lookup_insert _ hb key value
          (rnd (TreapNode.setValue rnd (TreapNode.mk k x p l r) key value 0).2) hk key
        rw [hi, TreapNode.lookup_null] at this
        simp at this
      | mk _ _ _ _ _ => exact TreapNode.isNull_mk _ _ _ _ _

theorem version_setValue_spec [LinearOrder K] (rnd : Nat → Int) (ver : TreapVersion K V)
    (hb : ver.m_pRoot.BST) (key : K) (value : V) :
    (ver.setValue rnd key value).BST ∧ (ver.setValue rnd key value).isNull = false ∧
    ∀ j, (ver.setValue rnd key value).lookup j =
      if j = key then some value else ver.m_pRoot.lookup j := by
  unfold setValue
  cases hroot : ver.m_pRoot with
  | null =>
    simp only [TreapNode.isNull_null, if_true]
    refine ⟨by simp [TreapNode.BST, TreapNode.keys], TreapNode.isNull_mk _ _ _ _ _, ?_⟩
    intro j
    rw [TreapNode.lookup_mk, TreapNode.lookup_null]
    by_cases hj : j = key
    · simp [hj]
    · simp [hj, Ne.symm hj]
  | mk k x p l r =>
    rw [hroot] at hb
    simp only [TreapNode.isNull_mk, Bool.false_eq_true, if_false]
    cases hn : (TreapNode.setValue rnd (TreapNode.mk k x p l r) key value 0).1.isNull
    · simp only [Bool.false_eq_true, if_false]
      have hs := TreapNode.treap_setValue_spec rnd _ key value 0 hn
      exact ⟨TreapNode.BST_setValue rnd _ hb key value 0, hn, hs.2⟩
    · simp only [if_true]
      have hk := (TreapNode.setValue_isNull rnd _ key value 0).1 hn
      have hk' := (TreapNode.lookup_eq_none_iff _ hb key).1 hk
      refine ⟨TreapNode.BST_insert _ hb key value _ hk', ?_,
        TreapNode.lookup_insert _ hb key value _ hk⟩
      cases hi : TreapNode.insert (TreapNode.mk k x p l r) key value
          (rnd (TreapNode.setValue rnd (TreapNode.mk k x p l r) key value 0).2) with
      | null =>
        have := TreapNode.lookup_insert _ hb key value
          (rnd (TreapNode.setValue rnd (TreapNode.mk k x p l r) key value 0).2) hk key
        rw [hi, TreapNode.lookup_null] at this
        simp at this
      | mk _ _ _ _ _ => exact TreapNode.isNull_mk _ _ _ _ _

theorem erase_null [LinearOrder K] (ndebug : Bool) (ver : TreapVersion K V) (key : K)
    (h : ver.m_pRoot.isNull = true) :
    ver.erase ndebug key = .error (if ndebug then .exception else .assertion) := by
  rw [TreapNode.isNull_eq_true_iff] at h
  unfold erase
  rw [h]
  cases ndebug <;> rfl

theorem erase_absent [LinearOrder K] (ndebug : Bool) (ver : TreapVersion K V) (key : K)
    (h : ver.m_pRoot.isNull = false) (hk : ver.m_pRoot.lookup key = none) :
    ver.erase ndebug key = .ok (.null, false) := by
  unfold erase
  cases hroot : ver.m_pRoot with
  | null => rw [hroot] at h; simp [TreapNode.isNull_null] at h
  | mk k x p l r =>
    rw [hroot] at hk
    simp only [(TreapNode.find_isNull_iff _ key).2 hk, if_true]

theorem erase_present [LinearOrder K] (ndebug : Bool) (ver : TreapVersion K V) (key : K)
    (hb : ver.m_pRoot.BST) (hk : ver.m_pRoot.lookup key ≠ none) :
    ∃ t, ver.erase ndebug key = .ok (t, true) ∧ t.BST ∧
      ∀ j, t.lookup j = if j = key then none else ver.m_pRoot.lookup j := by
  unfold erase
  cases hroot : ver.m_pRoot with
  | null => rw [hroot] at hk; simp [TreapNode.lookup_null] at hk
  | mk k x p l r =>
    rw [hroot] at hk hb
    have hf : (TreapNode.find (TreapNode.mk k x p l r) key).isNull = false := by
      cases h : (TreapNode.find (TreapNode.mk k x p l r) key).isNull
      · rfl
      · exact absurd ((TreapNode.find_isNull_iff _ key).1 h) hk
    obtain ⟨t, he, bt, _, hl⟩ := TreapNode.erase_spec _ hb key hk
    simp only [hf, Bool.false_eq_true, if_false, he]
    exact ⟨t, rfl, bt, hl⟩

end TreapVersion

namespace PersistentMap

variable {K V : Type}

theorem current_exists [LinearOrder K] (m : PersistentMap K V) (hw : m.WF) :
    ∃ ver, m.m_versions[m.m_curVersion.toNat]? = some ver ∧
      vecAt m.m_versions m.m_curVersion = .ok ver ∧
      vecBack (m.m_versions.take (m.m_curVersion.toNat + 1)) = .ok ver ∧
      ver.m_pRoot.BST := by
  obtain ⟨ver, hv, hat⟩ := vecAt_of_lt m.m_versions m.m_curVersion hw.cur_nonneg
    (by have := hw.length_eq; have := hw.cur_le; omega)
  exact ⟨ver, hv, hat, vecBack_take _ _ _ hv, hw.bst ver (List.getElem?_mem hv)⟩

theorem invalidate_eq [LinearOrder K] (m : PersistentMap K V) (hw : m.WF) :
    m.invalidate = .ok m.truncated := by
  unfold invalidate truncated
  rw [popVersions_chain _ _ _ hw.cur_nonneg hw.cur_le hw.length_eq]
  simp only [Except.ok.injEq, mk.injEq, true_and, and_true]
  exact min_eq_right hw.cur_le

theorem truncated_of_last [LinearOrder K] (m : PersistentMap K V) (hw : m.WF)
    (h : m.m_curVersion = m.m_lastVersion) : m.truncated = m := by
  have hlen := hw.length_eq
  have hc0 := hw.cur_nonneg
  cases m with
  | mk vs last cur =>
    simp only at h hlen hc0
    subst h
    simp only [truncated, mk.injEq, and_true]
    apply List.take_of_length_le
    omega

theorem insert_eq [LinearOrder K] (rnd : Nat → Int) (m : PersistentMap K V) (hw : m.WF)
    (key : K) (value : V) :
    ∃ ver, m.m_versions[m.m_curVersion.toNat]? = some ver ∧ ver.m_pRoot.BST ∧
      m.insert rnd key value = .ok (m.push (ver.insert rnd key value)) := by
  obtain ⟨ver, hv, _, hback, hb⟩ := current_exists m hw
  refine ⟨ver, hv, hb, ?_⟩
  unfold insert
  rw [invalidate_eq m hw]
  simp only [truncated, hback]
  rfl

theorem setValue_eq_push [LinearOrder K] (rnd : Nat → Int) (m : PersistentMap K V)
    (hw : m.WF) (key : K) (value : V) :
    ∃ ver, m.m_versions[m.m_curVersion.toNat]? = some ver ∧ ver.m_pRoot.BST ∧
      m.setValue rnd key value = .ok (m.push (ver.setValue rnd key value)) := by
  obtain ⟨ver, hv, _, hback, hb⟩ := current_exists m hw
  refine ⟨ver, hv, hb, ?_⟩
  unfold setValue
  rw [invalidate_eq m hw]
  simp only [truncated, hback]
  rfl

theorem erase_eq [LinearOrder K] (ndebug : Bool) (m : PersistentMap K V) (hw : m.WF)
    (key : K) :
    ∃ ver, m.m_versions[m.m_curVersion.toNat]? = some ver ∧ ver.m_pRoot.BST ∧
      m.erase ndebug key =
        match ver.erase ndebug key with
        | .error e => (m.truncated, .error e)
        | .ok (_, false) => (m.truncated, .ok false)
        | .ok (t, true) => (m.push t, .ok true) := by
  obtain ⟨ver, hv, _, hback, hb⟩ := current_exists m hw
  refine ⟨ver, hv, hb, ?_⟩
  unfold erase
  rw [invalidate_eq m hw]
  simp only [truncated, hback]
  rfl

theorem find_eq_current [LinearOrder K] (m : PersistentMap K V) (ver : TreapVersion K V)
    (h0 : 0 ≤ m.m_curVersion) (hv : m.m_versions[m.m_curVersion.toNat]? = some ver)
    (j : K) : m.find j = ver.find j := by
  unfold find
  rw [(vecAt_eq_ok_iff _ _ _).2 ⟨h0, hv⟩]

theorem find_push [LinearOrder K] (m : PersistentMap K V) (hw : m.WF) (t : TreapNode K V)
    (j : K) : (m.push t).find j = (TreapVersion.mk t).find j := by
  unfold find push
  simp only
  rw [vecAt_snoc _ _ _ hw.cur_nonneg (by have := hw.length_eq; have := hw.cur_le; omega)]

theorem WF_push [LinearOrder K] (m : PersistentMap K V) (hw : m.WF) (t : TreapNode K V)
    (ht : t.BST) : (m.push t).WF := by
  have hlen := hw.length_eq
  have hcl := hw.cur_le
  have hc0 := hw.cur_nonneg
  refine ⟨?_, ?_, ?_, ?_⟩
  · simp only [push]; omega
  · simp only [push]; omega
  · simp only [push, List.length_append, List.length_take, List.length_singleton]
    omega
  · intro w hwm
    simp only [push, List.mem_append, List.mem_singleton] at hwm
    rcases hwm with hwm | rfl
    · exact hw.bst w (List.mem_of_mem_take hwm)
    · exact ht

theorem WF_truncated [LinearOrder K] (m : PersistentMap K V) (hw : m.WF) :
    m.truncated.WF := by
  have hlen := hw.length_eq
  have hcl := hw.cur_le
  have hc0 := hw.cur_nonneg
  refine ⟨hc0, le_refl _, ?_, ?_⟩
  · simp only [truncated, List.length_take]
    omega
  · intro w hwm
    exact hw.bst w (List.mem_of_mem_take hwm)

theorem map_undo_eq [LinearOrder K] (m : PersistentMap K V) (hw : m.WF) (n : Int)
    (hn : 0 ≤ n) (hlo : -2147483648 ≤ m.m_curVersion - n)
    (hhi : m.m_curVersion - n < 2147483648) (c : Bool) :
    m.undo n c = .ok
      { m with m_curVersion := max 0 (m.m_curVersion - n)
               m_versions := if c then m.m_versions.take ((max 0 (m.m_curVersion - n)).toNat + 1)
                             else m.m_versions
               m_lastVersion := if c then max 0 (m.m_curVersion - n) else m.m_lastVersion } := by
  have hlen := hw.length_eq
  have hcl := hw.cur_le
  have hc0 := hw.cur_nonneg
  unfold undo
  rw [wrapInt_eq _ hlo hhi]
  cases c
  · simp
  · simp only [if_true]
    rw [popVersions_chain _ _ _ (le_max_left _ _) (by omega) hlen]
    simp only [Except.ok.injEq]
    congr 1
    omega

theorem WF_map_undo [LinearOrder K] (a b : PersistentMap K V) (hw : a.WF) (n : Int)
    (hn : 0 ≤ n) (hi : n < 2147483648) (hfit : a.m_lastVersion < 2147483648) (c : Bool)
    (h : a.undo n c = .ok b) : b.WF ∧ b.m_lastVersion < 2147483648 := by
  rw [map_undo_eq a hw n hn (by have := hw.cur_nonneg; omega)
    (by have := hw.cur_le; omega) c] at h
  simp only [Except.ok.injEq] at h
  subst h
  have hlen := hw.length_eq
  have hcl := hw.cur_le
  have hc0 := hw.cur_nonneg
  refine ⟨⟨le_max_left _ _, ?_, ?_, ?_⟩, ?_⟩
  · cases c <;> simp only [if_true, Bool.false_eq_true, if_false]
    · omega
    · exact le_refl _
  · cases c <;> simp only [if_true, Bool.false_eq_true, if_false]
    · exact hlen
    · rw [List.length_take]; omega
  · intro w hwm
    cases c <;> simp only [if_true, Bool.false_eq_true, if_false] at hwm
    · exact hw.bst w hwm
    · exact hw.bst w (List.mem_of_mem_take hwm)
  · cases c <;> simp only [if_true, Bool.false_eq_true, if_false]
    · exact hfit
    · omega

theorem map_redo_eq (m : PersistentMap K V) (n : Int)
    (h0 : -2147483648 ≤ m.m_curVersion + n) (hfit : m.m_curVersion + n < 2147483648) :
    m.redo n = { m with m_curVersion := min m.m_lastVersion (m.m_curVersion + n) } := by
  unfold redo
  rw [wrapInt_eq _ h0 hfit]

theorem WF_map_redo [LinearOrder K] (a : PersistentMap K V) (hw : a.WF) (n : Int)
    (hn : 0 ≤ n) (hfit : a.m_curVersion + n < 2147483648) :
    (a.redo n).WF ∧ (a.redo n).m_lastVersion = a.m_lastVersion := by
  have hlen := hw.length_eq
  have hcl := hw.cur_le
  have hc0 := hw.cur_nonneg
  rw [map_redo_eq a n (by omega) hfit]
  refine ⟨⟨?_, ?_, hlen, hw.bst⟩, rfl⟩
  · simp only; omega
  · simp only; omega

theorem WF_erase [LinearOrder K] (ndebug : Bool) (m : PersistentMap K V) (hw : m.WF)
    (key : K) : (m.erase ndebug key).1.WF := by
  obtain ⟨ver, hv, hb, he⟩ := erase_eq ndebug m hw key
  rw [he]
  by_cases hn : ver.m_pRoot.isNull = true
  · rw [TreapVersion.erase_null ndebug ver key hn]
    exact WF_truncated m hw
  · have hn' : ver.m_pRoot.isNull = false := by simpa using hn
    by_cases hk : ver.m_pRoot.lookup key = none
    · rw [TreapVersion.erase_absent ndebug ver key hn' hk]
      exact WF_truncated m hw
    · obtain ⟨t, het, bt, _⟩ := TreapVersion.erase_present ndebug ver key hb hk
      rw [het]
      exact WF_push m hw t bt

theorem Reachable.map_wf_fits [LinearOrder K] {m : PersistentMap K V} (h : Reachable m) :
    m.WF ∧ m.m_lastVersion < 2147483648 := by
  induction h with
  | new =>
    refine ⟨⟨le_refl _, le_refl _, by simp [PersistentMap.new], ?_⟩, by
      show (0 : Int) < 2147483648
      decide⟩
    intro w hw
    simp only [PersistentMap.new, List.mem_singleton] at hw
    subst hw
    exact trivial
  | insert rnd a b key value _ h hfit ih =>
    obtain ⟨ver, _, hb, he⟩ := insert_eq rnd a ih.1 key value
    rw [he] at h
    simp only [Except.ok.injEq] at h
    subst h
    exact ⟨WF_push a ih.1 _ (TreapVersion.insert_spec rnd ver hb key value).1, hfit⟩
  | setValue rnd a b key value _ h hfit ih =>
    obtain ⟨ver, _, hb, he⟩ := setValue_eq_push rnd a ih.1 key value
    rw [he] at h
    simp only [Except.ok.injEq] at h
    subst h
    exact ⟨WF_push a ih.1 _ (TreapVersion.version_setValue_spec rnd ver hb key value).1, hfit⟩
  | erase a key r _ _ hfit ih => exact ⟨WF_erase true a ih.1 key, hfit⟩
  | eraseThrow a key _ h ih =>
    refine ⟨WF_erase true a ih.1 key, ?_⟩
    obtain ⟨ver, hv, hb, he⟩ := erase_eq true a ih.1 key
    rw [he] at h ⊢
    have hcl := ih.1.cur_le
    by_cases hn : ver.m_pRoot.isNull = true
    · rw [TreapVersion.erase_null true ver key hn]
      simp only [truncated]
      omega
    · have hn' : ver.m_pRoot.isNull = false := by simpa using hn
      by_cases hk : ver.m_pRoot.lookup key = none
      · rw [TreapVersion.erase_absent true ver key hn' hk]
        simp only [truncated]
        omega
      · obtain ⟨t, het, bt, _⟩ := TreapVersion.erase_present true ver key hb hk
        rw [het] at h
        simp at h
  | undo a b n c _ hn hi h ih => exact WF_map_undo a b ih.1 n hn hi ih.2 c h
  | redo a n _ hn hfit ih =>
    have := WF_map_redo a ih.1 n hn hfit
    exact ⟨this.1, by rw [this.2]; exact ih.2⟩

theorem Reachable.map_wf [LinearOrder K] {m : PersistentMap K V} (h : Reachable m) :
    m.WF := h.map_wf_fits.1

/-- The counters of a reachable map fit in an `int`. -/
theorem Reachable.map_fits [LinearOrder K] {m : PersistentMap K V} (h : Reachable m) :
    m.m_lastVersion < 2147483648 := h.map_wf_fits.2

end PersistentMap

/-! ## Lemmas on the list -/

namespace ListNode

variable {T : Type}

theorem check_ok (nd : Bool) (c : Bool) (h : c = true) : check nd c = .ok () := by
  simp [check, h]

theorem getLeft_eq (nd : Bool) (n : ListNode T) (v : Int) (h : n.m_first.m_version ≤ v) :
    n.getLeft nd v = .ok (rdLeft v n) := by
  have h1 : ¬ v < n.m_first.m_version := not_lt.2 h
  simp only [getLeft, check, ge_iff_le, h, decide_True, Bool.true_or, if_true, h1, if_false,
    rdLeft, snap, bind, Except.bind, pure, Except.pure]
  split <;> rfl

theorem getRight_eq (nd : Bool) (n : ListNode T) (v : Int) (h : n.m_first.m_version ≤ v) :
    n.getRight nd v = .ok (rdRight v n) := by
  have h1 : ¬ v < n.m_first.m_version := not_lt.2 h
  simp only [getRight, check, ge_iff_le, h, decide_True, Bool.true_or, if_true, h1, if_false,
    rdRight, snap, bind, Except.bind, pure, Except.pure]
  split <;> rfl

theorem getVal_eq (nd : Bool) (n : ListNode T) (v : Int) (h : n.m_first.m_version ≤ v) :
    n.getVal nd v = .ok (rdVal v n) := by
  have h1 : ¬ v < n.m_first.m_version := not_lt.2 h
  simp only [getVal, check, ge_iff_le, h, decide_True, Bool.true_or, if_true, h1, if_false,
    rdVal, snap, bind, Except.bind, pure, Except.pure]
  split <;> rfl

/-- A node without a snapshot younger than `v` reads at `v + 1` as it reads at `v`. -/
theorem snap_succ (n : ListNode T) (v : Int) (h : n.Sane v) : n.snap (v + 1) = n.snap v := by
  unfold snap
  cases hf : n.m_isFull
  · rfl
  · have := h.2 hf
    have h1 : n.m_second.m_version ≤ v + 1 := by omega
    simp [this, h1]

theorem Sane.succ {n : ListNode T} {v : Int} (h : n.Sane v) : n.Sane (v + 1) :=
  ⟨by have := h.1; omega, fun hf => by have := h.2 hf; omega⟩

theorem snap_fresh (n : ListNode T) (v : Int) (h : n.m_isFull = false) : n.snap v = n.m_first := by
  simp [snap, h]

theorem snap_filled (n : ListNode T) (x : T) (v : Int) :
    (n.initSecond x v).snap v = { n.m_first with m_version := v, m_value := x } := by
  simp [snap, initSecond]

end ListNode

theorem headOr_append (A B : List Nat) (d : Option Nat) :
    headOr (A ++ B) d = headOr A (headOr B d) := by
  cases A <;> rfl

theorem lastOr_nil (d : Option Nat) : lastOr [] d = d := rfl

theorem lastOr_cons (a : Nat) (A : List Nat) (d : Option Nat) :
    lastOr (a :: A) d = lastOr A (some a) := by
  simp only [lastOr, List.reverse_cons, headOr_append]
  rfl

theorem lastOr_reverse (A : List Nat) (d : Option Nat) : lastOr A.reverse d = headOr A d := by
  simp [lastOr]

theorem headOr_eq_head? (A : List Nat) : headOr A none = A.head? := by
  cases A <;> rfl

theorem headOr_of_ne_nil (A : List Nat) (d : Option Nat) (h : A ≠ []) : headOr A d = A.head? := by
  cases A with
  | nil => exact absurd rfl h
  | cons a A => rfl

theorem lastOr_eq_getLast? (A : List Nat) : lastOr A none = A.getLast? := by
  rw [lastOr, headOr_eq_head?, List.head?_reverse]

theorem lastOr_of_ne_nil (A : List Nat) (d : Option Nat) (h : A ≠ []) :
    lastOr A d = A.getLast? := by
  rw [lastOr, headOr_of_ne_nil _ _ (by simpa using h), List.head?_reverse]

section LinkedLemmas

variable {T : Type}

theorem Linked.congr {fwd bwd fwd' bwd' : ListNode T → Option Nat} {h h' : Nat → ListNode T}
    {A : List Nat} (hc : ∀ n ∈ A, fwd' (h' n) = fwd (h n) ∧ bwd' (h' n) = bwd (h n)) :
    ∀ {prev nxt : Option Nat}, Linked fwd bwd h prev A nxt → Linked fwd' bwd' h' prev A nxt := by
  induction A with
  | nil => intro _ _ _; trivial
  | cons a A ih =>
    intro prev nxt hl
    obtain ⟨h1, h2, h3⟩ := hl
    have ha := hc a (List.mem_cons_self _ _)
    exact ⟨by rw [ha.2, h1], by rw [ha.1, h2],
      ih (fun n hn => hc n (List.mem_cons_of_mem _ hn)) h3⟩

theorem Linked_append (fwd bwd : ListNode T → Option Nat) (h : Nat → ListNode T)
    (A B : List Nat) : ∀ (prev nxt : Option Nat),
    Linked fwd bwd h prev (A ++ B) nxt ↔
      Linked fwd bwd h prev A (headOr B nxt) ∧ Linked fwd bwd h (lastOr A prev) B nxt := by
  induction A with
  | nil => intro prev nxt; simp [Linked, lastOr_nil]
  | cons a A ih =>
    intro prev nxt
    rw [List.cons_append]
    simp only [Linked]
    rw [ih, headOr_append, lastOr_cons]
    tauto

theorem Linked_reverse (fwd bwd : ListNode T → Option Nat) (h : Nat → ListNode T)
    (A : List Nat) : ∀ (prev nxt : Option Nat),
    Linked fwd bwd h prev A nxt ↔ Linked bwd fwd h nxt A.reverse prev := by
  induction A with
  | nil => intro prev nxt; simp [Linked]
  | cons a A ih =>
    intro prev nxt
    rw [List.reverse_cons, Linked_append]
    simp only [Linked]
    rw [ih, lastOr_reverse]
    simp only [headOr]
    tauto

theorem Linked.head_bwd {fwd bwd : ListNode T → Option Nat} {h : Nat → ListNode T}
    {a : Nat} {A : List Nat} {prev nxt : Option Nat}
    (hl : Linked fwd bwd h prev (a :: A) nxt) : bwd (h a) = prev := hl.1

end LinkedLemmas

section LinkedGet

variable {T : Type}

theorem Linked_get_fwd {fwd bwd : ListNode T → Option Nat} {h : Nat → ListNode T} :
    ∀ (ns : List Nat) (prev : Option Nat), Linked fwd bwd h prev ns none →
      ∀ (i a : Nat), ns[i]? = some a → fwd (h a) = ns[i + 1]? := by
  intro ns
  induction ns with
  | nil => intro prev _ i a hi; simp at hi
  | cons n rest ih =>
    intro prev hl i a hi
    obtain ⟨_, h2, h3⟩ := hl
    cases i with
    | zero =>
      simp only [List.getElem?_cons_zero, Option.some.injEq] at hi
      subst hi
      rw [h2, headOr_eq_head?]
      cases rest <;> simp
    | succ i =>
      simp only [List.getElem?_cons_succ] at hi ⊢
      exact ih (some n) h3 i a hi

end LinkedGet

namespace PersistentList

variable {T : Type}

theorem scan_last (heap : Nat → ListNode T) (v : Int) (hs : List Nat) (a : Nat)
    (h : hs.getLast? = some a) (hv : (heap a).m_first.m_version ≤ v) :
    scan heap v hs hs.length = hs.length - 1 ∧ hs[hs.length - 1]? = some a := by
  have hget : hs[hs.length - 1]? = some a := by
    rw [← h, List.getLast?_eq_getElem?]
  refine ⟨?_, hget⟩
  cases hlen : hs.length with
  | zero =>
    rw [List.length_eq_zero] at hlen
    subst hlen
    simp at h
  | succ k =>
    rw [hlen] at hget
    simp only [Nat.add_sub_cancel] at hget ⊢
    have hd : hs.getD k 0 = a := by
      rw [List.getD_eq_getElem?_getD, hget]; rfl
    simp only [scan, hd, ListNode.versions, hv, if_true]

theorem begin_eq (s : PersistentList T) (ns : List Nat) (hi : s.Inv ns) :
    ∃ a, ns.head? = some a ∧ s.begin = .ok ⟨some a⟩ := by
  obtain ⟨a, ha⟩ : ∃ a, ns.head? = some a := by
    cases hns : ns with
    | nil => exact absurd hns hi.ne
    | cons a _ => exact ⟨a, rfl⟩
  refine ⟨a, ha, ?_⟩
  have hh := hi.head
  rw [ha] at hh
  have ha_mem : a ∈ ns := List.mem_of_mem_head? ha
  have hv := (hi.sane a (hi.lt_next a ha_mem)).1
  obtain ⟨h1, h2⟩ := scan_last s.heap s.m_version s.m_apHeads a hh hv
  simp only [begin, h1, bind, Except.bind, pure, Except.pure]
  rw [(vecAt_eq_ok_iff _ _ a).2 ⟨by omega, by simpa using h2⟩]

theorem walk_eq (nd : Bool) (s : PersistentList T) :
    ∀ (R : List Nat) (fuel : Nat) (prev : Option Nat) (a : Nat), R.head? = some a →
      R.length ≤ fuel →
      Linked (ListNode.rdRight s.m_version) (ListNode.rdLeft s.m_version) s.heap prev R none →
      (∀ n ∈ R, (s.heap n).m_first.m_version ≤ s.m_version) →
      walk nd s fuel ⟨some a⟩ =
        .ok (R.dropLast.map (fun n => (s.heap n).rdVal s.m_version)) := by
  intro R
  induction R with
  | nil => intro fuel prev a ha; simp at ha
  | cons n rest ih =>
    intro fuel prev a ha hf hl hv
    simp only [List.head?_cons, Option.some.injEq] at ha
    subst ha
    obtain ⟨_, h2, h3⟩ := hl
    cases fuel with
    | zero => simp at hf
    | succ fuel =>
      have hvn := hv n (List.mem_cons_self _ _)
      simp only [walk, PersistentListIterator.done, PersistentListIterator.getVal,
        PersistentListIterator.next, check, Option.isSome_some, Bool.true_or, if_true,
        ListNode.getRight_eq nd _ _ hvn, ListNode.getVal_eq nd _ _ hvn, h2,
        bind, Except.bind, pure, Except.pure]
      cases rest with
      | nil => simp [headOr]
      | cons m rest =>
        simp only [headOr, Option.isNone_some, Bool.false_eq_true, if_false,
          Option.isSome_some, Bool.not_true, Bool.or_true, Bool.true_or, if_true]
        have := ih fuel (some n) m rfl (by simpa using hf) h3
          (fun k hk => hv k (List.mem_cons_of_mem _ hk))
        cases nd <;> simp [this]

theorem traversal_eq (nd : Bool) (s : PersistentList T) (ns : List Nat) (hi : s.Inv ns) :
    s.traversal nd = .ok (s.vals ns) := by
  obtain ⟨a, ha, hb⟩ := begin_eq s ns hi
  simp only [traversal, hb, bind, Except.bind]
  have hlen : ns.length ≤ s.next := by
    have := List.Nodup.length_le_card (α := Fin s.next)
      (l := ns.pmap (fun n hn => ⟨n, hn⟩) hi.lt_next) ?_
    · simpa using this
    · apply hi.nodup.pmap
      intro a _ b _ hab
      simpa using hab
  exact walk_eq nd s ns (s.next + 1) none a ha (by omega) hi.linked
    (fun n hn => (hi.sane n (hi.lt_next n hn)).1)

theorem iterAt_eq (nd : Bool) (s : PersistentList T) (ns : List Nat) (hi : s.Inv ns) :
    ∀ (p a : Nat), ns[p]? = some a → s.iterAt nd p = .ok ⟨some a⟩ := by
  intro p
  induction p with
  | zero =>
    intro a ha
    obtain ⟨b, hb, hbeg⟩ := begin_eq s ns hi
    rw [List.head?_eq_getElem?, ha] at hb
    simp only [Option.some.injEq] at hb
    subst hb
    exact hbeg
  | succ p ih =>
    intro a ha
    obtain ⟨b, hb⟩ : ∃ b, ns[p]? = some b := by
      have : p < ns.length := by
        have := (List.getElem?_eq_some_iff.1 ha).1
        omega
      exact ⟨ns[p], List.getElem?_eq_getElem this⟩
    have hbm : b ∈ ns := List.getElem?_mem hb
    have hv := (hi.sane b (hi.lt_next b hbm)).1
    have hr := Linked_get_fwd ns none hi.linked p b hb
    rw [ha] at hr
    simp only [iterAt, ih b hb, PersistentListIterator.next, check, Option.isSome_some,
      Bool.true_or, if_true, ListNode.getRight_eq nd _ _ hv, hr, bind, Except.bind,
      pure, Except.pure]

end PersistentList

namespace PersistentList

variable {T : Type}

theorem heap_modify (s : PersistentList T) (p : Nat) (f : ListNode T → ListNode T) (a : Nat) :
    (s.modify p f).heap a = if a = p then f (s.heap p) else s.heap a := by
  simp only [modify, Function.update_apply]

theorem heap_alloc (s : PersistentList T) (n : ListNode T) (a : Nat) :
    (s.alloc n).heap a = if a = s.next then n else s.heap a := by
  simp only [alloc, Function.update_apply]

theorem heap_add (s : PersistentList T) (p : Nat) : (s.add p).heap = s.heap := rfl
theorem heap_addHead (s : PersistentList T) (p : Nat) : (s.addHead p).heap = s.heap := rfl
theorem heap_addTail (s : PersistentList T) (p : Nat) : (s.addTail p).heap = s.heap := rfl
theorem version_modify (s : PersistentList T) (p : Nat) (f : ListNode T → ListNode T) :
    (s.modify p f).m_version = s.m_version := rfl
theorem version_alloc (s : PersistentList T) (n : ListNode T) :
    (s.alloc n).m_version = s.m_version := rfl
theorem version_add (s : PersistentList T) (p : Nat) : (s.add p).m_version = s.m_version := rfl
theorem version_addHead (s : PersistentList T) (p : Nat) :
    (s.addHead p).m_version = s.m_version := rfl
theorem version_addTail (s : PersistentList T) (p : Nat) :
    (s.addTail p).m_version = s.m_version := rfl
theorem next_modify (s : PersistentList T) (p : Nat) (f : ListNode T → ListNode T) :
    (s.modify p f).next = s.next := rfl
theorem next_alloc (s : PersistentList T) (n : ListNode T) : (s.alloc n).next = s.next + 1 := rfl
theorem next_add (s : PersistentList T) (p : Nat) : (s.add p).next = s.next := rfl
theorem next_addHead (s : PersistentList T) (p : Nat) : (s.addHead p).next = s.next := rfl
theorem next_addTail (s : PersistentList T) (p : Nat) : (s.addTail p).next = s.next := rfl

theorem copyRightLoop_none [Inhabited T] (nd : Bool) (val : Option T) (fuel pPrev : Nat)
    (s : PersistentList T) : copyRightLoop nd val fuel none pPrev s = .ok (pPrev, s) := by
  cases fuel <;> rfl

theorem copyRightLoop_full [Inhabited T] (nd : Bool) (val : Option T) (fuel r pPrev : Nat)
    (s : PersistentList T) (hf : (s.heap r).m_isFull = true)
    (hv : (s.heap r).m_first.m_version ≤ s.m_version) (hne : r ≠ pPrev) (hlt : r < s.next) :
    copyRightLoop nd val (fuel + 1) (some r) pPrev s =
      copyRightLoop nd val fuel ((s.heap r).rdRight s.m_version) s.next
        (s.afterCopyRight r pPrev) := by
  have hr1 : r ≠ s.next := by omega
  rw [copyRightLoop]
  simp only [ListNode.isFull, hf, if_true, ListNode.getVal_eq nd _ _ hv, bind, Except.bind,
    heap_add, heap_modify, heap_alloc, version_add, version_modify, version_alloc,
    hr1, hne, if_false, apply_ite PersistentList.heap, apply_ite PersistentList.m_version,
    heap_addTail, version_addTail, heap_add, version_add, version_modify, version_alloc,
    ite_self, ListNode.getRight_eq nd _ _ hv, afterCopyRight]

theorem copyRightLoop_fill [Inhabited T] (nd : Bool) (val : Option T) (fuel r pPrev : Nat)
    (s : PersistentList T) (hf : (s.heap r).m_isFull = false)
    (hv : (s.heap r).m_first.m_version ≤ s.m_version) :
    copyRightLoop nd val (fuel + 1) (some r) pPrev s =
      .ok (pPrev, s.afterFillRight r pPrev (val.getD ((s.heap r).rdVal s.m_version))) := by
  rw [copyRightLoop]
  cases val with
  | none =>
    simp only [ListNode.isFull, hf, Bool.false_eq_true, if_false, ListNode.getVal_eq nd _ _ hv,
      bind, Except.bind, pure, Except.pure, afterFillRight, Option.getD_none]
  | some x =>
    simp only [ListNode.isFull, hf, Bool.false_eq_true, if_false,
      bind, Except.bind, pure, Except.pure, afterFillRight, Option.getD_some]

end PersistentList

namespace ListNode

variable {T : Type}

theorem Sane.setRight_first {n : ListNode T} {v : Int} (h : n.Sane v) (p : Option Nat) :
    (n.setRight p true).Sane v := h

theorem Sane.setLeft_first {n : ListNode T} {v : Int} (h : n.Sane v) (p : Option Nat) :
    (n.setLeft p true).Sane v := h

theorem Sane.setLeft {n : ListNode T} {v : Int} (h : n.Sane v) (p : Option Nat) (b : Bool) :
    (n.setLeft p b).Sane v := by
  cases b <;> exact h

theorem Sane.setRight {n : ListNode T} {v : Int} (h : n.Sane v) (p : Option Nat) (b : Bool) :
    (n.setRight p b).Sane v := by
  cases b <;> exact h

theorem Fresh.is_sane {n : ListNode T} {v : Int} (h : n.Fresh v) : n.Sane v :=
  ⟨le_of_eq h.2, fun hf => by rw [h.1] at hf; exact absurd hf (by simp)⟩

theorem Fresh.fresh_setRight {n : ListNode T} {v : Int} (h : n.Fresh v) (p : Option Nat) :
    (n.setRight p true).Fresh v := h

theorem Fresh.fresh_setLeft {n : ListNode T} {v : Int} (h : n.Fresh v) (p : Option Nat) :
    (n.setLeft p true).Fresh v := h

theorem Fresh.rdLeft {n : ListNode T} {v : Int} (h : n.Fresh v) (w : Int) :
    rdLeft w n = n.m_first.m_pLeft := by
  simp [ListNode.rdLeft, snap, h.1]

theorem Fresh.rdRight {n : ListNode T} {v : Int} (h : n.Fresh v) (w : Int) :
    rdRight w n = n.m_first.m_pRight := by
  simp [ListNode.rdRight, snap, h.1]

theorem Fresh.rdVal {n : ListNode T} {v : Int} (h : n.Fresh v) (w : Int) :
    rdVal w n = n.m_first.m_value := by
  simp [ListNode.rdVal, snap, h.1]

theorem fresh_mk2 [Inhabited T] (x : T) (v : Int) : (mk2 x v).Fresh v := ⟨rfl, rfl⟩

/-- The node `n`, not full so far, after `initSecond(x, v + 1)`. -/
theorem filled_sane {n : ListNode T} {v : Int} (h : n.Sane v) (x : T) :
    (n.initSecond x (v + 1)).Sane (v + 1) :=
  ⟨by have := h.1; simp only [initSecond]; omega, fun _ => le_refl _⟩

theorem rdLeft_succ {n : ListNode T} {v : Int} (h : n.Sane v) : rdLeft (v + 1) n = rdLeft v n := by
  simp only [ListNode.rdLeft, snap_succ n v h]

theorem rdRight_succ {n : ListNode T} {v : Int} (h : n.Sane v) :
    rdRight (v + 1) n = rdRight v n := by
  simp only [ListNode.rdRight, snap_succ n v h]

theorem rdVal_succ {n : ListNode T} {v : Int} (h : n.Sane v) : rdVal (v + 1) n = rdVal v n := by
  simp only [ListNode.rdVal, snap_succ n v h]

end ListNode

namespace PersistentList

variable {T : Type}

theorem afterCopyRight_heap [Inhabited T] (s : PersistentList T) (r pPrev : Nat)
    (hp : pPrev ≠ s.next) (a : Nat) :
    (s.afterCopyRight r pPrev).heap a =
      if a = s.next then
        (ListNode.mk2 ((s.heap r).rdVal s.m_version) (s.m_version + 1)).setLeft (some pPrev) true
      else if a = pPrev then (s.heap pPrev).setRight (some s.next) true
      else s.heap a := by
  simp only [afterCopyRight, apply_ite PersistentList.heap, heap_addTail, heap_add, ite_self,
    heap_modify, heap_alloc, hp, if_false, Ne.symm hp, if_true]
  split_ifs <;> rfl

theorem afterCopyRight_next [Inhabited T] (s : PersistentList T) (r pPrev : Nat) :
    (s.afterCopyRight r pPrev).next = s.next + 1 := by
  simp only [afterCopyRight]; split <;> rfl

theorem afterCopyRight_version [Inhabited T] (s : PersistentList T) (r pPrev : Nat) :
    (s.afterCopyRight r pPrev).m_version = s.m_version := by
  simp only [afterCopyRight]; split <;> rfl

theorem afterCopyRight_last [Inhabited T] (s : PersistentList T) (r pPrev : Nat) :
    (s.afterCopyRight r pPrev).m_lastVersion = s.m_lastVersion := by
  simp only [afterCopyRight]; split <;> rfl

theorem afterCopyRight_heads [Inhabited T] (s : PersistentList T) (r pPrev : Nat) :
    (s.afterCopyRight r pPrev).m_apHeads = s.m_apHeads := by
  simp only [afterCopyRight]; split <;> rfl

theorem afterCopyRight_nodes [Inhabited T] (s : PersistentList T) (r pPrev : Nat) :
    (s.afterCopyRight r pPrev).m_apNodes = s.m_apNodes ++ [s.next] := by
  simp only [afterCopyRight]; split <;> rfl

theorem afterFillRight_heap (s : PersistentList T) (r pPrev : Nat) (x : T) (hne : r ≠ pPrev)
    (a : Nat) :
    (s.afterFillRight r pPrev x).heap a =
      if a = pPrev then (s.heap pPrev).setRight (some r) true
      else if a = r then
        ((s.heap r).initSecond x (s.m_version + 1)).setLeft (some pPrev) false
      else s.heap a := by
  simp only [afterFillRight, heap_add, heap_modify, if_true, Ne.symm hne, if_false]
  split_ifs <;> rfl

end PersistentList

namespace PersistentList

variable {T : Type}

theorem copyRightLoop_spec [Inhabited T] (nd : Bool) (val : Option T) :
    ∀ (R : List Nat) (fuel : Nat) (pPrev : Nat) (prev : Option Nat) (s : PersistentList T),
      R.length ≤ fuel →
      Linked (ListNode.rdRight s.m_version) (ListNode.rdLeft s.m_version) s.heap prev R none →
      R.Nodup → (∀ n ∈ R, n < s.next) → (∀ n ∈ R, (s.heap n).Sane s.m_version) →
      pPrev ∉ R → pPrev < s.next → (s.heap pPrev).Fresh (s.m_version + 1) →
      (∀ a, a < s.next → (s.heap a).Sane (s.m_version + 1)) →
      (∀ a ∈ s.m_apNodes, a < s.next) →
      ∃ (R' : List Nat) (q : Nat) (s' : PersistentList T),
        copyRightLoop nd val fuel R.head? pPrev s = .ok (q, s') ∧
        CopyRightPost val s s' pPrev R R' := by
  intro R
  induction R with
  | nil =>
    intro fuel pPrev prev s _ _ _ _ _ _ hp _ hsane hnodes
    refine ⟨[], pPrev, s, copyRightLoop_none nd val fuel pPrev s, ?_⟩
    exact ⟨rfl, trivial, fun _ => rfl, fun r t h => absurd h (by simp), List.nodup_nil,
      fun n hn => absurd hn (List.not_mem_nil n),
      le_refl _, fun a _ _ _ => rfl, hsane, rfl, rfl, rfl, hnodes, fun _ => rfl⟩
  | cons r rest ih =>
    intro fuel pPrev prev s hfuel hl hnd hlt hsR hpR hp hfresh hsane hnodes
    obtain ⟨_, hfwd, hlrest⟩ := hl
    have hr_lt : r < s.next := hlt r (List.mem_cons_self _ _)
    have hr_sane := hsR r (List.mem_cons_self _ _)
    have hr_ne : r ≠ pPrev := fun h => hpR (h ▸ List.mem_cons_self _ _)
    have hrest_ne_r : ∀ n ∈ rest, n ≠ r := fun n hn h =>
      (List.nodup_cons.1 hnd).1 (h ▸ hn)
    have hrest_ne_p : ∀ n ∈ rest, n ≠ pPrev := fun n hn h =>
      hpR (h ▸ List.mem_cons_of_mem _ hn)
    have hrest_lt : ∀ n ∈ rest, n < s.next := fun n hn => hlt n (List.mem_cons_of_mem _ hn)
    have hp_ne : pPrev ≠ s.next := by omega
    cases fuel with
    | zero => simp at hfuel
    | succ fuel =>
      have hfuel' : rest.length ≤ fuel := by simpa using hfuel
      cases hfull : (s.heap r).m_isFull with
      | true =>
        -- the node is full: it is copied and the walk goes on
        rw [List.head?_cons, copyRightLoop_full nd val fuel r pPrev s hfull hr_sane.1 hr_ne hr_lt,
          hfwd, headOr_eq_head?]
        have hheap := afterCopyRight_heap s r pPrev hp_ne
        have hheap_rest : ∀ n ∈ rest, (s.afterCopyRight r pPrev).heap n = s.heap n := by
          intro n hn
          rw [hheap, if_neg (by have := hrest_lt n hn; omega), if_neg (hrest_ne_p n hn)]
        have hver := afterCopyRight_version s r pPrev
        have hnext := afterCopyRight_next s r pPrev
        have hcopy : (s.afterCopyRight r pPrev).heap s.next =
            (ListNode.mk2 ((s.heap r).rdVal s.m_version) (s.m_version + 1)).setLeft
              (some pPrev) true := by
          rw [hheap, if_pos rfl]
        obtain ⟨R'', q, s', hrun, post⟩ := ih fuel s.next (some r) (s.afterCopyRight r pPrev)
          hfuel'
          (by
            rw [hver]
            exact Linked.congr (fun n hn => by rw [hheap_rest n hn]; exact ⟨rfl, rfl⟩) hlrest)
          (List.nodup_cons.1 hnd).2
          (fun n hn => by rw [hnext]; have := hrest_lt n hn; omega)
          (fun n hn => by
            rw [hheap_rest n hn, hver]; exact hsR n (List.mem_cons_of_mem _ hn))
          (fun hmem => by have := hrest_lt _ hmem; omega)
          (by rw [hnext]; omega)
          (by rw [hcopy, hver]; exact (ListNode.fresh_mk2 _ _).fresh_setLeft _)
          (by
            intro a ha
            rw [hnext] at ha
            rw [hheap, hver]
            split_ifs with h1 h2
            · exact ((ListNode.fresh_mk2 _ _).fresh_setLeft _).is_sane
            · exact (hsane pPrev hp).setRight_first _
            · exact hsane a (by omega))
          (by
            intro a ha
            rw [afterCopyRight_nodes, List.mem_append, List.mem_singleton] at ha
            rw [hnext]
            rcases ha with ha | rfl
            · have := hnodes a ha; omega
            · omega)
        have plinked := post.linked
        have psane := post.sane
        have pvals := post.vals
        rw [hver] at plinked psane pvals
        have pnext := post.next_le
        rw [hnext] at pnext
        have hcopy' : (s'.heap s.next).Fresh (s.m_version + 1) ∧
            (s'.heap s.next).m_first.m_pLeft = some pPrev ∧
            (s'.heap s.next).m_first.m_pRight = R''.head? ∧
            (s'.heap s.next).m_first.m_value = (s.heap r).rdVal s.m_version := by
          cases R'' with
          | nil => rw [post.prev_nil rfl, hcopy]; exact ⟨⟨rfl, rfl⟩, rfl, rfl, rfl⟩
          | cons c R3 => rw [post.prev_cons c R3 rfl, hcopy]; exact ⟨⟨rfl, rfl⟩, rfl, rfl, rfl⟩
        have hnotin : s.next ∉ R'' := by
          intro hmem
          rcases post.mem _ hmem with h | h
          · have := hrest_lt _ h; omega
          · rw [hnext] at h; omega
        refine ⟨s.next :: R'', q, s', hrun, ?_⟩
        refine ⟨by simp [post.length_eq], ?_, fun h => absurd h (by simp), ?_, ?_, ?_, by omega,
          ?_, ?_, ?_, ?_, ?_, ?_, ?_⟩
        · refine ⟨?_, ?_, ?_⟩
          · rw [hcopy'.1.rdLeft, hcopy'.2.1]
          · rw [hcopy'.1.rdRight, hcopy'.2.2.1, headOr_eq_head?]
          · exact plinked
        · intro c t hct
          have hc : s.next = c := (List.cons.inj hct).1
          rw [← hc, post.frame pPrev (by rw [hnext]; omega) (fun hm => hrest_ne_p _ hm rfl)
            hp_ne, hheap, if_neg hp_ne, if_pos rfl]
        · exact List.nodup_cons.2 ⟨hnotin, post.nodup⟩
        · intro n hn
          rcases List.mem_cons.1 hn with rfl | hn
          · exact Or.inr ⟨le_refl _, by omega⟩
          · rcases post.mem n hn with h | h
            · exact Or.inl (List.mem_cons_of_mem _ h)
            · rw [hnext] at h; exact Or.inr ⟨by omega, h.2⟩
        · intro a ha hna hnp
          rw [post.frame a (by rw [hnext]; omega)
            (fun hm => hna (List.mem_cons_of_mem _ hm)) (by omega), hheap,
            if_neg (by omega), if_neg hnp]
        · exact psane
        · rw [post.version_eq, hver]
        · rw [post.last_eq, afterCopyRight_last]
        · rw [post.heads_eq, afterCopyRight_heads]
        · exact post.nodes_lt
        · intro hval
          simp only [List.map_cons]
          rw [hcopy'.1.rdVal, hcopy'.2.2.2, pvals hval]
          congr 1
          apply List.map_congr_left
          intro n hn
          rw [hheap_rest n hn]
      | false =>
        -- the node is not full: its second snapshot is filled and the walk ends
        rw [List.head?_cons, copyRightLoop_fill nd val fuel r pPrev s hfull hr_sane.1]
        have hheap := afterFillRight_heap s r pPrev
          (val.getD ((s.heap r).rdVal s.m_version)) hr_ne
        have hheap_rest : ∀ n ∈ rest,
            (s.afterFillRight r pPrev (val.getD ((s.heap r).rdVal s.m_version))).heap n
              = s.heap n := by
          intro n hn
          rw [hheap, if_neg (hrest_ne_p n hn), if_neg (hrest_ne_r n hn)]
        have hr_heap :
            (s.afterFillRight r pPrev (val.getD ((s.heap r).rdVal s.m_version))).heap r =
              ((s.heap r).initSecond (val.getD ((s.heap r).rdVal s.m_version))
                (s.m_version + 1)).setLeft (some pPrev) false := by
          rw [hheap, if_neg hr_ne, if_pos rfl]
        refine ⟨r :: rest, pPrev, _, rfl, ?_⟩
        refine ⟨rfl, ?_, fun h => absurd h (by simp), ?_, hnd, fun n hn => Or.inl hn, le_refl _,
          ?_, ?_, rfl, rfl, rfl, ?_, ?_⟩
        · refine ⟨?_, ?_, ?_⟩
          · rw [hr_heap]
            simp [ListNode.rdLeft, ListNode.snap, ListNode.initSecond, ListNode.setLeft]
          · rw [hr_heap, ← hfwd]
            simp [ListNode.rdRight, ListNode.snap, ListNode.initSecond, ListNode.setLeft, hfull]
          · refine Linked.congr (fun n hn => ?_) hlrest
            rw [hheap_rest n hn]
            have hs := hsR n (List.mem_cons_of_mem _ hn)
            exact ⟨ListNode.rdRight_succ hs, ListNode.rdLeft_succ hs⟩
        · intro c t hct
          rw [← (List.cons.inj hct).1, hheap, if_pos rfl]
        · intro a ha hna hnp
          rw [hheap, if_neg hnp, if_neg (fun h : a = r => hna (h ▸ List.mem_cons_self _ _))]
        · intro a ha
          rw [hheap]
          split_ifs with h1 h2
          · exact (hsane pPrev hp).setRight_first _
          · exact (ListNode.filled_sane hr_sane _).setLeft _ _
          · exact hsane a ha
        · intro a ha
          simp only [afterFillRight, add, List.mem_append, List.mem_singleton] at ha
          rcases ha with ha | rfl
          · exact hnodes a ha
          · exact hr_lt
        · intro hval
          subst hval
          simp only [List.map_cons, Option.getD_none] at hr_heap hheap_rest ⊢
          congr 1
          · rw [hr_heap]
            simp [ListNode.rdVal, ListNode.snap, ListNode.initSecond, ListNode.setLeft]
          · apply List.map_congr_left
            intro n hn
            rw [hheap_rest n hn]
            exact ListNode.rdVal_succ (hsR n (List.mem_cons_of_mem _ hn))

end PersistentList

namespace PersistentList

variable {T : Type}

theorem copyLeftLoop_none [Inhabited T] (nd : Bool) (val : Option T) (fuel pPrev : Nat)
    (s : PersistentList T) : copyLeftLoop nd val fuel none pPrev s = .ok (pPrev, s) := by
  cases fuel <;> rfl

theorem copyLeftLoop_full [Inhabited T] (nd : Bool) (val : Option T) (fuel r pPrev : Nat)
    (s : PersistentList T) (hf : (s.heap r).m_isFull = true)
    (hv : (s.heap r).m_first.m_version ≤ s.m_version) (hne : r ≠ pPrev) (hlt : r < s.next) :
    copyLeftLoop nd val (fuel + 1) (some r) pPrev s =
      copyLeftLoop nd val fuel ((s.heap r).rdLeft s.m_version) s.next
        (s.afterCopyLeft r pPrev) := by
  have hr1 : r ≠ s.next := by omega
  rw [copyLeftLoop]
  simp only [ListNode.isFull, hf, if_true, ListNode.getVal_eq nd _ _ hv, bind, Except.bind,
    heap_add, heap_modify, heap_alloc, version_add, version_modify, version_alloc,
    hr1, hne, if_false, apply_ite PersistentList.heap, apply_ite PersistentList.m_version,
    heap_addHead, version_addHead, heap_add, version_add, version_modify, version_alloc,
    ite_self, ListNode.getLeft_eq nd _ _ hv, afterCopyLeft]

theorem copyLeftLoop_fill [Inhabited T] (nd : Bool) (val : Option T) (fuel r pPrev : Nat)
    (s : PersistentList T) (hf : (s.heap r).m_isFull = false)
    (hv : (s.heap r).m_first.m_version ≤ s.m_version) :
    copyLeftLoop nd val (fuel + 1) (some r) pPrev s =
      .ok (pPrev, s.afterFillLeft r pPrev (val.getD ((s.heap r).rdVal s.m_version))) := by
  rw [copyLeftLoop]
  cases val with
  | none =>
    simp only [ListNode.isFull, hf, Bool.false_eq_true, if_false, ListNode.getVal_eq nd _ _ hv,
      bind, Except.bind, pure, Except.pure, afterFillLeft, Option.getD_none]
  | some x =>
    simp only [ListNode.isFull, hf, Bool.false_eq_true, if_false,
      bind, Except.bind, pure, Except.pure, afterFillLeft, Option.getD_some]

end PersistentList

namespace PersistentList

variable {T : Type}

theorem afterCopyLeft_heap [Inhabited T] (s : PersistentList T) (r pPrev : Nat)
    (hp : pPrev ≠ s.next) (a : Nat) :
    (s.afterCopyLeft r pPrev).heap a =
      if a = s.next then
        (ListNode.mk2 ((s.heap r).rdVal s.m_version) (s.m_version + 1)).setRight (some pPrev) true
      else if a = pPrev then (s.heap pPrev).setLeft (some s.next) true
      else s.heap a := by
  simp only [afterCopyLeft, apply_ite PersistentList.heap, heap_addHead, heap_add, ite_self,
    heap_modify, heap_alloc, hp, if_false, Ne.symm hp, if_true]
  split_ifs <;> rfl

theorem afterCopyLeft_next [Inhabited T] (s : PersistentList T) (r pPrev : Nat) :
    (s.afterCopyLeft r pPrev).next = s.next + 1 := by
  simp only [afterCopyLeft]; split <;> rfl

theorem afterCopyLeft_version [Inhabited T] (s : PersistentList T) (r pPrev : Nat) :
    (s.afterCopyLeft r pPrev).m_version = s.m_version := by
  simp only [afterCopyLeft]; split <;> rfl

theorem afterCopyLeft_last [Inhabited T] (s : PersistentList T) (r pPrev : Nat) :
    (s.afterCopyLeft r pPrev).m_lastVersion = s.m_lastVersion := by
  simp only [afterCopyLeft]; split <;> rfl

theorem afterCopyLeft_tails [Inhabited T] (s : PersistentList T) (r pPrev : Nat) :
    (s.afterCopyLeft r pPrev).m_apTails = s.m_apTails := by
  simp only [afterCopyLeft]; split <;> rfl

theorem afterCopyLeft_heads [Inhabited T] (s : PersistentList T) (r pPrev : Nat) :
    (s.afterCopyLeft r pPrev).m_apHeads =
      if (s.heap r).rdLeft s.m_version = none then s.m_apHeads ++ [s.next] else s.m_apHeads := by
  simp only [afterCopyLeft]; split <;> rfl

theorem afterCopyLeft_nodes [Inhabited T] (s : PersistentList T) (r pPrev : Nat) :
    (s.afterCopyLeft r pPrev).m_apNodes = s.m_apNodes ++ [s.next] := by
  simp only [afterCopyLeft]; split <;> rfl

theorem afterFillLeft_heap (s : PersistentList T) (r pPrev : Nat) (x : T) (hne : r ≠ pPrev)
    (a : Nat) :
    (s.afterFillLeft r pPrev x).heap a =
      if a = pPrev then (s.heap pPrev).setLeft (some r) true
      else if a = r then
        ((s.heap r).initSecond x (s.m_version + 1)).setRight (some pPrev) false
      else s.heap a := by
  simp only [afterFillLeft, heap_add, heap_modify, if_true, Ne.symm hne, if_false]
  split_ifs <;> rfl

end PersistentList

namespace PersistentList

variable {T : Type}

theorem copyLeftLoop_spec [Inhabited T] (nd : Bool) (val : Option T) :
    ∀ (R : List Nat) (fuel : Nat) (pPrev : Nat) (prev : Option Nat) (s : PersistentList T),
      R.length ≤ fuel →
      Linked (ListNode.rdLeft s.m_version) (ListNode.rdRight s.m_version) s.heap prev R none →
      R.Nodup → (∀ n ∈ R, n < s.next) → (∀ n ∈ R, (s.heap n).Sane s.m_version) →
      pPrev ∉ R → pPrev < s.next → (s.heap pPrev).Fresh (s.m_version + 1) →
      (∀ a, a < s.next → (s.heap a).Sane (s.m_version + 1)) →
      (∀ a ∈ s.m_apNodes, a < s.next) →
      ∃ (R' : List Nat) (q : Nat) (s' : PersistentList T),
        copyLeftLoop nd val fuel R.head? pPrev s = .ok (q, s') ∧
        CopyLeftPost val s s' pPrev R R' := by
  intro R
  induction R with
  | nil =>
    intro fuel pPrev prev s _ _ _ _ _ _ hp _ hsane hnodes
    refine ⟨[], pPrev, s, copyLeftLoop_none nd val fuel pPrev s, ?_⟩
    exact ⟨rfl, trivial, fun _ => rfl, fun r t h => absurd h (by simp), List.nodup_nil,
      fun n hn => absurd hn (List.not_mem_nil n),
      le_refl _, fun a _ _ _ => rfl, hsane, rfl, rfl, rfl,
      fun hd h _ => absurd h (by simp), fun h => h, fun _ => rfl, hnodes, fun _ => rfl⟩
  | cons r rest ih =>
    intro fuel pPrev prev s hfuel hl hnd hlt hsR hpR hp hfresh hsane hnodes
    obtain ⟨_, hfwd, hlrest⟩ := hl
    have hr_lt : r < s.next := hlt r (List.mem_cons_self _ _)
    have hr_sane := hsR r (List.mem_cons_self _ _)
    have hr_ne : r ≠ pPrev := fun h => hpR (h ▸ List.mem_cons_self _ _)
    have hrest_ne_r : ∀ n ∈ rest, n ≠ r := fun n hn h =>
      (List.nodup_cons.1 hnd).1 (h ▸ hn)
    have hrest_ne_p : ∀ n ∈ rest, n ≠ pPrev := fun n hn h =>
      hpR (h ▸ List.mem_cons_of_mem _ hn)
    have hrest_lt : ∀ n ∈ rest, n < s.next := fun n hn => hlt n (List.mem_cons_of_mem _ hn)
    have hp_ne : pPrev ≠ s.next := by omega
    cases fuel with
    | zero => simp at hfuel
    | succ fuel =>
      have hfuel' : rest.length ≤ fuel := by simpa using hfuel
      cases hfull : (s.heap r).m_isFull with
      | true =>
        -- the node is full: it is copied and the walk goes on
        rw [List.head?_cons, copyLeftLoop_full nd val fuel r pPrev s hfull hr_sane.1 hr_ne hr_lt,
          hfwd, headOr_eq_head?]
        have hheap := afterCopyLeft_heap s r pPrev hp_ne
        have hheap_rest : ∀ n ∈ rest, (s.afterCopyLeft r pPrev).heap n = s.heap n := by
          intro n hn
          rw [hheap, if_neg (by have := hrest_lt n hn; omega), if_neg (hrest_ne_p n hn)]
        have hver := afterCopyLeft_version s r pPrev
        have hnext := afterCopyLeft_next s r pPrev
        have hcopy : (s.afterCopyLeft r pPrev).heap s.next =
            (ListNode.mk2 ((s.heap r).rdVal s.m_version) (s.m_version + 1)).setRight
              (some pPrev) true := by
          rw [hheap, if_pos rfl]
        obtain ⟨R'', q, s', hrun, post⟩ := ih fuel s.next (some r) (s.afterCopyLeft r pPrev)
          hfuel'
          (by
            rw [hver]
            exact Linked.congr (fun n hn => by rw [hheap_rest n hn]; exact ⟨rfl, rfl⟩) hlrest)
          (List.nodup_cons.1 hnd).2
          (fun n hn => by rw [hnext]; have := hrest_lt n hn; omega)
          (fun n hn => by
            rw [hheap_rest n hn, hver]; exact hsR n (List.mem_cons_of_mem _ hn))
          (fun hmem => by have := hrest_lt _ hmem; omega)
          (by rw [hnext]; omega)
          (by rw [hcopy, hver]; exact (ListNode.fresh_mk2 _ _).fresh_setRight _)
          (by
            intro a ha
            rw [hnext] at ha
            rw [hheap, hver]
            split_ifs with h1 h2
            · exact ((ListNode.fresh_mk2 _ _).fresh_setRight _).is_sane
            · exact (hsane pPrev hp).setLeft_first _
            · exact hsane a (by omega))
          (by
            intro a ha
            rw [afterCopyLeft_nodes, List.mem_append, List.mem_singleton] at ha
            rw [hnext]
            rcases ha with ha | rfl
            · have := hnodes a ha; omega
            · omega)
        have plinked := post.linked
        have psane := post.sane
        have pvals := post.vals
        rw [hver] at plinked psane pvals
        have pnext := post.next_le
        rw [hnext] at pnext
        have hcopy' : (s'.heap s.next).Fresh (s.m_version + 1) ∧
            (s'.heap s.next).m_first.m_pRight = some pPrev ∧
            (s'.heap s.next).m_first.m_pLeft = R''.head? ∧
            (s'.heap s.next).m_first.m_value = (s.heap r).rdVal s.m_version := by
          cases R'' with
          | nil => rw [post.prev_nil rfl, hcopy]; exact ⟨⟨rfl, rfl⟩, rfl, rfl, rfl⟩
          | cons c R3 => rw [post.prev_cons c R3 rfl, hcopy]; exact ⟨⟨rfl, rfl⟩, rfl, rfl, rfl⟩
        have hnotin : s.next ∉ R'' := by
          intro hmem
          rcases post.mem _ hmem with h | h
          · have := hrest_lt _ h; omega
          · rw [hnext] at h; omega
        refine ⟨s.next :: R'', q, s', hrun, ?_⟩
        refine ⟨by simp [post.length_eq], ?_, fun h => absurd h (by simp), ?_, ?_, ?_, by omega,
          ?_, ?_, ?_, ?_, ?_, ?_, ?_, ?_, ?_, ?_⟩
        · refine ⟨?_, ?_, ?_⟩
          · rw [hcopy'.1.rdRight, hcopy'.2.1]
          · rw [hcopy'.1.rdLeft, hcopy'.2.2.1, headOr_eq_head?]
          · exact plinked
        · intro c t hct
          have hc : s.next = c := (List.cons.inj hct).1
          rw [← hc, post.frame pPrev (by rw [hnext]; omega) (fun hm => hrest_ne_p _ hm rfl)
            hp_ne, hheap, if_neg hp_ne, if_pos rfl]
        · exact List.nodup_cons.2 ⟨hnotin, post.nodup⟩
        · intro n hn
          rcases List.mem_cons.1 hn with rfl | hn
          · exact Or.inr ⟨le_refl _, by omega⟩
          · rcases post.mem n hn with h | h
            · exact Or.inl (List.mem_cons_of_mem _ h)
            · rw [hnext] at h; exact Or.inr ⟨by omega, h.2⟩
        · intro a ha hna hnp
          rw [post.frame a (by rw [hnext]; omega)
            (fun hm => hna (List.mem_cons_of_mem _ hm)) (by omega), hheap,
            if_neg (by omega), if_neg hnp]
        · exact psane
        · rw [post.version_eq, hver]
        · rw [post.last_eq, afterCopyLeft_last]
        · rw [post.tails_eq, afterCopyLeft_tails]
        · intro hd hW hH
          have hheads := afterCopyLeft_heads s r pPrev
          cases rest with
          | nil =>
            have hR : R'' = [] := List.length_eq_zero.1 post.length_eq
            rw [post.heads_nil rfl, hheads, hfwd, hR]
            simp [headOr]
          | cons m rest' =>
            rw [hfwd] at hheads
            simp only [headOr, reduceCtorEq, if_false] at hheads
            have hne : R'' ≠ [] := by
              intro h
              have := post.length_eq
              rw [h] at this
              simp at this
            rw [post.heads_last hd (by simpa using hW) (by rw [hheads]; exact hH)]
            cases R'' with
            | nil => exact absurd rfl hne
            | cons c R3 => rw [List.getLast?_cons_cons]
        · intro hH
          apply post.heads_lt
          intro a ha
          rw [afterCopyLeft_heads] at ha
          rw [hnext]
          split at ha
          · rcases List.mem_append.1 ha with ha | ha
            · have := hH a ha; omega
            · simp only [List.mem_singleton] at ha; omega
          · have := hH a ha; omega
        · intro h
          exact absurd h (by simp)
        · exact post.nodes_lt
        · intro hval
          simp only [List.map_cons]
          rw [hcopy'.1.rdVal, hcopy'.2.2.2, pvals hval]
          congr 1
          apply List.map_congr_left
          intro n hn
          rw [hheap_rest n hn]
      | false =>
        -- the node is not full: its second snapshot is filled and the walk ends
        rw [List.head?_cons, copyLeftLoop_fill nd val fuel r pPrev s hfull hr_sane.1]
        have hheap := afterFillLeft_heap s r pPrev
          (val.getD ((s.heap r).rdVal s.m_version)) hr_ne
        have hheap_rest : ∀ n ∈ rest,
            (s.afterFillLeft r pPrev (val.getD ((s.heap r).rdVal s.m_version))).heap n
              = s.heap n := by
          intro n hn
          rw [hheap, if_neg (hrest_ne_p n hn), if_neg (hrest_ne_r n hn)]
        have hr_heap :
            (s.afterFillLeft r pPrev (val.getD ((s.heap r).rdVal s.m_version))).heap r =
              ((s.heap r).initSecond (val.getD ((s.heap r).rdVal s.m_version))
                (s.m_version + 1)).setRight (some pPrev) false := by
          rw [hheap, if_neg hr_ne, if_pos rfl]
        refine ⟨r :: rest, pPrev, _, rfl, ?_⟩
        refine ⟨rfl, ?_, fun h => absurd h (by simp), ?_, hnd, fun n hn => Or.inl hn, le_refl _,
          ?_, ?_, rfl, rfl, rfl,
          fun hd hW hH => hH.trans hW.symm, fun h => h, fun _ => rfl, ?_, ?_⟩
        · refine ⟨?_, ?_, ?_⟩
          · rw [hr_heap]
            simp [ListNode.rdRight, ListNode.snap, ListNode.initSecond, ListNode.setRight]
          · rw [hr_heap, ← hfwd]
            simp [ListNode.rdLeft, ListNode.snap, ListNode.initSecond, ListNode.setRight, hfull]
          · refine Linked.congr (fun n hn => ?_) hlrest
            rw [hheap_rest n hn]
            have hs := hsR n (List.mem_cons_of_mem _ hn)
            exact ⟨ListNode.rdLeft_succ hs, ListNode.rdRight_succ hs⟩
        · intro c t hct
          rw [← (List.cons.inj hct).1, hheap, if_pos rfl]
        · intro a ha hna hnp
          rw [hheap, if_neg hnp, if_neg (fun h : a = r => hna (h ▸ List.mem_cons_self _ _))]
        · intro a ha
          rw [hheap]
          split_ifs with h1 h2
          · exact (hsane pPrev hp).setLeft_first _
          · exact (ListNode.filled_sane hr_sane _).setRight _ _
          · exact hsane a ha
        · intro a ha
          simp only [afterFillLeft, add, List.mem_append, List.mem_singleton] at ha
          rcases ha with ha | rfl
          · exact hnodes a ha
          · exact hr_lt
        · intro hval
          subst hval
          simp only [List.map_cons, Option.getD_none] at hr_heap hheap_rest ⊢
          congr 1
          · rw [hr_heap]
            simp [ListNode.rdVal, ListNode.snap, ListNode.initSecond, ListNode.setRight]
          · apply List.map_congr_left
            intro n hn
            rw [hheap_rest n hn]
            exact ListNode.rdVal_succ (hsR n (List.mem_cons_of_mem _ hn))

end PersistentList

namespace PersistentList

variable {T : Type}

theorem Inv.length_le {s : PersistentList T} {ns : List Nat} (hi : s.Inv ns) :
    ns.length ≤ s.next := by
  have := List.Nodup.length_le_card (α := Fin s.next)
    (l := ns.pmap (fun n hn => ⟨n, hn⟩) hi.lt_next) ?_
  · simpa using this
  · apply hi.nodup.pmap
    intro a _ b _ hab
    simpa using hab

theorem clearNodes_eq (v : Int) (heap : Nat → ListNode T) (l : List Nat)
    (h : ∀ a ∈ l, (heap a).Sane v) : clearNodes v l heap = (heap, l) := by
  cases l with
  | nil => rfl
  | cons p rest =>
    have hs := h p (List.mem_cons_self _ _)
    have hc : ((heap p).clear v).2 = false := by
      unfold ListNode.clear
      cases hf : (heap p).m_isFull
      · simp [hs.1]
      · simp [hs.2 hf]
    simp only [clearNodes, hc, Bool.false_eq_true, if_false]

theorem dropHeads_eq (v : Int) (heap : Nat → ListNode T) (l : List Nat)
    (h : ∀ a ∈ l, (heap a).Sane v) : dropHeads heap v l = l := by
  cases l with
  | nil => rfl
  | cons p rest =>
    have hs := h p (List.mem_cons_self _ _)
    simp only [dropHeads, ListNode.versions, gt_iff_lt, not_lt.2 hs.1, if_false]

theorem invalidate_eq_self (s : PersistentList T) (ns : List Nat) (hi : s.Inv ns) :
    s.invalidate s.m_version = s := by
  unfold invalidate
  rw [clearNodes_eq _ _ _ (fun a ha => hi.sane a (hi.nodes_lt a (List.mem_reverse.1 ha)))]
  simp only
  rw [dropHeads_eq _ _ _ (fun a ha => hi.sane a (hi.heads_lt a (List.mem_reverse.1 ha)))]
  simp

end PersistentList

namespace PersistentList

variable {T : Type}

theorem insertStart_heap [Inhabited T] (s : PersistentList T) (item : Nat) (x : T) (a : Nat) :
    (s.insertStart item x).heap a =
      if a = s.next then ListNode.mk2 x (s.m_version + 1) else s.heap a := by
  simp only [insertStart, apply_ite PersistentList.heap, heap_addHead, heap_add, ite_self,
    heap_alloc]

theorem insertStart_next [Inhabited T] (s : PersistentList T) (item : Nat) (x : T) :
    (s.insertStart item x).next = s.next + 1 := by
  simp only [insertStart]; split <;> rfl

theorem insertStart_version [Inhabited T] (s : PersistentList T) (item : Nat) (x : T) :
    (s.insertStart item x).m_version = s.m_version := by
  simp only [insertStart]; split <;> rfl

theorem insertStart_last [Inhabited T] (s : PersistentList T) (item : Nat) (x : T) :
    (s.insertStart item x).m_lastVersion = s.m_lastVersion := by
  simp only [insertStart]; split <;> rfl

theorem insertStart_nodes [Inhabited T] (s : PersistentList T) (item : Nat) (x : T) :
    (s.insertStart item x).m_apNodes = s.m_apNodes ++ [s.next] := by
  simp only [insertStart]; split <;> rfl

theorem insertStart_heads [Inhabited T] (s : PersistentList T) (item : Nat) (x : T) :
    (s.insertStart item x).m_apHeads =
      if (s.heap item).rdLeft s.m_version = none then s.m_apHeads ++ [s.next]
      else s.m_apHeads := by
  simp only [insertStart]; split <;> rfl

/-- Splitting the chain at position `p`. -/
theorem Inv.split {s : PersistentList T} {ns : List Nat} (hi : s.Inv ns) (p item : Nat)
    (hp : ns[p]? = some item) :
    ∃ L Rt, ns = L ++ item :: Rt ∧ L.length = p ∧ L = ns.take p ∧ item :: Rt = ns.drop p ∧
      Linked (ListNode.rdLeft s.m_version) (ListNode.rdRight s.m_version) s.heap
        (some item) L.reverse none ∧
      Linked (ListNode.rdRight s.m_version) (ListNode.rdLeft s.m_version) s.heap
        L.reverse.head? (item :: Rt) none := by
  obtain ⟨hplt, hget⟩ := List.getElem?_eq_some_iff.1 hp
  have hdrop : ns.drop p = item :: ns.drop (p + 1) := by
    rw [List.drop_eq_getElem_cons hplt, hget]
  have hns : ns = ns.take p ++ item :: ns.drop (p + 1) := by
    rw [← hdrop, List.take_append_drop]
  refine ⟨ns.take p, ns.drop (p + 1), hns, by rw [List.length_take]; omega, rfl,
    hdrop.symm, ?_, ?_⟩
  · have hl := hi.linked
    rw [hns, Linked_append] at hl
    exact (Linked_reverse _ _ _ _ _ _).1 hl.1
  · have hl := hi.linked
    rw [hns, Linked_append, lastOr_eq_getLast?] at hl
    rw [List.head?_reverse]
    exact hl.2

end PersistentList

namespace PersistentList

variable {T : Type}

theorem Linked_around (w : Int) (h : Nat → ListNode T) (W R : List Nat) (n : Nat)
    (hl : Linked (ListNode.rdLeft w) (ListNode.rdRight w) h (some n) W none)
    (hr : Linked (ListNode.rdRight w) (ListNode.rdLeft w) h (some n) R none)
    (hnl : ListNode.rdLeft w (h n) = W.head?) (hnr : ListNode.rdRight w (h n) = R.head?) :
    Linked (ListNode.rdRight w) (ListNode.rdLeft w) h none (W.reverse ++ n :: R) none := by
  rw [Linked_append]
  refine ⟨(Linked_reverse _ _ _ _ _ _).2 (by simpa using hl), ?_, ?_, hr⟩
  · rw [hnl, lastOr_reverse, headOr_eq_head?]
  · rw [hnr, headOr_eq_head?]

theorem updateLastHead_eq (nd : Bool) (s : PersistentList T) (w : Int) (hd : Nat)
    (hh : s.m_apHeads.getLast? = some hd) (hv : (s.heap hd).m_first.m_version ≤ w)
    (hl : ListNode.rdLeft w (s.heap hd) = none) : s.updateLastHead nd w = .ok s := by
  simp only [updateLastHead, vecBack, hh, bind, Except.bind, ListNode.getLeft_eq nd _ _ hv, hl,
    pure, Except.pure]

/-- The common core of `insert` and of `setVal` on a full node: a new node at
address `s.next` holding `x`, the walk to the left over `L` and the walk to the
right over `R`, then `updateLastHead`.  The chain of the new version is the
new left segment, the new node and the new right segment. -/
theorem around_core [Inhabited T] (nd : Bool) (val : Option T) (s : PersistentList T)
    (ns : List Nat) (hi : s.Inv ns) (s3 : PersistentList T) (x : T) (L R : List Nat)
    (prevL prevR : Option Nat)
    (hLns : ∀ a ∈ L, a ∈ ns) (hRns : ∀ a ∈ R, a ∈ ns)
    (hndL : L.Nodup) (hndR : R.Nodup) (hdisj : ∀ a, a ∈ L → a ∈ R → False)
    (hhead : ∀ a, L.head? = some a → ns.head? = some a)
    (hWl : Linked (ListNode.rdLeft s.m_version) (ListNode.rdRight s.m_version) s.heap
      prevL L.reverse none)
    (hRl : Linked (ListNode.rdRight s.m_version) (ListNode.rdLeft s.m_version) s.heap
      prevR R none)
    (h3heap : ∀ a, s3.heap a = if a = s.next then ListNode.mk2 x (s.m_version + 1) else s.heap a)
    (h3next : s3.next = s.next + 1) (h3ver : s3.m_version = s.m_version)
    (h3heads : s3.m_apHeads = if L = [] then s.m_apHeads ++ [s.next] else s.m_apHeads)
    (h3nodes : ∀ a ∈ s3.m_apNodes, a < s.next + 1) :
    ∃ (W' R' : List Nat) (qL qR : Nat) (sA sB : PersistentList T),
      copyLeftLoop nd val s3.next L.reverse.head? s.next s3 = .ok (qL, sA) ∧
      copyRightLoop nd val sA.next R.head? s.next sA = .ok (qR, sB) ∧
      sB.updateLastHead nd (sB.m_version + 1) = .ok sB ∧
      sA.m_version = s.m_version ∧ sB.m_version = s.m_version ∧
      (∀ a, a < s.next → a ∉ L → sA.heap a = s.heap a) ∧
      ListNode.getRight nd (sB.heap s.next) (s.m_version + 1) = .ok R'.head? ∧
      W'.length = L.length ∧ R'.length = R.length ∧
      Inv { sB with m_version := sB.m_version + 1, m_lastVersion := sB.m_version + 1 }
        (W'.reverse ++ s.next :: R') ∧
      (val = none →
        (W'.reverse ++ s.next :: R').map (fun n => (sB.heap n).rdVal (s.m_version + 1)) =
          L.map (fun n => (s.heap n).rdVal s.m_version) ++ x ::
          R.map (fun n => (s.heap n).rdVal s.m_version)) := by
  have hlenL : L.length ≤ s.next := by
    have := List.Nodup.length_le_card (α := Fin s.next)
      (l := L.pmap (fun n hn => ⟨n, hn⟩) (fun a ha => hi.lt_next a (hLns a ha))) ?_
    · simpa using this
    · apply hndL.pmap
      intro a _ b _ hab
      simpa using hab
  have hlenR : R.length ≤ s.next := by
    have := List.Nodup.length_le_card (α := Fin s.next)
      (l := R.pmap (fun n hn => ⟨n, hn⟩) (fun a ha => hi.lt_next a (hRns a ha))) ?_
    · simpa using this
    · apply hndR.pmap
      intro a _ b _ hab
      simpa using hab
  have hLlt : ∀ a ∈ L, a < s.next := fun a ha => hi.lt_next a (hLns a ha)
  have hRlt : ∀ a ∈ R, a < s.next := fun a ha => hi.lt_next a (hRns a ha)
  have h3old : ∀ a, a < s.next → s3.heap a = s.heap a := by
    intro a ha
    rw [h3heap, if_neg (by omega)]
  have h3new : s3.heap s.next = ListNode.mk2 x (s.m_version + 1) := by
    rw [h3heap, if_pos rfl]
  -- the walk to the left
  obtain ⟨W', qL, sA, hrunL, postL⟩ := copyLeftLoop_spec nd val L.reverse
    s3.next s.next prevL s3
    (by rw [h3next, List.length_reverse]; omega)
    (by
      rw [h3ver]
      exact Linked.congr (fun n hn => by
        rw [h3old n (hLlt n (List.mem_reverse.1 hn))]; exact ⟨rfl, rfl⟩) hWl)
    (List.nodup_reverse.2 hndL)
    (fun n hn => by rw [h3next]; have := hLlt n (List.mem_reverse.1 hn); omega)
    (fun n hn => by
      have := hLlt n (List.mem_reverse.1 hn)
      rw [h3old n this, h3ver]; exact hi.sane n this)
    (fun hmem => by have := hLlt _ (List.mem_reverse.1 hmem); omega)
    (by rw [h3next]; omega)
    (by rw [h3new, h3ver]; exact ListNode.fresh_mk2 _ _)
    (by
      intro a ha
      rw [h3next] at ha
      rw [h3heap, h3ver]
      split_ifs with h1
      · exact (ListNode.fresh_mk2 _ _).is_sane
      · exact (hi.sane a (by omega)).succ)
    (by
      intro a ha
      rw [h3next]
      exact h3nodes a ha)
  have pLlinked := postL.linked
  have pLsane := postL.sane
  have pLvals := postL.vals
  have pLnext := postL.next_le
  have pLmem := postL.mem
  have pLframe := postL.frame
  rw [h3ver] at pLlinked pLsane pLvals
  rw [h3next] at pLnext pLmem pLframe
  have hAver : sA.m_version = s.m_version := by rw [postL.version_eq, h3ver]
  have hAold : ∀ a ∈ R, sA.heap a = s.heap a := by
    intro a ha
    have hlt := hRlt a ha
    rw [pLframe a (by omega) (fun hm => hdisj a (List.mem_reverse.1 hm) ha) (by omega),
      h3old a hlt]
  have hAnew : (sA.heap s.next).Fresh (s.m_version + 1) ∧
      (sA.heap s.next).m_first.m_pLeft = W'.head? ∧
      (sA.heap s.next).m_first.m_pRight = none ∧
      (sA.heap s.next).m_first.m_value = x := by
    cases W' with
    | nil => rw [postL.prev_nil rfl, h3new]; exact ⟨⟨rfl, rfl⟩, rfl, rfl, rfl⟩
    | cons c t => rw [postL.prev_cons c t rfl, h3new]; exact ⟨⟨rfl, rfl⟩, rfl, rfl, rfl⟩
  -- the walk to the right
  obtain ⟨R', qR, sB, hrunR, postR⟩ := copyRightLoop_spec nd val R
    sA.next s.next prevR sA
    (by omega)
    (by
      rw [hAver]
      exact Linked.congr (fun n hn => by rw [hAold n hn]; exact ⟨rfl, rfl⟩) hRl)
    hndR
    (fun n hn => by have := hRlt n hn; omega)
    (fun n hn => by rw [hAold n hn, hAver]; exact hi.sane n (hRlt n hn))
    (fun hmem => by have := hRlt _ hmem; omega)
    (by omega)
    (by rw [hAver]; exact hAnew.1)
    (by rw [hAver]; exact pLsane)
    postL.nodes_lt
  have pRlinked := postR.linked
  have pRsane := postR.sane
  have pRvals := postR.vals
  rw [hAver] at pRlinked pRsane pRvals
  have hBver : sB.m_version = s.m_version := by rw [postR.version_eq, hAver]
  have hBnew : (sB.heap s.next).Fresh (s.m_version + 1) ∧
      (sB.heap s.next).m_first.m_pLeft = W'.head? ∧
      (sB.heap s.next).m_first.m_pRight = R'.head? ∧
      (sB.heap s.next).m_first.m_value = x := by
    cases hR' : R' with
    | nil =>
      rw [postR.prev_nil hR']
      refine ⟨hAnew.1, hAnew.2.1, ?_, hAnew.2.2.2⟩
      exact hAnew.2.2.1
    | cons r' R't =>
      rw [postR.prev_cons r' R't hR']
      exact ⟨hAnew.1.fresh_setRight _, hAnew.2.1, rfl, hAnew.2.2.2⟩
  -- nodes of the left segment are not touched by the walk to the right
  have hW'B : ∀ a ∈ W', sB.heap a = sA.heap a ∧ a ≠ s.next ∧ a ∉ R' ∧ a < sA.next := by
    intro a ha
    have hcase := pLmem a ha
    have hne : a ≠ s.next := by
      rcases hcase with h | h
      · have := hLlt a (List.mem_reverse.1 h); omega
      · omega
    have hnotR : a ∉ R := by
      rcases hcase with h | h
      · exact fun hb => hdisj a (List.mem_reverse.1 h) hb
      · intro hb; have := hRlt a hb; omega
    have hlt : a < sA.next := by
      rcases hcase with h | h
      · have := hLlt a (List.mem_reverse.1 h); omega
      · exact h.2
    refine ⟨postR.frame a hlt hnotR hne, hne, ?_, hlt⟩
    intro hR
    rcases postR.mem a hR with h | h
    · exact hnotR h
    · omega
  have hW'lt : ∀ a ∈ W', a < sB.next := fun a ha => by
    have := (hW'B a ha).2.2.2
    have := postR.next_le
    omega
  have hR'lt : ∀ a ∈ R', a < sB.next := fun a ha => by
    rcases postR.mem a ha with h | h
    · have := hRlt a h
      have := postR.next_le
      omega
    · exact h.2
  have hnew_lt : s.next < sB.next := by
    have := postR.next_le
    omega
  have hnew_notR : s.next ∉ R' := by
    intro hR
    rcases postR.mem _ hR with h | h
    · have := hRlt _ h; omega
    · omega
  -- the chain of the new version
  have hchain : Linked (ListNode.rdRight (s.m_version + 1)) (ListNode.rdLeft (s.m_version + 1))
      sB.heap none (W'.reverse ++ s.next :: R') none := by
    apply Linked_around
    · exact Linked.congr (fun n hn => by rw [(hW'B n hn).1]; exact ⟨rfl, rfl⟩) pLlinked
    · exact pRlinked
    · rw [hBnew.1.rdLeft, hBnew.2.1]
    · rw [hBnew.1.rdRight, hBnew.2.2.1]
  have hnodup : (W'.reverse ++ s.next :: R').Nodup := by
    rw [List.nodup_append]
    refine ⟨List.nodup_reverse.2 postL.nodup, List.nodup_cons.2 ⟨hnew_notR, postR.nodup⟩, ?_⟩
    intro a ha hb
    have ha' := List.mem_reverse.1 ha
    rcases List.mem_cons.1 hb with rfl | hb
    · exact (hW'B _ ha').2.1 rfl
    · exact (hW'B a ha').2.2.1 hb
  have hlt' : ∀ a ∈ W'.reverse ++ s.next :: R', a < sB.next := by
    intro a ha
    rcases List.mem_append.1 ha with ha | ha
    · exact hW'lt a (List.mem_reverse.1 ha)
    · rcases List.mem_cons.1 ha with rfl | ha
      · exact hnew_lt
      · exact hR'lt a ha
  have hW'len : W'.length = L.length := by
    rw [postL.length_eq, List.length_reverse]
  -- the heads
  have hheads : sB.m_apHeads.getLast? = (W'.reverse ++ s.next :: R').head? := by
    rw [postR.heads_eq]
    cases hLc : L with
    | nil =>
      have hW'nil : W' = [] := by
        apply List.length_eq_zero.1
        rw [hW'len, hLc]
        rfl
      rw [postL.heads_nil (by rw [hLc]; rfl), h3heads, if_pos hLc, hW'nil]
      simp
    | cons a L' =>
      have hhd : ns.head? = some a := hhead a (by rw [hLc]; rfl)
      have h1 := postL.heads_last a
        (by rw [List.getLast?_reverse, hLc]; rfl)
        (by rw [h3heads, if_neg (by rw [hLc]; simp), hi.head, hhd])
      have hW'ne : W' ≠ [] := by
        intro h
        rw [h, hLc] at hW'len
        simp at hW'len
      rw [h1, List.head?_append_of_ne_nil _ (by simpa using hW'ne), List.head?_reverse]
  obtain ⟨hd, hhd⟩ : ∃ hd, (W'.reverse ++ s.next :: R').head? = some hd := by
    cases hc : W'.reverse ++ s.next :: R' with
    | nil => simp at hc
    | cons a b => exact ⟨a, rfl⟩
  have hhd_mem : hd ∈ W'.reverse ++ s.next :: R' := List.mem_of_mem_head? hhd
  have hhd_left : ListNode.rdLeft (s.m_version + 1) (sB.heap hd) = none := by
    cases hc : W'.reverse ++ s.next :: R' with
    | nil => simp at hc
    | cons a b =>
      rw [hc] at hchain hhd
      simp only [List.head?_cons, Option.some.injEq] at hhd
      subst hhd
      exact hchain.1
  have hupd : sB.updateLastHead nd (sB.m_version + 1) = .ok sB := by
    rw [hBver]
    exact updateLastHead_eq nd sB _ hd (by rw [hheads, hhd])
      (pRsane hd (hlt' hd hhd_mem)).1 hhd_left
  -- the result
  refine ⟨W', R', qL, qR, sA, sB, hrunL, hrunR, hupd, hAver, hBver, ?_, ?_, hW'len,
    postR.length_eq, ?_, ?_⟩
  · intro a ha hna
    rw [pLframe a (by omega) (fun hm => hna (List.mem_reverse.1 hm)) (by omega), h3old a ha]
  · rw [ListNode.getRight_eq nd _ _ (pRsane s.next hnew_lt).1, hBnew.1.rdRight, hBnew.2.2.1]
  · refine ⟨rfl, by simp, ?_, hnodup, hlt', ?_, hheads, ?_, postR.nodes_lt⟩
    · simp only [hBver]; exact hchain
    · simp only [hBver]; exact pRsane
    · intro a ha
      rw [postR.heads_eq] at ha
      have h1 := postL.heads_lt (fun b hb => by
        rw [h3heads] at hb
        rw [h3next]
        split at hb
        · rcases List.mem_append.1 hb with hb | hb
          · have := hi.heads_lt b hb; omega
          · simp only [List.mem_singleton] at hb; omega
        · have := hi.heads_lt b hb; omega) a ha
      have := postR.next_le
      simp only
      omega
  · intro hval
    simp only [List.map_append, List.map_cons, List.map_reverse]
    congr 1
    · have : W'.map (fun n => ListNode.rdVal (s.m_version + 1) (sB.heap n)) =
          L.reverse.map (fun n => ListNode.rdVal s.m_version (s.heap n)) := by
        rw [List.map_congr_left (fun n hn => by rw [(hW'B n hn).1]), pLvals hval]
        apply List.map_congr_left
        intro n hn
        rw [h3old n (hLlt n (List.mem_reverse.1 hn))]
      rw [this, List.map_reverse, List.reverse_reverse]
    · congr 1
      · rw [hBnew.1.rdVal, hBnew.2.2.2]
      · rw [pRvals hval]
        apply List.map_congr_left
        intro n hn
        rw [hAold n hn]

end PersistentList

namespace PersistentList

variable {T : Type}

theorem reverse_head?_eq_none {l : List Nat} : l.reverse.head? = none ↔ l = [] := by
  rw [List.head?_reverse]
  cases l with
  | nil => simp
  | cons a l => simp [List.getLast?_cons]

theorem Inv.split_facts {s : PersistentList T} {ns : List Nat} (hi : s.Inv ns)
    (L M R : List Nat) (hns : ns = L ++ M ++ R) :
    (∀ a ∈ L, a ∈ ns) ∧ (∀ a ∈ R, a ∈ ns) ∧ L.Nodup ∧ R.Nodup ∧
    (∀ a, a ∈ L → a ∈ R → False) ∧ (∀ a, L.head? = some a → ns.head? = some a) := by
  have hnd := hi.nodup
  rw [hns] at hnd
  have h1 := List.nodup_append.1 hnd
  have h2 := List.nodup_append.1 h1.1
  refine ⟨fun a ha => by rw [hns]; simp [ha], fun a ha => by rw [hns]; simp [ha],
    h2.1, h1.2.1, fun a ha hb => h1.2.2 (List.mem_append_left _ ha) hb, ?_⟩
  intro a ha
  cases L with
  | nil => simp at ha
  | cons b L' =>
    rw [hns]
    simpa using ha

theorem list_insert_spec [Inhabited T] (nd : Bool) (s : PersistentList T) (ns : List Nat)
    (hi : s.Inv ns) (p item : Nat) (hp : ns[p]? = some item) (x : T) :
    ∃ (ns' : List Nat) (s' : PersistentList T) (nw : Nat),
      s.insert nd (some ⟨some item⟩) x = .ok (⟨some nw⟩, ⟨ns'[p + 1]?⟩, s') ∧
      s'.Inv ns' ∧ ns'[p]? = some nw ∧ ns'.length = ns.length + 1 ∧
      s'.m_version = s.m_version + 1 ∧
      ns'.map (fun n => (s'.heap n).rdVal s'.m_version) =
        (ns.take p).map (fun n => (s.heap n).rdVal s.m_version) ++ x ::
        (ns.drop p).map (fun n => (s.heap n).rdVal s.m_version) := by
  have hitem_mem : item ∈ ns := List.getElem?_mem hp
  have hitem_lt : item < s.next := hi.lt_next item hitem_mem
  have hitem_sane := hi.sane item hitem_lt
  have hitem_ne : item ≠ s.next := by omega
  obtain ⟨L, Rt, hns, hLlen, hLtake, hRdrop, hWl, hRl⟩ := hi.split p item hp
  have hleft : ListNode.rdLeft s.m_version (s.heap item) = L.reverse.head? := hRl.1
  obtain ⟨hLns, hRns, hndL, hndR, hdisj, hhead⟩ :=
    hi.split_facts L [] (item :: Rt) (by simpa using hns)
  obtain ⟨W', R', qL, qR, sA, sB, hrunL, hrunR, hupd, hAver, hBver, _, hget, hW'len, hR'len,
      hinv, hvals⟩ :=
    around_core nd none s ns hi (s.insertStart item x) x L (item :: Rt) (some item)
      L.reverse.head? hLns hRns hndL hndR hdisj hhead hWl hRl
      (insertStart_heap s item x) (insertStart_next s item x) (insertStart_version s item x)
      (by
        rw [insertStart_heads, hleft]
        by_cases hL : L = []
        · rw [if_pos hL, if_pos (reverse_head?_eq_none.2 hL)]
        · rw [if_neg hL, if_neg (fun h => hL (reverse_head?_eq_none.1 h))])
      (by
        intro a ha
        rw [insertStart_nodes, List.mem_append, List.mem_singleton] at ha
        rcases ha with ha | rfl
        · have := hi.nodes_lt a ha; omega
        · omega)
  have hR'head : R'.head? = (W'.reverse ++ s.next :: R')[p + 1]? := by
    rw [List.getElem?_append_right (by rw [List.length_reverse]; omega), List.length_reverse,
      hW'len, hLlen]
    cases R' <;> simp
  refine ⟨W'.reverse ++ s.next :: R',
    { sB with m_version := sB.m_version + 1, m_lastVersion := sB.m_version + 1 }, s.next,
    ?_, hinv, ?_, ?_, ?_, ?_⟩
  · unfold insert
    simp only [check, Option.isSome_some, Bool.true_or, if_true, bind, Except.bind, pure,
      Except.pure, invalidate_eq_self s ns hi, deref, heap_add, heap_alloc, hitem_ne, if_false,
      version_add, version_alloc, ListNode.getLeft_eq nd _ _ hitem_sane.1,
      apply_ite PersistentList.heap, apply_ite PersistentList.m_version, heap_addHead,
      version_addHead, ite_self, copyLeft, copyRight]
    simp only [insertStart] at hrunL
    rw [hleft] at hrunL ⊢
    rw [hrunL]
    simp only
    rw [show (some item) = (item :: Rt).head? from rfl, hrunR]
    simp only
    rw [hupd]
    simp only
    rw [hBver, hget, hR'head]
  · rw [List.getElem?_append_right (by rw [List.length_reverse]; omega), List.length_reverse,
      hW'len, hLlen]
    simp
  · rw [hns]
    simp only [List.length_append, List.length_reverse, List.length_cons, hR'len,
      hW'len, hLlen]
    omega
  · simp only [hBver]
  · simp only [hBver]
    rw [hvals rfl, ← hLtake, ← hRdrop]

/-- The iterator's `setVal` keeps the representation invariant (it may change
values of neighbours, but the chain keeps its length). -/
theorem setVal_spec [Inhabited T] (nd : Bool) (s : PersistentList T) (ns : List Nat)
    (hi : s.Inv ns) (p item : Nat) (hp : ns[p]? = some item) (x : T) :
    ∃ (ns' : List Nat) (s' : PersistentList T),
      PersistentListIterator.setVal nd s ⟨some item⟩ x = .ok s' ∧
      s'.Inv ns' ∧ ns'.length = ns.length := by
  have hitem_mem : item ∈ ns := List.getElem?_mem hp
  have hitem_lt : item < s.next := hi.lt_next item hitem_mem
  have hitem_sane := hi.sane item hitem_lt
  have hitem_ne : item ≠ s.next := by omega
  cases hfull : (s.heap item).m_isFull with
  | false =>
    -- the second snapshot is filled in place
    have hheap : ∀ a, ((s.modify item (fun n => n.initSecond x (s.m_version + 1))).add
        item).heap a = if a = item then (s.heap item).initSecond x (s.m_version + 1)
          else s.heap a := by
      intro a
      simp only [heap_add, heap_modify]
    have hrd : ∀ a ∈ ns,
        ListNode.rdRight (s.m_version + 1)
          (((s.modify item (fun n => n.initSecond x (s.m_version + 1))).add item).heap a) =
          ListNode.rdRight s.m_version (s.heap a) ∧
        ListNode.rdLeft (s.m_version + 1)
          (((s.modify item (fun n => n.initSecond x (s.m_version + 1))).add item).heap a) =
          ListNode.rdLeft s.m_version (s.heap a) := by
      intro a ha
      rw [hheap]
      split_ifs with h
      · subst h
        simp [ListNode.rdRight, ListNode.rdLeft, ListNode.snap, ListNode.initSecond, hfull]
      · have hs := hi.sane a (hi.lt_next a ha)
        exact ⟨ListNode.rdRight_succ hs, ListNode.rdLeft_succ hs⟩
    have hsane' : ∀ a, a < s.next →
        (((s.modify item (fun n => n.initSecond x (s.m_version + 1))).add item).heap a).Sane
          (s.m_version + 1) := by
      intro a ha
      rw [hheap]
      split_ifs with h
      · exact ListNode.filled_sane hitem_sane _
      · exact (hi.sane a ha).succ
    have hlinked : Linked (ListNode.rdRight (s.m_version + 1))
        (ListNode.rdLeft (s.m_version + 1))
        ((s.modify item (fun n => n.initSecond x (s.m_version + 1))).add item).heap
        none ns none := Linked.congr hrd hi.linked
    obtain ⟨hd, hhd⟩ : ∃ hd, ns.head? = some hd := by
      cases hc : ns with
      | nil => exact absurd hc hi.ne
      | cons a b => exact ⟨a, rfl⟩
    have hhd_mem : hd ∈ ns := List.mem_of_mem_head? hhd
    have hhd_left : ListNode.rdLeft (s.m_version + 1)
        (((s.modify item (fun n => n.initSecond x (s.m_version + 1))).add item).heap hd)
          = none := by
      cases hc : ns with
      | nil => exact absurd hc hi.ne
      | cons a b =>
        rw [hc] at hlinked hhd
        simp only [List.head?_cons, Option.some.injEq] at hhd
        subst hhd
        exact hlinked.1
    have hupd := updateLastHead_eq nd
      ((s.modify item (fun n => n.initSecond x (s.m_version + 1))).add item)
      (s.m_version + 1) hd (by rw [← hhd]; exact hi.head)
      (hsane' hd (hi.lt_next hd hhd_mem)).1 hhd_left
    refine ⟨ns,
      { (s.modify item (fun n => n.initSecond x (s.m_version + 1))).add item with
        m_version := s.m_version + 1, m_lastVersion := s.m_version + 1 }, ?_, ?_, rfl⟩
    · unfold PersistentListIterator.setVal
      simp only [check, Option.isSome_some, Bool.true_or, if_true, bind, Except.bind, pure,
        Except.pure, invalidate_eq_self s ns hi, ListNode.isFull, hfull, Bool.not_false]
      rw [show ((s.modify item (fun n => n.initSecond x (s.m_version + 1))).add item).m_version
        = s.m_version from rfl, hupd]
      rfl
    · exact ⟨rfl, hi.ne, hlinked, hi.nodup, hi.lt_next, hsane', hi.head, hi.heads_lt,
        fun a ha => by
          simp only [add, List.mem_append, List.mem_singleton] at ha
          rcases ha with ha | rfl
          · exact hi.nodes_lt a ha
          · exact hitem_lt⟩
  | true =>
    -- a new node replaces the full one
    obtain ⟨L, Rt, hns, hLlen, hLtake, hRdrop, hWl, hRl⟩ := hi.split p item hp
    have hleft : ListNode.rdLeft s.m_version (s.heap item) = L.reverse.head? := hRl.1
    have hright : ListNode.rdRight s.m_version (s.heap item) = Rt.head? := by
      rw [hRl.2.1, headOr_eq_head?]
    obtain ⟨hLns, hRns, hndL, hndR, hdisj, hhead⟩ :=
      hi.split_facts L [item] Rt (by simpa using hns)
    have hitem_notL : item ∉ L := by
      intro hm
      have hnd := hi.nodup
      rw [hns] at hnd
      exact (List.nodup_append.1 hnd).2.2 hm (List.mem_cons_self _ _)
    obtain ⟨W', R', qL, qR, sA, sB, hrunL, hrunR, hupd, hAver, hBver, hAframe, hget, hW'len,
        hR'len, hinv, _⟩ :=
      around_core nd (some x) s ns hi (s.setValStart item x) x L Rt (some item)
        (some item) hLns hRns hndL hndR hdisj hhead hWl hRl.2.2
        (by
          intro a
          simp only [setValStart, apply_ite PersistentList.heap, heap_addHead, ite_self,
            heap_alloc])
        (by simp only [setValStart]; split <;> rfl)
        (by simp only [setValStart]; split <;> rfl)
        (by
          have : (s.setValStart item x).m_apHeads =
              if (s.heap item).rdLeft s.m_version = none then s.m_apHeads ++ [s.next]
              else s.m_apHeads := by
            simp only [setValStart]; split <;> rfl
          rw [this, hleft]
          by_cases hL : L = []
          · rw [if_pos hL, if_pos (reverse_head?_eq_none.2 hL)]
          · rw [if_neg hL, if_neg (fun h => hL (reverse_head?_eq_none.1 h))])
        (by
          intro a ha
          have : (s.setValStart item x).m_apNodes = s.m_apNodes := by
            simp only [setValStart]; split <;> rfl
          rw [this] at ha
          have := hi.nodes_lt a ha
          omega)
    refine ⟨W'.reverse ++ s.next :: R',
      { sB with m_version := sB.m_version + 1, m_lastVersion := sB.m_version + 1 }, ?_, hinv, ?_⟩
    · unfold PersistentListIterator.setVal
      simp only [check, Option.isSome_some, Bool.true_or, if_true, bind, Except.bind, pure,
        Except.pure, invalidate_eq_self s ns hi, ListNode.isFull, hfull, Bool.not_true,
        Bool.false_eq_true, if_false, heap_alloc, hitem_ne, version_alloc,
        ListNode.getLeft_eq nd _ _ hitem_sane.1, apply_ite PersistentList.heap,
        apply_ite PersistentList.m_version, heap_addHead, version_addHead, ite_self,
        PersistentListIterator.copyLeft, PersistentListIterator.copyRight]
      simp only [setValStart] at hrunL
      rw [hleft] at hrunL ⊢
      rw [hrunL]
      simp only
      rw [hAframe item hitem_lt hitem_notL, hAver, ListNode.getRight_eq nd _ _ hitem_sane.1,
        hright]
      simp only
      rw [hrunR]
      simp only
      rw [hupd]
    · rw [hns]
      simp only [List.length_append, List.length_reverse, List.length_cons, hR'len, hW'len]

end PersistentList

namespace ListNode

variable {T : Type}

theorem rdVal_setRight (w : Int) (n : ListNode T) (p : Option Nat) (f : Bool) :
    rdVal w (n.setRight p f) = rdVal w n := by
  cases f <;> simp only [rdVal, snap, setRight, Bool.false_eq_true, if_false, if_true] <;>
    split <;> rfl

theorem rdVal_setLeft (w : Int) (n : ListNode T) (p : Option Nat) (f : Bool) :
    rdVal w (n.setLeft p f) = rdVal w n := by
  cases f <;> simp only [rdVal, snap, setLeft, Bool.false_eq_true, if_false, if_true] <;>
    split <;> rfl

theorem rdLeft_setRight (w : Int) (n : ListNode T) (p : Option Nat) (f : Bool) :
    rdLeft w (n.setRight p f) = rdLeft w n := by
  cases f <;> simp only [rdLeft, snap, setRight, Bool.false_eq_true, if_false, if_true] <;>
    split <;> rfl

theorem rdRight_setLeft (w : Int) (n : ListNode T) (p : Option Nat) (f : Bool) :
    rdRight w (n.setLeft p f) = rdRight w n := by
  cases f <;> simp only [rdRight, snap, setLeft, Bool.false_eq_true, if_false, if_true] <;>
    split <;> rfl

theorem Open.to_sane {n : ListNode T} {w : Int} {f : Bool} (h : n.Open w f) : n.Sane w := by
  cases f
  · simp only [Open, Bool.false_eq_true, if_false] at h
    exact ⟨h.2.2, fun _ => le_of_eq h.2.1⟩
  · simp only [Open, if_true] at h
    exact h.is_sane

theorem Open.rdRight_setRight {n : ListNode T} {w : Int} {f : Bool} (h : n.Open w f)
    (p : Option Nat) : rdRight w (n.setRight p f) = p := by
  cases f
  · simp only [Open, Bool.false_eq_true, if_false] at h
    simp [rdRight, snap, setRight, h.1, h.2.1]
  · simp only [Open, if_true] at h
    simp [rdRight, snap, setRight, h.1]

theorem Open.rdLeft_setLeft {n : ListNode T} {w : Int} {f : Bool} (h : n.Open w f)
    (p : Option Nat) : rdLeft w (n.setLeft p f) = p := by
  cases f
  · simp only [Open, Bool.false_eq_true, if_false] at h
    simp [rdLeft, snap, setLeft, h.1, h.2.1]
  · simp only [Open, if_true] at h
    simp [rdLeft, snap, setLeft, h.1]

theorem Open.of_fresh {n : ListNode T} {w : Int} (h : n.Fresh w) : n.Open w true := by
  simp only [Open, if_true]; exact h

theorem Open.of_filled {n : ListNode T} {v : Int} (h : n.Sane v) (x : T) :
    (n.initSecond x (v + 1)).Open (v + 1) false := by
  simp only [Open, Bool.false_eq_true, if_false, initSecond, true_and]
  have := h.1
  omega

theorem Open.keep_setLeft {n : ListNode T} {w : Int} {f : Bool} (h : n.Open w f) (p : Option Nat)
    (g : Bool) : (n.setLeft p g).Open w f := by
  cases f <;> cases g <;> exact h

theorem Open.keep_setRight {n : ListNode T} {w : Int} {f : Bool} (h : n.Open w f) (p : Option Nat)
    (g : Bool) : (n.setRight p g).Open w f := by
  cases f <;> cases g <;> exact h

theorem rdVal_filled {n : ListNode T} (x : T) (v : Int) :
    rdVal (v + 1) (n.initSecond x (v + 1)) = x := by
  simp [rdVal, snap, initSecond]

theorem rdRight_filled {n : ListNode T} (x : T) (v : Int) (hf : n.m_isFull = false) :
    rdRight (v + 1) (n.initSecond x (v + 1)) = rdRight v n := by
  simp [rdRight, snap, initSecond, hf]

theorem rdLeft_filled {n : ListNode T} (x : T) (v : Int) (hf : n.m_isFull = false) :
    rdLeft (v + 1) (n.initSecond x (v + 1)) = rdLeft v n := by
  simp [rdLeft, snap, initSecond, hf]

end ListNode

theorem length_le_of_nodup_lt (l : List Nat) (k : Nat) (hnd : l.Nodup) (hlt : ∀ a ∈ l, a < k) :
    l.length ≤ k := by
  have := List.Nodup.length_le_card (α := Fin k)
    (l := l.pmap (fun n hn => ⟨n, hn⟩) hlt) ?_
  · simpa using this
  · apply hnd.pmap
    intro a _ b _ hab
    simpa using hab

namespace PersistentList

variable {T : Type}

theorem filledRight_heap (s : PersistentList T) (pLeftNode : Option Nat) (pr a : Nat) :
    (s.filledRight pLeftNode pr).heap a =
      if a = pr then
        (if pLeftNode = none then
          ((s.heap pr).initSecond ((s.heap pr).rdVal s.m_version)
            (s.m_version + 1)).setLeft none false
         else (s.heap pr).initSecond ((s.heap pr).rdVal s.m_version) (s.m_version + 1))
      else s.heap a := by
  by_cases hL : pLeftNode = none
  · simp only [filledRight, hL, if_true, heap_addHead, heap_modify, heap_add]
    split_ifs <;> rfl
  · simp only [filledRight, hL, if_false, heap_modify, heap_add]

theorem filledRight_next (s : PersistentList T) (pLeftNode : Option Nat) (pr : Nat) :
    (s.filledRight pLeftNode pr).next = s.next := by
  simp only [filledRight]; split <;> rfl

theorem filledRight_version (s : PersistentList T) (pLeftNode : Option Nat) (pr : Nat) :
    (s.filledRight pLeftNode pr).m_version = s.m_version := by
  simp only [filledRight]; split <;> rfl

theorem filledRight_last (s : PersistentList T) (pLeftNode : Option Nat) (pr : Nat) :
    (s.filledRight pLeftNode pr).m_lastVersion = s.m_lastVersion := by
  simp only [filledRight]; split <;> rfl

theorem filledRight_nodes (s : PersistentList T) (pLeftNode : Option Nat) (pr : Nat) :
    (s.filledRight pLeftNode pr).m_apNodes = s.m_apNodes ++ [pr] := by
  simp only [filledRight]; split <;> rfl

theorem filledRight_heads (s : PersistentList T) (pLeftNode : Option Nat) (pr : Nat) :
    (s.filledRight pLeftNode pr).m_apHeads =
      if pLeftNode = none then s.m_apHeads ++ [pr] else s.m_apHeads := by
  simp only [filledRight]; split <;> rfl

theorem clonedRight_heap [Inhabited T] (s : PersistentList T) (pLeftNode : Option Nat)
    (pr a : Nat) :
    (s.clonedRight pLeftNode pr).heap a =
      if a = s.next then ListNode.mk2 ((s.heap pr).rdVal s.m_version) (s.m_version + 1)
      else s.heap a := by
  simp only [clonedRight, apply_ite PersistentList.heap, heap_addHead, heap_add, ite_self,
    heap_alloc]

theorem clonedRight_next [Inhabited T] (s : PersistentList T) (pLeftNode : Option Nat)
    (pr : Nat) : (s.clonedRight pLeftNode pr).next = s.next + 1 := by
  simp only [clonedRight]; split <;> rfl

theorem clonedRight_version [Inhabited T] (s : PersistentList T) (pLeftNode : Option Nat)
    (pr : Nat) : (s.clonedRight pLeftNode pr).m_version = s.m_version := by
  simp only [clonedRight]; split <;> rfl

theorem clonedRight_last [Inhabited T] (s : PersistentList T) (pLeftNode : Option Nat)
    (pr : Nat) : (s.clonedRight pLeftNode pr).m_lastVersion = s.m_lastVersion := by
  simp only [clonedRight]; split <;> rfl

theorem clonedRight_nodes [Inhabited T] (s : PersistentList T) (pLeftNode : Option Nat)
    (pr : Nat) : (s.clonedRight pLeftNode pr).m_apNodes = s.m_apNodes ++ [s.next] := by
  simp only [clonedRight]; split <;> rfl

theorem clonedRight_heads [Inhabited T] (s : PersistentList T) (pLeftNode : Option Nat)
    (pr : Nat) : (s.clonedRight pLeftNode pr).m_apHeads =
      if pLeftNode = none then s.m_apHeads ++ [s.next] else s.m_apHeads := by
  simp only [clonedRight]; split <;> rfl

/-- The result of `eraseRight` on a non-full right neighbour. -/
theorem eraseRight_fill [Inhabited T] (nd : Bool) (s : PersistentList T) (pLeftNode : Option Nat)
    (pr : Nat) (hf : (s.heap pr).m_isFull = false)
    (hv : (s.heap pr).m_first.m_version ≤ s.m_version) :
    s.eraseRight nd pLeftNode pr = .ok (none, s.filledRight pLeftNode pr) := by
  unfold eraseRight
  simp only [ListNode.isFull, hf, Bool.not_false, if_true, ListNode.getVal_eq nd _ _ hv,
    bind, Except.bind, pure, Except.pure, filledRight]

/-- The walk that `eraseRight` starts on a full right neighbour. -/
theorem eraseRight_full [Inhabited T] (nd : Bool) (s : PersistentList T) (pLeftNode : Option Nat)
    (pr : Nat) (hf : (s.heap pr).m_isFull = true)
    (hv : (s.heap pr).m_first.m_version ≤ s.m_version) (hlt : pr < s.next) :
    s.eraseRight nd pLeftNode pr =
      (copyRightLoop nd none (s.next + 1) ((s.heap pr).rdRight s.m_version) s.next
        (s.clonedRight pLeftNode pr)).bind (fun r => .ok (some s.next, r.2)) := by
  have hne : pr ≠ s.next := by omega
  unfold eraseRight
  simp only [ListNode.isFull, hf, Bool.not_true, Bool.false_eq_true, if_false,
    ListNode.getVal_eq nd _ _ hv, bind, Except.bind, pure, Except.pure, copyRight,
    apply_ite PersistentList.heap, apply_ite PersistentList.m_version,
    apply_ite PersistentList.next, heap_addHead, heap_add, heap_alloc, version_addHead,
    version_add, version_alloc, next_addHead, next_add, next_alloc, ite_self, hne,
    ListNode.getRight_eq nd _ _ hv, clonedRight]

end PersistentList

namespace PersistentList

variable {T : Type}

theorem eraseRight_spec [Inhabited T] (nd : Bool) (s : PersistentList T)
    (pLeftNode prev : Option Nat) (pr : Nat) (Rt : List Nat)
    (hl : Linked (ListNode.rdRight s.m_version) (ListNode.rdLeft s.m_version) s.heap prev
      (pr :: Rt) none)
    (hnd : (pr :: Rt).Nodup) (hlt : ∀ n ∈ pr :: Rt, n < s.next)
    (hsR : ∀ n ∈ pr :: Rt, (s.heap n).Sane s.m_version)
    (hsane : ∀ a, a < s.next → (s.heap a).Sane (s.m_version + 1))
    (hheads : ∀ a ∈ s.m_apHeads, a < s.next)
    (hnodes : ∀ a ∈ s.m_apNodes, a < s.next) :
    ∃ (e : Nat) (Rt' : List Nat) (rc : Option Nat) (s' : PersistentList T),
      s.eraseRight nd pLeftNode pr = .ok (rc, s') ∧
      EraseRightPost s s' pLeftNode pr Rt e Rt' rc ∧
      (∀ a ∈ s'.m_apHeads, a < s'.next) := by
  obtain ⟨_, hfwd, hlrest⟩ := hl
  have hpr_lt : pr < s.next := hlt pr (List.mem_cons_self _ _)
  have hpr_sane := hsR pr (List.mem_cons_self _ _)
  have hpr_notin : pr ∉ Rt := (List.nodup_cons.1 hnd).1
  have hRt_nd : Rt.Nodup := (List.nodup_cons.1 hnd).2
  have hRt_lt : ∀ n ∈ Rt, n < s.next := fun n hn => hlt n (List.mem_cons_of_mem _ hn)
  have hRt_ne : ∀ n ∈ Rt, n ≠ pr := fun n hn h => hpr_notin (h ▸ hn)
  have hRt_sane : ∀ n ∈ Rt, (s.heap n).Sane s.m_version :=
    fun n hn => hsR n (List.mem_cons_of_mem _ hn)
  rw [headOr_eq_head?] at hfwd
  cases hfull : (s.heap pr).m_isFull with
  | false =>
    -- the neighbour is filled in place
    refine ⟨pr, Rt, none, _, eraseRight_fill nd s pLeftNode pr hfull hpr_sane.1, ?_, ?_⟩
    · have hopen : (if pLeftNode = none then
              ((s.heap pr).initSecond ((s.heap pr).rdVal s.m_version)
                (s.m_version + 1)).setLeft none false
             else (s.heap pr).initSecond ((s.heap pr).rdVal s.m_version)
              (s.m_version + 1)).Open (s.m_version + 1) false := by
        split
        · exact (ListNode.Open.of_filled hpr_sane _).keep_setLeft _ _
        · exact ListNode.Open.of_filled hpr_sane _
      refine ⟨rfl, ?_, ?_, ?_, Or.inr ⟨rfl, rfl⟩, hnd, fun n hn => Or.inl hn, ?_, ?_, ?_,
        filledRight_version _ _ _, filledRight_last _ _ _, filledRight_heads _ _ _, ?_, ?_, ?_⟩
      · exact Linked.congr (fun n hn => by
          rw [filledRight_heap, if_neg (hRt_ne n hn),
            ListNode.rdRight_succ (hRt_sane n hn), ListNode.rdLeft_succ (hRt_sane n hn)]
          exact ⟨rfl, rfl⟩) hlrest
      · rw [filledRight_heap, if_pos rfl]
        split
        · rw [ListNode.rdRight_setLeft, ListNode.rdRight_filled _ _ hfull, hfwd]
        · rw [ListNode.rdRight_filled _ _ hfull, hfwd]
      · rw [filledRight_heap, if_pos rfl]; exact hopen
      · rw [filledRight_next]
      · intro a _ hna
        rw [filledRight_heap, if_neg (fun h => hna (by rw [h]; exact List.mem_cons_self _ _))]
      · intro a ha
        rw [filledRight_next] at ha
        rw [filledRight_heap]
        split
        · exact hopen.to_sane
        · exact hsane a ha
      · intro hL
        rw [filledRight_heap, if_pos rfl, if_pos hL, ListNode.Open.rdLeft_setLeft
          (ListNode.Open.of_filled hpr_sane _)]
      · intro a ha
        rw [filledRight_nodes, List.mem_append, List.mem_singleton] at ha
        rw [filledRight_next]
        rcases ha with ha | rfl
        · exact hnodes a ha
        · exact hpr_lt
      · simp only [List.map_cons]
        congr 1
        · rw [filledRight_heap, if_pos rfl]
          split
          · rw [ListNode.rdVal_setLeft, ListNode.rdVal_filled]
          · rw [ListNode.rdVal_filled]
        · apply List.map_congr_left
          intro n hn
          rw [filledRight_heap, if_neg (hRt_ne n hn), ListNode.rdVal_succ (hRt_sane n hn)]
    · intro a ha
      rw [filledRight_next]
      rw [filledRight_heads] at ha
      split at ha
      · rcases List.mem_append.1 ha with ha | ha
        · exact hheads a ha
        · rw [List.mem_singleton.1 ha]; exact hpr_lt
      · exact hheads a ha
  | true =>
    -- the neighbour is cloned and the walk goes on to its right
    have hc_old : ∀ a, a < s.next → (s.clonedRight pLeftNode pr).heap a = s.heap a := by
      intro a ha
      rw [clonedRight_heap, if_neg (by omega)]
    have hc_new : (s.clonedRight pLeftNode pr).heap s.next =
        ListNode.mk2 ((s.heap pr).rdVal s.m_version) (s.m_version + 1) := by
      rw [clonedRight_heap, if_pos rfl]
    obtain ⟨Rt', q, s', hrun, post⟩ := copyRightLoop_spec nd none Rt (s.next + 1) s.next
      (some pr) (s.clonedRight pLeftNode pr)
      (by have := length_le_of_nodup_lt Rt s.next hRt_nd hRt_lt; omega)
      (by
        rw [clonedRight_version]
        exact Linked.congr (fun n hn => by rw [hc_old n (hRt_lt n hn)]; exact ⟨rfl, rfl⟩) hlrest)
      hRt_nd
      (fun n hn => by rw [clonedRight_next]; have := hRt_lt n hn; omega)
      (fun n hn => by rw [hc_old n (hRt_lt n hn), clonedRight_version]; exact hRt_sane n hn)
      (fun hm => by have := hRt_lt _ hm; omega)
      (by rw [clonedRight_next]; omega)
      (by rw [hc_new, clonedRight_version]; exact ListNode.fresh_mk2 _ _)
      (by
        intro a ha
        rw [clonedRight_next] at ha
        rw [clonedRight_heap, clonedRight_version]
        split_ifs with h1
        · exact (ListNode.fresh_mk2 _ _).is_sane
        · exact hsane a (by omega))
      (by
        intro a ha
        rw [clonedRight_nodes, List.mem_append, List.mem_singleton] at ha
        rw [clonedRight_next]
        rcases ha with ha | rfl
        · have := hnodes a ha; omega
        · omega)
    have plinked := post.linked
    have psane := post.sane
    have pvals := post.vals rfl
    have pnext := post.next_le
    have pmem := post.mem
    have pframe := post.frame
    rw [clonedRight_version] at plinked psane pvals
    rw [clonedRight_next] at pnext pmem pframe
    have hnew : (s'.heap s.next).Fresh (s.m_version + 1) ∧
        (s'.heap s.next).m_first.m_pLeft = none ∧
        (s'.heap s.next).m_first.m_pRight = Rt'.head? ∧
        (s'.heap s.next).m_first.m_value = (s.heap pr).rdVal s.m_version := by
      cases hR' : Rt' with
      | nil => rw [post.prev_nil hR', hc_new]; exact ⟨⟨rfl, rfl⟩, rfl, rfl, rfl⟩
      | cons c t => rw [post.prev_cons c t hR', hc_new]; exact ⟨⟨rfl, rfl⟩, rfl, rfl, rfl⟩
    have hnew_notin : s.next ∉ Rt' := by
      intro hm
      rcases pmem _ hm with h | h
      · have := hRt_lt _ h; omega
      · omega
    refine ⟨s.next, Rt', some s.next, s', ?_, ?_, ?_⟩
    · rw [eraseRight_full nd s pLeftNode pr hfull hpr_sane.1 hpr_lt, hfwd, hrun]
      rfl
    · refine ⟨post.length_eq, plinked, ?_, ListNode.Open.of_fresh hnew.1, Or.inl rfl,
        List.nodup_cons.2 ⟨hnew_notin, post.nodup⟩, ?_, by omega, ?_, psane, ?_, ?_, ?_, ?_,
        post.nodes_lt, ?_⟩
      · rw [hnew.1.rdRight, hnew.2.2.1]
      · intro n hn
        rcases List.mem_cons.1 hn with rfl | hn
        · exact Or.inr ⟨le_refl _, by omega⟩
        · rcases pmem n hn with h | h
          · exact Or.inl (List.mem_cons_of_mem _ h)
          · exact Or.inr ⟨by omega, h.2⟩
      · intro a ha hna
        rw [pframe a (by omega) (fun h => hna (List.mem_cons_of_mem _ h)) (by omega),
          hc_old a ha]
      · rw [post.version_eq, clonedRight_version]
      · rw [post.last_eq, clonedRight_last]
      · rw [post.heads_eq, clonedRight_heads]
      · intro _
        rw [hnew.1.rdLeft, hnew.2.1]
      · simp only [List.map_cons]
        congr 1
        · rw [hnew.1.rdVal, hnew.2.2.2]
        · rw [pvals]
          apply List.map_congr_left
          intro n hn
          rw [hc_old n (hRt_lt n hn)]
    · intro a ha
      rw [post.heads_eq, clonedRight_heads] at ha
      split at ha
      · rcases List.mem_append.1 ha with ha | ha
        · have := hheads a ha; omega
        · rw [List.mem_singleton.1 ha]; omega
      · have := hheads a ha; omega

end PersistentList

namespace PersistentList

variable {T : Type}

theorem filledLeft_heap (s : PersistentList T) (pl a : Nat) :
    (s.filledLeft pl).heap a =
      if a = pl then (s.heap pl).initSecond ((s.heap pl).rdVal s.m_version) (s.m_version + 1)
      else s.heap a := by
  simp only [filledLeft, heap_modify, heap_add]

theorem clonedLeft_heap [Inhabited T] (s : PersistentList T) (pl a : Nat) :
    (s.clonedLeft pl).heap a =
      if a = s.next then ListNode.mk2 ((s.heap pl).rdVal s.m_version) (s.m_version + 1)
      else s.heap a := by
  simp only [clonedLeft, apply_ite PersistentList.heap, heap_addHead, heap_add, ite_self,
    heap_alloc]

theorem clonedLeft_next [Inhabited T] (s : PersistentList T) (pl : Nat) :
    (s.clonedLeft pl).next = s.next + 1 := by
  simp only [clonedLeft]; split <;> rfl

theorem clonedLeft_version [Inhabited T] (s : PersistentList T) (pl : Nat) :
    (s.clonedLeft pl).m_version = s.m_version := by
  simp only [clonedLeft]; split <;> rfl

theorem clonedLeft_last [Inhabited T] (s : PersistentList T) (pl : Nat) :
    (s.clonedLeft pl).m_lastVersion = s.m_lastVersion := by
  simp only [clonedLeft]; split <;> rfl

theorem clonedLeft_nodes [Inhabited T] (s : PersistentList T) (pl : Nat) :
    (s.clonedLeft pl).m_apNodes = s.m_apNodes ++ [s.next] := by
  simp only [clonedLeft]; split <;> rfl

theorem clonedLeft_heads [Inhabited T] (s : PersistentList T) (pl : Nat) :
    (s.clonedLeft pl).m_apHeads =
      if (s.heap pl).rdLeft s.m_version = none then s.m_apHeads ++ [s.next]
      else s.m_apHeads := by
  simp only [clonedLeft]; split <;> rfl

/-- The result of `eraseLeft` on a non-full left neighbour. -/
theorem eraseLeft_fill [Inhabited T] (nd : Bool) (s : PersistentList T)
    (pl : Nat) (hf : (s.heap pl).m_isFull = false)
    (hv : (s.heap pl).m_first.m_version ≤ s.m_version) :
    s.eraseLeft nd (some pl) = .ok (none, s.filledLeft pl) := by
  unfold eraseLeft
  simp only [ListNode.isFull, hf, Bool.not_false, if_true, ListNode.getVal_eq nd _ _ hv,
    bind, Except.bind, pure, Except.pure, filledLeft]

/-- The walk that `eraseLeft` starts on a full left neighbour. -/
theorem eraseLeft_full [Inhabited T] (nd : Bool) (s : PersistentList T)
    (pl : Nat) (hf : (s.heap pl).m_isFull = true)
    (hv : (s.heap pl).m_first.m_version ≤ s.m_version) (hlt : pl < s.next) :
    s.eraseLeft nd (some pl) =
      (copyLeftLoop nd none (s.next + 1) ((s.heap pl).rdLeft s.m_version) s.next
        (s.clonedLeft pl)).bind (fun r => .ok (some s.next, r.2)) := by
  have hne : pl ≠ s.next := by omega
  unfold eraseLeft
  simp only [ListNode.isFull, hf, Bool.not_true, Bool.false_eq_true, if_false,
    ListNode.getVal_eq nd _ _ hv, bind, Except.bind, pure, Except.pure, copyLeft,
    apply_ite PersistentList.heap, apply_ite PersistentList.m_version,
    apply_ite PersistentList.next, heap_addHead, heap_add, heap_alloc, version_addHead,
    version_add, version_alloc, next_addHead, next_add, next_alloc, ite_self, hne,
    ListNode.getLeft_eq nd _ _ hv, clonedLeft]

theorem eraseLeft_spec [Inhabited T] (nd : Bool) (s : PersistentList T)
    (prev : Option Nat) (pl : Nat) (Wt : List Nat)
    (hl : Linked (ListNode.rdLeft s.m_version) (ListNode.rdRight s.m_version) s.heap prev
      (pl :: Wt) none)
    (hnd : (pl :: Wt).Nodup) (hlt : ∀ n ∈ pl :: Wt, n < s.next)
    (hsR : ∀ n ∈ pl :: Wt, (s.heap n).Sane s.m_version)
    (hsane : ∀ a, a < s.next → (s.heap a).Sane (s.m_version + 1))
    (hnodes : ∀ a ∈ s.m_apNodes, a < s.next) :
    ∃ (e : Nat) (Wt' : List Nat) (lc : Option Nat) (s' : PersistentList T),
      s.eraseLeft nd (some pl) = .ok (lc, s') ∧
      EraseLeftPost s s' pl Wt e Wt' lc := by
  obtain ⟨_, hfwd, hlrest⟩ := hl
  have hpl_lt : pl < s.next := hlt pl (List.mem_cons_self _ _)
  have hpl_sane := hsR pl (List.mem_cons_self _ _)
  have hpl_notin : pl ∉ Wt := (List.nodup_cons.1 hnd).1
  have hWt_nd : Wt.Nodup := (List.nodup_cons.1 hnd).2
  have hWt_lt : ∀ n ∈ Wt, n < s.next := fun n hn => hlt n (List.mem_cons_of_mem _ hn)
  have hWt_ne : ∀ n ∈ Wt, n ≠ pl := fun n hn h => hpl_notin (h ▸ hn)
  have hWt_sane : ∀ n ∈ Wt, (s.heap n).Sane s.m_version :=
    fun n hn => hsR n (List.mem_cons_of_mem _ hn)
  rw [headOr_eq_head?] at hfwd
  cases hfull : (s.heap pl).m_isFull with
  | false =>
    -- the neighbour is filled in place
    refine ⟨pl, Wt, none, _, eraseLeft_fill nd s pl hfull hpl_sane.1, ?_⟩
    refine ⟨rfl, ?_, ?_, ?_, Or.inr ⟨rfl, rfl⟩, hnd, fun n hn => Or.inl hn, le_refl _, ?_, ?_,
      rfl, rfl, fun hd h1 h2 => h2.trans h1.symm, fun h => h, ?_, ?_⟩
    · exact Linked.congr (fun n hn => by
        rw [filledLeft_heap, if_neg (hWt_ne n hn),
          ListNode.rdRight_succ (hWt_sane n hn), ListNode.rdLeft_succ (hWt_sane n hn)]
        exact ⟨rfl, rfl⟩) hlrest
    · rw [filledLeft_heap, if_pos rfl, ListNode.rdLeft_filled _ _ hfull, hfwd]
    · rw [filledLeft_heap, if_pos rfl]; exact ListNode.Open.of_filled hpl_sane _
    · intro a _ hna
      rw [filledLeft_heap, if_neg (fun h => hna (by rw [h]; exact List.mem_cons_self _ _))]
    · intro a ha
      rw [filledLeft_heap]
      split
      · exact (ListNode.Open.of_filled hpl_sane _).to_sane
      · exact hsane a ha
    · intro a ha
      have ha' : a ∈ s.m_apNodes ++ [pl] := ha
      rw [List.mem_append, List.mem_singleton] at ha'
      rcases ha' with ha' | rfl
      · exact hnodes a ha'
      · exact hpl_lt
    · simp only [List.map_cons]
      congr 1
      · rw [filledLeft_heap, if_pos rfl, ListNode.rdVal_filled]
      · apply List.map_congr_left
        intro n hn
        rw [filledLeft_heap, if_neg (hWt_ne n hn), ListNode.rdVal_succ (hWt_sane n hn)]
  | true =>
    -- the neighbour is cloned and the walk goes on to its left
    have hc_old : ∀ a, a < s.next → (s.clonedLeft pl).heap a = s.heap a := by
      intro a ha
      rw [clonedLeft_heap, if_neg (by omega)]
    have hc_new : (s.clonedLeft pl).heap s.next =
        ListNode.mk2 ((s.heap pl).rdVal s.m_version) (s.m_version + 1) := by
      rw [clonedLeft_heap, if_pos rfl]
    obtain ⟨Wt', q, s', hrun, post⟩ := copyLeftLoop_spec nd none Wt (s.next + 1) s.next
      (some pl) (s.clonedLeft pl)
      (by have := length_le_of_nodup_lt Wt s.next hWt_nd hWt_lt; omega)
      (by
        rw [clonedLeft_version]
        exact Linked.congr (fun n hn => by rw [hc_old n (hWt_lt n hn)]; exact ⟨rfl, rfl⟩) hlrest)
      hWt_nd
      (fun n hn => by rw [clonedLeft_next]; have := hWt_lt n hn; omega)
      (fun n hn => by rw [hc_old n (hWt_lt n hn), clonedLeft_version]; exact hWt_sane n hn)
      (fun hm => by have := hWt_lt _ hm; omega)
      (by rw [clonedLeft_next]; omega)
      (by rw [hc_new, clonedLeft_version]; exact ListNode.fresh_mk2 _ _)
      (by
        intro a ha
        rw [clonedLeft_next] at ha
        rw [clonedLeft_heap, clonedLeft_version]
        split_ifs with h1
        · exact (ListNode.fresh_mk2 _ _).is_sane
        · exact hsane a (by omega))
      (by
        intro a ha
        rw [clonedLeft_nodes, List.mem_append, List.mem_singleton] at ha
        rw [clonedLeft_next]
        rcases ha with ha | rfl
        · have := hnodes a ha; omega
        · omega)
    have plinked := post.linked
    have psane := post.sane
    have pvals := post.vals rfl
    have pnext := post.next_le
    have pmem := post.mem
    have pframe := post.frame
    rw [clonedLeft_version] at plinked psane pvals
    rw [clonedLeft_next] at pnext pmem pframe
    have hnew : (s'.heap s.next).Fresh (s.m_version + 1) ∧
        (s'.heap s.next).m_first.m_pRight = none ∧
        (s'.heap s.next).m_first.m_pLeft = Wt'.head? ∧
        (s'.heap s.next).m_first.m_value = (s.heap pl).rdVal s.m_version := by
      cases hW' : Wt' with
      | nil => rw [post.prev_nil hW', hc_new]; exact ⟨⟨rfl, rfl⟩, rfl, rfl, rfl⟩
      | cons c t => rw [post.prev_cons c t hW', hc_new]; exact ⟨⟨rfl, rfl⟩, rfl, rfl, rfl⟩
    have hnew_notin : s.next ∉ Wt' := by
      intro hm
      rcases pmem _ hm with h | h
      · have := hWt_lt _ h; omega
      · omega
    refine ⟨s.next, Wt', some s.next, s', ?_, ?_⟩
    · rw [eraseLeft_full nd s pl hfull hpl_sane.1 hpl_lt, hfwd, hrun]
      rfl
    · refine ⟨post.length_eq, plinked, ?_, ListNode.Open.of_fresh hnew.1, Or.inl rfl,
        List.nodup_cons.2 ⟨hnew_notin, post.nodup⟩, ?_, by omega, ?_, psane, ?_, ?_, ?_, ?_,
        post.nodes_lt, ?_⟩
      · rw [hnew.1.rdLeft, hnew.2.2.1]
      · intro n hn
        rcases List.mem_cons.1 hn with rfl | hn
        · exact Or.inr ⟨le_refl _, by omega⟩
        · rcases pmem n hn with h | h
          · exact Or.inl (List.mem_cons_of_mem _ h)
          · exact Or.inr ⟨by omega, h.2⟩
      · intro a ha hna
        rw [pframe a (by omega) (fun h => hna (List.mem_cons_of_mem _ h)) (by omega),
          hc_old a ha]
      · rw [post.version_eq, clonedLeft_version]
      · rw [post.last_eq, clonedLeft_last]
      · -- the heads
        intro hd hlast hhd
        cases hWt : Wt with
        | nil =>
          have hW'nil : Wt' = [] := by
            apply List.length_eq_zero.1
            rw [post.length_eq, hWt]
            rfl
          rw [post.heads_nil hWt, clonedLeft_heads, hfwd, hWt, hW'nil]
          simp
        | cons w t =>
          have hW'ne : Wt' ≠ [] := by
            intro h
            have := post.length_eq
            rw [h, hWt] at this
            simp at this
          have h1 := post.heads_last hd
            (by rw [hWt] at hlast ⊢; rw [List.getLast?_cons_cons] at hlast; exact hlast)
            (by rw [clonedLeft_heads, hfwd, hWt]; simpa using hhd)
          rw [h1]
          cases Wt' with
          | nil => exact absurd rfl hW'ne
          | cons c t' => rw [List.getLast?_cons_cons]
      · intro hh a ha
        exact post.heads_lt (fun b hb => by
          rw [clonedLeft_heads] at hb
          rw [clonedLeft_next]
          split at hb
          · rcases List.mem_append.1 hb with hb | hb
            · have := hh b hb; omega
            · rw [List.mem_singleton.1 hb]; omega
          · have := hh b hb; omega) a ha
      · simp only [List.map_cons]
        congr 1
        · rw [hnew.1.rdVal, hnew.2.2.2]
        · rw [pvals]
          apply List.map_congr_left
          intro n hn
          rw [hc_old n (hWt_lt n hn)]

end PersistentList

namespace PersistentList

variable {T : Type}

theorem eraseLink_eq (s : PersistentList T) (pl eL eR pr : Nat) (lc rc : Option Nat)
    (hl : lc = some eL ∨ (lc = none ∧ eL = pl)) (hr : rc = some eR ∨ (rc = none ∧ eR = pr)) :
    s.eraseLink (some pl) lc rc pr =
      (s.modify eL (fun n => n.setRight (some eR) lc.isSome)).modify eR
        (fun n => n.setLeft (some eL) rc.isSome) := by
  rcases hl with rfl | ⟨rfl, rfl⟩ <;> rcases hr with rfl | ⟨rfl, rfl⟩ <;> rfl

theorem erase_result (rc : Option Nat) (e pr : Nat) (hr : rc = some e ∨ (rc = none ∧ e = pr)) :
    (match rc with
      | some rc => (⟨some rc⟩ : PersistentListIterator)
      | none => ⟨some pr⟩) = ⟨some e⟩ := by
  rcases hr with rfl | ⟨rfl, rfl⟩ <;> rfl

theorem list_erase_spec [Inhabited T] (nd : Bool) (s : PersistentList T) (ns : List Nat)
    (hi : s.Inv ns) (p item : Nat) (hp : ns[p]? = some item) (hlt : p + 1 < ns.length) :
    ∃ (ns' : List Nat) (s' : PersistentList T),
      s.erase nd (some ⟨some item⟩) = .ok (⟨ns'[p]?⟩, s') ∧
      s'.Inv ns' ∧ ns'.length + 1 = ns.length ∧
      s'.m_version = s.m_version + 1 ∧
      ns'.map (fun n => (s'.heap n).rdVal s'.m_version) =
        (ns.take p).map (fun n => (s.heap n).rdVal s.m_version) ++
        (ns.drop (p + 1)).map (fun n => (s.heap n).rdVal s.m_version) := by
  have hitem_mem : item ∈ ns := List.getElem?_mem hp
  have hitem_lt : item < s.next := hi.lt_next item hitem_mem
  have hitem_sane := hi.sane item hitem_lt
  obtain ⟨L, R0, hns, hLlen, hLtake, hRdrop, hWl, hRl⟩ := hi.split p item hp
  cases R0 with
  | nil =>
    rw [hns] at hlt
    simp only [List.length_append, List.length_cons, List.length_nil] at hlt
    omega
  | cons pr Rt =>
    obtain ⟨hleft, hright, hlR⟩ := hRl
    have hright' : ListNode.rdRight s.m_version (s.heap item) = some pr := hright
    obtain ⟨hLns, hRns, hndL, hndR, hdisj, hhead⟩ :=
      hi.split_facts L [item] (pr :: Rt) (by simpa using hns)
    have hRlt : ∀ n ∈ pr :: Rt, n < s.next := fun n hn => hi.lt_next n (hRns n hn)
    have hLlt : ∀ n ∈ L, n < s.next := fun n hn => hi.lt_next n (hLns n hn)
    have hdrop1 : ns.drop (p + 1) = pr :: Rt := by
      have : ns.drop (p + 1) = (ns.drop p).drop 1 := by rw [List.drop_drop, Nat.add_comm]
      rw [this, ← hRdrop]
      rfl
    have hunf : s.erase nd (some ⟨some item⟩) =
        (s.eraseLeft nd L.reverse.head?).bind (fun a =>
          (a.2.eraseRight nd L.reverse.head? pr).bind (fun b =>
            ((b.2.eraseLink L.reverse.head? a.1 b.1 pr).updateLastHead nd
              ((b.2.eraseLink L.reverse.head? a.1 b.1 pr).m_version + 1)).bind (fun c =>
              .ok (match b.1 with
                | some rc => (⟨some rc⟩ : PersistentListIterator)
                | none => ⟨some pr⟩,
                { c with m_version := c.m_version + 1, m_lastVersion := c.m_version + 1 })))) := by
      unfold erase
      simp only [check, Option.isSome_some, Bool.true_or, if_true, bind, Except.bind, pure,
        Except.pure, invalidate_eq_self s ns hi, deref, ListNode.getLeft_eq nd _ _ hitem_sane.1,
        ListNode.getRight_eq nd _ _ hitem_sane.1, hright', hleft, ite_self]
      try rfl
    rw [hunf]
    cases hW : L.reverse with
    | nil =>
      -- no left neighbour: the right neighbour or its clone is the new head
      have hL : L = [] := List.reverse_eq_nil_iff.1 hW
      have hp0 : p = 0 := by rw [← hLlen, hL]; rfl
      obtain ⟨e, Rt', rc, sR, hrunR, PR, hheadsR⟩ := eraseRight_spec nd s none (some item) pr Rt
        hlR hndR hRlt (fun n hn => hi.sane n (hRlt n hn)) (fun a ha => (hi.sane a ha).succ)
        hi.heads_lt hi.nodes_lt
      have hhd : sR.m_apHeads.getLast? = some e := by
        rw [PR.heads_eq, if_pos rfl]
        simp
      have he_lt : e < sR.next := by
        rcases PR.mem e (List.mem_cons_self _ _) with h | h
        · have := hRlt e h
          have := PR.next_le
          omega
        · exact h.2
      have hupd : sR.updateLastHead nd (sR.m_version + 1) = .ok sR := by
        rw [PR.version_eq]
        exact updateLastHead_eq nd sR _ e hhd (PR.sane e he_lt).1 (PR.bwd_none rfl)
      refine ⟨e :: Rt',
        { sR with m_version := sR.m_version + 1, m_lastVersion := sR.m_version + 1 }, ?_, ?_, ?_,
        ?_, ?_⟩
      · simp only [List.head?_nil, eraseLeft, pure, Except.pure, Except.bind, hrunR, eraseLink,
          hupd, erase_result rc e pr PR.rc_eq, hp0, List.getElem?_cons_zero]
      · refine ⟨rfl, by simp, ?_, PR.nodup, ?_, ?_, ?_, hheadsR, PR.nodes_lt⟩
        · simp only [PR.version_eq]
          exact ⟨PR.bwd_none rfl, by rw [PR.fwd, headOr_eq_head?], PR.linked⟩
        · intro n hn
          rcases PR.mem n hn with h | h
          · have := hRlt n h
            have := PR.next_le
            simp only
            omega
          · exact h.2
        · simp only [PR.version_eq]
          exact PR.sane
        · simp only [hhd, List.head?_cons]
      · rw [hns, hL]
        simp only [List.length_cons, PR.length_eq, List.nil_append]
      · simp only [PR.version_eq]
      · simp only [PR.version_eq]
        rw [PR.vals, hdrop1, hp0]
        rfl
    | cons pl Wt =>
      -- both neighbours are prepared, then linked to each other
      have hWnd : (pl :: Wt).Nodup := by rw [← hW]; exact List.nodup_reverse.2 hndL
      have hWmem : ∀ n ∈ pl :: Wt, n ∈ L := by
        intro n hn
        rw [← hW] at hn
        exact List.mem_reverse.1 hn
      have hWlt : ∀ n ∈ pl :: Wt, n < s.next := fun n hn => hLlt n (hWmem n hn)
      obtain ⟨eL, Wt', lc, sL, hrunL, PL⟩ := eraseLeft_spec nd s (some item) pl Wt
        (by rw [← hW]; exact hWl) hWnd hWlt (fun n hn => hi.sane n (hWlt n hn))
        (fun a ha => (hi.sane a ha).succ) hi.nodes_lt
      have hLold : ∀ n ∈ pr :: Rt, sL.heap n = s.heap n := fun n hn =>
        PL.frame n (hRlt n hn) (fun hm => hdisj n (hWmem n hm) hn)
      obtain ⟨eR, Rt', rc, sR, hrunR, PR, hheadsR⟩ := eraseRight_spec nd sL (some pl)
        (some item) pr Rt
        (by
          rw [PL.version_eq]
          exact Linked.congr (fun n hn => by rw [hLold n hn]; exact ⟨rfl, rfl⟩) hlR)
        hndR (fun n hn => lt_of_lt_of_le (hRlt n hn) PL.next_le)
        (fun n hn => by rw [hLold n hn, PL.version_eq]; exact hi.sane n (hRlt n hn))
        (by rw [PL.version_eq]; exact PL.sane)
        (PL.heads_lt hi.heads_lt) PL.nodes_lt
      have pRlinked := PR.linked
      have pRfwd := PR.fwd
      have pRopen := PR.opened
      have pRsane := PR.sane
      have pRvals := PR.vals
      rw [PL.version_eq] at pRlinked pRfwd pRopen pRsane pRvals
      have hRver : sR.m_version = s.m_version := by rw [PR.version_eq, PL.version_eq]
      have hW'R : ∀ a ∈ eL :: Wt', sR.heap a = sL.heap a ∧ a ∉ eR :: Rt' ∧ a < sL.next := by
        intro a ha
        have hnotR : a ∉ pr :: Rt := by
          rcases PL.mem a ha with h | h
          · exact fun hb => hdisj a (hWmem a h) hb
          · intro hb; have := hRlt a hb; omega
        have hlt : a < sL.next := by
          rcases PL.mem a ha with h | h
          · have := hWlt a h
            have := PL.next_le
            omega
          · exact h.2
        refine ⟨PR.frame a hlt hnotR, ?_, hlt⟩
        intro hR
        rcases PR.mem a hR with h | h
        · exact hnotR h
        · omega
      have hne : eL ≠ eR := fun h =>
        (hW'R eL (List.mem_cons_self _ _)).2.1 (by rw [h]; exact List.mem_cons_self _ _)
      have hFheap : ∀ a, ((sR.modify eL (fun n => n.setRight (some eR) lc.isSome)).modify eR
          (fun n => n.setLeft (some eL) rc.isSome)).heap a =
          if a = eR then (sR.heap eR).setLeft (some eL) rc.isSome
          else if a = eL then (sR.heap eL).setRight (some eR) lc.isSome
          else sR.heap a := by
        intro a
        simp only [heap_modify, Ne.symm hne, if_false]
      have hW'lt : ∀ a ∈ eL :: Wt', a < sR.next := fun a ha => by
        have := (hW'R a ha).2.2
        have := PR.next_le
        omega
      have hR'lt : ∀ a ∈ eR :: Rt', a < sR.next := fun a ha => by
        rcases PR.mem a ha with h | h
        · have := hRlt a h
          have := PR.next_le
          have := PL.next_le
          omega
        · exact h.2
      have hWt'ne : ∀ n ∈ Wt', n ≠ eL := fun n hn h =>
        (List.nodup_cons.1 PL.nodup).1 (h ▸ hn)
      have hRt'ne : ∀ n ∈ Rt', n ≠ eR := fun n hn h =>
        (List.nodup_cons.1 PR.nodup).1 (h ▸ hn)
      -- the chain of the new version
      have hchain : Linked (ListNode.rdRight (s.m_version + 1))
          (ListNode.rdLeft (s.m_version + 1))
          ((sR.modify eL (fun n => n.setRight (some eR) lc.isSome)).modify eR
            (fun n => n.setLeft (some eL) rc.isSome)).heap none
          ((eL :: Wt').reverse ++ eR :: Rt') none := by
        apply Linked_around
        · refine ⟨?_, ?_, ?_⟩
          · rw [hFheap, if_neg hne, if_pos rfl, (hW'R eL (List.mem_cons_self _ _)).1]
            exact PL.opened.rdRight_setRight _
          · rw [hFheap, if_neg hne, if_pos rfl, (hW'R eL (List.mem_cons_self _ _)).1,
              ListNode.rdLeft_setRight, PL.fwd, headOr_eq_head?]
          · exact Linked.congr (fun n hn => by
              have h1 := hW'R n (List.mem_cons_of_mem _ hn)
              rw [hFheap, if_neg (fun h => h1.2.1 (by rw [h]; exact List.mem_cons_self _ _)),
                if_neg (hWt'ne n hn), h1.1]
              exact ⟨rfl, rfl⟩) PL.linked
        · exact Linked.congr (fun n hn => by
            rw [hFheap, if_neg (hRt'ne n hn),
              if_neg (fun h => (hW'R eL (List.mem_cons_self _ _)).2.1
                (by rw [← h]; exact List.mem_cons_of_mem _ hn))]
            exact ⟨rfl, rfl⟩) pRlinked
        · rw [hFheap, if_pos rfl]
          exact pRopen.rdLeft_setLeft _
        · rw [hFheap, if_pos rfl, ListNode.rdRight_setLeft, pRfwd]
      have hnodup : ((eL :: Wt').reverse ++ eR :: Rt').Nodup := by
        rw [List.nodup_append]
        refine ⟨List.nodup_reverse.2 PL.nodup, PR.nodup, ?_⟩
        intro a ha hb
        exact (hW'R a (List.mem_reverse.1 ha)).2.1 hb
      have hlt' : ∀ a ∈ (eL :: Wt').reverse ++ eR :: Rt', a < sR.next := by
        intro a ha
        rcases List.mem_append.1 ha with ha | ha
        · exact hW'lt a (List.mem_reverse.1 ha)
        · exact hR'lt a ha
      have hFsane : ∀ a, a < sR.next →
          (((sR.modify eL (fun n => n.setRight (some eR) lc.isSome)).modify eR
            (fun n => n.setLeft (some eL) rc.isSome)).heap a).Sane (s.m_version + 1) := by
        intro a ha
        rw [hFheap]
        split_ifs
        · exact (pRsane _ (hR'lt eR (List.mem_cons_self _ _))).setLeft _ _
        · exact (pRsane _ (hW'lt eL (List.mem_cons_self _ _))).setRight _ _
        · exact pRsane a ha
      -- the heads
      have hheads : sR.m_apHeads.getLast? = ((eL :: Wt').reverse ++ eR :: Rt').head? := by
        rw [PR.heads_eq, if_neg (by simp)]
        obtain ⟨a, ha⟩ : ∃ a, L.head? = some a := by
          cases hLc : L with
          | nil => rw [hLc] at hW; simp at hW
          | cons a L' => exact ⟨a, rfl⟩
        have h1 := PL.heads_last a
          (by rw [← hW, List.getLast?_reverse, ha])
          (by rw [hi.head, hhead a ha])
        rw [h1, List.head?_append_of_ne_nil _ (by simp), List.head?_reverse]
      obtain ⟨hd, hhd⟩ : ∃ hd, ((eL :: Wt').reverse ++ eR :: Rt').head? = some hd := by
        cases hc : (eL :: Wt').reverse ++ eR :: Rt' with
        | nil => simp at hc
        | cons a b => exact ⟨a, rfl⟩
      have hhd_mem : hd ∈ (eL :: Wt').reverse ++ eR :: Rt' := List.mem_of_mem_head? hhd
      have hhd_left : ListNode.rdLeft (s.m_version + 1)
          (((sR.modify eL (fun n => n.setRight (some eR) lc.isSome)).modify eR
            (fun n => n.setLeft (some eL) rc.isSome)).heap hd) = none := by
        cases hc : (eL :: Wt').reverse ++ eR :: Rt' with
        | nil => simp at hc
        | cons a b =>
          rw [hc] at hchain hhd
          simp only [List.head?_cons, Option.some.injEq] at hhd
          subst hhd
          exact hchain.1
      have hupd : ((sR.modify eL (fun n => n.setRight (some eR) lc.isSome)).modify eR
            (fun n => n.setLeft (some eL) rc.isSome)).updateLastHead nd (sR.m_version + 1) =
          .ok ((sR.modify eL (fun n => n.setRight (some eR) lc.isSome)).modify eR
            (fun n => n.setLeft (some eL) rc.isSome)) := by
        rw [hRver]
        exact updateLastHead_eq nd _ _ hd (by rw [← hhd, ← hheads]; rfl)
          (hFsane hd (hlt' hd hhd_mem)).1 hhd_left
      have hW'len : (eL :: Wt').length = p := by
        rw [List.length_cons, PL.length_eq, ← hLlen, ← List.length_reverse L, hW]
        rfl
      refine ⟨(eL :: Wt').reverse ++ eR :: Rt',
        { (sR.modify eL (fun n => n.setRight (some eR) lc.isSome)).modify eR
            (fun n => n.setLeft (some eL) rc.isSome) with
          m_version := sR.m_version + 1, m_lastVersion := sR.m_version + 1 }, ?_, ?_, ?_,
        ?_, ?_⟩
      · simp only [List.head?_cons, hrunL, Except.bind, hrunR,
          eraseLink_eq sR pl eL eR pr lc rc PL.lc_eq PR.rc_eq, version_modify, hupd,
          erase_result rc eR pr PR.rc_eq]
        rw [List.getElem?_append_right (by rw [List.length_reverse, hW'len]),
          List.length_reverse, hW'len]
        simp
      · refine ⟨rfl, by simp, ?_, hnodup, hlt', ?_, hheads, hheadsR, PR.nodes_lt⟩
        · simp only [hRver]; exact hchain
        · simp only [hRver]; exact hFsane
      · rw [hns]
        simp only [List.length_append, List.length_reverse, List.length_cons, hW'len,
          PR.length_eq, hLlen]
        omega
      · simp only [hRver]
      · simp only [hRver]
        have hval : ∀ a, ListNode.rdVal (s.m_version + 1)
            (((sR.modify eL (fun n => n.setRight (some eR) lc.isSome)).modify eR
              (fun n => n.setLeft (some eL) rc.isSome)).heap a) =
            ListNode.rdVal (s.m_version + 1) (sR.heap a) := by
          intro a
          rw [hFheap]
          split_ifs with h1 h2
          · rw [ListNode.rdVal_setLeft, h1]
          · rw [ListNode.rdVal_setRight, h2]
          · rfl
        rw [List.map_congr_left (fun a _ => hval a), List.map_append, List.map_reverse,
          pRvals, hdrop1]
        congr 1
        · have : (eL :: Wt').map (fun n => ListNode.rdVal (s.m_version + 1) (sR.heap n)) =
              L.reverse.map (fun n => ListNode.rdVal s.m_version (s.heap n)) := by
            rw [List.map_congr_left (fun n hn => by rw [(hW'R n hn).1]), PL.vals, hW]
          rw [this, List.map_reverse, List.reverse_reverse, hLtake]
        · apply List.map_congr_left
          intro n hn
          rw [hLold n hn]

end PersistentList

section ListFacts

variable {α : Type}

theorem dropLast_insert (l : List α) (x : α) : ∀ (p : Nat), p < l.length →
    (l.take p ++ x :: l.drop p).dropLast = l.dropLast.take p ++ x :: l.dropLast.drop p := by
  induction l with
  | nil => intro p hp; simp at hp
  | cons a l ih =>
    intro p hp
    cases p with
    | zero => simp [List.dropLast]
    | succ p =>
      have hp' : p < l.length := by simpa using hp
      have hl : l ≠ [] := fun h => by rw [h] at hp'; simp at hp'
      rw [List.dropLast_cons_of_ne_nil hl]
      simp only [List.take_succ_cons, List.drop_succ_cons, List.cons_append]
      rw [List.dropLast_cons_of_ne_nil (by simp), ih p hp']

theorem dropLast_remove (l : List α) : ∀ (p : Nat), p + 1 < l.length →
    (l.take p ++ l.drop (p + 1)).dropLast = l.dropLast.eraseIdx p := by
  induction l with
  | nil => intro p hp; simp at hp
  | cons a l ih =>
    intro p hp
    have hl : l ≠ [] := fun h => by rw [h] at hp; simp at hp
    cases p with
    | zero =>
      rw [List.dropLast_cons_of_ne_nil hl]
      simp
    | succ p =>
      have hp' : p + 1 < l.length := by simpa using hp
      rw [List.dropLast_cons_of_ne_nil hl]
      simp only [List.take_succ_cons, List.drop_succ_cons, List.cons_append,
        List.eraseIdx_cons_succ]
      rw [List.dropLast_cons_of_ne_nil, ih p hp']
      intro h
      have := congrArg List.length h
      simp at this
      omega

end ListFacts

namespace PersistentList

variable {T : Type}

theorem vals_length (s : PersistentList T) (ns : List Nat) :
    (s.vals ns).length = ns.length - 1 := by
  simp [vals]

theorem vals_eq (s : PersistentList T) (ns : List Nat) :
    s.vals ns = (ns.map (fun n => (s.heap n).rdVal s.m_version)).dropLast := by
  simp [vals]

/-- The empty list: the chain is the sentinel alone. -/
theorem new_inv [Inhabited T] : (PersistentList.new : PersistentList T).Inv [0] := by
  refine ⟨rfl, by simp, ⟨rfl, rfl, trivial⟩, by simp, ?_, ?_, rfl, ?_, ?_⟩
  · intro n hn
    simp only [List.mem_singleton] at hn
    subst hn
    exact Nat.zero_lt_one
  · intro a _
    exact ⟨by simp [PersistentList.new, ListNode.new, NodeVersion.new],
      fun h => absurd h (by simp [PersistentList.new, ListNode.new])⟩
  · intro a ha
    have : a = 0 := by simpa [PersistentList.new] using ha
    subst this
    exact Nat.zero_lt_one
  · intro a ha
    simp [PersistentList.new] at ha

/-- Every state built by `insert`, `erase` and `setVal` has a chain that
satisfies the representation invariant. -/
theorem Built.inv [Inhabited T] {s : PersistentList T} (h : s.Built) : ∃ ns, s.Inv ns := by
  induction h with
  | new => exact ⟨[0], new_inv⟩
  | insert nd s s' p val l _ hl hp h ih =>
    obtain ⟨ns, hi⟩ := ih
    rw [traversal_eq nd s ns hi] at hl
    have hlen : l.length = ns.length - 1 := by
      rw [← vals_length s ns]
      exact (congrArg List.length (Except.ok.inj hl)).symm
    have hne := hi.ne
    have hpos : 0 < ns.length := List.length_pos.2 hne
    have hplt : p < ns.length := by omega
    obtain ⟨ns', s'', nw, hrun, hi', _⟩ := list_insert_spec nd s ns hi p ns[p]
      (List.getElem?_eq_getElem hplt) val
    simp only [insertAt, iterAt_eq nd s ns hi p ns[p] (List.getElem?_eq_getElem hplt), hrun,
      bind, Except.bind, pure, Except.pure] at h
    exact ⟨ns', by rw [← Except.ok.inj h]; exact hi'⟩
  | erase nd s s' p l _ hl hp h ih =>
    obtain ⟨ns, hi⟩ := ih
    rw [traversal_eq nd s ns hi] at hl
    have hlen : l.length = ns.length - 1 := by
      rw [← vals_length s ns]
      exact (congrArg List.length (Except.ok.inj hl)).symm
    have hplt : p < ns.length := by omega
    obtain ⟨ns', s'', hrun, hi', _⟩ := list_erase_spec nd s ns hi p ns[p]
      (List.getElem?_eq_getElem hplt) (by omega)
    simp only [eraseAt, iterAt_eq nd s ns hi p ns[p] (List.getElem?_eq_getElem hplt), hrun,
      bind, Except.bind, pure, Except.pure] at h
    exact ⟨ns', by rw [← Except.ok.inj h]; exact hi'⟩
  | setVal nd s s' p val l _ hl hp h ih =>
    obtain ⟨ns, hi⟩ := ih
    rw [traversal_eq nd s ns hi] at hl
    have hlen : l.length = ns.length - 1 := by
      rw [← vals_length s ns]
      exact (congrArg List.length (Except.ok.inj hl)).symm
    have hne := hi.ne
    have hpos : 0 < ns.length := List.length_pos.2 hne
    have hplt : p < ns.length := by omega
    obtain ⟨ns', s'', hrun, hi', _⟩ := setVal_spec nd s ns hi p ns[p]
      (List.getElem?_eq_getElem hplt) val
    simp only [setValAt, iterAt_eq nd s ns hi p ns[p] (List.getElem?_eq_getElem hplt), hrun,
      bind, Except.bind, pure, Except.pure] at h
    exact ⟨ns', by rw [← Except.ok.inj h]; exact hi'⟩

end PersistentList

namespace PersistentList

variable {T : Type}

theorem vals_get (s : PersistentList T) (ns : List Nat) (p a : Nat) (h : ns[p]? = some a)
    (hp : p + 1 < ns.length) : (s.vals ns)[p]? = some ((s.heap a).rdVal s.m_version) := by
  rw [vals, List.getElem?_map, List.dropLast_eq_take, List.getElem?_take_of_lt (by omega), h]
  rfl

/-- Reading the value through an iterator that stands on a position of the
chain other than the sentinel. -/
theorem getVal_at (nd : Bool) (s : PersistentList T) (ns : List Nat) (hi : s.Inv ns)
    (p a : Nat) (h : ns[p]? = some a) (hp : p + 1 < ns.length) :
    PersistentListIterator.getVal nd s ⟨some a⟩ = .ok ((s.heap a).rdVal s.m_version) := by
  have hv := (hi.sane a (hi.lt_next a (List.getElem?_mem h))).1
  have hr := Linked_get_fwd ns none hi.linked p a h
  rw [List.getElem?_eq_getElem hp] at hr
  cases nd <;>
    simp [PersistentListIterator.getVal, check, ListNode.getRight_eq _ _ _ hv, hr,
      ListNode.getVal_eq _ _ _ hv, bind, Except.bind, pure, Except.pure]

/-- An iterator on the last node of the chain, the sentinel, is done. -/
theorem done_at (nd : Bool) (s : PersistentList T) (ns : List Nat) (hi : s.Inv ns)
    (p a : Nat) (h : ns[p]? = some a) (hp : p + 1 = ns.length) :
    PersistentListIterator.done nd s ⟨some a⟩ = .ok true := by
  have hv := (hi.sane a (hi.lt_next a (List.getElem?_mem h))).1
  have hr := Linked_get_fwd ns none hi.linked p a h
  rw [List.getElem?_eq_none (by omega)] at hr
  cases nd <;>
    simp [PersistentListIterator.done, check, ListNode.getRight_eq _ _ _ hv, hr,
      bind, Except.bind, pure, Except.pure]

/-- `insert` with an iterator reached from `begin()` by `p` calls of `next()`,
on a built state: the traversal gets the value at position `p`, the returned
iterator stands on it and the caller's iterator on the position after it. -/
theorem insert_at_position [Inhabited T] (s : PersistentList T) (hs : s.Built) (nd : Bool) :
    ∃ old : List T, s.traversal nd = .ok old ∧
      ∀ p, p ≤ old.length → ∃ it, s.iterAt nd p = .ok it ∧
        ∀ v : T, ∃ ret it' s', s.insert nd (some it) v = .ok (ret, it', s') ∧
          s'.traversal nd = .ok (old.take p ++ v :: old.drop p) ∧
          PersistentListIterator.getVal nd s' ret = .ok v ∧
          s'.iterAt nd p = .ok ret ∧ s'.iterAt nd (p + 1) = .ok it' := by
  obtain ⟨ns, hi⟩ := hs.inv
  refine ⟨s.vals ns, traversal_eq nd s ns hi, ?_⟩
  intro p hp
  rw [vals_length] at hp
  have hpos : 0 < ns.length := List.length_pos.2 hi.ne
  have hplt : p < ns.length := by omega
  have hget : ns[p]? = some ns[p] := List.getElem?_eq_getElem hplt
  refine ⟨⟨some ns[p]⟩, iterAt_eq nd s ns hi p _ hget, ?_⟩
  intro v
  obtain ⟨ns', s', nw, hrun, hi', hnw, hlen', hver, hvals⟩ := list_insert_spec nd s ns hi p _ hget v
  have htrav : s'.vals ns' = (s.vals ns).take p ++ v :: (s.vals ns).drop p := by
    rw [vals_eq, hvals, vals_eq, List.map_take, List.map_drop,
      dropLast_insert _ v p (by rw [List.length_map]; exact hplt)]
  have hp1 : p + 1 < ns'.length := by omega
  refine ⟨⟨some nw⟩, ⟨ns'[p + 1]?⟩, s', hrun, ?_, ?_, iterAt_eq nd s' ns' hi' p nw hnw, ?_⟩
  · rw [traversal_eq nd s' ns' hi', htrav]
  · rw [getVal_at nd s' ns' hi' p nw hnw hp1]
    have h1 := vals_get s' ns' p nw hnw hp1
    rw [htrav, List.getElem?_append_right (by simp)] at h1
    have hmin : p - (List.take p (s.vals ns)).length = 0 := by
      rw [List.length_take, vals_length]
      omega
    rw [hmin] at h1
    simp only [List.getElem?_cons_zero, Option.some.injEq] at h1
    rw [h1]
  · rw [List.getElem?_eq_getElem hp1]
    exact iterAt_eq nd s' ns' hi' (p + 1) _ (List.getElem?_eq_getElem hp1)

end PersistentList

/-! ## Version counters, successful mutations and the rollback loop -/

namespace PersistentList

variable {T : Type}

theorem copyLeftLoop_counters [Inhabited T] (nd : Bool) (val : Option T) :
    ∀ (fuel : Nat) (pFirst : Option Nat) (pPrev : Nat) (s : PersistentList T)
      (r : Nat × PersistentList T), copyLeftLoop nd val fuel pFirst pPrev s = .ok r →
      r.2.m_version = s.m_version ∧ r.2.m_lastVersion = s.m_lastVersion := by
  intro fuel
  induction fuel with
  | zero =>
    intro pFirst pPrev s r h
    cases pFirst with
    | none => simp only [copyLeftLoop, Except.ok.injEq] at h; subst h; exact ⟨rfl, rfl⟩
    | some p => simp [copyLeftLoop] at h
  | succ fuel ih =>
    intro pFirst pPrev s r h
    cases pFirst with
    | none => simp only [copyLeftLoop, Except.ok.injEq] at h; subst h; exact ⟨rfl, rfl⟩
    | some p =>
      rw [copyLeftLoop] at h
      split at h
      · simp only [bind, Except.bind] at h
        split at h
        · simp at h
        · split at h
          · simp at h
          · split at h
            · simp at h
            · have := ih _ _ _ _ h
              rw [this.1, this.2]
              constructor <;> (split <;> rfl)
      · cases val with
        | some x =>
          simp only [bind, Except.bind, pure, Except.pure, Except.ok.injEq] at h
          subst h
          exact ⟨rfl, rfl⟩
        | none =>
          simp only [bind, Except.bind, pure, Except.pure] at h
          split at h
          · simp at h
          · simp only [Except.ok.injEq] at h
            subst h
            exact ⟨rfl, rfl⟩

theorem copyRightLoop_counters [Inhabited T] (nd : Bool) (val : Option T) :
    ∀ (fuel : Nat) (pFirst : Option Nat) (pPrev : Nat) (s : PersistentList T)
      (r : Nat × PersistentList T), copyRightLoop nd val fuel pFirst pPrev s = .ok r →
      r.2.m_version = s.m_version ∧ r.2.m_lastVersion = s.m_lastVersion := by
  intro fuel
  induction fuel with
  | zero =>
    intro pFirst pPrev s r h
    cases pFirst with
    | none => simp only [copyRightLoop, Except.ok.injEq] at h; subst h; exact ⟨rfl, rfl⟩
    | some p => simp [copyRightLoop] at h
  | succ fuel ih =>
    intro pFirst pPrev s r h
    cases pFirst with
    | none => simp only [copyRightLoop, Except.ok.injEq] at h; subst h; exact ⟨rfl, rfl⟩
    | some p =>
      rw [copyRightLoop] at h
      split at h
      · simp only [bind, Except.bind] at h
        split at h
        · simp at h
        · split at h
          · simp at h
          · split at h
            · simp at h
            · have := ih _ _ _ _ h
              rw [this.1, this.2]
              constructor <;> (split <;> rfl)
      · cases val with
        | some x =>
          simp only [bind, Except.bind, pure, Except.pure, Except.ok.injEq] at h
          subst h
          exact ⟨rfl, rfl⟩
        | none =>
          simp only [bind, Except.bind, pure, Except.pure] at h
          split at h
          · simp at h
          · simp only [Except.ok.injEq] at h
            subst h
            exact ⟨rfl, rfl⟩

theorem updateLastHead_counters (nd : Bool) (s s' : PersistentList T) (w : Int)
    (h : s.updateLastHead nd w = .ok s') :
    s'.m_version = s.m_version ∧ s'.m_lastVersion = s.m_lastVersion := by
  unfold updateLastHead at h
  simp only [bind, Except.bind, pure, Except.pure] at h
  split at h
  · simp at h
  · split at h
    · simp at h
    · split at h <;> (simp only [Except.ok.injEq] at h; subst h; exact ⟨rfl, rfl⟩)

theorem bind_eq_ok {ε α β : Type} (x : Except ε α) (f : α → Except ε β) (b : β) :
    x.bind f = .ok b ↔ ∃ a, x = .ok a ∧ f a = .ok b := by
  cases x with
  | error e => simp [Except.bind]
  | ok a => simp [Except.bind]

theorem insert_counters [Inhabited T] (nd : Bool) (s : PersistentList T)
    (pIter : Option PersistentListIterator) (val : T)
    (r : PersistentListIterator × PersistentListIterator × PersistentList T)
    (h : s.insert nd pIter val = .ok r) :
    r.2.2.m_version = s.m_version + 1 ∧ r.2.2.m_lastVersion = s.m_version + 1 := by
  unfold insert at h
  cases pIter with
  | none =>
    simp only [bind, bind_eq_ok, pure, Except.pure, throw, throwThe, MonadExceptOf.throw] at h
    obtain ⟨_, _, _, h, _⟩ := h
    simp at h
  | some it0 =>
    simp only [bind, bind_eq_ok, pure, Except.pure, copyLeft, copyRight] at h
    obtain ⟨_, _, it, _, item, _, l, _, l2, _, a, ha, b, hb, c, hc, d, _, hr⟩ := h
    have h1 := copyLeftLoop_counters nd none _ _ _ _ _ ha
    have h2 := copyRightLoop_counters nd none _ _ _ _ _ hb
    have h3 := updateLastHead_counters nd _ _ _ hc
    simp only [Except.ok.injEq] at hr
    subst hr
    simp only
    rw [h3.1, h2.1, h1.1]
    constructor <;> (split <;> rfl)

end PersistentList

namespace PersistentList

variable {T : Type}

theorem eraseLeft_counters [Inhabited T] (nd : Bool) (s : PersistentList T)
    (pLeftNode : Option Nat) (r : Option Nat × PersistentList T)
    (h : s.eraseLeft nd pLeftNode = .ok r) :
    r.2.m_version = s.m_version ∧ r.2.m_lastVersion = s.m_lastVersion := by
  unfold eraseLeft at h
  cases pLeftNode with
  | none =>
    simp only [pure, Except.pure, Except.ok.injEq] at h
    subst h
    exact ⟨rfl, rfl⟩
  | some pl =>
    simp only at h
    split at h
    · simp only [bind, bind_eq_ok, pure, Except.pure, Except.ok.injEq] at h
      obtain ⟨x, _, h⟩ := h
      subst h
      exact ⟨rfl, rfl⟩
    · simp only [bind, bind_eq_ok, pure, Except.pure, copyLeft, Except.ok.injEq] at h
      obtain ⟨x, _, l, _, l2, _, a, ha, h⟩ := h
      have h1 := copyLeftLoop_counters nd none _ _ _ _ _ ha
      subst h
      simp only
      rw [h1.1, h1.2]
      constructor <;> (split <;> rfl)

theorem eraseRight_counters [Inhabited T] (nd : Bool) (s : PersistentList T)
    (pLeftNode : Option Nat) (pr : Nat) (r : Option Nat × PersistentList T)
    (h : s.eraseRight nd pLeftNode pr = .ok r) :
    r.2.m_version = s.m_version ∧ r.2.m_lastVersion = s.m_lastVersion := by
  unfold eraseRight at h
  split at h
  · simp only [bind, bind_eq_ok, pure, Except.pure, Except.ok.injEq] at h
    obtain ⟨x, _, h⟩ := h
    subst h
    simp only
    constructor <;> (split <;> rfl)
  · simp only [bind, bind_eq_ok, pure, Except.pure, copyRight, Except.ok.injEq] at h
    obtain ⟨x, _, l, _, a, ha, h⟩ := h
    have h1 := copyRightLoop_counters nd none _ _ _ _ _ ha
    subst h
    simp only
    rw [h1.1, h1.2]
    constructor <;> (split <;> rfl)

theorem eraseLink_counters (s : PersistentList T) (pLeftNode lc rc : Option Nat) (pr : Nat) :
    (s.eraseLink pLeftNode lc rc pr).m_version = s.m_version ∧
    (s.eraseLink pLeftNode lc rc pr).m_lastVersion = s.m_lastVersion := by
  cases pLeftNode <;> cases lc <;> cases rc <;> exact ⟨rfl, rfl⟩

theorem erase_counters [Inhabited T] (nd : Bool) (s : PersistentList T)
    (pIter : Option PersistentListIterator) (r : PersistentListIterator × PersistentList T)
    (h : s.erase nd pIter = .ok r) :
    r.2.m_version = s.m_version + 1 ∧ r.2.m_lastVersion = s.m_version + 1 := by
  unfold erase at h
  cases pIter with
  | none =>
    cases nd <;>
      simp [bind, Except.bind, pure, Except.pure, throw, throwThe, MonadExceptOf.throw] at h
  | some it0 =>
    have key : ∃ (l : Option Nat) (pr : Nat) (a b : Option Nat × PersistentList T)
        (c : PersistentList T),
        eraseLeft nd (s.invalidate s.m_version) l = .ok a ∧
        eraseRight nd a.2 l pr = .ok b ∧
        updateLastHead nd (b.2.eraseLink l a.1 b.1 pr)
          ((b.2.eraseLink l a.1 b.1 pr).m_version + 1) = .ok c ∧
        r.2 = { c with m_version := c.m_version + 1, m_lastVersion := c.m_version + 1 } := by
      cases nd
      · simp only [Bool.not_false, if_true, bind, bind_eq_ok, pure, Except.pure] at h
        obtain ⟨_, _, _, _, _, _, it, _, item, _, l, _, rr, _, a, ha, pr, _, b, hb, c, hc, hr⟩ := h
        simp only [Except.ok.injEq] at hr
        subst hr
        exact ⟨l, pr, a, b, c, ha, hb, hc, rfl⟩
      · simp only [Bool.not_true, Bool.false_eq_true, if_false, bind, bind_eq_ok, pure,
          Except.pure] at h
        obtain ⟨_, _, it, _, item, _, l, _, rr, _, a, ha, pr, _, b, hb, c, hc, hr⟩ := h
        simp only [Except.ok.injEq] at hr
        subst hr
        exact ⟨l, pr, a, b, c, ha, hb, hc, rfl⟩
    obtain ⟨l, pr, a, b, c, ha, hb, hc, hr⟩ := key
    have h1 := eraseLeft_counters nd _ _ _ ha
    have h2 := eraseRight_counters nd _ _ _ _ hb
    have h3 := updateLastHead_counters nd _ _ _ hc
    have h4 := eraseLink_counters b.2 l a.1 b.1 pr
    rw [hr]
    simp only
    rw [h3.1, h4.1, h2.1, h1.1]
    exact ⟨rfl, rfl⟩

theorem setVal_counters [Inhabited T] (nd : Bool) (s : PersistentList T)
    (it : PersistentListIterator) (val : T) (s' : PersistentList T)
    (h : it.setVal nd s val = .ok s') :
    s'.m_version = s.m_version + 1 ∧ s'.m_lastVersion = s.m_version + 1 := by
  unfold PersistentListIterator.setVal at h
  cases hit : it.m_pItem with
  | none =>
    rw [hit] at h
    simp only [bind, bind_eq_ok, pure, Except.pure, throw, throwThe, MonadExceptOf.throw] at h
    obtain ⟨_, _, _, h, _⟩ := h
    simp at h
  | some item =>
    rw [hit] at h
    simp only [bind, bind_eq_ok, pure, Except.pure] at h
    obtain ⟨_, _, it1, _, h⟩ := h
    split at h
    · simp only [bind, bind_eq_ok, pure, Except.pure] at h
      obtain ⟨y0, hy0, c, hc, hr⟩ := h
      simp only [Except.ok.injEq] at hy0
      subst hy0
      have h3 := updateLastHead_counters nd _ _ _ hc
      simp only [Except.ok.injEq] at hr
      subst hr
      simp only
      rw [h3.1]
      exact ⟨rfl, rfl⟩
    · simp only [bind, bind_eq_ok, pure, Except.pure,
        PersistentListIterator.copyLeft, PersistentListIterator.copyRight] at h
      obtain ⟨l, _, l2, _, x, hx, rr, _, y, hy, y0, hy0, c, hc, hr⟩ := h
      simp only [Except.ok.injEq] at hy0
      subst hy0
      have h1 := copyLeftLoop_counters nd (some val) _ _ _ _ _ hx
      have h2 := copyRightLoop_counters nd (some val) _ _ _ _ _ hy
      have h3 := updateLastHead_counters nd _ _ _ hc
      simp only [Except.ok.injEq] at hr
      subst hr
      simp only
      rw [h3.1, h2.1, h1.1]
      constructor <;> (split <;> rfl)

/-- A successful mutation of a list puts the cursor and the last version one
above the cursor it started from. -/
theorem list_mutation_counters [Inhabited T] {s s' : PersistentList T} (h : Mutation s s') :
    s'.m_version = s.m_version + 1 ∧ s'.m_lastVersion = s.m_version + 1 := by
  cases h with
  | insert nd pIter val ret it' h => exact insert_counters nd s pIter val _ h
  | erase nd pIter ret h => exact erase_counters nd s pIter _ h
  | setVal nd it val h => exact setVal_counters nd s it val s' h

theorem list_reachable_fits [Inhabited T] {s : PersistentList T} (h : Reachable s) :
    0 ≤ s.m_version ∧ s.m_version ≤ s.m_lastVersion ∧ s.m_lastVersion < 2147483648 := by
  induction h with
  | new =>
    refine ⟨le_refl _, le_refl _, ?_⟩
    show (0 : Int) < 2147483648
    decide
  | mutation s s' _ h hfit ih =>
    have := list_mutation_counters h
    omega
  | undo s n c _ hn hi ih =>
    have hv : (s.undo n c).m_version = max 0 (wrapInt (s.m_version - n)) := by
      unfold undo; cases c <;> rfl
    have hl : (s.undo n c).m_lastVersion = s.m_lastVersion := by
      unfold undo; cases c <;> rfl
    rw [hv, hl, wrapInt_eq _ (by omega) (by omega)]
    omega
  | redo s n _ hn hfit ih =>
    simp only [redo]
    rw [wrapInt_eq _ (by omega) hfit]
    omega

theorem list_reachable_counters [Inhabited T] {s : PersistentList T} (h : Reachable s) :
    0 ≤ s.m_version ∧ s.m_version ≤ s.m_lastVersion :=
  ⟨(list_reachable_fits h).1, (list_reachable_fits h).2.1⟩

end PersistentList

namespace PersistentArray

variable {T : Type}

/-- A successful `setValue` keeps the versions up to the cursor and appends one. -/
theorem array_mutation_spec {a b : PersistentArray T} (hw : a.WF) (h : Mutation a b) :
    b.WF ∧ b.m_size = a.m_size ∧ b.m_curVersion = a.m_curVersion + 1 ∧
    b.m_lastVersion = a.m_curVersion + 1 ∧
    ∃ ver, b.m_versions = a.m_versions.take (a.m_curVersion.toNat + 1) ++ [ver] := by
  obtain ⟨nd, i, v, h0, hi, h⟩ := h
  have hwb := WF_setValue nd a b hw i v h
  obtain ⟨ver, _, heq⟩ := setValue_eq nd a hw i v h0 hi
  rw [heq] at h
  simp only [Except.ok.injEq] at h
  subst h
  exact ⟨hwb.1, rfl, rfl, rfl, _, rfl⟩

theorem array_mutated_spec {k : Nat} {a b : PersistentArray T} (hw : a.WF)
    (hcl : a.m_curVersion = a.m_lastVersion) (h : Mutated k a b) :
    b.WF ∧ b.m_size = a.m_size ∧ b.m_curVersion = a.m_curVersion + k ∧
    b.m_lastVersion = a.m_curVersion + k ∧
    ∃ extra, b.m_versions = a.m_versions ++ extra := by
  induction h with
  | refl a => exact ⟨hw, rfl, by simp, by simp [hcl], [], by simp⟩
  | step k a b c _ hm ih =>
    obtain ⟨hwb, hsz, hcur, hlast, extra, hex⟩ := ih hw hcl
    obtain ⟨hwc, hsz', hcur', hlast', ver, hv⟩ := array_mutation_spec hwb hm
    refine ⟨hwc, by rw [hsz', hsz], by rw [hcur', hcur]; push_cast; ring,
      by rw [hlast', hcur]; push_cast; ring, extra ++ [ver], ?_⟩
    rw [hv, List.take_of_length_le, hex, List.append_assoc]
    have := hwb.length_eq
    have := hwb.cur_nonneg
    omega

/-- Undoing, with `clearHistory`, the versions that `k` mutations added to an
array that was on its last version gives back the array. -/
theorem array_mutated_undo {k : Nat} {a b : PersistentArray T} (hw : a.WF)
    (hcl : a.m_curVersion = a.m_lastVersion) (hfit : a.m_lastVersion < 2147483648)
    (h : Mutated k a b) :
    b.undo (b.lastVersion - a.lastVersion) true = .ok a := by
  obtain ⟨hwb, hsz, hcur, hlast, extra, hex⟩ := array_mutated_spec hw hcl h
  have hk : b.lastVersion - a.lastVersion = k := by
    simp only [lastVersion]
    omega
  rw [hk, undo_eq b hwb k (by omega) (by have := hw.cur_nonneg; omega) (by omega) true]
  have hmax : max 0 (b.m_curVersion - (k : Int)) = a.m_curVersion := by
    have := hw.cur_nonneg
    rw [hcur, max_eq_right (by omega)]
    omega
  simp only [if_true, hmax]
  have hlen := hw.length_eq
  have h0 := hw.cur_nonneg
  cases a with
  | mk size last cur vs =>
    cases b with
    | mk size' last' cur' vs' =>
      simp only at hsz hcl hex hlen h0 ⊢
      subst hsz hcl hex
      simp only [Except.ok.injEq, mk.injEq, true_and, and_true]
      rw [List.take_append_of_le_length (by omega), List.take_of_length_le (by omega)]

end PersistentArray

namespace PersistentMap

variable {K V : Type}

/-- A successful mutation of a map keeps the versions up to the cursor and
appends one. -/
theorem map_mutation_spec [LinearOrder K] {a b : PersistentMap K V} (hw : a.WF)
    (h : Mutation a b) : b.WF ∧ ∃ t, b = a.push t := by
  cases h with
  | insert rnd key value h =>
    obtain ⟨ver, _, hb, he⟩ := insert_eq rnd a hw key value
    rw [he] at h
    simp only [Except.ok.injEq] at h
    subst h
    exact ⟨WF_push a hw _ (TreapVersion.insert_spec rnd ver hb key value).1, _, rfl⟩
  | setValue rnd key value h =>
    obtain ⟨ver, _, hb, he⟩ := setValue_eq_push rnd a hw key value
    rw [he] at h
    simp only [Except.ok.injEq] at h
    subst h
    exact ⟨WF_push a hw _ (TreapVersion.version_setValue_spec rnd ver hb key value).1, _, rfl⟩
  | erase ndebug key h =>
    obtain ⟨ver, _, hb, he⟩ := erase_eq ndebug a hw key
    rw [he] at h
    by_cases hn : ver.m_pRoot.isNull = true
    · rw [TreapVersion.erase_null ndebug ver key hn] at h
      simp at h
    · have hn' : ver.m_pRoot.isNull = false := by simpa using hn
      by_cases hk : ver.m_pRoot.lookup key = none
      · rw [TreapVersion.erase_absent ndebug ver key hn' hk] at h
        simp at h
      · obtain ⟨t, het, bt, _⟩ := TreapVersion.erase_present ndebug ver key hb hk
        rw [het] at h
        simp only [Prod.mk.injEq, and_true] at h
        subst h
        exact ⟨WF_push a hw t bt, t, rfl⟩

theorem map_mutated_spec [LinearOrder K] {k : Nat} {a b : PersistentMap K V} (hw : a.WF)
    (hcl : a.m_curVersion = a.m_lastVersion) (h : Mutated k a b) :
    b.WF ∧ b.m_curVersion = a.m_curVersion + k ∧ b.m_lastVersion = a.m_curVersion + k ∧
    ∃ extra, b.m_versions = a.m_versions ++ extra := by
  induction h with
  | refl a => exact ⟨hw, by simp, by simp [hcl], [], by simp⟩
  | step k a b c _ hm ih =>
    obtain ⟨hwb, hcur, hlast, extra, hex⟩ := ih hw hcl
    obtain ⟨hwc, t, ht⟩ := map_mutation_spec hwb hm
    subst ht
    refine ⟨hwc, by simp only [push]; rw [hcur]; push_cast; ring,
      by simp only [push]; rw [hcur]; push_cast; ring, extra ++ [⟨t⟩], ?_⟩
    simp only [push]
    rw [List.take_of_length_le, hex, List.append_assoc]
    have := hwb.length_eq
    have := hwb.cur_nonneg
    omega

/-- Undoing, with `clearHistory`, the versions that `k` mutations added to a
map that was on its last version gives back the map. -/
theorem map_mutated_undo [LinearOrder K] {k : Nat} {a b : PersistentMap K V} (hw : a.WF)
    (hcl : a.m_curVersion = a.m_lastVersion) (hfit : a.m_lastVersion < 2147483648)
    (h : Mutated k a b) :
    b.undo (b.lastVersion - a.lastVersion) true = .ok a := by
  obtain ⟨hwb, hcur, hlast, extra, hex⟩ := map_mutated_spec hw hcl h
  have hk : b.lastVersion - a.lastVersion = k := by
    simp only [lastVersion]
    omega
  rw [hk, map_undo_eq b hwb k (by omega) (by have := hw.cur_nonneg; omega) (by omega) true]
  have hmax : max 0 (b.m_curVersion - (k : Int)) = a.m_curVersion := by
    have := hw.cur_nonneg
    rw [hcur, max_eq_right (by omega)]
    omega
  simp only [if_true, hmax]
  have hlen := hw.length_eq
  have h0 := hw.cur_nonneg
  cases a with
  | mk vs last cur =>
    cases b with
    | mk vs' last' cur' =>
      simp only at hcl hex hlen h0 ⊢
      subst hcl hex
      simp only [Except.ok.injEq, mk.injEq, true_and, and_true]
      rw [List.take_append_of_le_length (by omega), List.take_of_length_le (by omega)]

end PersistentMap

namespace Transaction

variable {A K V L : Type}

theorem init_eq (store : Nat → Container A K V L) :
    ∀ (pArgs : List (Option Nat)) (t : Transaction),
      init store pArgs t =
        ⟨t.m_apContainers ++ pArgs.reduceOption,
          t.m_versions ++ pArgs.reduceOption.map (fun p => (store p).lastVersion),
          t.m_isSucceeded⟩ := by
  intro pArgs
  induction pArgs with
  | nil => intro t; simp [init]
  | cons p rest ih =>
    intro t
    cases p with
    | none => simp [init, ih, List.reduceOption_cons_of_none]
    | some p => simp [init, ih, List.reduceOption_cons_of_some]

theorem rollback_spec [Inhabited A] [LinearOrder K] (store : Nat → Container A K V L) :
    ∀ (ps : List Nat) (cur : Nat → Container A K V L),
      (∀ p ∈ ps, (store p).Entered (cur p)) →
      ∃ st, rollback ps (ps.map (fun p => (store p).lastVersion)) cur = .ok st ∧
        (∀ p ∈ ps, (store p).Restored (st p)) ∧ (∀ p, p ∉ ps → st p = cur p) := by
  intro ps
  induction ps with
  | nil => intro cur _; exact ⟨cur, rfl, fun p hp => absurd hp (List.not_mem_nil p), fun _ _ => rfl⟩
  | cons p ps ih =>
    intro cur hin
    have hp := hin p (List.mem_cons_self _ _)
    -- the entry `p` is undone
    have hstep : ∃ c, (cur p).undo ((cur p).lastVersion - (store p).lastVersion) true = .ok c ∧
        (store p).Restored c ∧ (store p).Entered c := by
      cases hsp : store p with
      | array a =>
        rw [hsp] at hp
        obtain ⟨hr, hcl, a', k, hc, hm⟩ := hp
        refine ⟨Container.array a, ?_, rfl, hr, hcl, a, 0, rfl, .refl a⟩
        rw [hc]
        simp only [Container.undo, Container.lastVersion,
          PersistentArray.array_mutated_undo hr.wf.1 hcl hr.fits hm]
      | map m =>
        rw [hsp] at hp
        obtain ⟨hr, hcl, m', k, hc, hm⟩ := hp
        refine ⟨Container.map m, ?_, rfl, hr, hcl, m, 0, rfl, .refl m⟩
        rw [hc]
        simp only [Container.undo, Container.lastVersion,
          PersistentMap.map_mutated_undo hr.map_wf hcl hr.map_fits hm]
      | list s =>
        rw [hsp] at hp
        obtain ⟨s', hc⟩ := hp
        rw [hc]
        exact ⟨_, rfl, ⟨_, rfl⟩, ⟨_, rfl⟩⟩
    obtain ⟨c, hu, hres, hent⟩ := hstep
    obtain ⟨st, hrun, hrest, hframe⟩ := ih (Function.update cur p c) (by
      intro q hq
      by_cases hqp : q = p
      · subst hqp
        rw [Function.update_same]
        exact hent
      · rw [Function.update_noteq hqp]
        exact hin q (List.mem_cons_of_mem _ hq))
    refine ⟨st, ?_, ?_, ?_⟩
    · simp only [List.map_cons, rollback, hu]
      exact hrun
    · intro q hq
      by_cases hqps : q ∈ ps
      · exact hrest q hqps
      · have hqp : q = p := by
          rcases List.mem_cons.1 hq with h | h
          · exact h
          · exact absurd h hqps
        subst hqp
        rw [hframe q hqps, Function.update_same]
        exact hres
    · intro q hq
      have hqp : q ≠ p := fun h => hq (h ▸ List.mem_cons_self _ _)
      rw [hframe q (fun h => hq (List.mem_cons_of_mem _ h)), Function.update_noteq hqp]

end Transaction

/-! ## Claims about the array -/

namespace Example

theorem array3_new : PersistentArray.new 3 [2, 1] = .ok array3 := rfl

theorem array3_reachable : array3.Reachable :=
  .new 3 [2, 1] array3 (by decide) array3_new

end Example

/-- C1: in every reachable state of an array (its size is then at least 1),
for every index `0 ≤ i < n` and value `v`, `setValue(i, v)` succeeds, after it
`getValue(i)` returns `v`, and for every other valid index `j`, `getValue(j)`
returns the value it returned immediately before the call. -/
theorem array_setValue_getValue {T : Type} [Inhabited T] [Zero T] (ndebug : Bool)
    (a : PersistentArray T) (hr : a.Reachable) (i : Int) (v : T)
    (h0 : 0 ≤ i) (hi : i < a.m_size) :
    1 ≤ a.m_size ∧
    ∃ b, a.setValue ndebug i v = .ok b ∧ b.getValue ndebug i = .ok v ∧
      ∀ j, 0 ≤ j → j < a.m_size → j ≠ i →
        ∃ w, a.getValue ndebug j = .ok w ∧ b.getValue ndebug j = .ok w := by
  obtain ⟨hw, hsize⟩ := hr.wf
  obtain ⟨ver, hv, hset⟩ := PersistentArray.setValue_eq ndebug a hw i v h0 hi
  have hwb := PersistentArray.WF_setValue ndebug a _ hw i v hset
  have hmem : ver ∈ a.m_versions := List.getElem?_mem hv
  have hspec := Node.setValue_spec ver.m_pRoot i v (hw.covers ver hmem i h0 hi)
  have hcur : a.m_curVersion < a.m_versions.length := by
    have := hw.length_eq; have := hw.cur_le; omega
  have hnew : ∀ j, 0 ≤ j → j < a.m_size →
      PersistentArray.getValue ndebug
        { a with m_versions := a.m_versions.take (a.m_curVersion.toNat + 1) ++ [ver.setValue i v]
                 m_curVersion := a.m_curVersion + 1
                 m_lastVersion := a.m_curVersion + 1 } j
        = .ok ((ver.m_pRoot.setValue i v).getValue j) := by
    intro j hj0 hj
    unfold PersistentArray.getValue
    rw [if_neg (by simp only; omega)]
    simp only
    rw [vecAt_snoc _ _ _ hw.cur_nonneg hcur]
    rfl
  refine ⟨hsize, _, hset, ?_, ?_⟩
  · rw [hnew i h0 hi, hspec.2.1]
  · intro j hj0 hj hne
    obtain ⟨ver', hv', hget⟩ := PersistentArray.getValue_eq ndebug a hw j hj0 hj
    rw [hv] at hv'
    simp only [Option.some.injEq] at hv'
    subst hv'
    exact ⟨_, hget, by rw [hnew j hj0 hj, hspec.2.2.1 j hne]⟩

/-- Witness for C1 on the array of size 3 built from the shuffle `2, 1`:
write 7 at index 1. -/
theorem array_setValue_getValue_witness :
    Example.array3.Reachable ∧ (0 : Int) ≤ 1 ∧ (1 : Int) < Example.array3.m_size ∧
    ∃ b, Example.array3.setValue true 1 7 = .ok b ∧ b.getValue true 1 = .ok 7 ∧
      ∀ j, 0 ≤ j → j < Example.array3.m_size → j ≠ 1 →
        ∃ w, Example.array3.getValue true j = .ok w ∧ b.getValue true j = .ok w :=
  ⟨Example.array3_reachable, by decide, by decide,
    (array_setValue_getValue true Example.array3 Example.array3_reachable 1 7
      (by decide) (by decide)).2⟩

/-- C2: for every `n ≥ 1` and every outcome of the shuffle (a permutation of
`1..n-1`), the constructor succeeds and leaves one version whose tree is a
binary search tree, holds the indices `0, 1, ..., n-1` each exactly once (its
in-order key list is that list), holds the default `T` in every node, and in
which the search of `getValue(i)` ends on a node and returns the default `T`
for every `0 ≤ i < n`. -/
theorem array_new_default {T : Type} [Inhabited T] [Zero T] (n : Int) (aIndexes : List Int)
    (hn : 1 ≤ n) (hperm : aIndexes.Perm (PersistentArrayVersion.iota n)) :
    ∃ ver : PersistentArrayVersion T,
      PersistentArray.new n aIndexes = .ok ⟨n, 0, 0, [ver]⟩ ∧
      ver.m_pRoot.BST ∧
      ver.m_pRoot.keys = (List.range n.toNat).map (fun j : Nat => (j : Int)) ∧
      (∀ x ∈ ver.m_pRoot.values, x = default) ∧
      ∀ (ndebug : Bool) (i : Int), 0 ≤ i → i < n →
        ver.m_pRoot.reaches i = true ∧
        PersistentArray.getValue ndebug ⟨n, 0, 0, [ver]⟩ i = .ok default := by
  obtain ⟨ver, hnew, hsz, hbst, hkeys, hvals⟩ :=
    PersistentArrayVersion.new_spec (T := T) n aIndexes hn hperm
  refine ⟨ver, ?_, hbst, hkeys, hvals, ?_⟩
  · simp only [PersistentArray.new, hnew, hsz]
  · intro ndebug i h0 hi
    have hr : ver.m_pRoot.reaches i = true := by
      apply Node.reaches_of_mem _ hbst
      rw [hkeys, List.mem_map]
      exact ⟨i.toNat, List.mem_range.2 (by omega), by omega⟩
    refine ⟨hr, ?_⟩
    unfold PersistentArray.getValue
    rw [if_neg (by simp only; omega)]
    simp only [vecAt, lt_irrefl, if_false, Int.toNat_zero, List.getElem?_cons_zero,
      PersistentArrayVersion.getValue]
    congr 1
    exact hvals _ (Node.getValue_mem_values _ _ hr)

/-- Witness for C2: size 3 with the shuffle `2, 1`. -/
theorem array_new_default_witness :
    (1 : Int) ≤ 3 ∧ [2, 1].Perm (PersistentArrayVersion.iota 3) ∧
    ∃ ver : PersistentArrayVersion Int,
      PersistentArray.new 3 [2, 1] = .ok ⟨3, 0, 0, [ver]⟩ ∧
      ver.m_pRoot.BST ∧
      ver.m_pRoot.keys = (List.range (3 : Int).toNat).map (fun j : Nat => (j : Int)) ∧
      (∀ x ∈ ver.m_pRoot.values, x = default) ∧
      ∀ (ndebug : Bool) (i : Int), 0 ≤ i → i < 3 →
        ver.m_pRoot.reaches i = true ∧
        PersistentArray.getValue ndebug ⟨3, 0, 0, [ver]⟩ i = .ok default :=
  ⟨by decide, by decide, array_new_default 3 [2, 1] (by decide) (by decide)⟩

/-! ## Claims about the map -/

namespace Example

theorem map1_reachable : map1.Reachable :=
  .insert rnd0 PersistentMap.new map1 10 1 .new rfl (by decide)

theorem map2_reachable : map2.Reachable :=
  .undo ⟨[⟨.null⟩, ⟨.mk 1 10 0 .null .null⟩, ⟨.mk 1 20 0 .null .null⟩], 2, 2⟩ map2 1 false
    (.setValue rnd0 ⟨[⟨.null⟩, ⟨.mk 1 10 0 .null .null⟩], 1, 1⟩ _ 1 20
      (.insert rnd0 PersistentMap.new _ 1 10 .new rfl (by decide)) rfl (by decide))
    (by decide) (by decide) rfl

end Example

/-- C3: in every reachable state of a map, for every key `k` and value `v`,
`insert(k, v)` succeeds and after it `find(k)` returns `(true, v)`; for every
key `j ≠ k`, `find(j)` returns the result it returned immediately before the
insert (and returns "not found" where the read before the insert did not return
at all, which happens only on an empty version). -/
theorem map_insert_find {K V : Type} [LinearOrder K] (rnd : Nat → Int)
    (m : PersistentMap K V) (hr : m.Reachable) (k : K) (v : V) :
    ∃ m', m.insert rnd k v = .ok m' ∧ m'.find k = .ok (some v) ∧
      ∀ j, j ≠ k →
        (∀ r, m.find j = .ok r → m'.find j = .ok r) ∧
        (∀ e, m.find j = .error e → m'.find j = .ok none) := by
  have hw := hr.map_wf
  obtain ⟨ver, hv, hb, he⟩ := PersistentMap.insert_eq rnd m hw k v
  obtain ⟨_, hnn, hlook⟩ := TreapVersion.insert_spec rnd ver hb k v
  have hfind : ∀ j, (m.push (ver.insert rnd k v)).find j =
      .ok (if j = k then some v else ver.m_pRoot.lookup j) := by
    intro j
    rw [PersistentMap.find_push m hw, TreapVersion.find_eq]
    simp only [hnn, Bool.false_eq_true, if_false, hlook]
  refine ⟨_, he, ?_, ?_⟩
  · rw [hfind, if_pos rfl]
  · intro j hj
    rw [hfind, if_neg hj, PersistentMap.find_eq_current m ver hw.cur_nonneg hv,
      TreapVersion.find_eq]
    cases hn : ver.m_pRoot.isNull
    · simp only [Bool.false_eq_true, if_false]
      refine ⟨fun r h => by rw [← h], fun e h => by simp at h⟩
    · simp only [if_true]
      refine ⟨fun r h => by simp at h, fun e _ => ?_⟩
      rw [(TreapNode.isNull_eq_true_iff _).1 hn, TreapNode.lookup_null]

/-- Witness for C3: insert `(5, 2)` into the map that holds `(10, 1)`. -/
theorem map_insert_find_witness :
    Example.map1.Reachable ∧
    ∃ m', Example.map1.insert Example.rnd0 5 2 = .ok m' ∧ m'.find 5 = .ok (some 2) ∧
      ∀ j, j ≠ 5 →
        (∀ r, Example.map1.find j = .ok r → m'.find j = .ok r) ∧
        (∀ e, Example.map1.find j = .error e → m'.find j = .ok none) :=
  ⟨Example.map1_reachable, map_insert_find Example.rnd0 Example.map1 Example.map1_reachable 5 2⟩

/-- C4 (the code at the failing input): on the freshly constructed map, and on
the version left by erasing the only key, `find(k)` does not return `false`: it
dereferences the null root. -/
theorem map_find_empty_fault :
    (∀ k : Int, (PersistentMap.new : PersistentMap Int Int).find k = .error .undefined) ∧
    (Example.map1.erase true 10).2 = .ok true ∧
    (∀ k : Int, (Example.map1.erase true 10).1.find k = .error .undefined) := by
  have he : Example.map1.erase true 10 =
      (⟨[⟨.null⟩, ⟨.mk 10 1 0 .null .null⟩, ⟨.null⟩], 2, 2⟩, .ok true) := by
    simp [PersistentMap.erase, PersistentMap.invalidate, Example.map1, popVersions, vecBack,
      TreapVersion.erase, TreapNode.find, TreapNode.isNull, TreapNode.erase, TreapNode.merge]
  refine ⟨fun k => rfl, by rw [he], fun k => by rw [he]; rfl⟩

/-- C5 (the code at the failing input): on the map that holds only the key 10,
`erase(10)` returns `true` and appends one version, but in that version
`find(10)` does not return `(false, _)`: it dereferences the null root. -/
theorem map_erase_only_key_fault :
    Example.map1.Reachable ∧
    Example.map1.find 10 = .ok (some 1) ∧
    (Example.map1.erase true 10).2 = .ok true ∧
    (Example.map1.erase true 10).1.lastVersion = Example.map1.lastVersion + 1 ∧
    (Example.map1.erase true 10).1.find 10 = .error .undefined := by
  have he : Example.map1.erase true 10 =
      (⟨[⟨.null⟩, ⟨.mk 10 1 0 .null .null⟩, ⟨.null⟩], 2, 2⟩, .ok true) := by
    simp [PersistentMap.erase, PersistentMap.invalidate, Example.map1, popVersions, vecBack,
      TreapVersion.erase, TreapNode.find, TreapNode.isNull, TreapNode.erase, TreapNode.merge]
  refine ⟨Example.map1_reachable, rfl, by rw [he], by rw [he]; rfl, by rw [he]; rfl⟩

/-- C6 (counterexample): on the empty map `erase(5)` throws instead of returning
`false`; and on the map left by `insert(1, 10); setValue(1, 20); undo(1)`
(cursor 1, last version 2) `erase(5)` of the absent key 5 returns `false` but
drops the last stored version, so that `lastVersion()` falls from 3 to 2 and a
following `redo(1)` stays on version 1 instead of reaching version 2. -/
theorem map_erase_absent_counterexample :
    ((PersistentMap.new : PersistentMap Int Int).erase true 5).2 = .error .exception ∧
    Example.map2.Reachable ∧
    Example.map2.find 5 = .ok none ∧
    (Example.map2.erase true 5).2 = .ok false ∧
    Example.map2.lastVersion = 3 ∧
    (Example.map2.erase true 5).1.lastVersion = 2 ∧
    (Example.map2.erase true 5).1.m_versions.length = 2 ∧
    Example.map2.m_versions.length = 3 ∧
    (Example.map2.redo 1).m_curVersion = 2 ∧
    ((Example.map2.erase true 5).1.redo 1).m_curVersion = 1 := by
  have he : Example.map2.erase true 5 =
      (⟨[⟨.null⟩, ⟨.mk 1 10 0 .null .null⟩], 1, 1⟩, .ok false) := by
    simp [PersistentMap.erase, PersistentMap.invalidate, Example.map2, popVersions, vecBack,
      TreapVersion.erase, TreapNode.find, TreapNode.isNull]
  refine ⟨rfl, Example.map2_reachable, rfl, by rw [he], rfl, by rw [he]; rfl, by rw [he]; rfl,
    rfl, rfl, by rw [he]; rfl⟩

/-- C6 (amended): in every reachable state of a map, with `ver` the current
version: if `ver` is empty, `erase(k)` raises an error; if `ver` is not empty
and `k` is absent from it, `erase(k)` returns `false` without an error, adds no
version, and leaves the cursor and every stored version up to the cursor as
they were, so that with `cur = last` the map is unchanged. -/
theorem map_erase_absent {K V : Type} [LinearOrder K] (ndebug : Bool)
    (m : PersistentMap K V) (hr : m.Reachable) (k : K) (ver : TreapVersion K V)
    (hv : m.m_versions[m.m_curVersion.toNat]? = some ver) :
    (ver.m_pRoot.isNull = true →
      (m.erase ndebug k).2 = .error (if ndebug then .exception else .assertion)) ∧
    (ver.m_pRoot.isNull = false → ver.m_pRoot.lookup k = none →
      m.find k = .ok none ∧
      (m.erase ndebug k).2 = .ok false ∧
      (m.erase ndebug k).1.m_curVersion = m.m_curVersion ∧
      (m.erase ndebug k).1.lastVersion ≤ m.lastVersion ∧
      (∀ i : Nat, (i : Int) ≤ m.m_curVersion →
        (m.erase ndebug k).1.m_versions[i]? = m.m_versions[i]?) ∧
      (m.m_curVersion = m.m_lastVersion → (m.erase ndebug k).1 = m)) := by
  have hw := hr.map_wf
  obtain ⟨ver', hv', _, he⟩ := PersistentMap.erase_eq ndebug m hw k
  rw [hv] at hv'
  simp only [Option.some.injEq] at hv'
  subst hv'
  constructor
  · intro hn
    rw [he, TreapVersion.erase_null ndebug ver k hn]
  · intro hn hk
    rw [he, TreapVersion.erase_absent ndebug ver k hn hk]
    refine ⟨?_, rfl, rfl, ?_, ?_, ?_⟩
    · rw [PersistentMap.find_eq_current m ver hw.cur_nonneg hv, TreapVersion.find_eq]
      simp [hn, hk]
    · have := hw.cur_le
      simp only [PersistentMap.lastVersion, PersistentMap.truncated]
      omega
    · intro i hi
      simp only [PersistentMap.truncated]
      rw [List.getElem?_take]
      have := hw.cur_nonneg
      rw [if_pos (by omega)]
    · intro hcl
      exact PersistentMap.truncated_of_last m hw hcl

/-- Witness for C6 (amended): the key 5 is absent from the map that holds
`(10, 1)`. -/
theorem map_erase_absent_witness :
    Example.map1.Reachable ∧
    Example.map1.m_versions[Example.map1.m_curVersion.toNat]? =
      some ⟨.mk 10 1 0 .null .null⟩ ∧
    (Example.map1.erase true 5).2 = .ok false ∧
    (Example.map1.erase true 5).1 = Example.map1 :=
  have h := map_erase_absent true Example.map1 Example.map1_reachable 5
    ⟨.mk 10 1 0 .null .null⟩ rfl
  ⟨Example.map1_reachable, rfl, (h.2 rfl rfl).2.1, (h.2 rfl rfl).2.2.2.2.2 rfl⟩

/-! ## Undo after a mutation -/

namespace PersistentArray

variable {T : Type}

theorem setValue_undo [Zero T] (ndebug : Bool) (a : PersistentArray T) (hw : a.WF)
    (hfit : a.m_lastVersion < 2147483648)
    (i : Int) (v : T) (h0 : 0 ≤ i) (hi : i < a.m_size) (clear : Bool) :
    ∃ b c, a.setValue ndebug i v = .ok b ∧ b.undo 1 clear = .ok c ∧
      c.m_curVersion = a.m_curVersion ∧
      (∀ nd j, c.getValue nd j = a.getValue nd j) ∧
      (∀ n : Nat, (n : Int) ≤ a.m_curVersion →
        b.m_versions[n]? = a.m_versions[n]? ∧ c.m_versions[n]? = a.m_versions[n]?) := by
  obtain ⟨ver, hv, hset⟩ := setValue_eq ndebug a hw i v h0 hi
  have hwb := (WF_setValue ndebug a _ hw i v hset).1
  have hc0 := hw.cur_nonneg
  have hcl := hw.cur_le
  have hlen := hw.length_eq
  have hu := undo_eq _ hwb 1 (by decide) (by simp only; omega) (by simp only; omega) clear
  have hmax : max 0 (a.m_curVersion + 1 - 1) = a.m_curVersion := by
    rw [max_eq_right (by omega)]; omega
  simp only [hmax] at hu
  have hpre : ∀ n : Nat, (n : Int) ≤ a.m_curVersion →
      (if clear then (a.m_versions.take (a.m_curVersion.toNat + 1) ++
          [ver.setValue i v]).take (a.m_curVersion.toNat + 1)
        else a.m_versions.take (a.m_curVersion.toNat + 1) ++ [ver.setValue i v])[n]? =
        a.m_versions[n]? :=
    fun n hn => getElem?_undo_chain a.m_versions a.m_curVersion.toNat n _ clear
      (by omega) (by omega)
  refine ⟨_, _, hset, hu, rfl, ?_, ?_⟩
  · intro nd j
    unfold getValue
    simp only
    rw [vecAt_congr _ a.m_versions a.m_curVersion (hpre _ (by omega))]
  · intro n hn
    exact ⟨getElem?_snoc_of_le a.m_versions a.m_curVersion.toNat n _ (by omega) (by omega),
      hpre n hn⟩

end PersistentArray

namespace PersistentMap

variable {K V : Type}

theorem push_undo [LinearOrder K] (m : PersistentMap K V) (hw : m.WF)
    (hfit : m.m_lastVersion < 2147483648) (t : TreapNode K V) (ht : t.BST) (clear : Bool) :
    ∃ c, (m.push t).undo 1 clear = .ok c ∧ c.m_curVersion = m.m_curVersion ∧
      (∀ j, c.find j = m.find j) ∧
      (∀ n : Nat, (n : Int) ≤ m.m_curVersion →
        (m.push t).m_versions[n]? = m.m_versions[n]? ∧
        c.m_versions[n]? = m.m_versions[n]?) := by
  have hwb := WF_push m hw t ht
  have hc0 := hw.cur_nonneg
  have hcl := hw.cur_le
  have hlen := hw.length_eq
  have hu := map_undo_eq _ hwb 1 (by decide) (by simp only [push]; omega)
    (by simp only [push]; omega) clear
  have hmax : max 0 (m.m_curVersion + 1 - 1) = m.m_curVersion := by
    rw [max_eq_right (by omega)]; omega
  simp only [push, hmax] at hu
  have hpre : ∀ n : Nat, (n : Int) ≤ m.m_curVersion →
      (if clear then (m.m_versions.take (m.m_curVersion.toNat + 1) ++
          [TreapVersion.mk t]).take (m.m_curVersion.toNat + 1)
        else m.m_versions.take (m.m_curVersion.toNat + 1) ++ [TreapVersion.mk t])[n]? =
        m.m_versions[n]? :=
    fun n hn => getElem?_undo_chain m.m_versions m.m_curVersion.toNat n _ clear
      (by omega) (by omega)
  refine ⟨_, hu, rfl, ?_, ?_⟩
  · intro j
    unfold find
    simp only
    rw [vecAt_congr _ m.m_versions m.m_curVersion (hpre _ (by omega))]
  · intro n hn
    exact ⟨getElem?_snoc_of_le m.m_versions m.m_curVersion.toNat n _ (by omega) (by omega),
      hpre n hn⟩

end PersistentMap

/-- C10: in every reachable state of an array and of a map, a successful
mutation (array `setValue` at a valid index; map `insert`, `setValue`, and
`erase` when it returns `true`) followed by `undo(1)` (with either value of
`clearHistory`) brings the cursor back, and then every read (`getValue(j)` for
every `j`, `find(j)` for every key `j`) gives exactly the result it gave before
the mutation; the mutation itself changes none of the versions stored at or
below the cursor. -/
theorem undo_restores_reads {T K V : Type} [Inhabited T] [Zero T] [LinearOrder K]
    (a : PersistentArray T) (ha : a.Reachable) (m : PersistentMap K V) (hm : m.Reachable)
    (clear : Bool) :
    (∀ (ndebug : Bool) (i : Int) (v : T), 0 ≤ i → i < a.m_size →
      ∃ b c, a.setValue ndebug i v = .ok b ∧ b.undo 1 clear = .ok c ∧
        c.m_curVersion = a.m_curVersion ∧
        (∀ nd j, c.getValue nd j = a.getValue nd j) ∧
        (∀ n : Nat, (n : Int) ≤ a.m_curVersion →
          b.m_versions[n]? = a.m_versions[n]? ∧ c.m_versions[n]? = a.m_versions[n]?)) ∧
    (∀ (rnd : Nat → Int) (k : K) (v : V),
      ∃ b c, m.insert rnd k v = .ok b ∧ b.undo 1 clear = .ok c ∧
        c.m_curVersion = m.m_curVersion ∧
        (∀ j, c.find j = m.find j) ∧
        (∀ n : Nat, (n : Int) ≤ m.m_curVersion →
          b.m_versions[n]? = m.m_versions[n]? ∧ c.m_versions[n]? = m.m_versions[n]?)) ∧
    (∀ (rnd : Nat → Int) (k : K) (v : V),
      ∃ b c, m.setValue rnd k v = .ok b ∧ b.undo 1 clear = .ok c ∧
        c.m_curVersion = m.m_curVersion ∧
        (∀ j, c.find j = m.find j) ∧
        (∀ n : Nat, (n : Int) ≤ m.m_curVersion →
          b.m_versions[n]? = m.m_versions[n]? ∧ c.m_versions[n]? = m.m_versions[n]?)) ∧
    (∀ (ndebug : Bool) (k : K), (m.erase ndebug k).2 = .ok true →
      ∃ c, (m.erase ndebug k).1.undo 1 clear = .ok c ∧
        c.m_curVersion = m.m_curVersion ∧
        (∀ j, c.find j = m.find j) ∧
        (∀ n : Nat, (n : Int) ≤ m.m_curVersion →
          (m.erase ndebug k).1.m_versions[n]? = m.m_versions[n]? ∧
          c.m_versions[n]? = m.m_versions[n]?)) := by
  have hwa := ha.wf.1
  have hwm := hm.map_wf
  refine ⟨?_, ?_, ?_, ?_⟩
  · intro ndebug i v h0 hi
    exact PersistentArray.setValue_undo ndebug a hwa ha.fits i v h0 hi clear
  · intro rnd k v
    obtain ⟨ver, _, hb, he⟩ := PersistentMap.insert_eq rnd m hwm k v
    obtain ⟨c, hc⟩ := PersistentMap.push_undo m hwm hm.map_fits _
      (TreapVersion.insert_spec rnd ver hb k v).1 clear
    exact ⟨_, c, he, hc⟩
  · intro rnd k v
    obtain ⟨ver, _, hb, he⟩ := PersistentMap.setValue_eq_push rnd m hwm k v
    obtain ⟨c, hc⟩ := PersistentMap.push_undo m hwm hm.map_fits _
      (TreapVersion.version_setValue_spec rnd ver hb k v).1 clear
    exact ⟨_, c, he, hc⟩
  · intro ndebug k hok
    obtain ⟨ver, _, hb, he⟩ := PersistentMap.erase_eq ndebug m hwm k
    rw [he] at hok ⊢
    by_cases hn : ver.m_pRoot.isNull = true
    · rw [TreapVersion.erase_null ndebug ver k hn] at hok
      simp at hok
    · have hn' : ver.m_pRoot.isNull = false := by simpa using hn
      by_cases hk : ver.m_pRoot.lookup k = none
      · rw [TreapVersion.erase_absent ndebug ver k hn' hk] at hok
        simp at hok
      · obtain ⟨t, het, bt, _⟩ := TreapVersion.erase_present ndebug ver k hb hk
        rw [het]
        exact PersistentMap.push_undo m hwm hm.map_fits t bt clear

/-- Witness for C10: the array of size 3 and the map that holds `(10, 1)`. -/
theorem undo_restores_reads_witness :
    Example.array3.Reachable ∧ Example.map1.Reachable ∧
    (∃ b c, Example.array3.setValue true 2 7 = .ok b ∧ b.undo 1 false = .ok c ∧
      c.m_curVersion = Example.array3.m_curVersion ∧
      (∀ nd j, c.getValue nd j = Example.array3.getValue nd j) ∧
      (∀ n : Nat, (n : Int) ≤ Example.array3.m_curVersion →
        b.m_versions[n]? = Example.array3.m_versions[n]? ∧
        c.m_versions[n]? = Example.array3.m_versions[n]?)) ∧
    (∃ b c, Example.map1.insert Example.rnd0 5 2 = .ok b ∧ b.undo 1 false = .ok c ∧
      c.m_curVersion = Example.map1.m_curVersion ∧
      (∀ j, c.find j = Example.map1.find j) ∧
      (∀ n : Nat, (n : Int) ≤ Example.map1.m_curVersion →
        b.m_versions[n]? = Example.map1.m_versions[n]? ∧
        c.m_versions[n]? = Example.map1.m_versions[n]?)) :=
  have h := undo_restores_reads Example.array3 Example.array3_reachable Example.map1
    Example.map1_reachable false
  ⟨Example.array3_reachable, Example.map1_reachable,
    h.1 true 2 7 (by decide) (by decide), h.2.1 Example.rnd0 5 2⟩

/-! ## Claims about `setVal` on the list -/

/-- C9 (the code at the failing input): on the list `[1, 2, 3]`, whose middle
node has an empty second snapshot, `setVal(8)` on the middle element gives
`[1, 8, 3]`; a second `setVal(9)` on it (the node is now full) gives
`[9, 9, 3]` and not `[1, 9, 3]`: the left neighbour, filled by
`PersistentListIterator::copyLeft`, takes the new value.  On the same list built
by appending, where the middle node is already full, the first `setVal(8)`
gives `[1, 8, 8]`. -/
theorem list_setVal_overwrites_neighbour :
    (do let s ← Example.list123; s.traversal true) = .ok [1, 2, 3] ∧
    (do let s ← Example.list123; let s ← s.setValAt true 1 8; s.traversal true)
      = .ok [1, 8, 3] ∧
    (do let s ← Example.list123; let s ← s.setValAt true 1 8
        let s ← s.setValAt true 1 9; s.traversal true) = .ok [9, 9, 3] ∧
    (do let s ← Example.list123b; s.traversal true) = .ok [1, 2, 3] ∧
    (do let s ← Example.list123b; let s ← s.setValAt true 1 8; s.traversal true)
      = .ok [1, 8, 8] := by
  refine ⟨by rfl, by rfl, by rfl, by rfl, by rfl⟩

/-! ## Claims about `insert` and `erase` on the list -/

/-- C7 (the code at the failing input): after `it = end(); insert(it, 1);
it = begin(); erase(it)` the list is empty and its traversal starts on node 2,
the clone of the sentinel that `erase` made without adding it to the tails, so
`end()` still returns node 0, the sentinel of the versions before.  Then
`insert(end(), 5)` returns and the traversal from `begin()` is still empty,
not `[5]`, whereas `insert(begin(), 5)`, with the iterator that stands on the
same position 0, gives `[5]`. -/
theorem list_insert_at_end_lost (nd : Bool) :
    (do let s ← Example.erasedOnce nd; s.traversal nd) = .ok [] ∧
    (do let s ← Example.erasedOnce nd; s.iterAt nd 0) = .ok ⟨some 2⟩ ∧
    (do let s ← Example.erasedOnce nd; s.end) = .ok ⟨some 0⟩ ∧
    (do let s ← Example.erasedOnce nd
        let e ← s.end
        let r ← s.insert nd (some e) 5
        r.2.2.traversal nd) = .ok [] ∧
    (do let s ← Example.erasedOnce nd
        let b ← s.begin
        let r ← s.insert nd (some b) 5
        r.2.2.traversal nd) = .ok [5] := by
  cases nd <;> exact ⟨by rfl, by rfl, by rfl, by rfl, by rfl⟩

namespace Example

theorem list1_built : list1.Built :=
  .insert true PersistentList.new list1 0 1 [] .new rfl (Nat.le_refl 0) rfl

theorem list12_built : list12.Built :=
  .insert true list1 list12 1 2 [1] list1_built rfl (Nat.le_refl 1) rfl

end Example

namespace PersistentList

/-- In every state built from the empty list by `insert`, `erase` and `setVal`
called with `begin()` moved by `next()`, the traversal from `begin()` returns a
list `old`, and for every position `p < old.length` the iterator `begin()`
moved `p` times exists and `erase` with it returns: the traversal of the new
version is `old` without the element at position `p` (for `p = 0` too), the
returned iterator is the one that stands on position `p` of the new version,
it reads the value that was at position `p + 1`, and when there was none it
stands on the sentinel (`done()` is true). -/
theorem erase_at_position {T : Type} [Inhabited T] (s : PersistentList T)
    (hs : s.Built) (nd : Bool) :
    ∃ old : List T, s.traversal nd = .ok old ∧
      ∀ p, p < old.length → ∃ it, s.iterAt nd p = .ok it ∧
        ∃ ret s', s.erase nd (some it) = .ok (ret, s') ∧
          s'.traversal nd = .ok (old.eraseIdx p) ∧
          s'.iterAt nd p = .ok ret ∧
          (∀ x, old[p + 1]? = some x → PersistentListIterator.getVal nd s' ret = .ok x) ∧
          (old[p + 1]? = none → PersistentListIterator.done nd s' ret = .ok true) := by
  obtain ⟨ns, hi⟩ := hs.inv
  refine ⟨s.vals ns, PersistentList.traversal_eq nd s ns hi, ?_⟩
  intro p hp
  rw [PersistentList.vals_length] at hp
  have hplt : p < ns.length := by omega
  have hget : ns[p]? = some ns[p] := List.getElem?_eq_getElem hplt
  refine ⟨⟨some ns[p]⟩, PersistentList.iterAt_eq nd s ns hi p _ hget, ?_⟩
  obtain ⟨ns', s', hrun, hi', hlen', hver, hvals⟩ :=
    PersistentList.list_erase_spec nd s ns hi p _ hget (by omega)
  have htrav : s'.vals ns' = (s.vals ns).eraseIdx p := by
    rw [PersistentList.vals_eq, hvals, PersistentList.vals_eq, List.map_take, List.map_drop,
      dropLast_remove _ p (by rw [List.length_map]; omega)]
  have hp' : p < ns'.length := by omega
  have hget' : ns'[p]? = some ns'[p] := List.getElem?_eq_getElem hp'
  rw [hget'] at hrun
  refine ⟨⟨some ns'[p]⟩, s', hrun, ?_, PersistentList.iterAt_eq nd s' ns' hi' p _ hget', ?_, ?_⟩
  · rw [PersistentList.traversal_eq nd s' ns' hi', htrav]
  · intro x hx
    have hlt : p + 1 < (s.vals ns).length := (List.getElem?_eq_some_iff.1 hx).1
    rw [PersistentList.vals_length] at hlt
    have hp1 : p + 1 < ns'.length := by omega
    rw [PersistentList.getVal_at nd s' ns' hi' p _ hget' hp1]
    have h1 := PersistentList.vals_get s' ns' p _ hget' hp1
    rw [htrav, List.getElem?_eraseIdx_of_ge _ _ _ (Nat.le_refl p), hx] at h1
    rw [Option.some.inj h1]
  · intro hx
    have hge : (s.vals ns).length ≤ p + 1 := List.getElem?_eq_none_iff.1 hx
    rw [PersistentList.vals_length] at hge
    exact PersistentList.done_at nd s' ns' hi' p _ hget' (by omega)

end PersistentList

set_option maxRecDepth 100000 in
/-- C8 (the code at the failing input): the list `builtFromEnd`, built by
`insert` and `erase` alone, reads `[2, 7, 9]`, and the iterator `begin()` moved
twice stands on its position 2, which holds 9.  `erase` with that iterator
returns, and the traversal of the new version is still `[2, 7, 9]`, not
`[2, 7]`. -/
theorem list_erase_after_stale_end (nd : Bool) :
    (do let s ← Example.builtFromEnd nd; s.traversal nd) = .ok [2, 7, 9] ∧
    (do let s ← Example.builtFromEnd nd
        let it ← s.iterAt nd 2
        it.getVal nd s) = .ok 9 ∧
    (do let s ← Example.builtFromEnd nd
        let it ← s.iterAt nd 2
        let r ← s.erase nd (some it)
        r.2.traversal nd) = .ok [2, 7, 9] := by
  cases nd <;> exact ⟨by rfl, by rfl, by rfl⟩

/-! ## Claims about the list under `undo` and `redo` -/

/-- C11 (the code at the failing input): on the list `[1, 2]` built by
`it = begin(); insert(it, 1); insert(it, 2)`, the call `erase(begin())` fills
the second node, whose first snapshot is as old as the list before the call,
and adds it to the heads.  After `undo(1)`, with or without `clearHistory`,
`begin()` returns that node (address 2) instead of the head of the earlier
version (address 1), and the traversal is `[2]`, not `[1, 2]`. -/
theorem list_undo_after_erase_head (nd : Bool) :
    (do let s ← Example.twoItems nd; s.traversal nd) = .ok [1, 2] ∧
    (do let s ← Example.twoItems nd; s.begin) = .ok ⟨some 1⟩ ∧
    (do let s ← Example.headErased nd; s.traversal nd) = .ok [2] ∧
    (do let s ← Example.headErased nd; (s.undo 1 false).begin) = .ok ⟨some 2⟩ ∧
    (do let s ← Example.headErased nd; (s.undo 1 false).traversal nd) = .ok [2] ∧
    (do let s ← Example.headErased nd; (s.undo 1 true).traversal nd) = .ok [2] := by
  cases nd <;> exact ⟨by rfl, by rfl, by rfl, by rfl, by rfl, by rfl⟩

/-- C13 (the code at the failing input): on the list `[1]`, one mutation away
from the empty list, `undo(1, true)` brings the cursor to version 0 but leaves
`m_lastVersion` at 1: `lastVersion()` returns 2, not 1, and a following
`redo(1)` moves the cursor to version 1, whose nodes `invalidate` has cleared,
so that the traversal there is empty. -/
theorem list_undo_clear_keeps_last :
    Example.list1.traversal true = .ok [1] ∧
    Example.list1.m_version = 1 ∧ Example.list1.m_lastVersion = 1 ∧
    (Example.list1.undo 1 true).m_version = 0 ∧
    (Example.list1.undo 1 true).m_lastVersion = 1 ∧
    (Example.list1.undo 1 true).lastVersion = 2 ∧
    ((Example.list1.undo 1 true).redo 1).m_version = 1 ∧
    ((Example.list1.undo 1 true).redo 1).traversal true = .ok [] := by
  exact ⟨by rfl, by rfl, by rfl, by rfl, by rfl, by rfl, by rfl, by rfl⟩

/-- C18 (counterexample): after `it = begin(); insert(it, 3); insert(it, 2);
insert(it, 1)` the traversal from `begin()` is not `1 2 3`. -/
theorem list_scenario_s4_counterexample :
    (do let s ← Example.scenarioS4 true; s.traversal true) ≠ .ok [1, 2, 3] := by
  have h : (do let s ← Example.scenarioS4 true; s.traversal true) = .ok [3, 2, 1] := by rfl
  rw [h]
  intro hc
  simp at hc

/-- C18 (amended): every `insert(it, v)` leaves `it` on the node after the new
one, here the sentinel, so the three calls append: the traversal from `begin()`
yields `3 2 1`; after `undo(1)` it yields `3 2`; after a further `undo(2)` it
yields the empty sequence. -/
theorem list_scenario_s4 (nd : Bool) :
    (do let s ← Example.scenarioS4 nd; s.traversal nd) = .ok [3, 2, 1] ∧
    (do let s ← Example.scenarioS4 nd; (s.undo 1 false).traversal nd) = .ok [3, 2] ∧
    (do let s ← Example.scenarioS4 nd; ((s.undo 1 false).undo 2 false).traversal nd) =
      .ok [] := by
  cases nd <;> exact ⟨by rfl, by rfl, by rfl⟩

/-- C19 (the code at the failing input): the list `[1, 2]`, then the second
element erased, `undo(1)`, and the first element erased: the traversal is
`[2]`.  With `it` on the sentinel, `new_it = insert(it, 77)` gives the
traversal `[77]` and `erase(new_it)` the empty traversal, not `[2]`. -/
theorem list_insert_erase_after_undo (nd : Bool) :
    (do let s ← Example.reErased nd; s.traversal nd) = .ok [2] ∧
    (do let s ← Example.reErased nd
        let it ← s.begin
        let it ← it.next nd s
        let r ← s.insert nd (some it) 77
        r.2.2.traversal nd) = .ok [77] ∧
    (do let s ← Example.reErased nd
        let s ← Example.insertErase nd s
        s.traversal nd) = .ok [] := by
  cases nd <;> exact ⟨by rfl, by rfl, by rfl⟩

/-! ## Claims about the version counters -/

namespace Example

theorem array3b_reachable : array3b.Reachable :=
  .undo _ array3b 1 false
    (.setValue true _ _ 1 7 (.setValue true array3 _ 0 5 array3_reachable rfl (by decide)) rfl
      (by decide))
    (by decide) (by decide) rfl

theorem list1_reachable : PersistentList.Reachable list1 :=
  .mutation PersistentList.new list1 .new (.insert true (some ⟨some 0⟩) 1 ⟨some 1⟩ ⟨some 0⟩ rfl)
    (by decide)

theorem list1u_reachable : PersistentList.Reachable list1u :=
  .undo list1 1 false list1_reachable (by decide) (by decide)

theorem array3c_mutation : array3b.Mutation array3c :=
  .setValue true 2 9 (by decide) (by decide) rfl

theorem map2b_mutation : map2.Mutation map2b := .setValue rnd0 1 30 rfl

theorem list1v_mutation : list1u.Mutation list1v :=
  .insert true (some ⟨some 0⟩) 5 ⟨some 2⟩ ⟨some 3⟩ rfl

end Example

namespace PersistentList

variable {T : Type}

theorem list_mutated_counters [Inhabited T] {k : Nat} {a b : PersistentList T}
    (hcl : a.m_version = a.m_lastVersion) (h : Mutated k a b) :
    b.m_version = a.m_version + k ∧ b.m_lastVersion = a.m_version + k := by
  induction h with
  | refl a => exact ⟨by simp, by simp [hcl]⟩
  | step k a b c _ hm ih =>
    have h1 := ih hcl
    have h2 := list_mutation_counters hm
    rw [h2.1, h2.2, h1.1]
    push_cast
    exact ⟨by ring, by ring⟩

end PersistentList

/-- C14 (counterexample): on the array of size 3, `undo(-1)` puts the cursor on
version 1 while the last version is 0, and a read then indexes the version
vector out of range; `redo(-1)` puts the cursor on version -1.  With a
non-negative argument: on the array with the cursor on version 1 of 0..2,
`redo(2147483647)` computes `1 + 2147483647`, which does not fit in an `int`,
and leaves the cursor on version -2147483648. -/
theorem counters_negative_counterexample :
    Example.array3.Reachable ∧
    (∃ b, Example.array3.undo (-1) false = .ok b ∧ b.m_curVersion = 1 ∧
      b.m_lastVersion = 0 ∧ b.getValue true 0 = .error .undefined) ∧
    (Example.array3.redo (-1)).m_curVersion = -1 ∧
    Example.array3b.Reachable ∧ Example.array3b.m_curVersion = 1 ∧
    (Example.array3b.redo 2147483647).m_curVersion = -2147483648 :=
  ⟨Example.array3_reachable, ⟨_, rfl, rfl, rfl, rfl⟩, rfl, Example.array3b_reachable, rfl, rfl⟩

/-- C14 (amended): for an array, a map and a list in a state reached by the
constructor, mutations (as long as the counters fit in an `int`),
`undo(n, clearHistory)` with `0 ≤ n` and `redo(n)` with `0 ≤ n` and
`cur + n ≤ 2147483647`, the counters satisfy `0 ≤ cur ≤ last`; an array and a
map store exactly `last + 1` versions, so the current version is a stored
one. -/
theorem counters_in_range {T K V L : Type} [Inhabited T] [LinearOrder K] [Inhabited L]
    (a : PersistentArray T) (ha : a.Reachable) (m : PersistentMap K V) (hm : m.Reachable)
    (s : PersistentList L) (hs : s.Reachable) :
    (0 ≤ a.m_curVersion ∧ a.m_curVersion ≤ a.m_lastVersion ∧
      (a.m_versions.length : Int) = a.m_lastVersion + 1 ∧
      ∃ ver, a.m_versions[a.m_curVersion.toNat]? = some ver) ∧
    (0 ≤ m.m_curVersion ∧ m.m_curVersion ≤ m.m_lastVersion ∧
      (m.m_versions.length : Int) = m.m_lastVersion + 1 ∧
      ∃ ver, m.m_versions[m.m_curVersion.toNat]? = some ver) ∧
    (0 ≤ s.m_version ∧ s.m_version ≤ s.m_lastVersion) := by
  have hwa := ha.wf.1
  have hwm := hm.map_wf
  refine ⟨⟨hwa.cur_nonneg, hwa.cur_le, hwa.length_eq, ?_⟩,
    ⟨hwm.cur_nonneg, hwm.cur_le, hwm.length_eq, ?_⟩, PersistentList.list_reachable_counters hs⟩
  · have h1 := hwa.cur_nonneg
    have h2 := hwa.cur_le
    have h3 := hwa.length_eq
    exact ⟨_, List.getElem?_eq_getElem (by omega)⟩
  · have h1 := hwm.cur_nonneg
    have h2 := hwm.cur_le
    have h3 := hwm.length_eq
    exact ⟨_, List.getElem?_eq_getElem (by omega)⟩

/-- Witness for C14 (amended): the array after `setValue, setValue, undo`, the
map after `insert, setValue, undo` and the list after `insert, undo`. -/
theorem counters_in_range_witness :
    Example.array3b.Reachable ∧ Example.map2.Reachable ∧
    PersistentList.Reachable Example.list1u ∧
    (0 ≤ Example.array3b.m_curVersion ∧
      Example.array3b.m_curVersion ≤ Example.array3b.m_lastVersion ∧
      (Example.array3b.m_versions.length : Int) = Example.array3b.m_lastVersion + 1 ∧
      ∃ ver, Example.array3b.m_versions[Example.array3b.m_curVersion.toNat]? = some ver) ∧
    (0 ≤ Example.map2.m_curVersion ∧ Example.map2.m_curVersion ≤ Example.map2.m_lastVersion ∧
      (Example.map2.m_versions.length : Int) = Example.map2.m_lastVersion + 1 ∧
      ∃ ver, Example.map2.m_versions[Example.map2.m_curVersion.toNat]? = some ver) ∧
    (0 ≤ Example.list1u.m_version ∧ Example.list1u.m_version ≤ Example.list1u.m_lastVersion) :=
  ⟨Example.array3b_reachable, Example.map2_reachable, Example.list1u_reachable,
    counters_in_range Example.array3b Example.array3b_reachable Example.map2
      Example.map2_reachable Example.list1u Example.list1u_reachable⟩

/-- C15 (counterexample): the array after `setValue(0, 5); setValue(1, 7);
undo(1)` has the cursor on version 1 of 0..2 and reads 0 at index 1; after
`undo(2)` (the cursor stops at 0) and `redo(2)` the cursor is on version 2 and
the read gives 7.  With `n = -2147483648`, which is below the cursor, `undo(n)`
computes `1 + 2147483648`, which does not fit in an `int`, and leaves the
cursor on 0; `redo(n)` then leaves it on -2147483648. -/
theorem undo_redo_counterexample :
    Example.array3b.Reachable ∧ Example.array3b.m_curVersion = 1 ∧
    Example.array3b.getValue true 1 = .ok 0 ∧
    (∃ b, Example.array3b.undo 2 false = .ok b ∧ (b.redo 2).m_curVersion = 2 ∧
      (b.redo 2).getValue true 1 = .ok 7) ∧
    ∃ b, Example.array3b.undo (-2147483648) false = .ok b ∧ b.m_curVersion = 0 ∧
      (b.redo (-2147483648)).m_curVersion = -2147483648 :=
  ⟨Example.array3b_reachable, rfl, rfl, ⟨_, rfl, rfl, rfl⟩, _, rfl, rfl, rfl⟩

/-- C15 (amended): in every reachable state of an array, a map and a list, for
every `int` `n` for which `cur - n` fits in an `int` and which is at most the
current version, and for every such `n` when the cursor is on the last
version: `undo(n)` without `clearHistory` followed by `redo(n)` returns and
gives back the state it started from. -/
theorem undo_redo_identity {T K V L : Type} [Inhabited T] [LinearOrder K] [Inhabited L]
    (a : PersistentArray T) (ha : a.Reachable) (m : PersistentMap K V) (hm : m.Reachable)
    (s : PersistentList L) (hs : s.Reachable) (n : Int) (hi : n < 2147483648) :
    (a.m_curVersion - n < 2147483648 →
      n ≤ a.m_curVersion ∨ a.m_curVersion = a.m_lastVersion →
      ∃ b, a.undo n false = .ok b ∧ b.redo n = a) ∧
    (m.m_curVersion - n < 2147483648 →
      n ≤ m.m_curVersion ∨ m.m_curVersion = m.m_lastVersion →
      ∃ b, m.undo n false = .ok b ∧ b.redo n = m) ∧
    (s.m_version - n < 2147483648 →
      n ≤ s.m_version ∨ s.m_version = s.m_lastVersion → (s.undo n false).redo n = s) := by
  have hwa := ha.wf.1
  have hfa := ha.fits
  have hwm := hm.map_wf
  have hfm := hm.map_fits
  have hls := PersistentList.list_reachable_fits hs
  refine ⟨?_, ?_, ?_⟩
  · intro ho h
    have h1 := hwa.cur_nonneg
    have h2 := hwa.cur_le
    refine ⟨_, rfl, ?_⟩
    cases a with
    | mk size last cur vs =>
      simp only at ho h h1 h2 hfa
      simp only [PersistentArray.redo, PersistentArray.mk.injEq, true_and, and_true]
      rw [wrapInt_eq (cur - n) (by omega) ho]
      rcases h with h | h
      · rw [max_eq_right (by omega), wrapInt_eq _ (by omega) (by omega)]
        omega
      · by_cases hn : n ≤ cur
        · rw [max_eq_right (by omega), wrapInt_eq _ (by omega) (by omega)]
          omega
        · rw [max_eq_left (by omega), wrapInt_eq _ (by omega) (by omega)]
          omega
  · intro ho h
    have h1 := hwm.cur_nonneg
    have h2 := hwm.cur_le
    refine ⟨_, rfl, ?_⟩
    cases m with
    | mk vs last cur =>
      simp only at ho h h1 h2 hfm
      simp only [PersistentMap.redo, PersistentMap.mk.injEq, true_and, and_true]
      rw [wrapInt_eq (cur - n) (by omega) ho]
      rcases h with h | h
      · rw [max_eq_right (by omega), wrapInt_eq _ (by omega) (by omega)]
        omega
      · by_cases hn : n ≤ cur
        · rw [max_eq_right (by omega), wrapInt_eq _ (by omega) (by omega)]
          omega
        · rw [max_eq_left (by omega), wrapInt_eq _ (by omega) (by omega)]
          omega
  · intro ho h
    cases s with
    | mk heap next ver last heads tails nodes =>
      simp only at ho h hls
      simp only [PersistentList.redo, PersistentList.undo, Bool.false_eq_true, if_false,
        PersistentList.mk.injEq, true_and, and_true]
      rw [wrapInt_eq (ver - n) (by omega) ho]
      rcases h with h | h
      · rw [max_eq_right (by omega), wrapInt_eq _ (by omega) (by omega)]
        omega
      · by_cases hn : n ≤ ver
        · rw [max_eq_right (by omega), wrapInt_eq _ (by omega) (by omega)]
          omega
        · rw [max_eq_left (by omega), wrapInt_eq _ (by omega) (by omega)]
          omega

/-- Witness for C15 (amended): `undo(1); redo(1)` on the array with the cursor
on version 1 of 0..2, on the map with the cursor on version 1 of 0..2 and on the
list with the cursor on version 1 of 0..1. -/
theorem undo_redo_identity_witness :
    Example.array3b.Reachable ∧ Example.map2.Reachable ∧
    PersistentList.Reachable Example.list1 ∧
    (∃ b, Example.array3b.undo 1 false = .ok b ∧ b.redo 1 = Example.array3b) ∧
    (∃ b, Example.map2.undo 1 false = .ok b ∧ b.redo 1 = Example.map2) ∧
    (Example.list1.undo 1 false).redo 1 = Example.list1 :=
  have h := undo_redo_identity Example.array3b Example.array3b_reachable Example.map2
    Example.map2_reachable Example.list1 Example.list1_reachable 1 (by decide)
  ⟨Example.array3b_reachable, Example.map2_reachable, Example.list1_reachable,
    h.1 (by decide) (Or.inl (by decide)), h.2.1 (by decide) (Or.inl (by decide)),
    h.2.2 (by decide) (Or.inl (by decide))⟩

namespace Example

theorem list12_mutated : PersistentList.Mutated 2 PersistentList.new list12 :=
  .step 1 _ list1 _
    (.step 0 _ _ _ (.refl _) (.insert true (some ⟨some 0⟩) 1 ⟨some 1⟩ ⟨some 0⟩ rfl))
    (.insert true (some ⟨some 0⟩) 2 ⟨some 2⟩ ⟨some 3⟩ rfl)

theorem array3_mutated :
    PersistentArray.Mutated 2 array3
      ⟨3, 2, 2, [⟨3, .mk 0 0 .null (.mk 2 0 (.mk 1 0 .null .null) .null)⟩,
        ⟨3, .mk 0 5 .null (.mk 2 0 (.mk 1 0 .null .null) .null)⟩,
        ⟨3, .mk 0 5 .null (.mk 2 0 (.mk 1 7 .null .null) .null)⟩]⟩ :=
  .step 1 _ ⟨3, 1, 1, [⟨3, .mk 0 0 .null (.mk 2 0 (.mk 1 0 .null .null) .null)⟩,
        ⟨3, .mk 0 5 .null (.mk 2 0 (.mk 1 0 .null .null) .null)⟩]⟩ _
    (.step 0 _ _ _ (.refl _) (.setValue true 0 5 (by decide) (by decide) rfl))
    (.setValue true 1 7 (by decide) (by decide) rfl)

theorem map1_mutated : PersistentMap.Mutated 1 PersistentMap.new map1 :=
  .step 0 _ _ _ (.refl _) (.insert rnd0 10 1 rfl)

theorem map1_erase_other : (map1.erase true 5).2 = .ok false := by
  simp [PersistentMap.erase, PersistentMap.invalidate, map1, popVersions, vecBack,
    TreapVersion.erase, TreapNode.find, TreapNode.isNull]

end Example

/-- C16: an array built by the constructor (for any outcome of the shuffle)
and changed by `ka` successful `setValue` calls, a map changed by `km`
successful mutations from the empty map and a list changed by `ks` successful
mutations from the empty list, with no `undo` and no `redo`: `lastVersion()`
returns `ka + 1`, `km + 1` and `ks + 1`.  On such a map an `erase` that returns
`false` leaves the map, and with it the count, as it was. -/
theorem lastVersion_counts_mutations {T K V L : Type} [Inhabited T] [LinearOrder K]
    [Inhabited L] (size : Int) (aIndexes : List Int) (a₀ a : PersistentArray T) (ka : Nat)
    (hperm : aIndexes.Perm (PersistentArrayVersion.iota size))
    (hnew : PersistentArray.new size aIndexes = .ok a₀) (ha : a₀.Mutated ka a)
    (m : PersistentMap K V) (km : Nat) (hm : PersistentMap.new.Mutated km m)
    (s : PersistentList L) (ks : Nat) (hs : PersistentList.new.Mutated ks s) :
    a.lastVersion = ka + 1 ∧ m.lastVersion = km + 1 ∧ s.lastVersion = ks + 1 ∧
    ∀ nd k, (m.erase nd k).2 = .ok false → (m.erase nd k).1 = m := by
  have hra : a₀.Reachable := .new size aIndexes a₀ hperm hnew
  have hwa := hra.wf.1
  have ha0 : a₀.m_curVersion = 0 ∧ a₀.m_lastVersion = 0 := by
    unfold PersistentArray.new at hnew
    split at hnew
    · simp at hnew
    · simp only [Except.ok.injEq] at hnew
      subst hnew
      exact ⟨rfl, rfl⟩
  obtain ⟨_, _, _, hla, _⟩ := PersistentArray.array_mutated_spec hwa (by rw [ha0.1, ha0.2]) ha
  have hwm0 : (PersistentMap.new : PersistentMap K V).WF :=
    (PersistentMap.Reachable.new).map_wf
  obtain ⟨hwm, hcm, hlm, _⟩ := PersistentMap.map_mutated_spec hwm0 rfl hm
  have hl := PersistentList.list_mutated_counters rfl hs
  refine ⟨?_, ?_, ?_, ?_⟩
  · simp only [PersistentArray.lastVersion, hla, ha0.1]
    omega
  · simp only [PersistentMap.lastVersion, hlm]
    simp [PersistentMap.new]
  · simp only [PersistentList.lastVersion, hl.2]
    simp [PersistentList.new]
  · intro nd k hfalse
    obtain ⟨ver, _, hb, he⟩ := PersistentMap.erase_eq nd m hwm k
    rw [he] at hfalse ⊢
    by_cases hn : ver.m_pRoot.isNull = true
    · rw [TreapVersion.erase_null nd ver k hn] at hfalse
      simp at hfalse
    · have hn' : ver.m_pRoot.isNull = false := by simpa using hn
      by_cases hk : ver.m_pRoot.lookup k = none
      · rw [TreapVersion.erase_absent nd ver k hn' hk]
        exact PersistentMap.truncated_of_last m hwm (by rw [hcm, hlm])
      · obtain ⟨t, het, _⟩ := TreapVersion.erase_present nd ver k hb hk
        rw [het] at hfalse
        simp at hfalse

/-- Witness for C16: two writes to the array of size 3, one insert into the
map, two inserts into the list. -/
theorem lastVersion_counts_mutations_witness :
    PersistentArray.new 3 [2, 1] = .ok Example.array3 ∧
    PersistentMap.Mutated 1 PersistentMap.new Example.map1 ∧
    PersistentList.Mutated 2 PersistentList.new Example.list12 ∧
    Example.map1.lastVersion = 2 ∧ Example.list12.lastVersion = 3 ∧
    (Example.map1.erase true 5).1 = Example.map1 :=
  have h := lastVersion_counts_mutations 3 [2, 1] Example.array3 _ 2 (by decide)
    Example.array3_new Example.array3_mutated Example.map1 1 Example.map1_mutated
    Example.list12 2 Example.list12_mutated
  ⟨Example.array3_new, Example.map1_mutated, Example.list12_mutated, h.2.1, h.2.2.1,
    h.2.2.2 true 5 Example.map1_erase_other⟩

/-- C17 (counterexample): a write to the array with the cursor on version 1 of
0..2 leaves the cursor and the last version on 2; the following
`redo(2147483647)` computes `2 + 2147483647`, which does not fit in an `int`,
and moves the cursor to version -2147483647, where a read indexes the version
vector out of range. -/
theorem mutation_truncates_counterexample :
    Example.array3b.Reachable ∧ Example.array3b.Mutation Example.array3c ∧
    Example.array3c.m_curVersion = 2 ∧ Example.array3c.m_lastVersion = 2 ∧
    Example.array3c.getValue true 2 = .ok 9 ∧
    (Example.array3c.redo 2147483647).m_curVersion = -2147483647 ∧
    (Example.array3c.redo 2147483647).getValue true 2 = .error .undefined :=
  ⟨Example.array3b_reachable, Example.array3c_mutation, rfl, rfl, rfl, rfl, rfl⟩

/-- C17 (amended): in every reachable state of an array, of a map and of a
list, with the cursor on version `c` (the last one or not), a successful
mutation puts the cursor and the last version on `c + 1`, so `lastVersion()`
returns `c + 2`, and a following `redo(n)` with `0 ≤ n` and
`c + 1 + n ≤ 2147483647` leaves the state, hence the cursor and every read, as
it is.  An array and a map then store the versions `0..c` they stored before
followed by the new one, the versions above `c` being dropped; of what a list
keeps of the versions above `c` nothing is said. -/
theorem mutation_truncates {T K V L : Type} [Inhabited T] [LinearOrder K] [Inhabited L]
    (a b : PersistentArray T) (ha : a.Reachable) (hab : a.Mutation b)
    (m m' : PersistentMap K V) (hm : m.Reachable) (hmm : m.Mutation m')
    (s s' : PersistentList L) (hs : s.Reachable) (hss : s.Mutation s') :
    (b.m_curVersion = a.m_curVersion + 1 ∧ b.m_lastVersion = a.m_curVersion + 1 ∧
      b.lastVersion = a.m_curVersion + 2 ∧
      (∃ ver, b.m_versions = a.m_versions.take (a.m_curVersion.toNat + 1) ++ [ver]) ∧
      ∀ n, 0 ≤ n → a.m_curVersion + 1 + n < 2147483648 → b.redo n = b) ∧
    (m'.m_curVersion = m.m_curVersion + 1 ∧ m'.m_lastVersion = m.m_curVersion + 1 ∧
      m'.lastVersion = m.m_curVersion + 2 ∧
      (∃ ver, m'.m_versions = m.m_versions.take (m.m_curVersion.toNat + 1) ++ [ver]) ∧
      ∀ n, 0 ≤ n → m.m_curVersion + 1 + n < 2147483648 → m'.redo n = m') ∧
    (s'.m_version = s.m_version + 1 ∧ s'.m_lastVersion = s.m_version + 1 ∧
      s'.lastVersion = s.m_version + 2 ∧
      ∀ n, 0 ≤ n → s.m_version + 1 + n < 2147483648 → s'.redo n = s') := by
  have hwa := ha.wf.1
  have hwm := hm.map_wf
  have ha0 := hwa.cur_nonneg
  have hm0 := hwm.cur_nonneg
  have hs0 := (PersistentList.list_reachable_fits hs).1
  obtain ⟨_, _, hca, hla, ver, hva⟩ := PersistentArray.array_mutation_spec hwa hab
  obtain ⟨_, t, ht⟩ := PersistentMap.map_mutation_spec hwm hmm
  have hl := PersistentList.list_mutation_counters hss
  refine ⟨⟨hca, hla, ?_, ⟨ver, hva⟩, ?_⟩, ⟨?_, ?_, ?_, ?_, ?_⟩, ⟨hl.1, hl.2, ?_, ?_⟩⟩
  · simp only [PersistentArray.lastVersion, hla]
    omega
  · intro n hn hfit
    cases b with
    | mk size last cur vs =>
      simp only at hca hla
      simp only [PersistentArray.redo, PersistentArray.mk.injEq, true_and, and_true]
      rw [wrapInt_eq _ (by omega) (by omega)]
      omega
  · rw [ht]; rfl
  · rw [ht]; rfl
  · rw [ht]
    simp only [PersistentMap.lastVersion, PersistentMap.push]
    omega
  · rw [ht]
    exact ⟨⟨t⟩, rfl⟩
  · intro n hn hfit
    rw [ht]
    simp only [PersistentMap.redo, PersistentMap.push, PersistentMap.mk.injEq, true_and]
    rw [wrapInt_eq _ (by omega) (by omega)]
    omega
  · simp only [PersistentList.lastVersion, hl.2]
    omega
  · intro n hn hfit
    cases s' with
    | mk heap next ver last heads tails nodes =>
      simp only at hl
      simp only [PersistentList.redo, PersistentList.mk.injEq, true_and, and_true]
      rw [wrapInt_eq _ (by omega) (by omega)]
      omega

/-- Witness for C17 (amended): the array, the map and the list with the cursor
below the last version, and one write to each. -/
theorem mutation_truncates_witness :
    Example.array3b.Reachable ∧ Example.array3b.Mutation Example.array3c ∧
    Example.map2.Reachable ∧ Example.map2.Mutation Example.map2b ∧
    PersistentList.Reachable Example.list1u ∧ Example.list1u.Mutation Example.list1v ∧
    Example.array3b.m_curVersion < Example.array3b.m_lastVersion ∧
    Example.array3c.lastVersion = 3 ∧ Example.map2b.lastVersion = 3 ∧
    Example.list1v.lastVersion = 2 ∧
    Example.array3c.redo 1 = Example.array3c ∧ Example.map2b.redo 1 = Example.map2b ∧
    Example.list1v.redo 1 = Example.list1v :=
  have h := mutation_truncates Example.array3b Example.array3c Example.array3b_reachable
    Example.array3c_mutation Example.map2 Example.map2b Example.map2_reachable
    Example.map2b_mutation Example.list1u Example.list1v Example.list1u_reachable
    Example.list1v_mutation
  ⟨Example.array3b_reachable, Example.array3c_mutation, Example.map2_reachable,
    Example.map2b_mutation, Example.list1u_reachable, Example.list1v_mutation, by decide,
    h.1.2.2.1, h.2.1.2.2.1, h.2.2.2.2.1, h.1.2.2.2.2 1 (by decide) (by decide),
    h.2.1.2.2.2.2 1 (by decide) (by decide), h.2.2.2.2.2 1 (by decide) (by decide)⟩

/-! ## Claims about the transaction -/

namespace Example

theorem store3_entered (p : Nat) (hp : some p ∈ [some 0, none, some 1, some 2, some 0]) :
    (store3 p).Entered ((action3 store3).1 p) := by
  simp only [List.mem_cons, Option.some.injEq, List.mem_singleton, reduceCtorEq, false_or,
    List.not_mem_nil, or_false] at hp
  rcases hp with rfl | rfl | rfl | rfl
  · exact ⟨array3_reachable, rfl, _, 1, rfl,
      .step 0 _ _ _ (.refl _) (.setValue true 0 5 (by decide) (by decide) rfl)⟩
  · exact ⟨map1_reachable, rfl, _, 1, rfl,
      .step 0 _ _ _ (.refl _) (.setValue rnd0 10 2 rfl)⟩
  · exact ⟨_, rfl⟩
  · exact ⟨array3_reachable, rfl, _, 1, rfl,
      .step 0 _ _ _ (.refl _) (.setValue true 0 5 (by decide) (by decide) rfl)⟩

end Example

/-- C12 (counterexample): an array registered with the cursor on version 1 of
0..2, where index 2 reads 0.  The action writes 9 at index 2 and raises; `run`
returns `false`; the destructor calls `undo(0, true)`, for `lastVersion()` is 3
as it was at entry, and leaves the array on version 2, where index 2 reads 9. -/
theorem transaction_rollback_counterexample :
    Example.array3b.Reachable ∧ Example.array3b.m_curVersion = 1 ∧
    Example.array3b.lastVersion = 3 ∧ Example.array3b.getValue true 2 = .ok 0 ∧
    ((Transaction.new Example.storeB [some 0]).run Example.writeAndRaise
      Example.storeB).2.2 = false ∧
    (∃ st, ((Transaction.new Example.storeB [some 0]).run Example.writeAndRaise
        Example.storeB).1.destroy
        ((Transaction.new Example.storeB [some 0]).run Example.writeAndRaise
          Example.storeB).2.1 = .ok st ∧
      st 0 = .array Example.array3c) ∧
    Example.array3c.m_curVersion = 2 ∧ Example.array3c.lastVersion = 3 ∧
    Example.array3c.getValue true 2 = .ok 9 :=
  ⟨Example.array3b_reachable, rfl, rfl, rfl, rfl, ⟨_, rfl, rfl⟩, rfl, rfl, rfl⟩

/-- C12 (amended): a transaction built on a store, with any registered
addresses (null pointers and repetitions included), and an action that raises
after it has changed each registered array and map, which were in a reachable
state with the cursor on the last version, by successful mutations only.  Then
`run` returns `false`, the destructor returns, and every registered array and
map is back in the state it had when the transaction was built: the same
stored versions, cursor and last version, hence the same `lastVersion()` and
reads.  Containers that are not registered are as the action left them.
Nothing is said of registered lists. -/
theorem transaction_rollback {A K V L : Type} [Inhabited A] [LinearOrder K]
    (store store' : Nat → Container A K V L) (pArgs : List (Option Nat))
    (function : (Nat → Container A K V L) → (Nat → Container A K V L) × Bool)
    (hf : function store = (store', true))
    (hentry : ∀ p, some p ∈ pArgs → (store p).Entered (store' p)) :
    ∃ t st, (Transaction.new store pArgs).run function store = (t, store', false) ∧
      t.destroy store' = .ok st ∧
      (∀ p, some p ∈ pArgs → (store p).Restored (st p)) ∧
      (∀ p, some p ∉ pArgs → st p = store' p) := by
  have hmem : ∀ p, p ∈ pArgs.reduceOption ↔ some p ∈ pArgs := fun p =>
    List.reduceOption_mem_iff
  obtain ⟨st, hrun, hres, hframe⟩ := Transaction.rollback_spec store pArgs.reduceOption
    store' (fun p hp => hentry p ((hmem p).1 hp))
  refine ⟨{ Transaction.new store pArgs with m_isSucceeded := false }, st, ?_, ?_,
    fun p hp => hres p ((hmem p).2 hp),
    fun p hp => hframe p (fun h => hp ((hmem p).1 h))⟩
  · simp only [Transaction.run, hf, if_true]
  · simp only [Transaction.destroy, Transaction.new, Transaction.init_eq, Bool.not_false,
      if_true, List.nil_append]
    exact hrun

/-- Witness for C12 (amended): the array of size 3, registered twice, the map
that holds `(10, 1)` and a list; the action writes to the array and to the map,
moves the cursor of the list and raises. -/
theorem transaction_rollback_witness :
    Example.action3 Example.store3 = ((Example.action3 Example.store3).1, true) ∧
    (∀ p, some p ∈ [some 0, none, some 1, some 2, some 0] →
      (Example.store3 p).Entered ((Example.action3 Example.store3).1 p)) ∧
    ∃ t st, (Transaction.new Example.store3 [some 0, none, some 1, some 2, some 0]).run
        Example.action3 Example.store3 = (t, (Example.action3 Example.store3).1, false) ∧
      t.destroy (Example.action3 Example.store3).1 = .ok st ∧
      st 0 = .array Example.array3 ∧ st 1 = .map Example.map1 :=
  have h := transaction_rollback Example.store3 (Example.action3 Example.store3).1
    [some 0, none, some 1, some 2, some 0] Example.action3 rfl Example.store3_entered
  ⟨rfl, Example.store3_entered,
    h.elim fun t ht => ht.elim fun st hst =>
      ⟨t, st, hst.1, hst.2.1, hst.2.2.1 0 (by simp), hst.2.2.1 1 (by simp)⟩⟩

/-! ## Insert followed by erase on the map -/

namespace TreapNode

variable {K V : Type}

/-- Two treaps with the same lookups are both empty or both non-empty. -/
theorem isNull_congr [LinearOrder K] (a b : TreapNode K V)
    (h : ∀ j, a.lookup j = b.lookup j) : a.isNull = b.isNull := by
  cases a with
  | null =>
    cases b with
    | null => rfl
    | mk k v p l r =>
      have := h k
      rw [lookup_null, lookup_mk] at this
      simp at this
  | mk k v p l r =>
    cases b with
    | null =>
      have := h k
      rw [lookup_null, lookup_mk] at this
      simp at this
    | mk _ _ _ _ _ => rfl

end TreapNode

namespace PersistentMap

variable {K V : Type}

/-- After a push the current version is the pushed treap. -/
theorem push_current [LinearOrder K] (m : PersistentMap K V) (hw : m.WF) (t : TreapNode K V) :
    (m.push t).m_versions[(m.push t).m_curVersion.toNat]? = some ⟨t⟩ := by
  have h0 := hw.cur_nonneg
  have hl := hw.length_eq
  have hc := hw.cur_le
  simp only [PersistentMap.push]
  rw [List.getElem?_append_right (by rw [List.length_take]; omega)]
  have : (m.m_curVersion + 1).toNat - (List.take (m.m_curVersion.toNat + 1)
      m.m_versions).length = 0 := by
    rw [List.length_take]; omega
  rw [this]
  rfl

end PersistentMap

namespace PersistentMap

/-- In every reachable state of a map, with `ver` the current version and `k` a
key absent from it: `insert(k, v)` returns, `erase(k)` then returns `true`, and
in the resulting state `find(j)` gives, for every key `j`, `k` included, the
outcome it gave before the insert; the new current version holds the same
lookups as `ver` and is empty exactly when `ver` is.  On a non-empty version
`find` returns; on an empty one it does not, before the insert and after the
erase alike. -/
theorem insert_erase_roundtrip {K V : Type} [LinearOrder K] (rnd : Nat → Int)
    (ndebug : Bool) (m : PersistentMap K V) (hr : m.Reachable) (k : K) (v : V)
    (ver : TreapVersion K V) (hv : m.m_versions[m.m_curVersion.toNat]? = some ver)
    (habs : ver.m_pRoot.lookup k = none) :
    ∃ m₁ m₂ t, m.insert rnd k v = .ok m₁ ∧ m₁.erase ndebug k = (m₂, .ok true) ∧
      m₂.m_versions[m₂.m_curVersion.toNat]? = some ⟨t⟩ ∧
      (∀ j, t.lookup j = ver.m_pRoot.lookup j) ∧ t.isNull = ver.m_pRoot.isNull ∧
      (∀ j, m₂.find j = m.find j) ∧
      (ver.m_pRoot.isNull = false → ∀ j, m.find j = .ok (ver.m_pRoot.lookup j)) := by
  have hw := hr.map_wf
  obtain ⟨ver', hv', hb, he⟩ := PersistentMap.insert_eq rnd m hw k v
  rw [hv] at hv'
  simp only [Option.some.injEq] at hv'
  subst hv'
  obtain ⟨hbi, hni, hli⟩ := TreapVersion.insert_spec rnd ver hb k v
  have hw1 := PersistentMap.WF_push m hw _ hbi
  obtain ⟨ver1, hv1, hb1, he1⟩ := PersistentMap.erase_eq ndebug (m.push (ver.insert rnd k v))
    hw1 k
  have hcur1 := PersistentMap.push_current m hw (ver.insert rnd k v)
  rw [hcur1] at hv1
  simp only [Option.some.injEq] at hv1
  subst hv1
  have hpres : (ver.insert rnd k v).lookup k ≠ none := by
    rw [hli k, if_pos rfl]
    simp
  obtain ⟨t, het, bt, hlt⟩ := TreapVersion.erase_present ndebug ⟨ver.insert rnd k v⟩ k hbi hpres
  rw [het] at he1
  have hlook : ∀ j, t.lookup j = ver.m_pRoot.lookup j := by
    intro j
    rw [hlt j]
    by_cases hj : j = k
    · rw [if_pos hj, hj, habs]
    · rw [if_neg hj]
      simp only
      rw [hli j, if_neg hj]
  have hnull := TreapNode.isNull_congr t ver.m_pRoot hlook
  have hfind : ∀ j, m.find j = ver.find j :=
    PersistentMap.find_eq_current m ver hw.cur_nonneg hv
  refine ⟨_, _, t, he, he1, ?_, hlook, hnull, ?_, ?_⟩
  · exact PersistentMap.push_current _ hw1 t
  · intro j
    rw [PersistentMap.find_push _ hw1, hfind j, TreapVersion.find_eq, TreapVersion.find_eq]
    simp only [hnull, hlook j]
  · intro hn j
    rw [hfind j, TreapVersion.find_eq, hn]
    rfl

end PersistentMap

/-- C20 (the code at the failing input): on the empty map `insert(7, 70)`
returns and `erase(7)` returns `true`; the version they leave is empty, like
the one before the insert, and on it `find(j)`, for every key `j`, does not
return `false`: it dereferences the null root, as it did before the insert. -/
theorem map_roundtrip_empty_fault :
    (PersistentMap.new : PersistentMap Int Int).insert Example.rnd0 7 70 =
      .ok ⟨[⟨.null⟩, ⟨.mk 7 70 0 .null .null⟩], 1, 1⟩ ∧
    (⟨[⟨.null⟩, ⟨.mk 7 70 0 .null .null⟩], 1, 1⟩ : PersistentMap Int Int).erase true 7 =
      (⟨[⟨.null⟩, ⟨.mk 7 70 0 .null .null⟩, ⟨.null⟩], 2, 2⟩, .ok true) ∧
    (∀ j : Int, (⟨[⟨.null⟩, ⟨.mk 7 70 0 .null .null⟩, ⟨.null⟩], 2, 2⟩ :
      PersistentMap Int Int).find j = .error .undefined) ∧
    (∀ j : Int, (PersistentMap.new : PersistentMap Int Int).find j = .error .undefined) := by
  refine ⟨by rfl, ?_, fun j => by rfl, fun j => by rfl⟩
  simp [PersistentMap.erase, PersistentMap.invalidate, popVersions, vecBack,
    TreapVersion.erase, TreapNode.find, TreapNode.isNull, TreapNode.erase, TreapNode.merge]

/-! ## Claims about invalid arguments -/

/-- C21 (counterexample): in a build with `NDEBUG`, `setValue(3, 9)` on the
array of size 3 returns normally: no error is reported. -/
theorem array_invalid_index_counterexample :
    Example.array3.m_size = 3 ∧
    Example.array3.setValue true 3 9 = .ok Example.array3 ∧
    ∀ e, Example.array3.setValue true 3 9 ≠ .error e :=
  ⟨rfl, rfl, fun e h => by
    have h' : (Except.ok Example.array3 : Except Fault (PersistentArray Int)) = .error e := h
    simp at h'⟩

/-- C21 (amended): for every array, in whatever state, and every index `i`
with `i < 0` or `i ≥ n`: `getValue(i)` fails, by the assertion in a debug
build and by `std::exception` in a build with `NDEBUG`; `setValue(i, v)` fails
by the assertion in a debug build, and in a build with `NDEBUG` it returns
without an error and leaves the array exactly as it was (the stored versions,
the cursor and the last version, hence every read and `lastVersion()`). -/
theorem array_invalid_index {T : Type} [Zero T] (a : PersistentArray T) (index : Int)
    (value : T) (h : index < 0 ∨ index ≥ a.m_size) :
    a.getValue false index = .error .assertion ∧
    a.getValue true index = .error .exception ∧
    a.setValue false index value = .error .assertion ∧
    a.setValue true index value = .ok a := by
  refine ⟨?_, ?_, ?_, ?_⟩
  · simp only [PersistentArray.getValue, if_pos h]
    rfl
  · simp only [PersistentArray.getValue, if_pos h]
    rfl
  · simp only [PersistentArray.setValue, if_pos h]
    rfl
  · simp only [PersistentArray.setValue, if_pos h]
    rfl

/-- Witness for C21 (amended): index 3 on the array of size 3 with the cursor
on version 1 of 0..2. -/
theorem array_invalid_index_witness :
    ((3 : Int) < 0 ∨ (3 : Int) ≥ Example.array3b.m_size) ∧
    Example.array3b.m_curVersion < Example.array3b.m_lastVersion ∧
    Example.array3b.getValue false 3 = .error .assertion ∧
    Example.array3b.getValue true 3 = .error .exception ∧
    Example.array3b.setValue false 3 9 = .error .assertion ∧
    Example.array3b.setValue true 3 9 = .ok Example.array3b :=
  ⟨Or.inr (by decide), by decide,
    array_invalid_index Example.array3b 3 9 (Or.inr (by decide))⟩

/-- C22 (the code at the failing input): in a build with `NDEBUG`, `erase` on
the iterator `end()` (the sentinel, address 0) does not throw: the test
`pIter == nullptr && ...` is false, the body runs and dereferences the null
right neighbour.  So it is on the empty list (where `begin()` is the same
iterator) and on the list `[1]`, where `invalidate` and the block for the left
neighbour have by then filled the node of `1` and added it to the journal.  In
a debug build the assertion stops both calls. -/
theorem list_erase_at_sentinel :
    (PersistentList.new : PersistentList Int).«end» = .ok ⟨some 0⟩ ∧
    (PersistentList.new : PersistentList Int).begin = .ok ⟨some 0⟩ ∧
    ((PersistentList.new : PersistentList Int).erase true (some ⟨some 0⟩)).map
      (fun r => r.1) = .error .undefined ∧
    ((PersistentList.new : PersistentList Int).erase false (some ⟨some 0⟩)).map
      (fun r => r.1) = .error .assertion ∧
    Example.list1.«end» = .ok ⟨some 0⟩ ∧
    (Example.list1.erase true (some ⟨some 0⟩)).map (fun r => r.1) = .error .undefined ∧
    (Example.list1.erase false (some ⟨some 0⟩)).map (fun r => r.1) = .error .assertion ∧
    Example.list1.m_apNodes = [1, 0] ∧ (Example.list1.heap 1).m_isFull = false ∧
    ((Example.list1.invalidate 1).eraseLeft true (some 1)).map
      (fun r => (r.2.m_apNodes, (r.2.heap 1).m_isFull)) = .ok ([1, 0, 1], true) := by
  exact ⟨by rfl, by rfl, by rfl, by rfl, by rfl, by rfl, by rfl, by rfl, by rfl, by rfl⟩

/-! ## Claims about the treap -/

namespace TreapNode

variable {K V : Type}

theorem entries_split [LinearOrder K] (t : TreapNode K V) (key : K) :
    entries (split t key).1 ++ entries (split t key).2 = entries t := by
  induction t with
  | null => rfl
  | mk k v p l r ihl ihr =>
    unfold split
    split
    · simp only [entries, List.append_assoc, List.cons_append, ihr]
    · simp only [entries, ← List.append_assoc, ihl]

/-- Both parts of a heap-ordered tree are heap-ordered, and a bound on the
priority of its root bounds the priorities of their roots. -/
theorem Heap_split_aux [LinearOrder K] (t : TreapNode K V) (key : K) (h : Heap t) (b : Int)
    (hb : ∀ k v q x y, t = mk k v q x y → q ≤ b) :
    Heap (split t key).1 ∧ Heap (split t key).2 ∧
    (∀ k v q x y, (split t key).1 = mk k v q x y → q ≤ b) ∧
    (∀ k v q x y, (split t key).2 = mk k v q x y → q ≤ b) := by
  induction t generalizing b with
  | null =>
    refine ⟨trivial, trivial, ?_, ?_⟩ <;> intro k v q x y he <;> simp [split] at he
  | mk k v p l r ihl ihr =>
    obtain ⟨hl, hr, hhl, hhr⟩ := h
    have hp : p ≤ b := hb k v p l r rfl
    unfold split
    split
    · obtain ⟨h1, h2, h3, h4⟩ := ihr hhr p hr
      refine ⟨⟨hl, h3, hhl, h1⟩, h2, ?_, ?_⟩
      · intro k' v' q x y he
        simp only [mk.injEq] at he
        omega
      · intro k' v' q x y he
        exact le_trans (h4 k' v' q x y he) hp
    · obtain ⟨h1, h2, h3, h4⟩ := ihl hhl p hl
      refine ⟨h1, ⟨h4, hr, h2, hhr⟩, ?_, ?_⟩
      · intro k' v' q x y he
        exact le_trans (h3 k' v' q x y he) hp
      · intro k' v' q x y he
        simp only [mk.injEq] at he
        omega

theorem Heap_split [LinearOrder K] (t : TreapNode K V) (key : K) (h : Heap t) :
    Heap (split t key).1 ∧ Heap (split t key).2 := by
  cases t with
  | null => exact ⟨trivial, trivial⟩
  | mk k v p l r =>
    have := Heap_split_aux (mk k v p l r) key h p (by
      intro k' v' q x y he
      simp only [mk.injEq] at he
      omega)
    exact ⟨this.1, this.2.1⟩

theorem BST_split [LinearOrder K] (t : TreapNode K V) (h : BST t) (key : K) :
    BST (split t key).1 ∧ BST (split t key).2 :=
  ⟨(BST_iff_sorted _).2 (sorted_split t h key).1, (BST_iff_sorted _).2 (sorted_split t h key).2⟩

end TreapNode

namespace TreapCell

variable {K V : Type}

theorem assign_length (mem : List (TreapCell K V)) (p : Nat)
    (f : TreapCell K V → TreapCell K V) : (assign mem p f).length = mem.length := by
  unfold assign
  split <;> simp

theorem assign_ne (mem : List (TreapCell K V)) (p a : Nat)
    (f : TreapCell K V → TreapCell K V) (h : a ≠ p) : (assign mem p f)[a]? = mem[a]? := by
  unfold assign
  split
  · simp [List.getElem?_set, Ne.symm h]
  · rfl

theorem assign_self (mem : List (TreapCell K V)) (p : Nat)
    (f : TreapCell K V → TreapCell K V) (c : TreapCell K V) (h : mem[p]? = some c) :
    (assign mem p f)[p]? = some (f c) := by
  have hlt : p < mem.length := by
    by_contra hn
    rw [List.getElem?_eq_none (by omega)] at h
    simp at h
  unfold assign
  rw [h]
  simp [List.getElem?_set, hlt]

theorem Holds.frame {mem mem' : List (TreapCell K V)} {S : Set Nat} {t : TreapNode K V}
    {p : Option Nat} (h : Holds mem S t p) (hf : ∀ a ∈ S, mem'[a]? = mem[a]?) :
    Holds mem' S t p := by
  induction t generalizing p with
  | null => exact h
  | mk k v q l r ihl ihr =>
    obtain ⟨a, c, hp, ha, hc, hk, hv, hq, hl, hr⟩ := h
    exact ⟨a, c, hp, ha, (hf a ha).trans hc, hk, hv, hq, ihl hl, ihr hr⟩

theorem Holds.mono {mem : List (TreapCell K V)} {S S' : Set Nat} {t : TreapNode K V}
    {p : Option Nat} (h : Holds mem S t p) (hs : ∀ a ∈ S, a ∈ S') : Holds mem S' t p := by
  induction t generalizing p with
  | null => exact h
  | mk k v q l r ihl ihr =>
    obtain ⟨a, c, hp, ha, hc, hk, hv, hq, hl, hr⟩ := h
    exact ⟨a, c, hp, hs a ha, hc, hk, hv, hq, ihl hl, ihr hr⟩

theorem Holds.below {mem : List (TreapCell K V)} {S : Set Nat} {t : TreapNode K V}
    {p : Option Nat} (h : Holds mem S t p) : Holds mem {a | a < mem.length} t p := by
  induction t generalizing p with
  | null => exact h
  | mk k v q l r ihl ihr =>
    obtain ⟨a, c, hp, ha, hc, hk, hv, hq, hl, hr⟩ := h
    refine ⟨a, c, hp, ?_, hc, hk, hv, hq, ihl hl, ihr hr⟩
    show a < mem.length
    by_contra hn
    rw [List.getElem?_eq_none (by omega)] at hc
    simp at hc

/-- The call of `split` on a held tree returns, leaves every object that was
in the store as it was, and leaves in the two references the two parts of the
tree, held through old objects and objects made by the call. -/
theorem split_holds [LinearOrder K] (t : TreapNode K V) :
    ∀ (fuel : Nat) (mem : List (TreapCell K V)) (N p : Nat) (key : K),
      N ≤ mem.length → t.size ≤ fuel → Holds mem {a | a < N} t (some p) →
      ∃ mem' pl pr, split fuel mem p key = .ok (mem', pl, pr) ∧
        (∀ a, a < mem.length → mem'[a]? = mem[a]?) ∧ mem.length ≤ mem'.length ∧
        Holds mem' {a | a < N ∨ mem.length ≤ a} (t.split key).1 pl ∧
        Holds mem' {a | a < N ∨ mem.length ≤ a} (t.split key).2 pr := by
  induction t with
  | null =>
    intro fuel mem N p key _ _ h
    simp [Holds] at h
  | mk k v q l r ihl ihr =>
    intro fuel mem N p key hN hfuel h
    obtain ⟨a, c, hp, ha, hc, hk, hv, hq, hl, hr⟩ := h
    simp only [Option.some.injEq] at hp
    subst hp
    have ha' : p < N := ha
    cases c with
    | mk ck cq cl cr cv =>
    simp only at hk hv hq hl hr
    subst hk hv hq
    cases fuel with
    | zero => simp [TreapNode.size] at hfuel
    | succ fuel =>
      simp only [TreapNode.size] at hfuel
      have hold : ∀ (c : TreapCell K V) a, a < mem.length → (mem ++ [c])[a]? = mem[a]? :=
        fun c a h => List.getElem?_append_left h
      have hnew : ∀ c : TreapCell K V, (mem ++ [c])[mem.length]? = some c := fun c => by simp
      unfold split TreapNode.split
      simp only [hc]
      by_cases hle : ck ≤ key
      · simp only [if_pos hle]
        cases r with
        | null =>
          have hnone : cr = none := hr
          subst hnone
          simp only [TreapNode.split]
          refine ⟨_, _, _, rfl, hold _, by simp, ?_, rfl⟩
          refine ⟨mem.length, _, rfl, Or.inr (le_refl _), hnew _, rfl, rfl, rfl, ?_, rfl⟩
          exact (hl.frame (fun a (h : a < N) => hold _ a (by omega))).mono (fun a h => Or.inl h)
        | mk k₂ v₂ q₂ l₂ r₂ =>
          obtain ⟨a₂, c₂, hp₂, hrest⟩ := hr
          subst hp₂
          have hr : Holds mem {a | a < N} (TreapNode.mk k₂ v₂ q₂ l₂ r₂) (some a₂) :=
            ⟨a₂, c₂, rfl, hrest⟩
          obtain ⟨mem', pl, pr, hs, hkeep, hlen, hL, hR⟩ :=
            ihr fuel (mem ++ [⟨ck, cq, cl, some a₂, cv⟩]) N a₂ key (by simp; omega) (by omega)
              (hr.frame (fun a (h : a < N) => hold _ a (by omega)))
          simp only [hs]
          have hlen' : mem.length + 1 ≤ mem'.length := by simpa using hlen
          have hroot : mem'[mem.length]? = some ⟨ck, cq, cl, some a₂, cv⟩ := by
            rw [hkeep mem.length (by simp)]
            exact hnew _
          have hfr : ∀ a, a ∈ {a | a < N ∨ (mem ++ [(⟨ck, cq, cl, some a₂, cv⟩ :
              TreapCell K V)]).length ≤ a} →
              (assign mem' mem.length (fun n => { n with m_pRight := pl }))[a]? = mem'[a]? := by
            intro a h
            apply assign_ne
            rcases h with h | h
            · have : a < N := h
              omega
            · simp only [List.length_append, List.length_singleton] at h
              omega
          have hsub : ∀ a, a ∈ {a | a < N ∨ (mem ++ [(⟨ck, cq, cl, some a₂, cv⟩ :
              TreapCell K V)]).length ≤ a} → a ∈ {a | a < N ∨ mem.length ≤ a} := by
            intro a h
            rcases h with h | h
            · exact Or.inl h
            · simp only [List.length_append, List.length_singleton] at h
              exact Or.inr (by omega)
          refine ⟨_, _, _, rfl, ?_, ?_, ?_, (hR.frame hfr).mono hsub⟩
          · intro a h
            rw [assign_ne _ _ _ _ (by omega), hkeep a (by simp; omega)]
            exact hold _ a h
          · rw [assign_length]
            omega
          · refine ⟨mem.length, _, rfl, Or.inr (le_refl _),
              assign_self _ _ _ _ hroot, rfl, rfl, rfl, ?_, (hL.frame hfr).mono hsub⟩
            refine (hl.frame ?_).mono (fun a h => Or.inl h)
            intro a (h : a < N)
            rw [assign_ne _ _ _ _ (by omega), hkeep a (by simp; omega)]
            exact hold _ a (by omega)
      · simp only [if_neg hle]
        cases l with
        | null =>
          have hnone : cl = none := hl
          subst hnone
          simp only [TreapNode.split]
          refine ⟨_, _, _, rfl, hold _, by simp, rfl, ?_⟩
          refine ⟨mem.length, _, rfl, Or.inr (le_refl _), hnew _, rfl, rfl, rfl, rfl, ?_⟩
          exact (hr.frame (fun a (h : a < N) => hold _ a (by omega))).mono (fun a h => Or.inl h)
        | mk k₂ v₂ q₂ l₂ r₂ =>
          obtain ⟨a₂, c₂, hp₂, hrest⟩ := hl
          subst hp₂
          have hl : Holds mem {a | a < N} (TreapNode.mk k₂ v₂ q₂ l₂ r₂) (some a₂) :=
            ⟨a₂, c₂, rfl, hrest⟩
          obtain ⟨mem', pl, pr, hs, hkeep, hlen, hL, hR⟩ :=
            ihl fuel (mem ++ [⟨ck, cq, some a₂, cr, cv⟩]) N a₂ key (by simp; omega) (by omega)
              (hl.frame (fun a (h : a < N) => hold _ a (by omega)))
          simp only [hs]
          have hlen' : mem.length + 1 ≤ mem'.length := by simpa using hlen
          have hroot : mem'[mem.length]? = some ⟨ck, cq, some a₂, cr, cv⟩ := by
            rw [hkeep mem.length (by simp)]
            exact hnew _
          have hfr : ∀ a, a ∈ {a | a < N ∨ (mem ++ [(⟨ck, cq, some a₂, cr, cv⟩ :
              TreapCell K V)]).length ≤ a} →
              (assign mem' mem.length (fun n => { n with m_pLeft := pr }))[a]? = mem'[a]? := by
            intro a h
            apply assign_ne
            rcases h with h | h
            · have : a < N := h
              omega
            · simp only [List.length_append, List.length_singleton] at h
              omega
          have hsub : ∀ a, a ∈ {a | a < N ∨ (mem ++ [(⟨ck, cq, some a₂, cr, cv⟩ :
              TreapCell K V)]).length ≤ a} → a ∈ {a | a < N ∨ mem.length ≤ a} := by
            intro a h
            rcases h with h | h
            · exact Or.inl h
            · simp only [List.length_append, List.length_singleton] at h
              exact Or.inr (by omega)
          refine ⟨_, _, _, rfl, ?_, ?_, (hL.frame hfr).mono hsub, ?_⟩
          · intro a h
            rw [assign_ne _ _ _ _ (by omega), hkeep a (by simp; omega)]
            exact hold _ a h
          · rw [assign_length]
            omega
          · refine ⟨mem.length, _, rfl, Or.inr (le_refl _),
              assign_self _ _ _ _ hroot, rfl, rfl, rfl, (hR.frame hfr).mono hsub, ?_⟩
            refine (hr.frame ?_).mono (fun a h => Or.inl h)
            intro a (h : a < N)
            rw [assign_ne _ _ _ _ (by omega), hkeep a (by simp; omega)]
            exact hold _ a (by omega)

end TreapCell

namespace Example

theorem treap2_held : TreapCell.Holds treapMem Set.univ treap2 (some 1) :=
  ⟨1, _, rfl, Set.mem_univ _, rfl, rfl, rfl, rfl, rfl,
    ⟨0, _, rfl, Set.mem_univ _, rfl, rfl, rfl, rfl, rfl, rfl⟩⟩

theorem treap2_bst : treap2.BST := by
  simp [treap2, TreapNode.BST, TreapNode.keys]

end Example

/-- C23: `split(key)` called on the root of a non-empty treap `t` in
search-tree order, the nodes being objects in a store, returns (with fuel for
the recursion at least the number of nodes) and leaves in its two reference
parameters pointers to trees `L` and `R` such that every key of `L` is at most
`key`, every key of `R` is greater, the (key, value, priority) triples of `L`
followed by those of `R` are those of `t`, `L` and `R` are in search-tree
order, and both are heap-ordered when `t` is.  Every object that was in the
store before the call is the same after it, so the root still leads to `t`. -/
theorem treap_split_spec {K V : Type} [LinearOrder K] (mem : List (TreapCell K V)) (p : Nat)
    (t : TreapNode K V) (key : K) (fuel : Nat)
    (hrep : TreapCell.Holds mem Set.univ t (some p)) (hb : t.BST) (hfuel : t.size ≤ fuel) :
    ∃ mem' pl pr L R, TreapCell.split fuel mem p key = .ok (mem', pl, pr) ∧
      TreapCell.Holds mem' Set.univ L pl ∧ TreapCell.Holds mem' Set.univ R pr ∧
      (L, R) = t.split key ∧
      (∀ j ∈ L.keys, j ≤ key) ∧ (∀ j ∈ R.keys, key < j) ∧
      L.entries ++ R.entries = t.entries ∧ L.BST ∧ R.BST ∧ (t.Heap → L.Heap ∧ R.Heap) ∧
      (∀ a, a < mem.length → mem'[a]? = mem[a]?) ∧
      TreapCell.Holds mem' Set.univ t (some p) := by
  obtain ⟨mem', pl, pr, hs, hkeep, _, hL, hR⟩ :=
    TreapCell.split_holds t fuel mem mem.length p key (le_refl _) hfuel hrep.below
  refine ⟨mem', pl, pr, (t.split key).1, (t.split key).2, hs,
    hL.mono (fun _ _ => Set.mem_univ _), hR.mono (fun _ _ => Set.mem_univ _), rfl,
    (TreapNode.split_bounds t hb key).1, (TreapNode.split_bounds t hb key).2,
    TreapNode.entries_split t key, (TreapNode.BST_split t hb key).1,
    (TreapNode.BST_split t hb key).2, TreapNode.Heap_split t key, hkeep, ?_⟩
  exact (hrep.below.frame (fun a (h : a < mem.length) => hkeep a h)).mono
    (fun _ _ => Set.mem_univ _)

/-- Witness for C23: the treap with the keys 10 and 20, split at 15. -/
theorem treap_split_spec_witness :
    TreapCell.Holds Example.treapMem Set.univ Example.treap2 (some 1) ∧
    Example.treap2.BST ∧ Example.treap2.size ≤ 2 ∧
    ∃ mem' pl pr L R, TreapCell.split 2 Example.treapMem 1 15 = .ok (mem', pl, pr) ∧
      TreapCell.Holds mem' Set.univ L pl ∧ TreapCell.Holds mem' Set.univ R pr ∧
      (L, R) = Example.treap2.split 15 ∧
      (∀ j ∈ L.keys, j ≤ 15) ∧ (∀ j ∈ R.keys, 15 < j) ∧
      L.entries ++ R.entries = Example.treap2.entries ∧ L.BST ∧ R.BST ∧
      (Example.treap2.Heap → L.Heap ∧ R.Heap) ∧
      (∀ a, a < Example.treapMem.length → mem'[a]? = Example.treapMem[a]?) ∧
      TreapCell.Holds mem' Set.univ Example.treap2 (some 1) :=
  ⟨Example.treap2_held, Example.treap2_bst, by decide,
    treap_split_spec Example.treapMem 1 Example.treap2 15 2 Example.treap2_held
      Example.treap2_bst (by decide)⟩

namespace TreapNode

variable {K V : Type}

theorem keys_nodup [LinearOrder K] (t : TreapNode K V) (h : BST t) : (keys t).Nodup :=
  ((BST_iff_sorted t).1 h).nodup

end TreapNode

namespace TreapVersion

variable {K V : Type}

/-- With the same results of `rand()`, `TreapVersion::setValue` and
`TreapVersion::insert` return the same tree. -/
theorem setValue_eq_insert [LinearOrder K] (rnd : Nat → Int) (ver : TreapVersion K V)
    (key : K) (value : V) : ver.setValue rnd key value = ver.insert rnd key value := by
  unfold setValue insert
  cases hroot : ver.m_pRoot with
  | null => simp [TreapNode.isNull_null]
  | mk k x p l r =>
    simp only [TreapNode.isNull_mk, Bool.false_eq_true, if_false]
    cases hn : (TreapNode.setValue rnd (TreapNode.mk k x p l r) key value 0).1.isNull <;> simp

end TreapVersion

/-- C24: in every state of a map reached from the empty map by `insert`,
`setValue`, `erase` (also one that throws), `undo` and `redo`, for any results
of `rand()`, every stored version is in strict search-tree order: at each node
the keys of the left subtree are smaller and those of the right subtree larger
than the key of the node; so the keys in order are strictly increasing and no
key occurs twice. -/
theorem map_versions_bst {K V : Type} [LinearOrder K] (m : PersistentMap K V)
    (hr : m.Reachable) :
    ∀ ver ∈ m.m_versions, ver.m_pRoot.BST ∧ ver.m_pRoot.keys.Sorted (· < ·) ∧
      ver.m_pRoot.keys.Nodup :=
  fun ver hver =>
    have hb := hr.map_wf.bst ver hver
    ⟨hb, (TreapNode.BST_iff_sorted _).1 hb, TreapNode.keys_nodup _ hb⟩

/-- Witness for C24: the map after `insert, setValue, undo`. -/
theorem map_versions_bst_witness :
    Example.map2.Reachable ∧
    ∀ ver ∈ Example.map2.m_versions, ver.m_pRoot.BST ∧ ver.m_pRoot.keys.Sorted (· < ·) ∧
      ver.m_pRoot.keys.Nodup :=
  ⟨Example.map2_reachable, map_versions_bst Example.map2 Example.map2_reachable⟩

/-- C26: in every reachable state of a map, for every key `k`, value `v` and
any results of `rand()` in the two calls, `setValue(k, v)` and `insert(k, v)`
both return; the two resulting maps have the same cursor and the same last
version, their stored versions give, one by one, the same `find` result for
every key, and on both `find(j)` returns `v` for `j = k` and what the current
version held for every other key.  In both the new version is in strict
search-tree order, so `k` occurs once in it, whether it was present or not.
With the same results of `rand()` the two maps are equal. -/
theorem map_setValue_insert_equiv {K V : Type} [LinearOrder K] (rnd₁ rnd₂ : Nat → Int)
    (m : PersistentMap K V) (hr : m.Reachable) (k : K) (v : V) :
    ∃ ver a b ta tb, m.m_versions[m.m_curVersion.toNat]? = some ver ∧
      m.setValue rnd₁ k v = .ok a ∧ m.insert rnd₂ k v = .ok b ∧
      a.m_curVersion = b.m_curVersion ∧ a.m_lastVersion = b.m_lastVersion ∧
      (∀ j, a.m_versions.map (fun x => x.find j) = b.m_versions.map (fun x => x.find j)) ∧
      (∀ j, a.find j = .ok (if j = k then some v else ver.m_pRoot.lookup j)) ∧
      (∀ j, b.find j = .ok (if j = k then some v else ver.m_pRoot.lookup j)) ∧
      a.m_versions[a.m_curVersion.toNat]? = some ⟨ta⟩ ∧
      b.m_versions[b.m_curVersion.toNat]? = some ⟨tb⟩ ∧
      ta.BST ∧ tb.BST ∧ ta.keys.Nodup ∧ tb.keys.Nodup ∧ (rnd₁ = rnd₂ → a = b) := by
  have hw := hr.map_wf
  obtain ⟨ver, hv, hb, hs⟩ := PersistentMap.setValue_eq_push rnd₁ m hw k v
  obtain ⟨ver', hv', _, hi⟩ := PersistentMap.insert_eq rnd₂ m hw k v
  rw [hv] at hv'
  simp only [Option.some.injEq] at hv'
  subst hv'
  obtain ⟨hbs, hns, hls⟩ := TreapVersion.version_setValue_spec rnd₁ ver hb k v
  obtain ⟨hbi, hni, hli⟩ := TreapVersion.insert_spec rnd₂ ver hb k v
  have hfs : ∀ j, (TreapVersion.mk (ver.setValue rnd₁ k v)).find j =
      .ok (if j = k then some v else ver.m_pRoot.lookup j) := by
    intro j
    rw [TreapVersion.find_eq]
    simp only [hns, Bool.false_eq_true, if_false, hls j]
  have hfi : ∀ j, (TreapVersion.mk (ver.insert rnd₂ k v)).find j =
      .ok (if j = k then some v else ver.m_pRoot.lookup j) := by
    intro j
    rw [TreapVersion.find_eq]
    simp only [hni, Bool.false_eq_true, if_false, hli j]
  refine ⟨ver, _, _, ver.setValue rnd₁ k v, ver.insert rnd₂ k v, hv, hs, hi, rfl, rfl, ?_, ?_, ?_,
    PersistentMap.push_current m hw _, PersistentMap.push_current m hw _, hbs, hbi,
    TreapNode.keys_nodup _ hbs, TreapNode.keys_nodup _ hbi, ?_⟩
  · intro j
    simp only [PersistentMap.push, List.map_append, List.map_cons, List.map_nil, hfs j, hfi j]
  · intro j
    rw [PersistentMap.find_push _ hw, hfs j]
  · intro j
    rw [PersistentMap.find_push _ hw, hfi j]
  · intro h
    rw [h, TreapVersion.setValue_eq_insert]

/-- Witness for C26: the map that holds `(10, 1)`; the key 10 is present. -/
theorem map_setValue_insert_equiv_witness :
    Example.map1.Reachable ∧
    ∃ a b, Example.map1.setValue Example.rnd0 10 7 = .ok a ∧
      Example.map1.insert Example.rnd0 10 7 = .ok b ∧
      a.m_curVersion = b.m_curVersion ∧ a.m_lastVersion = b.m_lastVersion ∧
      (∀ j, a.m_versions.map (fun x => x.find j) = b.m_versions.map (fun x => x.find j)) ∧
      a = b :=
  have h := map_setValue_insert_equiv Example.rnd0 Example.rnd0 Example.map1
    Example.map1_reachable 10 7
  ⟨Example.map1_reachable,
    h.elim fun _ h₁ => h₁.elim fun a h₂ => h₂.elim fun b h₃ => h₃.elim fun _ h₄ =>
      h₄.elim fun _ h₅ =>
        ⟨a, b, h₅.2.1, h₅.2.2.1, h₅.2.2.2.1, h₅.2.2.2.2.1, h₅.2.2.2.2.2.1,
          h₅.2.2.2.2.2.2.2.2.2.2.2.2.2.2 rfl⟩⟩

namespace TreapNode

variable {K V : Type}

theorem Heap_merge_aux (a b : TreapNode K V) (ha : Heap a) (hb : Heap b) :
    Heap (merge a b) ∧
    ∀ bound : Int, (∀ k v q x y, a = mk k v q x y → q ≤ bound) →
      (∀ k v q x y, b = mk k v q x y → q ≤ bound) →
      ∀ k v q x y, merge a b = mk k v q x y → q ≤ bound := by
  induction a, b using merge.induct with
  | case1 =>
    refine ⟨by simp [merge, Heap], ?_⟩
    intro bound _ _ k v q x y he
    simp [merge] at he
  | case2 k v p l r =>
    rw [merge]
    exact ⟨hb, fun bound _ h => h⟩
  | case3 k v p l r =>
    rw [merge]
    exact ⟨ha, fun bound h _ => h⟩
  | case4 k₁ v₁ p₁ l₁ r₁ k₂ v₂ p₂ l₂ r₂ h ih =>
    rw [merge, if_pos h]
    obtain ⟨hl₂, hr₂, hhl₂, hhr₂⟩ := hb
    obtain ⟨ih1, ih2⟩ := ih ha hhl₂
    refine ⟨⟨?_, hr₂, ih1, hhr₂⟩, ?_⟩
    · apply ih2 p₂ _ hl₂
      intro k v q x y he
      simp only [mk.injEq] at he
      omega
    · intro bound _ hb2 k v q x y he
      simp only [mk.injEq] at he
      have := hb2 k₂ v₂ p₂ l₂ r₂ rfl
      omega
  | case5 k₁ v₁ p₁ l₁ r₁ k₂ v₂ p₂ l₂ r₂ h ih =>
    rw [merge, if_neg h]
    obtain ⟨hl₁, hr₁, hhl₁, hhr₁⟩ := ha
    obtain ⟨ih1, ih2⟩ := ih hhr₁ hb
    refine ⟨⟨hl₁, ?_, hhl₁, ih1⟩, ?_⟩
    · apply ih2 p₁ hr₁
      intro k v q x y he
      simp only [mk.injEq] at he
      omega
    · intro bound hb1 _ k v q x y he
      simp only [mk.injEq] at he
      have := hb1 k₁ v₁ p₁ l₁ r₁ rfl
      omega

theorem Heap_merge (a b : TreapNode K V) (ha : Heap a) (hb : Heap b) : Heap (merge a b) :=
  (Heap_merge_aux a b ha hb).1

/-- `TreapNode::insert`, which splits and merges, keeps the heap order. -/
theorem Heap_insert [LinearOrder K] (t : TreapNode K V) (h : Heap t) (key : K) (value : V)
    (p : Int) : Heap (insert t key value p) := by
  unfold insert
  have hs := Heap_split t key h
  refine Heap_merge _ _ (Heap_merge _ _ hs.1 ?_) hs.2
  refine ⟨?_, ?_, trivial, trivial⟩ <;> intro k v q x y he <;> simp at he

/-- `TreapNode::erase` keeps the heap order. -/
theorem Heap_erase [LinearOrder K] (t : TreapNode K V) (h : Heap t) (key : K)
    (t' : TreapNode K V) (he : erase t key = .ok t') :
    Heap t' ∧ ∀ bound : Int, (∀ k v q x y, t = mk k v q x y → q ≤ bound) →
      ∀ k v q x y, t' = mk k v q x y → q ≤ bound := by
  induction t generalizing t' with
  | null => simp [erase] at he
  | mk k v p l r ihl ihr =>
    obtain ⟨hl, hr, hhl, hhr⟩ := h
    unfold erase at he
    by_cases hk : key = k
    · rw [if_pos hk] at he
      simp only [Except.ok.injEq] at he
      subst he
      obtain ⟨hm1, hm2⟩ := Heap_merge_aux l r hhl hhr
      refine ⟨hm1, ?_⟩
      intro bound hb k' v' q x y heq
      have hp := hb k v p l r rfl
      exact le_trans (hm2 p hl hr k' v' q x y heq) hp
    · rw [if_neg hk] at he
      by_cases hlt : key < k
      · rw [if_pos hlt] at he
        cases hel : erase l key with
        | error e => simp [hel] at he
        | ok l' =>
          simp only [hel, Except.ok.injEq] at he
          subst he
          obtain ⟨h1, h2⟩ := ihl hhl l' hel
          refine ⟨⟨h2 p hl, hr, h1, hhr⟩, ?_⟩
          intro bound hb k' v' q x y heq
          simp only [mk.injEq] at heq
          have := hb k v p l r rfl
          omega
      · rw [if_neg hlt] at he
        cases her : erase r key with
        | error e => simp [her] at he
        | ok r' =>
          simp only [her, Except.ok.injEq] at he
          subst he
          obtain ⟨h1, h2⟩ := ihr hhr r' her
          refine ⟨⟨hl, h2 p hr, hhl, h1⟩, ?_⟩
          intro bound hb k' v' q x y heq
          simp only [mk.injEq] at heq
          have := hb k v p l r rfl
          omega

end TreapNode

namespace TreapVersion

variable {K V : Type}

/-- Where no ancestor is copied by `TreapNode::setValue`, the heap order is
kept: by `insert` and `setValue` of a key that is absent, and by a successful
`erase`. -/
theorem heap_kept [LinearOrder K] (rnd : Nat → Int) (ndebug : Bool) (ver : TreapVersion K V)
    (h : ver.m_pRoot.Heap) (key : K) (value : V) :
    (ver.m_pRoot.lookup key = none →
      (ver.insert rnd key value).Heap ∧ (ver.setValue rnd key value).Heap) ∧
    (∀ t, ver.erase ndebug key = .ok (t, true) → t.Heap) := by
  constructor
  · intro habs
    rw [setValue_eq_insert]
    refine ⟨?_, ?_⟩ <;>
    · unfold insert
      cases hroot : ver.m_pRoot with
      | null =>
        simp only [TreapNode.isNull_null, if_true, Bool.not_true, Bool.false_eq_true, if_false]
        refine ⟨?_, ?_, trivial, trivial⟩ <;> intro k v q x y he <;> simp at he
      | mk k x p l r =>
        rw [hroot] at h habs
        have hn := (TreapNode.setValue_isNull rnd _ key value 0).2 habs
        simp only [TreapNode.isNull_mk, Bool.false_eq_true, if_false, hn, Bool.not_true]
        exact TreapNode.Heap_insert _ h key value _
  · intro t he
    unfold erase at he
    cases hroot : ver.m_pRoot with
    | null =>
      rw [hroot] at he
      cases ndebug <;> simp at he
    | mk k x p l r =>
      rw [hroot] at he h
      simp only at he
      split at he
      · simp at he
      · cases her : TreapNode.erase (TreapNode.mk k x p l r) key with
        | error e => simp [her] at he
        | ok t' =>
          simp only [her, Except.ok.injEq, Prod.mk.injEq, and_true] at he
          subst he
          exact (TreapNode.Heap_erase _ h key t' her).1

end TreapVersion

/-- C25 (the code at the failing input): `insert(1, 10)` and `insert(2, 20)`
with priorities 5 and 3 give the heap-ordered treap with `(1, 10)` at the root
and `(2, 20)` as its right child.  `setValue(2, 21)` copies the node of key 2
with its priority 3, but builds the copy of the root with the two-argument
constructor, which draws a new priority, here 1: the root no longer keeps its
priority and the new version is not heap-ordered.  `insert(2, 21)`, which
calls the same `TreapNode::setValue`, gives the same map. -/
theorem map_setValue_breaks_heap :
    (PersistentMap.new : PersistentMap Int Int).insert (fun _ => 5) 1 10 =
      .ok ⟨[⟨.null⟩, ⟨.mk 1 10 5 .null .null⟩], 1, 1⟩ ∧
    (⟨[⟨.null⟩, ⟨.mk 1 10 5 .null .null⟩], 1, 1⟩ : PersistentMap Int Int).insert
      (fun _ => 3) 2 20 = .ok Example.map12 ∧
    (∀ ver ∈ Example.map12.m_versions, ver.m_pRoot.Heap) ∧
    Example.map12.setValue (fun _ => 1) 2 21 = .ok Example.map12b ∧
    Example.map12.insert (fun _ => 1) 2 21 = .ok Example.map12b ∧
    Example.map12b.m_versions[Example.map12b.m_curVersion.toNat]? =
      some ⟨.mk 1 10 1 .null (.mk 2 21 3 .null .null)⟩ ∧
    ¬ (TreapNode.mk 1 10 1 .null (.mk 2 21 3 .null .null) : TreapNode Int Int).Heap := by
  refine ⟨by rfl, ?_, ?_, by rfl, by rfl, by rfl, ?_⟩
  · simp [PersistentMap.insert, PersistentMap.invalidate, popVersions, vecBack,
      TreapVersion.insert, TreapNode.setValue, TreapNode.insert, TreapNode.split,
      TreapNode.merge, TreapNode.isNull, Example.map12]
  · intro ver hver
    simp only [Example.map12, List.mem_cons, List.mem_singleton, List.not_mem_nil,
      or_false] at hver
    rcases hver with rfl | rfl | rfl
    · exact trivial
    · simp [TreapNode.Heap]
    · simp only [TreapNode.Heap, TreapNode.mk.injEq, reduceCtorEq, false_imp_iff, implies_true,
        and_true, true_and]
      intro k v q a b h
      omega
  · intro h
    have := h.2.1 2 21 3 .null .null rfl
    omega

/-! ## Claims about the invalidation of list versions -/

/-- C27 (the code at the failing input): the list `[1, 2]` on version 2, whose
first node (address 1) took its second snapshot at version 2 and whose tails
hold the sentinel made at version 2 (address 3).  After `undo(1, true)`, and
likewise after `undo(1)` and the `invalidate` that starts a mutation, the
current version is 1, the tails still hold the sentinel of version 2, and the
first node is still full, with a second snapshot of version 2 whose pointers
are cleared. -/
theorem list_invalidate_leaves_stale :
    Example.list12.m_version = 2 ∧ Example.list12.m_apTails = [0, 3] ∧
    (Example.list12.heap 3).versions.1 = 2 ∧
    (Example.list12.heap 1).m_isFull = true ∧
    (Example.list12.heap 1).m_second.m_version = 2 ∧
    (Example.list12.heap 1).m_second.m_pRight = some 2 ∧
    (Example.list12.undo 1 true).m_version = 1 ∧
    (Example.list12.undo 1 true).m_apTails = [0, 3] ∧
    ((Example.list12.undo 1 true).heap 3).versions.1 = 2 ∧
    ((Example.list12.undo 1 true).heap 1).m_isFull = true ∧
    ((Example.list12.undo 1 true).heap 1).m_second.m_version = 2 ∧
    ((Example.list12.undo 1 true).heap 1).m_second.m_pRight = none ∧
    ((Example.list12.undo 1 false).invalidate 1).m_apTails = [0, 3] ∧
    (((Example.list12.undo 1 false).invalidate 1).heap 1).m_isFull = true ∧
    (((Example.list12.undo 1 false).invalidate 1).heap 1).m_second.m_version = 2 := by
  exact ⟨by rfl, by rfl, by rfl, by rfl, by rfl, by rfl, by rfl, by rfl, by rfl, by rfl, by rfl,
    by rfl, by rfl, by rfl, by rfl⟩

end PS
